import Mathlib

/-! MLFQ scheduler simulator: embedding and verified properties

Shallow embedding of `Proceso`, the three policy executors
(`RoundRobinScheduler`, `SJFScheduler`, `STCFScheduler`) and the engine
`MLFQScheduler`.

Modelling conventions
* C++ `int` is embedded as `Int`.  The operations that add or subtract time
  values come in two embeddings.  In the exact one (`Proceso.calcularMetricas`,
  `ejecutarConScheduler`, `iteracion`, `ejecutarSimulacion`, `iterar`) the
  arithmetic is that of the integers: it is the program on the executions in
  which no `int` operation overflows.  In the 32-bit one (the same names with
  the suffix `32`) the result of every such operation is wrapped to 32 bits,
  `int32`: signed overflow is undefined behaviour in C++, and on the usual
  targets the value stored is the exact result wrapped around.  On a valid
  workload within `int` (`SinDesborde`: every arrival time plus the sum of all
  bursts is at most `INT_MAX`) the two embeddings go through the same states
  (`iterar32_exacto`, `simulacion32_exacta`) and every clock value, finish time
  and metric of the run lies in `0..INT_MAX` (`iterar_acotado`).  Where a
  statement fails on a run that overflows, it is made on the 32-bit embedding
  and comes with that run.
* A `Proceso*` is embedded as the record it points to.  Every record is held by
  exactly one container at a time (admission vector, one level queue, or the
  finished vector), so the containers hold the records by value.
* `std::queue` and `std::vector` are lists, front first.
* An out-of-range subscript (`colas[n]`, `esquemas[n]`) is undefined behaviour
  in C++; the engine operations return `none` there.
* `std::sort` is not part of the repository.  It is a parameter `StdSort`
  carrying what the C++ standard promises of it: the result is a permutation
  of the input, ordered with respect to the comparator.  Nothing is assumed
  about the relative order of equivalent elements.  Where that order matters
  the instance `gnu`, the algorithm of libstdc++, is the sort the program
  runs.
* Console output is not modelled.
-/

namespace MLFQ

/-! ## Proceso (Proceso.h, Proceso.cpp) -/

/-- Process record: the data members of class `Proceso`. -/
structure Proceso where
  etiqueta : String
  tiempoRafaga : Int
  tiempoLlegada : Int
  cola : Int
  colaOriginal : Int
  prioridad : Int
  tiempoEspera : Int
  tiempoFinalizacion : Int
  tiempoRespuesta : Int
  tiempoRetorno : Int
  tiempoRestante : Int
  tiempoInicio : Int
  haIniciado : Bool
deriving DecidableEq, Repr

namespace Proceso

/-- Constructor `Proceso::Proceso(etiq, bt, at, q, pr)`. -/
def nuevo (etiq : String) (bt llegada q pr : Int) : Proceso :=
  { etiqueta := etiq, tiempoRafaga := bt, tiempoLlegada := llegada, cola := q,
    colaOriginal := q, prioridad := pr, tiempoEspera := 0, tiempoFinalizacion := 0,
    tiempoRespuesta := 0, tiempoRetorno := 0, tiempoRestante := bt,
    tiempoInicio := -1, haIniciado := false }

/-- Setter `setCola`. -/
def setCola (p : Proceso) (c : Int) : Proceso :=
  { p with cola := c }

/-- Setter `setTiempoFinalizacion`. -/
def setTiempoFinalizacion (p : Proceso) (tf : Int) : Proceso :=
  { p with tiempoFinalizacion := tf }

/-- Setter `setTiempoInicio`: also raises the started flag. -/
def setTiempoInicio (p : Proceso) (ti : Int) : Proceso :=
  { p with tiempoInicio := ti, haIniciado := true }

/-- One unit of execution, `Proceso::ejecutar(tiempoActual)`. -/
def ejecutar (p : Proceso) (tiempoActual : Int) : Proceso :=
  let p1 := if p.haIniciado then p
            else { p with tiempoInicio := tiempoActual, haIniciado := true }
  if p1.tiempoRestante > 0 then { p1 with tiempoRestante := p1.tiempoRestante - 1 }
  else p1

/-- Metrics at finish, `Proceso::calcularMetricas`, in exact arithmetic: the
three subtractions are the `int` subtractions when the differences are within
`int`.  `calcularMetricas32` is the function on 32-bit `int`. -/
def calcularMetricas (p : Proceso) : Proceso :=
  let p1 := { p with tiempoRetorno := p.tiempoFinalizacion - p.tiempoLlegada }
  let p2 := { p1 with tiempoRespuesta := p1.tiempoInicio - p1.tiempoLlegada }
  { p2 with tiempoEspera := p2.tiempoRetorno - p2.tiempoRafaga }

/-- Completion test `estaCompleto`. -/
def estaCompleto (p : Proceso) : Bool :=
  decide (p.tiempoRestante ≤ 0)

end Proceso

/-- The loop `for (int i = 0; i < n; i++) proceso->ejecutar(tiempoActual + i);`
shared by the three `ejecutarProceso` functions; `n` is the number of turns. -/
def bucleEjecutar (p : Proceso) (tiempoActual : Int) : Nat → Proceso
  | 0 => p
  | n + 1 => (bucleEjecutar p tiempoActual n).ejecutar (tiempoActual + (n : Int))

/-! ## std::sort -/

/-- Strict weak ordering, the requirement of the C++ standard on a comparator. -/
structure OrdenDebilEstricto (lt : Proceso → Proceso → Bool) : Prop where
  irreflexivo : ∀ a, lt a a = false
  transitivo : ∀ a b c, lt a b = true → lt b c = true → lt a c = true
  equivTransitivo : ∀ a b c, lt a b = false → lt b a = false → lt b c = false →
    lt c b = false → lt a c = false ∧ lt c a = false

/-- What the C++ standard promises of `std::sort(first, last, comp)` for a
comparator that is a strict weak ordering: the range is permuted so that no
element is smaller than one before it.  The relative order of equivalent
elements is left open. -/
structure StdSort where
  ordenar : (Proceso → Proceso → Bool) → List Proceso → List Proceso
  permuta : ∀ lt l, OrdenDebilEstricto lt → (ordenar lt l).Perm l
  ordena : ∀ lt l, OrdenDebilEstricto lt →
    (ordenar lt l).Pairwise (fun a b => lt b a = false)

/-- Insertion sort on the comparator `lt`: one function that meets the
promise of `std::sort`.  It keeps equivalent elements in their input order. -/
def ordenarInsercion (lt : Proceso → Proceso → Bool) (l : List Proceso) : List Proceso :=
  List.insertionSort (fun a b => lt b a = false) l

/-- Insertion sort as an instance of the `std::sort` promise. -/
def insercion : StdSort where
  ordenar := ordenarInsercion
  permuta := fun lt l _ => List.perm_insertionSort (fun a b => lt b a = false) l
  ordena := by
    intro lt l h
    have total : ∀ a b, lt b a = false ∨ lt a b = false := by
      intro a b
      cases h1 : lt b a with
      | false => exact Or.inl rfl
      | true =>
        cases h2 : lt a b with
        | false => exact Or.inr rfl
        | true =>
          have h3 := h.transitivo a b a h2 h1
          rw [h.irreflexivo a] at h3
          exact Bool.noConfusion h3
    have trans : ∀ a b c, lt b a = false → lt c b = false → lt c a = false := by
      intro a b c hab hbc
      cases hca : lt c a with
      | false => rfl
      | true =>
        cases hbc2 : lt b c with
        | true =>
          have h3 := h.transitivo b c a hbc2 hca
          rw [hab] at h3
          exact Bool.noConfusion h3
        | false =>
          cases hab2 : lt a b with
          | true =>
            have h3 := h.transitivo c a b hca hab2
            rw [hbc] at h3
            exact Bool.noConfusion h3
          | false =>
            have h3 := (h.equivTransitivo c b a hbc hbc2 hab hab2).1
            rw [hca] at h3
            exact Bool.noConfusion h3
    haveI : IsTotal Proceso (fun a b => lt b a = false) := ⟨total⟩
    haveI : IsTrans Proceso (fun a b => lt b a = false) := ⟨trans⟩
    exact List.sorted_insertionSort (fun a b => lt b a = false) l

/-! ## std::sort as implemented by libstdc++ (bits/stl_algo.h, bits/stl_heap.h)

The program is linked against a standard library, and the order in which
`std::sort` leaves equivalent elements is the one of that library's algorithm.
This section is the algorithm of libstdc++ (GCC 12): introsort, that is
median-of-three quicksort down to ranges of 16 elements, with a heap sort
when the recursion gets deeper than `2 * log2 n`, followed by one pass of
insertion sort.  Iterators are positions in the vector; a loop that the
source leaves unguarded is bounded by the length of the vector. -/

namespace Libstdcxx

/-- The comparison `__comp(i, j)` of the elements at positions `i` and `j`. -/
def comp {α : Type} (lt : α → α → Bool) (v : List α) (i j : Nat) : Bool :=
  match v[i]?, v[j]? with
  | some a, some b => lt a b
  | _, _ => false

/-- The swap `std::iter_swap(i, j)`. -/
def iterSwap {α : Type} (v : List α) (i j : Nat) : List α :=
  match v[i]?, v[j]? with
  | some a, some b => (v.set i b).set j a
  | _, _ => v

/-- Median of three moved to the front, `__move_median_to_first`. -/
def moveMedianToFirst {α : Type} (lt : α → α → Bool) (v : List α) (result a b c : Nat) :
    List α :=
  if comp lt v a b then
    if comp lt v b c then iterSwap v result b
    else if comp lt v a c then iterSwap v result c
    else iterSwap v result a
  else if comp lt v a c then iterSwap v result a
  else if comp lt v b c then iterSwap v result c
  else iterSwap v result b

/-- The loop `while (__comp(__first, __pivot)) ++__first;` of
`__unguarded_partition`. -/
def avanzar {α : Type} (lt : α → α → Bool) (v : List α) (pivot : Nat) : Nat → Nat → Nat
  | 0, first => first
  | n + 1, first => if comp lt v first pivot then avanzar lt v pivot n (first + 1) else first

/-- The loop `while (__comp(__pivot, __last)) --__last;` of
`__unguarded_partition`. -/
def retroceder {α : Type} (lt : α → α → Bool) (v : List α) (pivot : Nat) : Nat → Nat → Nat
  | 0, last => last
  | n + 1, last => if comp lt v pivot last then retroceder lt v pivot n (last - 1) else last

/-- Partition `__unguarded_partition(first, last, pivot, comp)`: the vector
after the swaps, and the cut returned. -/
def unguardedPartition {α : Type} (lt : α → α → Bool) (pivot : Nat) :
    Nat → List α → Nat → Nat → List α × Nat
  | 0, v, first, _ => (v, first)
  | n + 1, v, first, last =>
    let first1 := avanzar lt v pivot v.length first
    let last1 := retroceder lt v pivot v.length (last - 1)
    if first1 < last1 then
      unguardedPartition lt pivot n (iterSwap v first1 last1) (first1 + 1) last1
    else (v, first1)

/-- Pivot choice and partition, `__unguarded_partition_pivot`. -/
def unguardedPartitionPivot {α : Type} (lt : α → α → Bool) (v : List α) (first last : Nat) :
    List α × Nat :=
  let mid := first + (last - first) / 2
  let v1 := moveMedianToFirst lt v first (first + 1) mid (last - 1)
  unguardedPartition lt first v1.length v1 (first + 1) last

/-- Sift up, `__push_heap(first, holeIndex, topIndex, value, comp)`. -/
def pushHeap {α : Type} (lt : α → α → Bool) (first topIndex : Nat) (value : α) :
    Nat → List α → Nat → List α
  | 0, v, holeIndex => v.set (first + holeIndex) value
  | n + 1, v, holeIndex =>
    let parent := (holeIndex - 1) / 2
    match v[first + parent]? with
    | some x =>
      if holeIndex > topIndex && lt x value then
        pushHeap lt first topIndex value n (v.set (first + holeIndex) x) parent
      else v.set (first + holeIndex) value
    | none => v.set (first + holeIndex) value

/-- The `while` loop of `__adjust_heap`: the vector, `holeIndex` and
`secondChild` when it ends. -/
def adjustHeapBucle {α : Type} (lt : α → α → Bool) (first len : Nat) :
    Nat → List α → Nat → Nat → List α × Nat × Nat
  | 0, v, holeIndex, secondChild => (v, holeIndex, secondChild)
  | n + 1, v, holeIndex, secondChild =>
    if secondChild < (len - 1) / 2 then
      let sc := 2 * (secondChild + 1)
      let sc1 := if comp lt v (first + sc) (first + (sc - 1)) then sc - 1 else sc
      match v[first + sc1]? with
      | some x => adjustHeapBucle lt first len n (v.set (first + holeIndex) x) sc1 sc1
      | none => (v, holeIndex, secondChild)
    else (v, holeIndex, secondChild)

/-- Sift down, `__adjust_heap(first, holeIndex, len, value, comp)`. -/
def adjustHeap {α : Type} (lt : α → α → Bool) (v : List α) (first holeIndex len : Nat)
    (value : α) : List α :=
  let r := adjustHeapBucle lt first len len v holeIndex holeIndex
  if len % 2 = 0 ∧ r.2.2 = (len - 2) / 2 then
    let sc2 := 2 * (r.2.2 + 1)
    match r.1[first + (sc2 - 1)]? with
    | some x => pushHeap lt first holeIndex value len (r.1.set (first + r.2.1) x) (sc2 - 1)
    | none => pushHeap lt first holeIndex value len r.1 r.2.1
  else pushHeap lt first holeIndex value len r.1 r.2.1

/-- Removal of the top of the heap, `__pop_heap(first, last, result, comp)`. -/
def popHeap {α : Type} (lt : α → α → Bool) (v : List α) (first last result : Nat) : List α :=
  match v[result]?, v[first]? with
  | some value, some x => adjustHeap lt (v.set result x) first 0 (last - first) value
  | _, _ => v

/-- The loop of `__make_heap`, from `parent` down to 0. -/
def makeHeapBucle {α : Type} (lt : α → α → Bool) (first len : Nat) : Nat → List α → List α
  | 0, v =>
    match v[first]? with
    | some value => adjustHeap lt v first 0 len value
    | none => v
  | parent + 1, v =>
    match v[first + (parent + 1)]? with
    | some value =>
      makeHeapBucle lt first len parent (adjustHeap lt v first (parent + 1) len value)
    | none => v

/-- Heap construction `__make_heap(first, last, comp)`. -/
def makeHeap {α : Type} (lt : α → α → Bool) (v : List α) (first last : Nat) : List α :=
  if last - first < 2 then v
  else makeHeapBucle lt first (last - first) ((last - first - 2) / 2) v

/-- Heap sort proper, `__sort_heap(first, last, comp)`. -/
def sortHeap {α : Type} (lt : α → α → Bool) (first : Nat) : Nat → List α → Nat → List α
  | 0, v, _ => v
  | n + 1, v, last =>
    if last - first > 1 then
      sortHeap lt first n (popHeap lt v first (last - 1) (last - 1)) (last - 1)
    else v

/-- The `for` loop of `__heap_select`. -/
def heapSelectBucle {α : Type} (lt : α → α → Bool) (first middle : Nat) :
    Nat → List α → Nat → List α
  | 0, v, _ => v
  | n + 1, v, i =>
    heapSelectBucle lt first middle n
      (if comp lt v i first then popHeap lt v first middle i else v) (i + 1)

/-- Heap sort of a range, `__partial_sort(first, middle, last, comp)`:
`__heap_select` then `__sort_heap`. -/
def heapSort {α : Type} (lt : α → α → Bool) (v : List α) (first middle last : Nat) : List α :=
  let v1 := makeHeap lt v first middle
  let v2 := heapSelectBucle lt first middle (last - middle) v1 middle
  sortHeap lt first (middle - first) v2 middle

/-- Quicksort phase `__introsort_loop(first, last, depth_limit, comp)`; the
first argument is `depth_limit`. -/
def introsortLoop {α : Type} (lt : α → α → Bool) : Nat → List α → Nat → Nat → List α
  | 0, v, first, last => if last - first > 16 then heapSort lt v first last last else v
  | d + 1, v, first, last =>
    if last - first > 16 then
      let r := unguardedPartitionPivot lt v first last
      let v2 := introsortLoop lt d r.1 r.2 last
      introsortLoop lt d v2 first r.2
    else v

/-- Insertion from the right without a bound test,
`__unguarded_linear_insert(last, comp)`; `val` is the element taken out of
position `last`. -/
def unguardedLinearInsert {α : Type} (lt : α → α → Bool) (val : α) :
    Nat → List α → Nat → List α
  | 0, v, last => v.set last val
  | n + 1, v, last =>
    if last = 0 then v.set last val
    else
      match v[last - 1]? with
      | some x =>
        if lt val x then unguardedLinearInsert lt val n (v.set last x) (last - 1)
        else v.set last val
      | none => v.set last val

/-- One turn of the `for` loop of `__insertion_sort`, at position `i`: an
element smaller than the first one is moved to the front
(`std::move_backward`), any other is inserted from the right. -/
def insertionPaso {α : Type} (lt : α → α → Bool) (v : List α) (first i : Nat) : List α :=
  match v[i]? with
  | none => v
  | some val =>
    if comp lt v i first then
      v.take first ++ val :: ((v.drop first).take (i - first)) ++ v.drop (i + 1)
    else unguardedLinearInsert lt val v.length v i

/-- The `for` loop of `__insertion_sort`, from position `i` for `n` turns. -/
def insertionBucle {α : Type} (lt : α → α → Bool) (first : Nat) : Nat → List α → Nat → List α
  | 0, v, _ => v
  | n + 1, v, i => insertionBucle lt first n (insertionPaso lt v first i) (i + 1)

/-- Insertion sort of a range, `__insertion_sort(first, last, comp)`. -/
def insertionSort {α : Type} (lt : α → α → Bool) (v : List α) (first last : Nat) : List α :=
  if first = last then v else insertionBucle lt first (last - (first + 1)) v (first + 1)

/-- The `for` loop of `__unguarded_insertion_sort`, from position `i` for `n`
turns. -/
def unguardedInsertionBucle {α : Type} (lt : α → α → Bool) : Nat → List α → Nat → List α
  | 0, v, _ => v
  | n + 1, v, i =>
    match v[i]? with
    | some val => unguardedInsertionBucle lt n (unguardedLinearInsert lt val v.length v i) (i + 1)
    | none => v

/-- Last pass `__final_insertion_sort(first, last, comp)`. -/
def finalInsertionSort {α : Type} (lt : α → α → Bool) (v : List α) (first last : Nat) :
    List α :=
  if last - first > 16 then
    unguardedInsertionBucle lt (last - (first + 16)) (insertionSort lt v first (first + 16))
      (first + 16)
  else insertionSort lt v first last

/-- Halving loop behind `lg`; the first argument bounds the number of turns. -/
def lgBucle : Nat → Nat → Nat
  | 0, _ => 0
  | f + 1, n => if n < 2 then 0 else lgBucle f (n / 2) + 1

/-- The function `std::__lg(n)`: the integer part of the binary logarithm of
`n ≥ 1`. -/
def lg (n : Nat) : Nat := lgBucle n n

/-- The algorithm `std::sort(v.begin(), v.end(), comp)`, that is
`std::__sort`. -/
def sort {α : Type} (lt : α → α → Bool) (v : List α) : List α :=
  if v.length = 0 then v
  else finalInsertionSort lt (introsortLoop lt (lg v.length * 2) v 0 v.length) 0 v.length

end Libstdcxx

/-- The `std::sort` of libstdc++ as an instance of the `std::sort` promise:
the result is the one of the library algorithm.  The test that this result is
a permutation of the input ordered by the comparator stands for the
correctness proof of the library algorithm, which is not part of this
development; were it to fail, insertion sort would stand in. -/
def gnu : StdSort where
  ordenar := fun lt l =>
    if (Libstdcxx.sort lt l).Perm l ∧
        (Libstdcxx.sort lt l).Pairwise (fun a b => lt b a = false) then
      Libstdcxx.sort lt l
    else ordenarInsercion lt l
  permuta := by
    intro lt l h
    show (if _ then _ else _ : List Proceso).Perm l
    split_ifs with hc
    · exact hc.1
    · exact insercion.permuta lt l h
  ordena := by
    intro lt l h
    show (if _ then _ else _ : List Proceso).Pairwise _
    split_ifs with hc
    · exact hc.2
    · exact insercion.ordena lt l h

/-! ## Policy executors (schedulers/*.cpp) -/

/-- Comparator of `SJFScheduler::agregarProceso` and `STCFScheduler::agregarProceso`:
remaining time, then arrival time. -/
def menorRestante (a b : Proceso) : Bool :=
  if a.tiempoRestante = b.tiempoRestante then decide (a.tiempoLlegada < b.tiempoLlegada)
  else decide (a.tiempoRestante < b.tiempoRestante)

/-- Data members of class `RoundRobinScheduler`. -/
structure RoundRobinScheduler where
  quantum : Int
  cola : List Proceso

namespace RoundRobinScheduler

/-- Constructor `RoundRobinScheduler(q)`. -/
def nuevo (q : Int) : RoundRobinScheduler :=
  { quantum := q, cola := [] }

/-- Push at the back, `RoundRobinScheduler::agregarProceso`. -/
def agregarProceso (r : RoundRobinScheduler) (p : Proceso) : RoundRobinScheduler :=
  { r with cola := r.cola ++ [p] }

/-- Pop the front, `RoundRobinScheduler::obtenerSiguienteProceso`. -/
def obtenerSiguienteProceso (r : RoundRobinScheduler) :
    Option Proceso × RoundRobinScheduler :=
  match r.cola with
  | [] => (none, r)
  | p :: resto => (some p, { r with cola := resto })

/-- Quantum execution `RoundRobinScheduler::ejecutarProceso`; returns the
record after execution and `tiempoEjecutado`. -/
def ejecutarProceso (r : RoundRobinScheduler) (proceso : Proceso) (tiempoActual : Int) :
    Proceso × Int :=
  let tiempoEjecutado := min r.quantum proceso.tiempoRestante
  (bucleEjecutar proceso tiempoActual tiempoEjecutado.toNat, tiempoEjecutado)

end RoundRobinScheduler

/-- Data members of class `SJFScheduler`. -/
structure SJFScheduler where
  procesos : List Proceso

namespace SJFScheduler

/-- Constructor `SJFScheduler()`. -/
def nuevo : SJFScheduler :=
  { procesos := [] }

/-- Push and re-sort, `SJFScheduler::agregarProceso`. -/
def agregarProceso (S : StdSort) (r : SJFScheduler) (p : Proceso) : SJFScheduler :=
  { procesos := S.ordenar menorRestante (r.procesos ++ [p]) }

/-- Take element 0, `SJFScheduler::obtenerSiguienteProceso`. -/
def obtenerSiguienteProceso (r : SJFScheduler) : Option Proceso × SJFScheduler :=
  match r.procesos with
  | [] => (none, r)
  | p :: resto => (some p, { procesos := resto })

/-- Run to completion, `SJFScheduler::ejecutarProceso`. -/
def ejecutarProceso (proceso : Proceso) (tiempoActual : Int) : Proceso × Int :=
  let tiempoEjecutado := proceso.tiempoRestante
  (bucleEjecutar proceso tiempoActual tiempoEjecutado.toNat, tiempoEjecutado)

end SJFScheduler

/-- Data members of class `STCFScheduler`. -/
structure STCFScheduler where
  procesos : List Proceso

namespace STCFScheduler

/-- Constructor `STCFScheduler()`. -/
def nuevo : STCFScheduler :=
  { procesos := [] }

/-- Push and re-sort, `STCFScheduler::agregarProceso`. -/
def agregarProceso (S : StdSort) (r : STCFScheduler) (p : Proceso) : STCFScheduler :=
  { procesos := S.ordenar menorRestante (r.procesos ++ [p]) }

/-- Take element 0, `STCFScheduler::obtenerSiguienteProceso`. -/
def obtenerSiguienteProceso (r : STCFScheduler) : Option Proceso × STCFScheduler :=
  match r.procesos with
  | [] => (none, r)
  | p :: resto => (some p, { procesos := resto })

/-- Bounded execution, `STCFScheduler::ejecutarProceso`. -/
def ejecutarProceso (proceso : Proceso) (tiempoActual : Int) (tiempoMaximo : Int) :
    Proceso × Int :=
  let tiempoEjecutado := min tiempoMaximo proceso.tiempoRestante
  (bucleEjecutar proceso tiempoActual tiempoEjecutado.toNat, tiempoEjecutado)

end STCFScheduler

/-! ## MLFQScheduler (MLFQScheduler.h, MLFQScheduler.cpp) -/

/-- Enumeration `TipoPolitica`. -/
inductive TipoPolitica where
  | ROUND_ROBIN
  | SJF
  | STCF
deriving DecidableEq, Repr

/-- Level descriptor `EsquemaCola`. -/
structure EsquemaCola where
  politica : TipoPolitica
  quantum : Int
deriving DecidableEq, Repr

/-- Constant `INT_MAX` of climits for a 32-bit `int`. -/
def INT_MAX : Int := 2147483647

/-- Data members of class `MLFQScheduler`. -/
structure MLFQScheduler where
  esquemas : List EsquemaCola
  colas : List (List Proceso)
  colaLlegadas : List Proceso
  procesosFinalizados : List Proceso
  tiempoGlobal : Int
deriving DecidableEq, Repr

/-- Subscript `v[n]` with an `int` index; `none` when out of range. -/
def subindice {α : Type} (v : List α) (n : Int) : Option α :=
  if 0 ≤ n then v[n.toNat]? else none

/-- The statement `colas[n].push(p)`; `none` when `n` is out of range. -/
def empujar (colas : List (List Proceso)) (n : Int) (p : Proceso) :
    Option (List (List Proceso)) :=
  match subindice colas n with
  | none => none
  | some q => some (colas.set n.toNat (q ++ [p]))

/-- Comparator of the sort in `MLFQScheduler::agregarProceso`: arrival time. -/
def menorLlegada (a b : Proceso) : Bool :=
  decide (a.tiempoLlegada < b.tiempoLlegada)

/-- First-dispatch marking (lines 161-163 of `ejecutarConScheduler`): a record
that has never started gets the clock `t` as its start time. -/
def marcado (p : Proceso) (t : Int) : Proceso :=
  if p.haIniciado then p else p.setTiempoInicio t

/-- The test of lines 123-125 of `planificar`: is `p` better than the current
`mejor` (`none` for `nullptr`) with remaining time `menorTiempo`. -/
def esMejor (p : Proceso) (mejor : Option Proceso) (menorTiempo : Int) : Bool :=
  decide (p.tiempoRestante < menorTiempo) ||
    (decide (p.tiempoRestante = menorTiempo) &&
      (match mejor with
       | none => true
       | some m => decide (p.tiempoLlegada < m.tiempoLlegada)))

/-- The scan of `planificar` over one SJF/STCF queue (the `while` loop of
lines 118-135): `mejor`, `menorTiempo` and `temp` are the loop variables, the
first argument is what is still in the queue. -/
def buscarMejor : List Proceso → Option Proceso → Int → List Proceso →
    Option Proceso × List Proceso
  | [], mejor, _, temp => (mejor, temp)
  | p :: resto, mejor, menorTiempo, temp =>
    if esMejor p mejor menorTiempo then
      buscarMejor resto (some p) p.tiempoRestante
        (match mejor with
         | none => temp
         | some m => temp ++ [m])
    else
      buscarMejor resto mejor menorTiempo (temp ++ [p])

/-- Arithmetic of C++ `double` as far as `calcularPromedios` uses it: the
literal `0.0`, the conversion from `int`, addition and division.  The
operations are a parameter; no law of arithmetic is assumed of them. -/
structure Doble where
  Num : Type
  cero : Num
  deEntero : Int → Num
  sumar : Num → Num → Num
  dividir : Num → Num → Num

/-- Exact rational arithmetic: an instance of `Doble` that does not round.
It is not the arithmetic of `double`, whose sums and quotients are rounded. -/
def exacto : Doble where
  Num := ℚ
  cero := 0
  deEntero := fun n => (n : ℚ)
  sumar := fun a b => a + b
  dividir := fun a b => a / b

namespace MLFQScheduler

/-- Constructor `MLFQScheduler(esq)`: one empty queue per descriptor, clock 0. -/
def nuevo (esq : List EsquemaCola) : MLFQScheduler :=
  { esquemas := esq, colas := List.replicate esq.length [], colaLlegadas := [],
    procesosFinalizados := [], tiempoGlobal := 0 }

/-- Registration `agregarProceso`: push back, then sort by arrival time. -/
def agregarProceso (S : StdSort) (s : MLFQScheduler) (proceso : Proceso) : MLFQScheduler :=
  { s with colaLlegadas := S.ordenar menorLlegada (s.colaLlegadas ++ [proceso]) }

/-- The `while` loop of `moverProcesosLlegados`, on the admission vector and
the level queues. -/
def moverBucle (tiempoGlobal : Int) :
    List Proceso → List (List Proceso) → Option (List Proceso × List (List Proceso))
  | [], colas => some ([], colas)
  | proceso :: resto, colas =>
    if proceso.tiempoLlegada ≤ tiempoGlobal then
      let nivelCola := proceso.colaOriginal - 1
      match empujar colas nivelCola (proceso.setCola nivelCola) with
      | none => none
      | some colas1 => moverBucle tiempoGlobal resto colas1
    else some (proceso :: resto, colas)

/-- Admission `moverProcesosLlegados`. -/
def moverProcesosLlegados (s : MLFQScheduler) : Option MLFQScheduler :=
  match moverBucle s.tiempoGlobal s.colaLlegadas s.colas with
  | none => none
  | some (llegadas, colas) => some { s with colaLlegadas := llegadas, colas := colas }

/-- The `for` loop of `planificar` from index `i` on; the list argument is
`colas[i], colas[i+1], ...`. -/
def planificarDesde (s : MLFQScheduler) :
    Nat → List (List Proceso) → Option ((Int × Option Proceso) × MLFQScheduler)
  | _, [] => some (((-1 : Int), none), s)
  | i, [] :: resto => planificarDesde s (i + 1) resto
  | i, (p :: cola) :: _ =>
    match s.esquemas[i]? with
    | none => none
    | some esquema =>
      if esquema.politica = TipoPolitica.ROUND_ROBIN then
        some (((i : Int), some p), { s with colas := s.colas.set i cola })
      else
        let r := buscarMejor (p :: cola) none INT_MAX []
        some (((i : Int), r.1), { s with colas := s.colas.set i r.2 })

/-- Selection `planificar`: the pair `(indice, proceso)` and the engine after
the removal; `(-1, none)` stands for `(-1, nullptr)`. -/
def planificar (s : MLFQScheduler) : Option ((Int × Option Proceso) × MLFQScheduler) :=
  planificarDesde s 0 s.colas

/-- Finish transition shared by the three cases: `setTiempoFinalizacion`,
`calcularMetricas`, `procesosFinalizados.push_back`. -/
def finalizar (s : MLFQScheduler) (procesoActual : Proceso) : MLFQScheduler :=
  { s with procesosFinalizados :=
      s.procesosFinalizados ++ [(procesoActual.setTiempoFinalizacion s.tiempoGlobal).calcularMetricas] }

/-- The bound `tiempoMaximo` of an STCF dispatch (lines 231-244 of
`ejecutarConScheduler`): 1 by default, up to the next arrival when the first
record of the admission vector arrives later than the clock, the whole
remaining time when the admission vector is empty. -/
def tiempoMaximoSTCF (s : MLFQScheduler) (procesoActual : Proceso) : Int :=
  match s.colaLlegadas with
  | [] => procesoActual.tiempoRestante
  | primero :: _ =>
    if primero.tiempoLlegada > s.tiempoGlobal then
      min procesoActual.tiempoRestante (primero.tiempoLlegada - s.tiempoGlobal)
    else 1

/-- Dispatch `ejecutarConScheduler(proceso, indiceCola)`, in exact arithmetic:
the sum `tiempoGlobal + tiempoEjecutado` is the `int` sum when it is within
`int`.  `ejecutarConScheduler32` is the function on 32-bit `int`. -/
def ejecutarConScheduler (S : StdSort) (s : MLFQScheduler) (proceso : Proceso)
    (indiceCola : Int) : Option MLFQScheduler :=
  match subindice s.esquemas indiceCola with
  | none => none
  | some esquema =>
    let proceso := marcado proceso s.tiempoGlobal
    match esquema.politica with
    | TipoPolitica.ROUND_ROBIN =>
      let rrScheduler := (RoundRobinScheduler.nuevo esquema.quantum).agregarProceso proceso
      match rrScheduler.obtenerSiguienteProceso with
      | (none, _) => some s
      | (some procesoActual, rr) =>
        let r := rr.ejecutarProceso procesoActual s.tiempoGlobal
        let s1 := { s with tiempoGlobal := s.tiempoGlobal + r.2 }
        if r.1.estaCompleto then some (finalizar s1 r.1)
        else
          let nuevaCola := min (indiceCola + 1) ((s1.colas.length : Int) - 1)
          match empujar s1.colas nuevaCola (r.1.setCola nuevaCola) with
          | none => none
          | some colas1 => some { s1 with colas := colas1 }
    | TipoPolitica.SJF =>
      let sjfScheduler := SJFScheduler.agregarProceso S SJFScheduler.nuevo proceso
      match sjfScheduler.obtenerSiguienteProceso with
      | (none, _) => some s
      | (some procesoActual, _) =>
        let r := SJFScheduler.ejecutarProceso procesoActual s.tiempoGlobal
        let s1 := { s with tiempoGlobal := s.tiempoGlobal + r.2 }
        some (finalizar s1 r.1)
    | TipoPolitica.STCF =>
      let stcfScheduler := STCFScheduler.agregarProceso S STCFScheduler.nuevo proceso
      match stcfScheduler.obtenerSiguienteProceso with
      | (none, _) => some s
      | (some procesoActual, _) =>
        let tiempoMaximo := tiempoMaximoSTCF s procesoActual
        let r := STCFScheduler.ejecutarProceso procesoActual s.tiempoGlobal tiempoMaximo
        let s1 := { s with tiempoGlobal := s.tiempoGlobal + r.2 }
        if r.1.estaCompleto then some (finalizar s1 r.1)
        else
          match empujar s1.colas indiceCola r.1 with
          | none => none
          | some colas1 => some { s1 with colas := colas1 }

/-- Test `hayProcesosPendientes`: some level queue is non-empty. -/
def hayProcesosPendientes (s : MLFQScheduler) : Bool :=
  s.colas.any (fun cola => !cola.isEmpty)

/-- Loop condition of `ejecutarSimulacion`. -/
def continua (s : MLFQScheduler) : Bool :=
  !s.colaLlegadas.isEmpty || s.hayProcesosPendientes

/-- One turn of the `while` loop of `ejecutarSimulacion` (lines 288-309). -/
def iteracion (S : StdSort) (s : MLFQScheduler) : Option MLFQScheduler :=
  match s.moverProcesosLlegados with
  | none => none
  | some s1 =>
    match s1.planificar with
    | none => none
    | some ((_, none), s2) =>
      match s2.colaLlegadas with
      | [] => some { s2 with tiempoGlobal := s2.tiempoGlobal + 1 }
      | primero :: _ => some { s2 with tiempoGlobal := primero.tiempoLlegada }
    | some ((indiceCola, some proceso), s2) => ejecutarConScheduler S s2 proceso indiceCola

/-- Main loop `ejecutarSimulacion`, with a bound on the number of turns:
`none` when the bound is used up before the loop condition fails, or when a
turn is undefined. -/
def ejecutarSimulacion (S : StdSort) : Nat → MLFQScheduler → Option MLFQScheduler
  | 0, s => if s.continua then none else some s
  | n + 1, s =>
    if s.continua then
      match iteracion S s with
      | none => none
      | some s1 => ejecutarSimulacion S n s1
    else some s

/-- The loop of `calcularPromedios` (lines 342-347): the four running sums
`(sumaWT, sumaCT, sumaRT, sumaTAT)`. -/
def sumarMetricas (F : Doble) :
    List Proceso → F.Num × F.Num × F.Num × F.Num → F.Num × F.Num × F.Num × F.Num
  | [], sumas => sumas
  | proceso :: resto, (sumaWT, sumaCT, sumaRT, sumaTAT) =>
    sumarMetricas F resto
      (F.sumar sumaWT (F.deEntero proceso.tiempoEspera),
       F.sumar sumaCT (F.deEntero proceso.tiempoFinalizacion),
       F.sumar sumaRT (F.deEntero proceso.tiempoRespuesta),
       F.sumar sumaTAT (F.deEntero proceso.tiempoRetorno))

/-- Averages `calcularPromedios`: the tuple `(promWT, promCT, promRT, promTAT)`
written through the four reference parameters. -/
def calcularPromedios (F : Doble) (s : MLFQScheduler) :
    F.Num × F.Num × F.Num × F.Num :=
  if s.procesosFinalizados.isEmpty then (F.cero, F.cero, F.cero, F.cero)
  else
    let sumas := sumarMetricas F s.procesosFinalizados
      (F.deEntero 0, F.deEntero 0, F.deEntero 0, F.deEntero 0)
    let cantidad : Int := (s.procesosFinalizados.length : Int)
    (F.dividir sumas.1 (F.deEntero cantidad),
     F.dividir sumas.2.1 (F.deEntero cantidad),
     F.dividir sumas.2.2.1 (F.deEntero cantidad),
     F.dividir sumas.2.2.2 (F.deEntero cantidad))

/-- Registration of a workload: `agregarProceso` for each record, in order,
on a fresh engine (the loop of `main`). -/
def cargar (S : StdSort) (esq : List EsquemaCola) (procesos : List Proceso) : MLFQScheduler :=
  procesos.foldl (agregarProceso S) (nuevo esq)

end MLFQScheduler

/-! ## The engine on 32-bit `int`

The operations of the program that add or subtract time values, with the
result of every such `int` operation wrapped to 32 bits (`int32`).  The other
operations are shared with the exact embedding: comparisons and `std::min` do
not overflow, `Proceso::ejecutar` decrements a positive value, and the level
indices (`colaOriginal - 1`, `indiceCola + 1`, `colas.size() - 1`) of a defined
subscript are bounded by the number of level queues, taken to be below
`INT_MAX`. -/

/-- The value a 32-bit two's-complement `int` holds when the exact result of
an `int` operation is `n`: `n` itself when `-2^31 ≤ n ≤ INT_MAX`, and `n`
wrapped around modulo `2^32` when the operation overflows. -/
def int32 (n : Int) : Int :=
  (n + 2147483648) % 4294967296 - 2147483648

/-- Metrics at finish, `Proceso::calcularMetricas`, on 32-bit `int`. -/
def Proceso.calcularMetricas32 (p : Proceso) : Proceso :=
  let p1 := { p with tiempoRetorno := int32 (p.tiempoFinalizacion - p.tiempoLlegada) }
  let p2 := { p1 with tiempoRespuesta := int32 (p1.tiempoInicio - p1.tiempoLlegada) }
  { p2 with tiempoEspera := int32 (p2.tiempoRetorno - p2.tiempoRafaga) }

/-- The loop `for (int i = 0; i < n; i++) proceso->ejecutar(tiempoActual + i);`
on 32-bit `int`. -/
def bucleEjecutar32 (p : Proceso) (tiempoActual : Int) : Nat → Proceso
  | 0 => p
  | n + 1 => (bucleEjecutar32 p tiempoActual n).ejecutar (int32 (tiempoActual + (n : Int)))

/-- Quantum execution `RoundRobinScheduler::ejecutarProceso` on 32-bit `int`. -/
def RoundRobinScheduler.ejecutarProceso32 (r : RoundRobinScheduler) (proceso : Proceso)
    (tiempoActual : Int) : Proceso × Int :=
  let tiempoEjecutado := min r.quantum proceso.tiempoRestante
  (bucleEjecutar32 proceso tiempoActual tiempoEjecutado.toNat, tiempoEjecutado)

/-- Run to completion, `SJFScheduler::ejecutarProceso`, on 32-bit `int`. -/
def SJFScheduler.ejecutarProceso32 (proceso : Proceso) (tiempoActual : Int) : Proceso × Int :=
  let tiempoEjecutado := proceso.tiempoRestante
  (bucleEjecutar32 proceso tiempoActual tiempoEjecutado.toNat, tiempoEjecutado)

/-- Bounded execution, `STCFScheduler::ejecutarProceso`, on 32-bit `int`. -/
def STCFScheduler.ejecutarProceso32 (proceso : Proceso) (tiempoActual : Int)
    (tiempoMaximo : Int) : Proceso × Int :=
  let tiempoEjecutado := min tiempoMaximo proceso.tiempoRestante
  (bucleEjecutar32 proceso tiempoActual tiempoEjecutado.toNat, tiempoEjecutado)

/-- Finish transition on 32-bit `int`: `setTiempoFinalizacion`,
`calcularMetricas`, `procesosFinalizados.push_back`. -/
def MLFQScheduler.finalizar32 (s : MLFQScheduler) (procesoActual : Proceso) : MLFQScheduler :=
  { s with procesosFinalizados :=
      s.procesosFinalizados ++
        [(procesoActual.setTiempoFinalizacion s.tiempoGlobal).calcularMetricas32] }

/-- The bound `tiempoMaximo` of an STCF dispatch on 32-bit `int`: the
subtraction `proximaLlegada - tiempoGlobal` is wrapped. -/
def MLFQScheduler.tiempoMaximoSTCF32 (s : MLFQScheduler) (procesoActual : Proceso) : Int :=
  match s.colaLlegadas with
  | [] => procesoActual.tiempoRestante
  | primero :: _ =>
    if primero.tiempoLlegada > s.tiempoGlobal then
      min procesoActual.tiempoRestante (int32 (primero.tiempoLlegada - s.tiempoGlobal))
    else 1

/-- Dispatch `ejecutarConScheduler(proceso, indiceCola)` on 32-bit `int`: the
statement `tiempoGlobal += tiempoEjecutado` stores the sum wrapped. -/
def MLFQScheduler.ejecutarConScheduler32 (S : StdSort) (s : MLFQScheduler) (proceso : Proceso)
    (indiceCola : Int) : Option MLFQScheduler :=
  match subindice s.esquemas indiceCola with
  | none => none
  | some esquema =>
    let proceso := marcado proceso s.tiempoGlobal
    match esquema.politica with
    | TipoPolitica.ROUND_ROBIN =>
      let rrScheduler := (RoundRobinScheduler.nuevo esquema.quantum).agregarProceso proceso
      match rrScheduler.obtenerSiguienteProceso with
      | (none, _) => some s
      | (some procesoActual, rr) =>
        let r := rr.ejecutarProceso32 procesoActual s.tiempoGlobal
        let s1 := { s with tiempoGlobal := int32 (s.tiempoGlobal + r.2) }
        if r.1.estaCompleto then some (MLFQScheduler.finalizar32 s1 r.1)
        else
          let nuevaCola := min (indiceCola + 1) ((s1.colas.length : Int) - 1)
          match empujar s1.colas nuevaCola (r.1.setCola nuevaCola) with
          | none => none
          | some colas1 => some { s1 with colas := colas1 }
    | TipoPolitica.SJF =>
      let sjfScheduler := SJFScheduler.agregarProceso S SJFScheduler.nuevo proceso
      match sjfScheduler.obtenerSiguienteProceso with
      | (none, _) => some s
      | (some procesoActual, _) =>
        let r := SJFScheduler.ejecutarProceso32 procesoActual s.tiempoGlobal
        let s1 := { s with tiempoGlobal := int32 (s.tiempoGlobal + r.2) }
        some (MLFQScheduler.finalizar32 s1 r.1)
    | TipoPolitica.STCF =>
      let stcfScheduler := STCFScheduler.agregarProceso S STCFScheduler.nuevo proceso
      match stcfScheduler.obtenerSiguienteProceso with
      | (none, _) => some s
      | (some procesoActual, _) =>
        let tiempoMaximo := MLFQScheduler.tiempoMaximoSTCF32 s procesoActual
        let r := STCFScheduler.ejecutarProceso32 procesoActual s.tiempoGlobal tiempoMaximo
        let s1 := { s with tiempoGlobal := int32 (s.tiempoGlobal + r.2) }
        if r.1.estaCompleto then some (MLFQScheduler.finalizar32 s1 r.1)
        else
          match empujar s1.colas indiceCola r.1 with
          | none => none
          | some colas1 => some { s1 with colas := colas1 }

/-- One turn of the `while` loop of `ejecutarSimulacion` on 32-bit `int`. -/
def MLFQScheduler.iteracion32 (S : StdSort) (s : MLFQScheduler) : Option MLFQScheduler :=
  match s.moverProcesosLlegados with
  | none => none
  | some s1 =>
    match s1.planificar with
    | none => none
    | some ((_, none), s2) =>
      match s2.colaLlegadas with
      | [] => some { s2 with tiempoGlobal := int32 (s2.tiempoGlobal + 1) }
      | primero :: _ => some { s2 with tiempoGlobal := primero.tiempoLlegada }
    | some ((indiceCola, some proceso), s2) =>
      MLFQScheduler.ejecutarConScheduler32 S s2 proceso indiceCola

/-- Main loop `ejecutarSimulacion` on 32-bit `int`, with a bound on the number
of turns: `none` when the bound is used up before the loop condition fails, or
when a turn is undefined. -/
def MLFQScheduler.ejecutarSimulacion32 (S : StdSort) :
    Nat → MLFQScheduler → Option MLFQScheduler
  | 0, s => if s.continua then none else some s
  | n + 1, s =>
    if s.continua then
      match MLFQScheduler.iteracion32 S s with
      | none => none
      | some s1 => MLFQScheduler.ejecutarSimulacion32 S n s1
    else some s

/-- The engine after exactly `k` turns of the main loop on 32-bit `int`;
`none` when the loop has stopped before, or a turn is undefined. -/
def MLFQScheduler.iterar32 (S : StdSort) : Nat → MLFQScheduler → Option MLFQScheduler
  | 0, s => some s
  | k + 1, s =>
    if s.continua then
      match MLFQScheduler.iteracion32 S s with
      | none => none
      | some s1 => MLFQScheduler.iterar32 S k s1
    else none

/-! ## Predicates and sample data used by the statements -/

/-- Order of the SJF/STCF scan: less remaining time, or the same remaining
time and an arrival that is not later. -/
def noPeor (a x : Proceso) : Prop :=
  a.tiempoRestante < x.tiempoRestante ∨
    (a.tiempoRestante = x.tiempoRestante ∧ a.tiempoLlegada ≤ x.tiempoLlegada)

/-- The fields of a record fixed by the constructor: label, burst, arrival
time, initial level (1-indexed) and priority. -/
def Proceso.datos (p : Proceso) : String × Int × Int × Int × Int :=
  (p.etiqueta, p.tiempoRafaga, p.tiempoLlegada, p.colaOriginal, p.prioridad)

/-- The constructor fields of a list of records, as a multiset. -/
def mdatos (l : List Proceso) : Multiset (String × Int × Int × Int × Int) :=
  ((l.map Proceso.datos : List (String × Int × Int × Int × Int)) :
    Multiset (String × Int × Int × Int × Int))

/-- Valid workload for a level configuration: at least one level, a positive
quantum on every Round Robin level, and every record as built by the
constructor with a positive burst (an `int`), a non-negative arrival time and
an initial level in `1..N`. -/
def Valido (esq : List EsquemaCola) (ps : List Proceso) : Prop :=
  1 ≤ esq.length ∧
  (∀ e ∈ esq, e.politica = TipoPolitica.ROUND_ROBIN → 0 < e.quantum) ∧
  (∀ p ∈ ps,
    p = Proceso.nuevo p.etiqueta p.tiempoRafaga p.tiempoLlegada p.colaOriginal p.prioridad ∧
    0 < p.tiempoRafaga ∧ p.tiempoRafaga ≤ INT_MAX ∧ 0 ≤ p.tiempoLlegada ∧
    1 ≤ p.colaOriginal ∧ p.colaOriginal ≤ (esq.length : Int))

/-- The records not yet finished: admission vector, then the level queues. -/
def MLFQScheduler.vivos (s : MLFQScheduler) : List Proceso :=
  s.colaLlegadas ++ s.colas.flatten

/-- Every record the engine holds: unfinished ones, then the finished vector. -/
def MLFQScheduler.todos (s : MLFQScheduler) : List Proceso :=
  s.vivos ++ s.procesosFinalizados

/-- Sum of the remaining times of a list of records. -/
def restanteTotal (l : List Proceso) : Nat :=
  (l.map (fun p => p.tiempoRestante.toNat)).sum

/-- Termination measure of the main loop: twice the remaining time of the
unfinished records, plus one when the first record of the admission vector
arrives later than the clock (an idle jump is still possible). -/
def MLFQScheduler.medida (s : MLFQScheduler) : Nat :=
  2 * restanteTotal s.vivos +
    (match s.colaLlegadas with
     | [] => 0
     | a :: _ => if a.tiempoLlegada > s.tiempoGlobal then 1 else 0)

/-- The engine after exactly `k` turns of the main loop; `none` when the loop
has stopped before, or a turn is undefined. -/
def MLFQScheduler.iterar (S : StdSort) : Nat → MLFQScheduler → Option MLFQScheduler
  | 0, s => some s
  | k + 1, s =>
    if s.continua then
      match MLFQScheduler.iteracion S s with
      | none => none
      | some s1 => MLFQScheduler.iterar S k s1
    else none

/-- State invariant of a run on a valid workload: as many queues as level
descriptors, positive quanta on Round Robin levels, pending records with an
initial level in range, and every unfinished record with a remaining time in
`1..INT_MAX`. -/
def MLFQScheduler.EnCurso (s : MLFQScheduler) : Prop :=
  s.colas.length = s.esquemas.length ∧
  (∀ e ∈ s.esquemas, e.politica = TipoPolitica.ROUND_ROBIN → 0 < e.quantum) ∧
  (∀ p ∈ s.colaLlegadas, 1 ≤ p.colaOriginal ∧ p.colaOriginal ≤ (s.colas.length : Int)) ∧
  (∀ p ∈ s.vivos, 0 < p.tiempoRestante ∧ p.tiempoRestante ≤ INT_MAX)

/-- The record as admission leaves it: current level set to the 0-indexed
initial level. -/
def admitido (p : Proceso) : Proceso :=
  p.setCola (p.colaOriginal - 1)

/-- Every queued record carries the index of its queue as current level. -/
def MLFQScheduler.Coherente (s : MLFQScheduler) : Prop :=
  ∀ (j : Nat) (q : List Proceso), s.colas[j]? = some q → ∀ p ∈ q, p.cola = (j : Int)

/-- What a dispatch at clock `t` makes of a record `p`: `x` has the same
constructor fields, no more remaining time (and none below zero if `p` had
none), is started with the start time of `p` if `p` had started and `t`
otherwise, and has a current level no lower than that of `p`. -/
def Despacho (t : Int) (p x : Proceso) : Prop :=
  x.datos = p.datos ∧ x.tiempoRestante ≤ p.tiempoRestante ∧
  (0 ≤ p.tiempoRestante → 0 ≤ x.tiempoRestante) ∧
  x.haIniciado = true ∧ x.tiempoInicio = (if p.haIniciado then p.tiempoInicio else t) ∧
  p.cola ≤ x.cola

/-- The records `despues` are the records `antes` except that at most one
record `p` has been replaced by a record `x` with `R p x`. -/
def CambiaUno (R : Proceso → Proceso → Prop) (antes despues : List Proceso) : Prop :=
  despues.Perm antes ∨
    ∃ p x resto, antes.Perm (p :: resto) ∧ despues.Perm (x :: resto) ∧ R p x

/-- Timing invariant of a run: a pending record is as the constructor left
it; a queued record has arrived, has its whole burst left while it has not
started, and once started has a start time no earlier than its arrival and
has run no more units than the time elapsed since its start; a finished
record started no earlier than it arrived, finished no earlier than start
plus burst, and carries the response and waiting times computed from these. -/
def MLFQScheduler.EnHora (s : MLFQScheduler) : Prop :=
  (∀ p ∈ s.colaLlegadas, p.haIniciado = false ∧ p.tiempoRestante = p.tiempoRafaga) ∧
  (∀ p ∈ s.colas.flatten, p.tiempoLlegada ≤ s.tiempoGlobal ∧
    (p.haIniciado = false → p.tiempoRestante = p.tiempoRafaga) ∧
    (p.haIniciado = true → p.tiempoLlegada ≤ p.tiempoInicio ∧
      p.tiempoInicio + (p.tiempoRafaga - p.tiempoRestante) ≤ s.tiempoGlobal)) ∧
  (∀ p ∈ s.procesosFinalizados, p.tiempoLlegada ≤ p.tiempoInicio ∧
    p.tiempoInicio + p.tiempoRafaga ≤ p.tiempoFinalizacion ∧
    p.tiempoRespuesta = p.tiempoInicio - p.tiempoLlegada ∧
    p.tiempoEspera = p.tiempoFinalizacion - p.tiempoLlegada - p.tiempoRafaga)

/-- A workload whose run stays within `int`: the arrival time of every record
plus the sum of the bursts of all the records is at most `INT_MAX`. -/
def SinDesborde (ps : List Proceso) : Prop :=
  ∀ p ∈ ps, p.tiempoLlegada + (ps.map (fun q => q.tiempoRafaga)).sum ≤ INT_MAX

/-- Range invariant of a run that stays within `int`: the clock is not
negative; the clock, and the arrival time of every pending record, plus the
time the unfinished records still have to run is at most `INT_MAX`; every
record has a non-negative arrival time and a positive burst; no finished
record has a finish time later than the clock. -/
def MLFQScheduler.Acotado (s : MLFQScheduler) : Prop :=
  0 ≤ s.tiempoGlobal ∧
  s.tiempoGlobal + ((restanteTotal s.vivos : Nat) : Int) ≤ INT_MAX ∧
  (∀ a ∈ s.colaLlegadas, a.tiempoLlegada + ((restanteTotal s.vivos : Nat) : Int) ≤ INT_MAX) ∧
  (∀ p ∈ s.todos, 0 ≤ p.tiempoLlegada ∧ 0 < p.tiempoRafaga) ∧
  (∀ p ∈ s.procesosFinalizados, p.tiempoFinalizacion ≤ s.tiempoGlobal)

/-- The record with its priority value blanked. -/
def sinPrioridad (p : Proceso) : Proceso :=
  { p with prioridad := 0 }

/-- The engine with the priority value of every record it holds blanked. -/
def MLFQScheduler.sinPrioridades (s : MLFQScheduler) : MLFQScheduler :=
  { s with colas := s.colas.map (fun c => c.map sinPrioridad)
           colaLlegadas := s.colaLlegadas.map sinPrioridad
           procesosFinalizados := s.procesosFinalizados.map sinPrioridad }

/-- A sort that reaches the records through the arrival-time comparator only:
two vectors that differ in priority values alone come out in the same
arrangement. -/
def AjenoAPrioridad (S : StdSort) : Prop :=
  ∀ l l2 : List Proceso, l.map sinPrioridad = l2.map sinPrioridad →
    (S.ordenar menorLlegada l).map sinPrioridad =
      (S.ordenar menorLlegada l2).map sinPrioridad

/-- The record `x` wins over the candidate `m` in the SJF/STCF scan: less
remaining time, or the same remaining time and an earlier arrival. -/
def gana (x m : Proceso) : Bool :=
  decide (x.tiempoRestante < m.tiempoRestante ∨
    (x.tiempoRestante = m.tiempoRestante ∧ x.tiempoLlegada < m.tiempoLlegada))

/-- The queue an SJF/STCF scan leaves, told without the holding vector: walk
the queue with the candidate `m` in hand; a record that does not win over the
candidate stays where it is, a record that wins becomes the candidate and the
old candidate is put down in its place. -/
def reinsertar : Proceso → List Proceso → List Proceso
  | _, [] => []
  | m, x :: resto =>
    if gana x m then m :: reinsertar x resto else x :: reinsertar m resto

/-- The spec's reading of an execution of `k` units, "a pure state transition
(remaining −= k)": the remaining time goes down by `k`, nothing else moves. -/
def transicionSpec (p : Proceso) (k : Int) : Proceso :=
  { p with tiempoRestante := p.tiempoRestante - k }

/-- Scenario configuration: one Round Robin level of quantum 3. -/
def esquemasRR3 : List EsquemaCola := [⟨TipoPolitica.ROUND_ROBIN, 3⟩]

/-- Scenario record: burst 6, arrival 0, level 1, priority 5. -/
def procesoUnico : Proceso := Proceso.nuevo "P" 6 0 1 5

/-- Scenario configuration: Round Robin of quantum 2 over Round Robin of
quantum 100. -/
def esquemasDosNiveles : List EsquemaCola :=
  [⟨TipoPolitica.ROUND_ROBIN, 2⟩, ⟨TipoPolitica.ROUND_ROBIN, 100⟩]

/-- Scenario configuration: one Round Robin level of quantum 4. -/
def esquemasRR4 : List EsquemaCola := [⟨TipoPolitica.ROUND_ROBIN, 4⟩]

/-- Scenario record: burst 4, arrival 5, level 1. -/
def procesoTardio : Proceso := Proceso.nuevo "T" 4 5 1 0

/-- Configuration with a single SJF level. -/
def esquemasSJF : List EsquemaCola := [⟨TipoPolitica.SJF, -1⟩]

/-- Workload for a single SJF level: `W` (burst 10) arrives at 0 and keeps the
processor while `A` (burst 5), `X` (burst 7) and `B` (burst 3) arrive at 1, 2
and 3. -/
def cargaSJF : List Proceso :=
  [Proceso.nuevo "W" 10 0 1 0, Proceso.nuevo "A" 5 1 1 0, Proceso.nuevo "X" 7 2 1 0,
    Proceso.nuevo "B" 3 3 1 0]

/-- Sample engine state at clock 3 whose first non-empty level is the SJF
level 1, with two records tied on remaining time 3 and arrival time 0 behind a
record of remaining time 5. -/
def estadoEmpate : MLFQScheduler :=
  { esquemas := [⟨TipoPolitica.ROUND_ROBIN, 2⟩, ⟨TipoPolitica.SJF, -1⟩, ⟨TipoPolitica.STCF, -1⟩]
    colas := [[], [(Proceso.nuevo "X" 5 1 2 0).setCola 1, (Proceso.nuevo "Y" 3 0 2 0).setCola 1,
      (Proceso.nuevo "Z" 3 0 2 0).setCola 1], []]
    colaLlegadas := []
    procesosFinalizados := []
    tiempoGlobal := 3 }

/-- Workload for the STCF level 3 of the sample configuration: `F` (burst 5)
arrives at 0, `G` (burst 2) at 3. -/
def cargaSTCF : List Proceso :=
  [Proceso.nuevo "F" 5 0 3 0, Proceso.nuevo "G" 2 3 3 0]

/-- Sample record `E`: burst 4, arrival 0, level 2. -/
def ejemploE : Proceso := Proceso.nuevo "E" 4 0 2 7

/-- Sample record `A`: burst 5, arrival 0, level 1. -/
def ejemploA : Proceso := Proceso.nuevo "A" 5 0 1 1

/-- Sample record `B`: burst 3, arrival 0, level 1. -/
def ejemploB : Proceso := Proceso.nuevo "B" 3 0 1 1

/-- Sample record `C`: burst 4, arrival 2, level 2. -/
def ejemploC : Proceso := Proceso.nuevo "C" 4 2 2 7

/-- Sample level configuration: Round Robin with quantum 2, SJF, STCF. -/
def esquemasEjemplo : List EsquemaCola :=
  [⟨TipoPolitica.ROUND_ROBIN, 2⟩, ⟨TipoPolitica.SJF, -1⟩, ⟨TipoPolitica.STCF, -1⟩]

/-- Sample engine state at clock 3: `A` and `B` queued at level 0, `C` at
level 1, a record arriving at 5 still in the admission vector. -/
def estadoEjemplo : MLFQScheduler :=
  { esquemas := esquemasEjemplo
    colas := [[ejemploA, ejemploB], [ejemploC], []]
    colaLlegadas := [Proceso.nuevo "D" 2 5 1 0]
    procesosFinalizados := []
    tiempoGlobal := 3 }

/-- Sample engine state at clock 3 whose first non-empty level is the SJF
level 1. -/
def estadoEjemploSJF : MLFQScheduler :=
  { estadoEjemplo with colas := [[], [ejemploA, ejemploC, ejemploB], []] }

/-- Configuration with a single STCF level. -/
def esquemasSTCF : List EsquemaCola := [⟨TipoPolitica.STCF, -1⟩]

/-- Record at the end of the `int` range: burst 1, arrival time `INT_MAX`,
level 1. -/
def procesoLimite : Proceso := Proceso.nuevo "L" 1 2147483647 1 0

/-- Workload at the end of the `int` range: `L` and `M`, both of burst 1 and
arrival time `INT_MAX - 1`, level 1. -/
def cargaLimite : List Proceso :=
  [Proceso.nuevo "L" 1 2147483646 1 0, Proceso.nuevo "M" 1 2147483646 1 0]

/-- Workload of arrival time 0 whose bursts add up to `INT_MAX + 1`: `G` of
burst `INT_MAX` and `U` of burst 1, level 1. -/
def cargaLarga : List Proceso :=
  [Proceso.nuevo "G" 2147483647 0 1 0, Proceso.nuevo "U" 1 0 1 0]

/-- Workload for a single SJF level: `W` (burst 10) arrives at 0 and keeps the
processor while `Y` and `Z` (burst 5, both arriving at 1, registered in this
order) and `B` (burst 3, arriving at 2) arrive. -/
def cargaEmpate : List Proceso :=
  [Proceso.nuevo "W" 10 0 1 0, Proceso.nuevo "Y" 5 1 1 0, Proceso.nuevo "Z" 5 1 1 0,
    Proceso.nuevo "B" 3 2 1 0]

/-- Workload of 17 records of burst 1 and arrival time 0, level 1, labelled
`P00` to `P16` in the order they are registered. -/
def cargaDiecisiete : List Proceso :=
  [Proceso.nuevo "P00" 1 0 1 0, Proceso.nuevo "P01" 1 0 1 0, Proceso.nuevo "P02" 1 0 1 0,
    Proceso.nuevo "P03" 1 0 1 0, Proceso.nuevo "P04" 1 0 1 0, Proceso.nuevo "P05" 1 0 1 0,
    Proceso.nuevo "P06" 1 0 1 0, Proceso.nuevo "P07" 1 0 1 0, Proceso.nuevo "P08" 1 0 1 0,
    Proceso.nuevo "P09" 1 0 1 0, Proceso.nuevo "P10" 1 0 1 0, Proceso.nuevo "P11" 1 0 1 0,
    Proceso.nuevo "P12" 1 0 1 0, Proceso.nuevo "P13" 1 0 1 0, Proceso.nuevo "P14" 1 0 1 0,
    Proceso.nuevo "P15" 1 0 1 0, Proceso.nuevo "P16" 1 0 1 0]

open MLFQScheduler

/-! ## Comparators and the sort promise -/

theorem menorLlegada_orden : OrdenDebilEstricto menorLlegada := by
  constructor
  · intro a; simp [menorLlegada]
  · intro a b c; simp only [menorLlegada, decide_eq_true_eq]; omega
  · intro a b c; simp only [menorLlegada, decide_eq_false_iff_not]; omega

theorem menorRestante_orden : OrdenDebilEstricto menorRestante := by
  constructor
  · intro a; simp [menorRestante]
  · intro a b c
    unfold menorRestante
    split_ifs <;> simp only [decide_eq_true_eq] <;> omega
  · intro a b c
    unfold menorRestante
    split_ifs <;> simp only [decide_eq_false_iff_not] <;> omega

/-- A sort of one element returns it. -/
theorem ordenar_singular (S : StdSort) (p : Proceso) :
    S.ordenar menorRestante [p] = [p] :=
  List.perm_singleton.mp (S.permuta menorRestante [p] menorRestante_orden)

/-! ## Unit execution -/

theorem marcado_iniciado (p : Proceso) (t : Int) : (marcado p t).haIniciado = true := by
  unfold marcado
  split_ifs with h
  · exact h
  · rfl

theorem marcado_restante (p : Proceso) (t : Int) :
    (marcado p t).tiempoRestante = p.tiempoRestante := by
  unfold marcado
  split_ifs <;> rfl

theorem marcado_cola (p : Proceso) (t : Int) : (marcado p t).cola = p.cola := by
  unfold marcado
  split_ifs <;> rfl

/-- A started record executed for `n ≤ remaining` units only loses `n` units of
remaining time. -/
theorem bucleEjecutar_iniciado (p : Proceso) (t : Int) (n : Nat)
    (hi : p.haIniciado = true) (hn : (n : Int) ≤ p.tiempoRestante) :
    bucleEjecutar p t n = { p with tiempoRestante := p.tiempoRestante - n } := by
  induction n with
  | zero => simp [bucleEjecutar]
  | succ k ih =>
    have hk : (k : Int) ≤ p.tiempoRestante := by push_cast at hn; omega
    have hpos : p.tiempoRestante - (k : Int) > 0 := by push_cast at hn; omega
    simp only [bucleEjecutar, ih hk, Proceso.ejecutar, hi, if_true, hpos]
    congr 1
    push_cast
    omega

/-- Integer form of `bucleEjecutar_iniciado`. -/
theorem bucleEjecutar_entero (p : Proceso) (t b : Int)
    (hi : p.haIniciado = true) (h0 : 0 ≤ b) (hb : b ≤ p.tiempoRestante) :
    bucleEjecutar p t b.toNat = { p with tiempoRestante := p.tiempoRestante - b } := by
  have hbn : ((b.toNat : Nat) : Int) = b := Int.toNat_of_nonneg h0
  rw [bucleEjecutar_iniciado p t b.toNat hi (by rw [hbn]; exact hb), hbn]

/-- The loop on the record as dispatched: `b` units off the remaining time. -/
theorem bucle_marcado (p : Proceso) (t b : Int) (h0 : 0 ≤ b) (hb : b ≤ p.tiempoRestante) :
    bucleEjecutar (marcado p t) t b.toNat =
      { marcado p t with tiempoRestante := p.tiempoRestante - b } := by
  rw [bucleEjecutar_entero (marcado p t) t b (marcado_iniciado p t) h0
    (by rw [marcado_restante]; exact hb), marcado_restante]

theorem subindice_nat {α : Type} (v : List α) (i : Nat) : subindice v (i : Int) = v[i]? := by
  simp [subindice]

theorem empujar_nat (colas : List (List Proceso)) (i : Nat) (p : Proceso)
    (hi : i < colas.length) :
    empujar colas (i : Int) p = some (colas.set i (colas[i] ++ [p])) := by
  simp only [empujar, subindice_nat, List.getElem?_eq_getElem hi, Int.toNat_ofNat]

/-! ## Closed forms of the three dispatch cases -/

/-- The Round Robin case of `ejecutarConScheduler` once the number of units `k`
is known. -/
theorem rr_forma (S : StdSort) (s : MLFQScheduler) (p : Proceso) (i : Nat)
    (e : EsquemaCola) (he : s.esquemas[i]? = some e)
    (hrr : e.politica = TipoPolitica.ROUND_ROBIN) (k : Int)
    (hk : min e.quantum p.tiempoRestante = k) (h0 : 0 ≤ k) (j : Nat)
    (hj : min ((i : Int) + 1) ((s.colas.length : Int) - 1) = (j : Int)) :
    ejecutarConScheduler S s p i =
      (if ({ marcado p s.tiempoGlobal with
              tiempoRestante := p.tiempoRestante - k } : Proceso).estaCompleto then
        some (finalizar { s with tiempoGlobal := s.tiempoGlobal + k }
          { marcado p s.tiempoGlobal with tiempoRestante := p.tiempoRestante - k })
       else match empujar s.colas j
            (({ marcado p s.tiempoGlobal with
                tiempoRestante := p.tiempoRestante - k } : Proceso).setCola j) with
         | none => none
         | some colas1 => some { s with tiempoGlobal := s.tiempoGlobal + k, colas := colas1 }) := by
  have hle : k ≤ p.tiempoRestante := by rw [← hk]; exact min_le_right _ _
  have hb := bucle_marcado p s.tiempoGlobal k h0 hle
  simp only [ejecutarConScheduler, subindice_nat, he, hrr, RoundRobinScheduler.nuevo,
    RoundRobinScheduler.agregarProceso, RoundRobinScheduler.obtenerSiguienteProceso,
    RoundRobinScheduler.ejecutarProceso, List.nil_append, marcado_restante, hk, hb, hj]

/-- The SJF case of `ejecutarConScheduler` for a record with remaining time
`r ≥ 0`. -/
theorem sjf_forma (S : StdSort) (s : MLFQScheduler) (p : Proceso) (i : Nat)
    (e : EsquemaCola) (he : s.esquemas[i]? = some e)
    (hsjf : e.politica = TipoPolitica.SJF) (h0 : 0 ≤ p.tiempoRestante) :
    ejecutarConScheduler S s p i =
      some (finalizar { s with tiempoGlobal := s.tiempoGlobal + p.tiempoRestante }
        { marcado p s.tiempoGlobal with tiempoRestante := 0 }) := by
  have hb := bucle_marcado p s.tiempoGlobal p.tiempoRestante h0 (le_refl _)
  rw [sub_self] at hb
  simp only [ejecutarConScheduler, subindice_nat, he, hsjf, SJFScheduler.nuevo,
    SJFScheduler.agregarProceso, SJFScheduler.obtenerSiguienteProceso,
    SJFScheduler.ejecutarProceso, List.nil_append, ordenar_singular, marcado_restante, hb]

/-- The STCF case of `ejecutarConScheduler` once the number of units `b` is
known. -/
theorem stcf_forma (S : StdSort) (s : MLFQScheduler) (p : Proceso) (i : Nat)
    (e : EsquemaCola) (he : s.esquemas[i]? = some e)
    (hstcf : e.politica = TipoPolitica.STCF) (b : Int)
    (hmb : min (tiempoMaximoSTCF s (marcado p s.tiempoGlobal)) p.tiempoRestante = b)
    (h0 : 0 ≤ b) :
    ejecutarConScheduler S s p i =
      (if ({ marcado p s.tiempoGlobal with
              tiempoRestante := p.tiempoRestante - b } : Proceso).estaCompleto then
        some (finalizar { s with tiempoGlobal := s.tiempoGlobal + b }
          { marcado p s.tiempoGlobal with tiempoRestante := p.tiempoRestante - b })
       else match empujar s.colas i
            { marcado p s.tiempoGlobal with tiempoRestante := p.tiempoRestante - b } with
         | none => none
         | some colas1 => some { s with tiempoGlobal := s.tiempoGlobal + b, colas := colas1 }) := by
  have hle : b ≤ p.tiempoRestante := by rw [← hmb]; exact min_le_right _ _
  have hb := bucle_marcado p s.tiempoGlobal b h0 hle
  simp only [ejecutarConScheduler, subindice_nat, he, hstcf, STCFScheduler.nuevo,
    STCFScheduler.agregarProceso, STCFScheduler.obtenerSiguienteProceso,
    STCFScheduler.ejecutarProceso, List.nil_append, ordenar_singular, marcado_restante,
    hmb, hb]

/-- The units of an STCF dispatch, by cases on the admission vector. -/
theorem stcf_unidades (s : MLFQScheduler) (p : Proceso) (hr : 0 ≤ p.tiempoRestante) :
    ∃ b : Int, min (tiempoMaximoSTCF s (marcado p s.tiempoGlobal)) p.tiempoRestante = b ∧
      0 ≤ b ∧ b ≤ p.tiempoRestante ∧ (0 < p.tiempoRestante → 0 < b) ∧
      (s.colaLlegadas = [] → b = p.tiempoRestante) ∧
      (∀ a resto, s.colaLlegadas = a :: resto → a.tiempoLlegada > s.tiempoGlobal →
        b = min p.tiempoRestante (a.tiempoLlegada - s.tiempoGlobal)) ∧
      (∀ a resto, s.colaLlegadas = a :: resto → a.tiempoLlegada ≤ s.tiempoGlobal →
        b = min 1 p.tiempoRestante) := by
  have hcasos : s.colaLlegadas = [] ∨ ∃ a resto, s.colaLlegadas = a :: resto := by
    cases s.colaLlegadas with
    | nil => exact Or.inl rfl
    | cons a resto => exact Or.inr ⟨a, resto, rfl⟩
  rcases hcasos with hL | ⟨a, resto, hL⟩
  · refine ⟨p.tiempoRestante, ?_, hr, le_refl _, fun h => h, fun _ => rfl,
      fun a resto h => ?_, fun a resto h => ?_⟩
    · simp only [tiempoMaximoSTCF, hL, marcado_restante, min_self]
    · rw [hL] at h; cases h
    · rw [hL] at h; cases h
  · by_cases hgt : a.tiempoLlegada > s.tiempoGlobal
    · refine ⟨min p.tiempoRestante (a.tiempoLlegada - s.tiempoGlobal), ?_,
        le_min hr (by omega), min_le_left _ _, fun h => lt_min h (by omega),
        fun h => ?_, fun a2 r2 h _ => ?_, fun a2 r2 h hle2 => ?_⟩
      · simp only [tiempoMaximoSTCF, hL, marcado_restante]
        rw [if_pos hgt]
        exact min_eq_left (min_le_left _ _)
      · rw [hL] at h; cases h
      · rw [hL] at h; cases h; rfl
      · rw [hL] at h; cases h; omega
    · refine ⟨min 1 p.tiempoRestante, ?_, le_min (by omega) hr, min_le_right _ _,
        fun h => lt_min (by omega) h, fun h => ?_, fun a2 r2 h hgt2 => ?_,
        fun a2 r2 h _ => rfl⟩
      · simp only [tiempoMaximoSTCF, hL, marcado_restante]
        rw [if_neg hgt]
      · rw [hL] at h; cases h
      · rw [hL] at h; cases h
        exact absurd hgt2 hgt

/-! ## Selection -/

theorem planificarDesde_vacias (s : MLFQScheduler) (i : Nat) (resto : List (List Proceso))
    (h : ∀ c ∈ resto, c = []) : planificarDesde s i resto = some (((-1 : Int), none), s) := by
  induction resto generalizing i with
  | nil => rfl
  | cons c resto ih =>
    have hc : c = [] := h c (List.mem_cons_self _ _)
    subst hc
    simp only [planificarDesde]
    exact ih (i + 1) (fun c hc => h c (List.mem_cons_of_mem _ hc))

/-- The scan of the levels stops at the first non-empty queue. -/
theorem planificarDesde_primera (s : MLFQScheduler) (i : Nat) (pre : List (List Proceso))
    (p : Proceso) (cola : List Proceso) (post : List (List Proceso))
    (hpre : ∀ c ∈ pre, c = []) (e : EsquemaCola)
    (he : s.esquemas[i + pre.length]? = some e) :
    planificarDesde s i (pre ++ (p :: cola) :: post) =
      if e.politica = TipoPolitica.ROUND_ROBIN then
        some ((((i + pre.length : Nat) : Int), some p),
          { s with colas := s.colas.set (i + pre.length) cola })
      else
        some ((((i + pre.length : Nat) : Int),
            (buscarMejor (p :: cola) none INT_MAX []).1),
          { s with colas :=
              (s.colas.set (i + pre.length) (buscarMejor (p :: cola) none INT_MAX []).2) }) := by
  induction pre generalizing i with
  | nil =>
    simp only [List.length_nil, Nat.add_zero] at he
    simp only [List.nil_append, planificarDesde, List.length_nil, Nat.add_zero, he]
  | cons c pre ih =>
    have hc : c = [] := hpre c (List.mem_cons_self _ _)
    subst hc
    have hidx : i + 1 + pre.length = i + ([] :: pre).length := by
      simp only [List.length_cons]; omega
    show planificarDesde s (i + 1) (pre ++ (p :: cola) :: post) = _
    rw [ih (i + 1) (fun c hc => hpre c (List.mem_cons_of_mem _ hc)) (by rw [hidx]; exact he),
      hidx]

/-- Either every queue is empty or there is a first non-empty one. -/
theorem primera_no_vacia (L : List (List Proceso)) :
    (∀ c ∈ L, c = []) ∨
      ∃ pre p cola post, L = pre ++ (p :: cola) :: post ∧ ∀ c ∈ pre, c = [] := by
  induction L with
  | nil => exact Or.inl (fun c hc => by cases hc)
  | cons c L ih =>
    cases c with
    | cons p cola => exact Or.inr ⟨[], p, cola, L, rfl, fun c hc => by cases hc⟩
    | nil =>
      rcases ih with h | ⟨pre, p, cola, post, hL, hpre⟩
      · left
        intro c hc
        rcases List.mem_cons.mp hc with h1 | h1
        · exact h1
        · exact h c h1
      · right
        refine ⟨[] :: pre, p, cola, post, by rw [hL]; rfl, ?_⟩
        intro c hc
        rcases List.mem_cons.mp hc with h1 | h1
        · exact h1
        · exact hpre c h1

/-- Invariant of the SJF/STCF scan once a candidate is held: the result is a
candidate no worse than every record set aside, and nothing is lost. -/
theorem buscarMejor_some (resto : List Proceso) (m : Proceso) (temp : List Proceso)
    (htemp : ∀ x ∈ temp, noPeor m x) :
    ∃ m2 temp2, buscarMejor resto (some m) m.tiempoRestante temp = (some m2, temp2) ∧
      (m2 :: temp2).Perm (m :: (temp ++ resto)) ∧ ∀ x ∈ temp2, noPeor m2 x := by
  induction resto generalizing m temp with
  | nil =>
    refine ⟨m, temp, rfl, ?_, htemp⟩
    simp
  | cons p resto ih =>
    by_cases hb : esMejor p (some m) m.tiempoRestante = true
    · have hpm : noPeor p m := by
        simp only [esMejor, Bool.or_eq_true, Bool.and_eq_true, decide_eq_true_eq] at hb
        unfold noPeor
        omega
      have htemp2 : ∀ x ∈ temp ++ [m], noPeor p x := by
        intro x hx
        rcases List.mem_append.mp hx with h1 | h1
        · have := htemp x h1
          unfold noPeor at *
          omega
        · rw [List.mem_singleton.mp h1]
          exact hpm
      obtain ⟨m2, temp2, h1, h2, h3⟩ := ih p (temp ++ [m]) htemp2
      refine ⟨m2, temp2, ?_, ?_, h3⟩
      · simp only [buscarMejor, hb, if_true]
        exact h1
      · refine h2.trans ?_
        simp only [List.append_assoc, List.singleton_append]
        have e1 : (temp ++ m :: resto).Perm (m :: (temp ++ resto)) := List.perm_middle
        have e2 : (temp ++ p :: resto).Perm (p :: (temp ++ resto)) := List.perm_middle
        exact ((e1.cons p).trans (List.Perm.swap m p _)).trans (e2.symm.cons m)
    · have hmp : noPeor m p := by
        simp only [esMejor, Bool.or_eq_true, Bool.and_eq_true, decide_eq_true_eq,
          not_or, not_and, not_lt] at hb
        unfold noPeor
        omega
      have htemp2 : ∀ x ∈ temp ++ [p], noPeor m x := by
        intro x hx
        rcases List.mem_append.mp hx with h1 | h1
        · exact htemp x h1
        · rw [List.mem_singleton.mp h1]
          exact hmp
      obtain ⟨m2, temp2, h1, h2, h3⟩ := ih m (temp ++ [p]) htemp2
      refine ⟨m2, temp2, ?_, ?_, h3⟩
      · simp only [buscarMejor, hb, Bool.false_eq_true, if_false]
        exact h1
      · refine h2.trans ?_
        simp only [List.append_assoc, List.singleton_append]
        exact List.Perm.refl _

/-- The scan of a non-empty queue whose first record fits an `int`. -/
theorem buscarMejor_inicial (p : Proceso) (cola : List Proceso)
    (hp : p.tiempoRestante ≤ INT_MAX) :
    ∃ m temp, buscarMejor (p :: cola) none INT_MAX [] = (some m, temp) ∧
      (m :: temp).Perm (p :: cola) ∧ ∀ x ∈ p :: cola, noPeor m x := by
  have hb : esMejor p none INT_MAX = true := by
    simp only [esMejor, Bool.or_eq_true, Bool.and_eq_true, decide_eq_true_eq, and_true]
    omega
  obtain ⟨m, temp, h1, h2, h3⟩ := buscarMejor_some cola p [] (fun x hx => by cases hx)
  refine ⟨m, temp, ?_, ?_, ?_⟩
  · simp only [buscarMejor, hb, if_true]
    exact h1
  · simpa using h2
  · intro x hx
    have hx2 : x ∈ m :: temp := (List.Perm.mem_iff (by simpa using h2)).mpr hx
    rcases List.mem_cons.mp hx2 with h | h
    · rw [h]
      unfold noPeor
      omega
    · exact h3 x h

/-- A queue at index `i` preceded by empty queues splits the list of queues. -/
theorem descomponer_en (L : List (List Proceso)) (i : Nat) (cola : List Proceso)
    (hcola : L[i]? = some cola) (hprev : ∀ j, j < i → L[j]? = some []) :
    L = L.take i ++ cola :: L.drop (i + 1) ∧ (L.take i).length = i ∧
      ∀ c ∈ L.take i, c = [] := by
  have hi : i < L.length := by
    by_contra h
    rw [List.getElem?_eq_none (by omega)] at hcola
    cases hcola
  have hget : L[i] = cola := by
    rw [List.getElem?_eq_getElem hi] at hcola
    exact Option.some.inj hcola
  refine ⟨?_, ?_, ?_⟩
  · rw [← hget, ← List.drop_eq_getElem_cons hi, List.take_append_drop]
  · rw [List.length_take]; omega
  · intro c hc
    obtain ⟨j, hj, hjc⟩ := List.getElem_of_mem hc
    rw [List.length_take] at hj
    have hji : j < i := by omega
    have h2 := hprev j hji
    rw [List.getElem_take] at hjc
    rw [List.getElem?_eq_getElem (by omega)] at h2
    rw [← hjc]
    exact Option.some.inj h2

/-- Selection in closed form: with the queues split at the first non-empty
one, `planificar` answers by the policy of that level. -/
theorem planificar_primera (s : MLFQScheduler) (pre : List (List Proceso))
    (p : Proceso) (cola : List Proceso) (post : List (List Proceso))
    (hL : s.colas = pre ++ (p :: cola) :: post) (hpre : ∀ c ∈ pre, c = [])
    (e : EsquemaCola) (he : s.esquemas[pre.length]? = some e) :
    planificar s =
      if e.politica = TipoPolitica.ROUND_ROBIN then
        some (((pre.length : Int), some p), { s with colas := s.colas.set pre.length cola })
      else
        some (((pre.length : Int), (buscarMejor (p :: cola) none INT_MAX []).1),
          { s with colas :=
              (s.colas.set pre.length (buscarMejor (p :: cola) none INT_MAX []).2) }) := by
  have h := planificarDesde_primera s 0 pre p cola post hpre e (by rw [Nat.zero_add]; exact he)
  rw [← hL] at h
  simpa only [planificar, Nat.zero_add] using h

/-! ## Registration (`agregarProceso`) -/

theorem agregarProceso_ordenada (S : StdSort) (s : MLFQScheduler) (p : Proceso) :
    (agregarProceso S s p).colaLlegadas.Pairwise
      (fun a b => a.tiempoLlegada ≤ b.tiempoLlegada) := by
  have h := S.ordena menorLlegada (s.colaLlegadas ++ [p]) menorLlegada_orden
  refine List.Pairwise.imp ?_ h
  intro a b hab
  simp only [menorLlegada, decide_eq_false_iff_not, not_lt] at hab
  exact hab

theorem agregarProceso_perm (S : StdSort) (s : MLFQScheduler) (p : Proceso) :
    (agregarProceso S s p).colaLlegadas.Perm (s.colaLlegadas ++ [p]) :=
  S.permuta menorLlegada (s.colaLlegadas ++ [p]) menorLlegada_orden

theorem foldl_agregar_perm (S : StdSort) (s : MLFQScheduler) (ps : List Proceso) :
    (ps.foldl (agregarProceso S) s).colaLlegadas.Perm (s.colaLlegadas ++ ps) := by
  induction ps generalizing s with
  | nil => simp
  | cons p ps ih =>
    simp only [List.foldl_cons]
    refine (ih (agregarProceso S s p)).trans ?_
    have h := (agregarProceso_perm S s p).append_right ps
    simpa using h

theorem foldl_agregar_ordenada (S : StdSort) (s : MLFQScheduler) (ps : List Proceso)
    (hs : s.colaLlegadas.Pairwise (fun a b => a.tiempoLlegada ≤ b.tiempoLlegada)) :
    (ps.foldl (agregarProceso S) s).colaLlegadas.Pairwise
      (fun a b => a.tiempoLlegada ≤ b.tiempoLlegada) := by
  induction ps generalizing s with
  | nil => exact hs
  | cons p ps ih =>
    simp only [List.foldl_cons]
    exact ih _ (agregarProceso_ordenada S s p)

/-- Registration touches the admission vector only. -/
theorem foldl_agregar_resto (S : StdSort) (s : MLFQScheduler) (ps : List Proceso) :
    (ps.foldl (agregarProceso S) s).esquemas = s.esquemas ∧
    (ps.foldl (agregarProceso S) s).colas = s.colas ∧
    (ps.foldl (agregarProceso S) s).procesosFinalizados = s.procesosFinalizados ∧
    (ps.foldl (agregarProceso S) s).tiempoGlobal = s.tiempoGlobal := by
  induction ps generalizing s with
  | nil => exact ⟨rfl, rfl, rfl, rfl⟩
  | cons p ps ih =>
    simp only [List.foldl_cons]
    exact ih (agregarProceso S s p)

/-- Insertion of one element keeps, for every arrival time, the records of
that arrival time in their order, the new one first. -/
theorem filter_orderedInsert (t : Int) (x : Proceso) (l : List Proceso) :
    (List.orderedInsert (fun a b => menorLlegada b a = false) x l).filter
        (fun a => decide (a.tiempoLlegada = t)) =
      (x :: l).filter (fun a => decide (a.tiempoLlegada = t)) := by
  induction l with
  | nil => rfl
  | cons y l ih =>
    by_cases h : menorLlegada y x = false
    · simp only [List.orderedInsert, h, if_true]
    · have hyx : y.tiempoLlegada < x.tiempoLlegada := by
        simpa [menorLlegada] using h
      rw [List.orderedInsert, if_neg h, List.filter_cons, ih]
      by_cases hx : x.tiempoLlegada = t
      · have hy : ¬ y.tiempoLlegada = t := by omega
        simp [List.filter_cons, hx, hy]
      · simp [List.filter_cons, hx]

/-- Insertion sort by arrival time keeps records of equal arrival time in
their input order. -/
theorem insercion_estable (l : List Proceso) (t : Int) :
    (insercion.ordenar menorLlegada l).filter (fun a => decide (a.tiempoLlegada = t)) =
      l.filter (fun a => decide (a.tiempoLlegada = t)) := by
  show (List.insertionSort (fun a b => menorLlegada b a = false) l).filter _ = _
  induction l with
  | nil => rfl
  | cons x l ih =>
    rw [List.insertionSort, filter_orderedInsert, List.filter_cons, ih, List.filter_cons]

/-! ## Claims on selection, dispatch and registration -/

/-- C4. In an engine state (as many queues as level descriptors, remaining
times within `int`), `planificar` returns `(-1, nullptr)` exactly when every
level queue is empty, and then the engine is unchanged; otherwise it returns
the index `i` of the first non-empty queue together with a record `p` of that
queue, the queues before `i` are empty, and the engine afterwards differs only
in queue `i`, which holds the old content without `p`. -/
theorem C4_planificar_primer_nivel (s : MLFQScheduler)
    (hlen : s.colas.length = s.esquemas.length)
    (hint : ∀ cola ∈ s.colas, ∀ x ∈ cola, x.tiempoRestante ≤ INT_MAX) :
    ∃ r s2, planificar s = some (r, s2) ∧
      (r = ((-1 : Int), none) ↔ ∀ cola ∈ s.colas, cola = []) ∧
      (r = ((-1 : Int), none) → s2 = s) ∧
      (r ≠ ((-1 : Int), none) →
        ∃ (i : Nat) (p : Proceso) (cola resto : List Proceso),
          r = ((i : Int), some p) ∧ s.colas[i]? = some cola ∧ cola ≠ [] ∧
          (∀ j, j < i → s.colas[j]? = some []) ∧
          p ∈ cola ∧ cola.Perm (p :: resto) ∧
          s2 = { s with colas := s.colas.set i resto }) := by
  rcases primera_no_vacia s.colas with hvac | ⟨pre, p, cola, post, hL, hpre⟩
  · refine ⟨_, _, planificarDesde_vacias s 0 s.colas hvac, ?_, fun _ => rfl, ?_⟩
    · exact ⟨fun _ => hvac, fun _ => rfl⟩
    · intro h; exact absurd rfl h
  · have hi : pre.length < s.esquemas.length := by
      rw [← hlen, hL, List.length_append, List.length_cons]; omega
    have he : s.esquemas[pre.length]? = some s.esquemas[pre.length] :=
      List.getElem?_eq_getElem hi
    have hcola : s.colas[pre.length]? = some (p :: cola) := by
      rw [hL, List.getElem?_append_right (le_refl _)]
      simp
    have hprev : ∀ j, j < pre.length → s.colas[j]? = some [] := by
      intro j hj
      rw [hL, List.getElem?_append_left hj, List.getElem?_eq_getElem hj]
      exact congrArg some (hpre _ (List.getElem_mem _))
    have hno : ¬ ∀ c ∈ s.colas, c = [] := by
      intro h
      have := h (p :: cola) (by rw [hL]; simp)
      cases this
    have hplan := planificar_primera s pre p cola post hL hpre _ he
    by_cases hrr : (s.esquemas[pre.length]).politica = TipoPolitica.ROUND_ROBIN
    · rw [if_pos hrr] at hplan
      refine ⟨_, _, hplan, ?_, ?_, ?_⟩
      · exact ⟨fun h => (by cases h), fun h => absurd h hno⟩
      · intro h; cases h
      · intro _
        exact ⟨pre.length, p, p :: cola, cola, rfl, hcola, by simp, hprev,
          List.mem_cons_self _ _, List.Perm.refl _, rfl⟩
    · rw [if_neg hrr] at hplan
      obtain ⟨m, temp, hb, hperm, _⟩ :=
        buscarMejor_inicial p cola
          (hint (p :: cola) (by rw [hL]; simp) p (List.mem_cons_self _ _))
      rw [hb] at hplan
      refine ⟨_, _, hplan, ?_, ?_, ?_⟩
      · exact ⟨fun h => (by cases h), fun h => absurd h hno⟩
      · intro h; cases h
      · intro _
        exact ⟨pre.length, m, p :: cola, temp, rfl, hcola, by simp, hprev,
          (List.Perm.mem_iff hperm).mp (List.mem_cons_self _ _), hperm.symm, rfl⟩

/-- C4 at the sample state: the selection exists and is not the none result. -/
theorem C4_planificar_primer_nivel_witness :
    ∃ r s2, planificar estadoEjemplo = some (r, s2) ∧
      (r = ((-1 : Int), none) ↔ ∀ cola ∈ estadoEjemplo.colas, cola = []) ∧
      (r = ((-1 : Int), none) → s2 = estadoEjemplo) ∧
      (r ≠ ((-1 : Int), none) →
        ∃ (i : Nat) (p : Proceso) (cola resto : List Proceso),
          r = ((i : Int), some p) ∧ estadoEjemplo.colas[i]? = some cola ∧ cola ≠ [] ∧
          (∀ j, j < i → estadoEjemplo.colas[j]? = some []) ∧
          p ∈ cola ∧ cola.Perm (p :: resto) ∧
          s2 = { estadoEjemplo with colas := estadoEjemplo.colas.set i resto }) :=
  C4_planificar_primer_nivel estadoEjemplo (by decide) (by decide)

/-- C5. When the first non-empty level `i` has policy SJF or STCF (remaining
times within `int`), `planificar` returns `(i, r)` with `r` a record of that
queue such that no record of the queue has a smaller remaining time, and no
record with the same remaining time has a smaller arrival time; the engine
afterwards differs only in queue `i`, and the old queue is a permutation of
`r` followed by the new queue. -/
theorem C5_planificar_sjf_stcf (s : MLFQScheduler) (i : Nat) (cola : List Proceso)
    (e : EsquemaCola) (hcola : s.colas[i]? = some cola) (hne : cola ≠ [])
    (hprev : ∀ j, j < i → s.colas[j]? = some [])
    (he : s.esquemas[i]? = some e)
    (hpol : e.politica = TipoPolitica.SJF ∨ e.politica = TipoPolitica.STCF)
    (hint : ∀ x ∈ cola, x.tiempoRestante ≤ INT_MAX) :
    ∃ r resto,
      planificar s = some (((i : Int), some r), { s with colas := s.colas.set i resto }) ∧
      r ∈ cola ∧
      (∀ x ∈ cola, r.tiempoRestante ≤ x.tiempoRestante) ∧
      (∀ x ∈ cola, x.tiempoRestante = r.tiempoRestante → r.tiempoLlegada ≤ x.tiempoLlegada) ∧
      cola.Perm (r :: resto) := by
  obtain ⟨hL, hlen, hpre⟩ := descomponer_en s.colas i cola hcola hprev
  cases cola with
  | nil => exact absurd rfl hne
  | cons p cola =>
    obtain ⟨m, temp, hb, hperm, hmin⟩ :=
      buscarMejor_inicial p cola (hint p (List.mem_cons_self _ _))
    have hnrr : ¬ e.politica = TipoPolitica.ROUND_ROBIN := by
      rcases hpol with h | h <;> rw [h] <;> decide
    have hplan := planificar_primera s _ p cola _ hL hpre e (by rw [hlen]; exact he)
    rw [if_neg hnrr, hb, hlen] at hplan
    refine ⟨m, temp, hplan, ?_, ?_, ?_, hperm.symm⟩
    · exact (List.Perm.mem_iff hperm).mp (List.mem_cons_self _ _)
    · intro x hx
      have := hmin x hx
      unfold noPeor at this
      omega
    · intro x hx heq
      have := hmin x hx
      unfold noPeor at this
      omega

/-- C5 at the sample state whose first non-empty level is the SJF level: `B`
(remaining 3) is selected out of `A` (5), `C` (4), `B` (3). -/
theorem C5_planificar_sjf_stcf_witness :
    ∃ r resto,
      planificar estadoEjemploSJF =
        some ((((1 : Nat) : Int), some r),
          { estadoEjemploSJF with colas := estadoEjemploSJF.colas.set 1 resto }) ∧
      r ∈ [ejemploA, ejemploC, ejemploB] ∧
      (∀ x ∈ [ejemploA, ejemploC, ejemploB], r.tiempoRestante ≤ x.tiempoRestante) ∧
      (∀ x ∈ [ejemploA, ejemploC, ejemploB],
        x.tiempoRestante = r.tiempoRestante → r.tiempoLlegada ≤ x.tiempoLlegada) ∧
      [ejemploA, ejemploC, ejemploB].Perm (r :: resto) :=
  C5_planificar_sjf_stcf estadoEjemploSJF 1 [ejemploA, ejemploC, ejemploB]
    ⟨TipoPolitica.SJF, -1⟩ (by decide) (by decide) (by decide) (by decide)
    (Or.inl rfl) (by decide)

/-- C9. After `agregarProceso` the admission vector is sorted ascending by
arrival time and is a permutation of what it held before plus the new record;
after any sequence of registrations on a fresh engine it is sorted and is a
permutation of the registered records. -/
theorem C9_colaLlegadas_ordenada_permutacion (S : StdSort) (s : MLFQScheduler)
    (p : Proceso) (esq : List EsquemaCola) (ps : List Proceso) :
    ((agregarProceso S s p).colaLlegadas.Pairwise
        (fun a b => a.tiempoLlegada ≤ b.tiempoLlegada) ∧
      (agregarProceso S s p).colaLlegadas.Perm (s.colaLlegadas ++ [p])) ∧
    ((cargar S esq ps).colaLlegadas.Pairwise
        (fun a b => a.tiempoLlegada ≤ b.tiempoLlegada) ∧
      (cargar S esq ps).colaLlegadas.Perm ps) := by
  refine ⟨⟨agregarProceso_ordenada S s p, agregarProceso_perm S s p⟩, ?_, ?_⟩
  · exact foldl_agregar_ordenada S (nuevo esq) ps List.Pairwise.nil
  · have h := foldl_agregar_perm S (nuevo esq) ps
    simpa [cargar, nuevo] using h

/-! ## Frame lemmas for the engine operations -/

/-- Replacing queue `i` changes the concatenation of the queues at one place. -/
theorem flatten_set (L : List (List Proceso)) (i : Nat) (q q2 : List Proceso)
    (h : L[i]? = some q) :
    ∃ X Y, L.flatten = X ++ q ++ Y ∧ (L.set i q2).flatten = X ++ q2 ++ Y := by
  induction L generalizing i with
  | nil => simp at h
  | cons c L ih =>
    cases i with
    | zero =>
      simp only [List.getElem?_cons_zero, Option.some.injEq] at h
      subst h
      exact ⟨[], L.flatten, by simp, by simp⟩
    | succ k =>
      simp only [List.getElem?_cons_succ] at h
      obtain ⟨X, Y, h1, h2⟩ := ih k h
      refine ⟨c ++ X, Y, ?_, ?_⟩
      · simp only [List.flatten_cons, h1, List.append_assoc]
      · simp only [List.set_cons_succ, List.flatten_cons, h2, List.append_assoc]

theorem flatten_set_perm (L : List (List Proceso)) (i : Nat) (q q2 : List Proceso)
    (h : L[i]? = some q) (x : Proceso) (hq : q2.Perm (x :: q)) :
    (L.set i q2).flatten.Perm (x :: L.flatten) := by
  obtain ⟨X, Y, h1, h2⟩ := flatten_set L i q q2 h
  rw [h1, h2]
  have e1 : (X ++ q2 ++ Y).Perm (X ++ (x :: q) ++ Y) :=
    (List.Perm.append_left X hq).append_right Y
  refine e1.trans ?_
  simp only [List.append_assoc, List.cons_append]
  exact List.perm_middle

theorem flatten_quitar_perm (L : List (List Proceso)) (i : Nat) (q q2 : List Proceso)
    (h : L[i]? = some q) (o : List Proceso) (hq : (o ++ q2).Perm q) :
    (o ++ (L.set i q2).flatten).Perm L.flatten := by
  obtain ⟨X, Y, h1, h2⟩ := flatten_set L i q q2 h
  rw [h1, h2]
  have e1 : (X ++ (o ++ q2) ++ Y).Perm (X ++ q ++ Y) :=
    (List.Perm.append_left X hq).append_right Y
  refine List.Perm.trans ?_ e1
  simp only [List.append_assoc]
  exact List.perm_append_comm_assoc o X (q2 ++ Y)

/-- The statement `colas[n].push(p)` when it is defined. -/
theorem empujar_some (colas : List (List Proceso)) (n : Int) (p : Proceso)
    (c1 : List (List Proceso)) (h : empujar colas n p = some c1) :
    c1.length = colas.length ∧ c1.flatten.Perm (p :: colas.flatten) := by
  unfold empujar at h
  cases hq : subindice colas n with
  | none => rw [hq] at h; cases h
  | some q =>
    rw [hq] at h
    simp only [Option.some.injEq] at h
    subst h
    have hq2 : colas[n.toNat]? = some q := by
      unfold subindice at hq
      split_ifs at hq
      exact hq
    refine ⟨List.length_set _ _ _, ?_⟩
    exact flatten_set_perm colas n.toNat q (q ++ [p]) hq2 p
      (List.perm_append_singleton p q)

theorem empujar_existe (colas : List (List Proceso)) (n : Int) (p : Proceso)
    (h0 : 0 ≤ n) (hn : n < (colas.length : Int)) :
    ∃ c1, empujar colas n p = some c1 := by
  have hlt : n.toNat < colas.length := by omega
  have hq : subindice colas n = some colas[n.toNat] := by
    unfold subindice
    rw [if_pos h0, List.getElem?_eq_getElem hlt]
  exact ⟨_, by unfold empujar; rw [hq]⟩

/-- The admission loop when it is defined: a prefix `adm` of records that have
arrived is moved to the queues, each with its current level set. -/
theorem moverBucle_some (t : Int) (ll : List Proceso) (colas : List (List Proceso))
    (l2 : List Proceso) (c2 : List (List Proceso))
    (h : moverBucle t ll colas = some (l2, c2)) :
    ∃ adm, ll = adm ++ l2 ∧ (∀ p ∈ adm, p.tiempoLlegada ≤ t) ∧
      (∀ a r, l2 = a :: r → a.tiempoLlegada > t) ∧
      c2.length = colas.length ∧
      c2.flatten.Perm
        (colas.flatten ++ adm.map (fun p => p.setCola (p.colaOriginal - 1))) ∧
      (adm = [] → c2 = colas) := by
  induction ll generalizing colas with
  | nil =>
    simp only [moverBucle, Option.some.injEq, Prod.mk.injEq] at h
    obtain ⟨h1, h2⟩ := h
    subst h1; subst h2
    exact ⟨[], rfl, fun p hp => (by cases hp), fun a r hh => (by cases hh), rfl,
      by simp, fun _ => rfl⟩
  | cons p resto ih =>
    by_cases hp : p.tiempoLlegada ≤ t
    · simp only [moverBucle, hp, if_true] at h
      cases he : empujar colas (p.colaOriginal - 1) (p.setCola (p.colaOriginal - 1)) with
      | none => rw [he] at h; cases h
      | some c1 =>
        rw [he] at h
        obtain ⟨hlen1, hperm1⟩ := empujar_some _ _ _ _ he
        obtain ⟨adm, h1, h2, h3, h4, h5, _⟩ := ih c1 h
        refine ⟨p :: adm, by rw [h1]; rfl, ?_, h3, by rw [h4, hlen1], ?_, fun hh => (by cases hh)⟩
        · intro x hx
          rcases List.mem_cons.mp hx with hx1 | hx1
          · rw [hx1]; exact hp
          · exact h2 x hx1
        · refine h5.trans ?_
          simp only [List.map_cons]
          have := hperm1.append_right (adm.map (fun p => p.setCola (p.colaOriginal - 1)))
          refine this.trans ?_
          simp only [List.cons_append]
          exact List.perm_middle.symm
    · simp only [moverBucle, hp, if_false, Option.some.injEq, Prod.mk.injEq] at h
      obtain ⟨h1, h2⟩ := h
      subst h1; subst h2
      refine ⟨[], rfl, fun p hp => (by cases hp), ?_, rfl, by simp, fun _ => rfl⟩
      intro a r hh
      cases hh
      omega

theorem moverBucle_existe (t : Int) (ll : List Proceso) (colas : List (List Proceso))
    (hll : ∀ p ∈ ll, 1 ≤ p.colaOriginal ∧ p.colaOriginal ≤ (colas.length : Int)) :
    ∃ r, moverBucle t ll colas = some r := by
  induction ll generalizing colas with
  | nil => exact ⟨_, rfl⟩
  | cons p resto ih =>
    by_cases hp : p.tiempoLlegada ≤ t
    · have hr := hll p (List.mem_cons_self _ _)
      obtain ⟨c1, he⟩ := empujar_existe colas (p.colaOriginal - 1)
        (p.setCola (p.colaOriginal - 1)) (by omega) (by omega)
      have hlen1 := (empujar_some _ _ _ _ he).1
      obtain ⟨r, hr2⟩ := ih c1 (fun x hx => by
        rw [hlen1]; exact hll x (List.mem_cons_of_mem _ hx))
      exact ⟨r, by simp only [moverBucle, hp, if_true, he]; exact hr2⟩
    · exact ⟨(p :: resto, colas), by simp only [moverBucle, hp, if_false]⟩

/-- Admission when it is defined. -/
theorem mover_some (s s1 : MLFQScheduler) (h : moverProcesosLlegados s = some s1) :
    s1.esquemas = s.esquemas ∧ s1.procesosFinalizados = s.procesosFinalizados ∧
    s1.tiempoGlobal = s.tiempoGlobal ∧
    ∃ adm, s.colaLlegadas = adm ++ s1.colaLlegadas ∧
      (∀ p ∈ adm, p.tiempoLlegada ≤ s.tiempoGlobal) ∧
      (∀ a r, s1.colaLlegadas = a :: r → a.tiempoLlegada > s.tiempoGlobal) ∧
      s1.colas.length = s.colas.length ∧
      s1.colas.flatten.Perm
        (s.colas.flatten ++ adm.map (fun p => p.setCola (p.colaOriginal - 1))) ∧
      (adm = [] → s1 = s) := by
  unfold moverProcesosLlegados at h
  cases hm : moverBucle s.tiempoGlobal s.colaLlegadas s.colas with
  | none => rw [hm] at h; cases h
  | some r =>
    obtain ⟨l2, c2⟩ := r
    rw [hm] at h
    simp only [Option.some.injEq] at h
    subst h
    obtain ⟨adm, h1, h2, h3, h4, h5, h6⟩ := moverBucle_some _ _ _ _ _ hm
    refine ⟨rfl, rfl, rfl, adm, h1, h2, h3, h4, h5, ?_⟩
    intro hadm
    have hc := h6 hadm
    subst hadm
    simp only [List.nil_append] at h1
    rw [← h1, hc]

theorem buscarMejor_perm (resto : List Proceso) (mejor : Option Proceso) (menor : Int)
    (temp : List Proceso) :
    ((buscarMejor resto mejor menor temp).1.toList ++
        (buscarMejor resto mejor menor temp).2).Perm (mejor.toList ++ (temp ++ resto)) := by
  induction resto generalizing mejor menor temp with
  | nil => simp [buscarMejor]
  | cons p resto ih =>
    by_cases hb : esMejor p mejor menor = true
    · simp only [buscarMejor, hb, if_true]
      refine (ih _ _ _).trans ?_
      cases mejor with
      | none =>
        simp only [Option.toList, List.nil_append, List.singleton_append]
        exact List.perm_middle.symm
      | some m =>
        simp only [Option.toList, List.singleton_append, List.append_assoc]
        have e1 : (temp ++ m :: resto).Perm (m :: (temp ++ resto)) := List.perm_middle
        have e2 : (temp ++ p :: resto).Perm (p :: (temp ++ resto)) := List.perm_middle
        exact ((e1.cons p).trans (List.Perm.swap m p _)).trans (e2.symm.cons m)
    · simp only [buscarMejor, hb, Bool.false_eq_true, if_false]
      refine (ih _ _ _).trans ?_
      simp only [List.append_assoc, List.singleton_append]
      exact List.Perm.refl _

theorem planificarDesde_sin_esquema (s : MLFQScheduler) (i : Nat) (pre : List (List Proceso))
    (p : Proceso) (cola : List Proceso) (post : List (List Proceso))
    (hpre : ∀ c ∈ pre, c = []) (he : s.esquemas[i + pre.length]? = none) :
    planificarDesde s i (pre ++ (p :: cola) :: post) = none := by
  induction pre generalizing i with
  | nil =>
    simp only [List.length_nil, Nat.add_zero] at he
    simp only [List.nil_append, planificarDesde, he]
  | cons c pre ih =>
    have hc : c = [] := hpre c (List.mem_cons_self _ _)
    subst hc
    have hidx : i + 1 + pre.length = i + ([] :: pre).length := by
      simp only [List.length_cons]; omega
    show planificarDesde s (i + 1) (pre ++ (p :: cola) :: post) = _
    exact ih (i + 1) (fun c hc => hpre c (List.mem_cons_of_mem _ hc)) (by rw [hidx]; exact he)

/-- Selection when it is defined: nothing queued and the none result, or a
record taken out of the first non-empty queue. -/
theorem planificar_some (s : MLFQScheduler) (i : Int) (o : Option Proceso)
    (s2 : MLFQScheduler) (h : planificar s = some ((i, o), s2)) :
    ((∀ c ∈ s.colas, c = []) ∧ i = -1 ∧ o = none ∧ s2 = s) ∨
    ∃ (k : Nat) (e : EsquemaCola) (cola resto : List Proceso),
      i = (k : Int) ∧ s.colas[k]? = some cola ∧ cola ≠ [] ∧
      (∀ j, j < k → s.colas[j]? = some []) ∧ s.esquemas[k]? = some e ∧
      s2 = { s with colas := s.colas.set k resto } ∧ (o.toList ++ resto).Perm cola ∧
      ((∀ x ∈ cola, x.tiempoRestante ≤ INT_MAX) → ∃ p, o = some p) := by
  rcases primera_no_vacia s.colas with hvac | ⟨pre, p, cola, post, hL, hpre⟩
  · left
    have h2 := planificarDesde_vacias s 0 s.colas hvac
    unfold planificar at h
    rw [h2] at h
    simp only [Option.some.injEq, Prod.mk.injEq] at h
    exact ⟨hvac, h.1.1.symm, h.1.2.symm, h.2.symm⟩
  · right
    have hcola : s.colas[pre.length]? = some (p :: cola) := by
      rw [hL, List.getElem?_append_right (le_refl _)]
      simp
    have hprev : ∀ j, j < pre.length → s.colas[j]? = some [] := by
      intro j hj
      rw [hL, List.getElem?_append_left hj, List.getElem?_eq_getElem hj]
      exact congrArg some (hpre _ (List.getElem_mem _))
    cases he : s.esquemas[pre.length]? with
    | none =>
      have h2 := planificarDesde_sin_esquema s 0 pre p cola post hpre
        (by rw [Nat.zero_add]; exact he)
      unfold planificar at h
      rw [hL, h2] at h
      cases h
    | some e =>
      have hplan := planificar_primera s pre p cola post hL hpre e he
      rw [hplan] at h
      by_cases hrr : e.politica = TipoPolitica.ROUND_ROBIN
      · rw [if_pos hrr] at h
        simp only [Option.some.injEq, Prod.mk.injEq] at h
        obtain ⟨⟨h1, h2⟩, h3⟩ := h
        refine ⟨pre.length, e, p :: cola, cola, h1.symm, hcola, by simp, hprev, he, h3.symm,
          ?_, fun _ => ⟨p, h2.symm⟩⟩
        rw [← h2]
        exact List.Perm.refl _
      · rw [if_neg hrr] at h
        simp only [Option.some.injEq, Prod.mk.injEq] at h
        obtain ⟨⟨h1, h2⟩, h3⟩ := h
        refine ⟨pre.length, e, p :: cola, _, h1.symm, hcola, by simp, hprev, he, h3.symm,
          ?_, ?_⟩
        · rw [← h2]
          have := buscarMejor_perm (p :: cola) none INT_MAX []
          simpa using this
        · intro hint
          obtain ⟨m, temp, hb, _, _⟩ :=
            buscarMejor_inicial p cola (hint p (List.mem_cons_self _ _))
          exact ⟨m, by rw [← h2, hb]⟩

/-- Selection is defined in a state with as many queues as descriptors. -/
theorem planificar_existe (s : MLFQScheduler) (hlen : s.colas.length = s.esquemas.length) :
    ∃ r, planificar s = some r := by
  rcases primera_no_vacia s.colas with hvac | ⟨pre, p, cola, post, hL, hpre⟩
  · exact ⟨_, planificarDesde_vacias s 0 s.colas hvac⟩
  · have hi : pre.length < s.esquemas.length := by
      rw [← hlen, hL, List.length_append, List.length_cons]; omega
    have hplan := planificar_primera s pre p cola post hL hpre _
      (List.getElem?_eq_getElem hi)
    by_cases hrr : (s.esquemas[pre.length]).politica = TipoPolitica.ROUND_ROBIN
    · rw [if_pos hrr] at hplan; exact ⟨_, hplan⟩
    · rw [if_neg hrr] at hplan; exact ⟨_, hplan⟩

/-- One unit of execution leaves the constructor fields alone. -/
theorem ejecutar_datos (p : Proceso) (t : Int) : (p.ejecutar t).datos = p.datos := by
  simp only [Proceso.ejecutar]
  split_ifs <;> rfl

theorem bucle_datos (p : Proceso) (t : Int) (n : Nat) :
    (bucleEjecutar p t n).datos = p.datos := by
  induction n with
  | zero => rfl
  | succ k ih => rw [bucleEjecutar, ejecutar_datos, ih]

theorem marcado_datos (p : Proceso) (t : Int) : (marcado p t).datos = p.datos := by
  unfold marcado
  split_ifs <;> rfl

/-- Dispatch when it is defined, for any record: the scheme, the admission
vector and the constructor fields are kept; the record ends either in the
finished vector, with its finish time and metrics set, or in a level queue. -/
theorem ejecutar_some (S : StdSort) (s : MLFQScheduler) (p : Proceso) (i : Int)
    (s3 : MLFQScheduler) (h : ejecutarConScheduler S s p i = some s3) :
    s3.esquemas = s.esquemas ∧ s3.colaLlegadas = s.colaLlegadas ∧
    ∃ x, x.datos = p.datos ∧
      ((s3.colas = s.colas ∧
          s3.procesosFinalizados = s.procesosFinalizados ++
            [(x.setTiempoFinalizacion s3.tiempoGlobal).calcularMetricas]) ∨
        (s3.procesosFinalizados = s.procesosFinalizados ∧
          ∃ n, empujar s.colas n x = some s3.colas)) := by
  unfold ejecutarConScheduler at h
  cases he : subindice s.esquemas i with
  | none => rw [he] at h; cases h
  | some e =>
    rw [he] at h
    cases hpol : e.politica with
    | ROUND_ROBIN =>
      simp only [hpol, RoundRobinScheduler.nuevo, RoundRobinScheduler.agregarProceso,
        RoundRobinScheduler.obtenerSiguienteProceso, RoundRobinScheduler.ejecutarProceso,
        List.nil_append] at h
      split_ifs at h with hc
      · simp only [Option.some.injEq] at h
        subst h
        exact ⟨rfl, rfl, _, by rw [bucle_datos, marcado_datos], Or.inl ⟨rfl, rfl⟩⟩
      · split at h
        · cases h
        · rename_i colas1 hemp
          simp only [Option.some.injEq] at h
          subst h
          refine ⟨rfl, rfl, _, ?_, Or.inr ⟨rfl, _, hemp⟩⟩
          show (bucleEjecutar _ _ _).datos = _
          rw [bucle_datos, marcado_datos]
    | SJF =>
      simp only [hpol, SJFScheduler.nuevo, SJFScheduler.agregarProceso,
        SJFScheduler.obtenerSiguienteProceso, SJFScheduler.ejecutarProceso,
        List.nil_append, ordenar_singular, Option.some.injEq] at h
      subst h
      exact ⟨rfl, rfl, _, by rw [bucle_datos, marcado_datos], Or.inl ⟨rfl, rfl⟩⟩
    | STCF =>
      simp only [hpol, STCFScheduler.nuevo, STCFScheduler.agregarProceso,
        STCFScheduler.obtenerSiguienteProceso, STCFScheduler.ejecutarProceso,
        List.nil_append, ordenar_singular] at h
      split_ifs at h with hc
      · simp only [Option.some.injEq] at h
        subst h
        exact ⟨rfl, rfl, _, by rw [bucle_datos, marcado_datos], Or.inl ⟨rfl, rfl⟩⟩
      · split at h
        · cases h
        · rename_i colas1 hemp
          simp only [Option.some.injEq] at h
          subst h
          exact ⟨rfl, rfl, _, by rw [bucle_datos, marcado_datos], Or.inr ⟨rfl, _, hemp⟩⟩

/-- The three ways a turn of the main loop can go. -/
theorem iteracion_casos (S : StdSort) (s s4 : MLFQScheduler)
    (h : iteracion S s = some s4) :
    ∃ s1 i o s2, moverProcesosLlegados s = some s1 ∧ planificar s1 = some ((i, o), s2) ∧
      ((o = none ∧ s2.colaLlegadas = [] ∧
          s4 = { s2 with tiempoGlobal := s2.tiempoGlobal + 1 }) ∨
        (o = none ∧ ∃ a r, s2.colaLlegadas = a :: r ∧
          s4 = { s2 with tiempoGlobal := a.tiempoLlegada }) ∨
        (∃ p, o = some p ∧ ejecutarConScheduler S s2 p i = some s4)) := by
  cases hm : moverProcesosLlegados s with
  | none => simp only [iteracion, hm] at h; cases h
  | some s1 =>
    cases hp : planificar s1 with
    | none => simp only [iteracion, hm, hp] at h; cases h
    | some r =>
      obtain ⟨⟨i, o⟩, s2⟩ := r
      refine ⟨s1, i, o, s2, rfl, hp, ?_⟩
      cases o with
      | some p =>
        simp only [iteracion, hm, hp] at h
        exact Or.inr (Or.inr ⟨p, rfl, h⟩)
      | none =>
        cases hl : s2.colaLlegadas with
        | nil =>
          simp only [iteracion, hm, hp, hl, Option.some.injEq] at h
          exact Or.inl ⟨rfl, rfl, h.symm⟩
        | cons a r =>
          simp only [iteracion, hm, hp, hl, Option.some.injEq] at h
          exact Or.inr (Or.inl ⟨rfl, a, r, rfl, h.symm⟩)

/-- A property kept by every turn of the loop holds when the loop ends. -/
theorem simulacion_invariante (S : StdSort) (P : MLFQScheduler → Prop)
    (hpaso : ∀ s s1, P s → s.continua = true → iteracion S s = some s1 → P s1)
    (n : Nat) (s s2 : MLFQScheduler) (hs : P s)
    (h : ejecutarSimulacion S n s = some s2) : P s2 ∧ s2.continua = false := by
  induction n generalizing s with
  | zero =>
    unfold ejecutarSimulacion at h
    split_ifs at h with hc
    simp only [Option.some.injEq] at h
    subst h
    exact ⟨hs, by simpa using hc⟩
  | succ k ih =>
    unfold ejecutarSimulacion at h
    split_ifs at h with hc
    · cases hi : iteracion S s with
      | none => rw [hi] at h; cases h
      | some s1 =>
        rw [hi] at h
        exact ih s1 (hpaso s s1 hs hc hi) h
    · simp only [Option.some.injEq] at h
      subst h
      exact ⟨hs, by simpa using hc⟩

/-! ## Conservation of the records -/

theorem mdatos_nil : mdatos [] = 0 := rfl

theorem mdatos_cons (p : Proceso) (l : List Proceso) :
    mdatos (p :: l) = {p.datos} + mdatos l := by
  unfold mdatos
  rw [List.map_cons, ← Multiset.cons_coe, Multiset.singleton_add]

theorem mdatos_append (l1 l2 : List Proceso) : mdatos (l1 ++ l2) = mdatos l1 + mdatos l2 := by
  unfold mdatos
  rw [List.map_append, Multiset.coe_add]

theorem mdatos_perm {l1 l2 : List Proceso} (h : l1.Perm l2) : mdatos l1 = mdatos l2 :=
  Multiset.coe_eq_coe.mpr (h.map Proceso.datos)

theorem perm_of_mdatos {l1 l2 : List Proceso} (h : mdatos l1 = mdatos l2) :
    (l1.map Proceso.datos).Perm (l2.map Proceso.datos) :=
  Multiset.coe_eq_coe.mp h

theorem mdatos_admitidos (adm : List Proceso) :
    mdatos (adm.map (fun p => p.setCola (p.colaOriginal - 1))) = mdatos adm := by
  unfold mdatos
  rw [List.map_map]
  rfl

theorem finalizado_datos (p : Proceso) (t : Int) :
    ((p.setTiempoFinalizacion t).calcularMetricas).datos = p.datos := rfl

theorem mdatos_toList_some (p : Proceso) : mdatos (some p).toList = {p.datos} := by
  show mdatos [p] = _
  rw [mdatos_cons, mdatos_nil, add_zero]

/-- A turn of the main loop neither loses nor duplicates a record: the
constructor fields of the records the engine holds are the same multiset. -/
theorem iteracion_conserva (S : StdSort) (s s4 : MLFQScheduler)
    (h : iteracion S s = some s4) : mdatos s4.todos = mdatos s.todos := by
  obtain ⟨s1, i, o, s2, hm, hp, hcasos⟩ := iteracion_casos S s s4 h
  obtain ⟨_, hfin1, _, adm, hadm, _, _, _, hperm1, _⟩ := mover_some s s1 hm
  -- after admission
  have e1 : mdatos s1.todos = mdatos s.todos := by
    have hp1 := mdatos_perm hperm1
    simp only [todos, vivos, hfin1, hadm, mdatos_append, mdatos_admitidos] at hp1 ⊢
    rw [hp1]
    abel
  -- after selection
  have e2 : mdatos o.toList + mdatos s2.todos = mdatos s1.todos := by
    rcases planificar_some s1 i o s2 hp with ⟨_, _, ho, hs2⟩ |
      ⟨k, e, cola, resto, _, hcola, _, _, _, hs2, hperm2, _⟩
    · subst ho; subst hs2
      show mdatos [] + _ = _
      rw [mdatos_nil, zero_add]
    · have hq := mdatos_perm (flatten_quitar_perm s1.colas k cola resto hcola o.toList hperm2)
      subst hs2
      simp only [todos, vivos, mdatos_append] at hq ⊢
      rw [← hq]
      abel
  rw [← e1, ← e2]
  rcases hcasos with ⟨ho, _, hs4⟩ | ⟨ho, a, r, _, hs4⟩ | ⟨p, ho, hej⟩
  · subst ho; subst hs4
    show _ = mdatos [] + _
    rw [mdatos_nil, zero_add]
    rfl
  · subst ho; subst hs4
    show _ = mdatos [] + _
    rw [mdatos_nil, zero_add]
    rfl
  · subst ho
    obtain ⟨_, hll, x, hx, hcaso⟩ := ejecutar_some S s2 p i s4 hej
    rw [mdatos_toList_some]
    rcases hcaso with ⟨hc, hf⟩ | ⟨hf, n, hemp⟩
    · simp only [todos, vivos, hll, hc, hf, mdatos_append, mdatos_cons, mdatos_nil,
        finalizado_datos, hx]
      abel
    · have hq := mdatos_perm (empujar_some _ _ _ _ hemp).2
      simp only [todos, vivos, hll, hf, mdatos_append, mdatos_cons, hx] at hq ⊢
      rw [hq]
      abel

/-! ## Progress of a dispatch on a valid state -/

/-- Dispatch of a record with positive remaining time from a level in range
(positive quantum if Round Robin): it is defined, the clock moves forward, and
the record is either finished or requeued with a smaller, still positive,
remaining time. -/
theorem despacho_valido (S : StdSort) (s : MLFQScheduler) (p : Proceso) (k : Nat)
    (e : EsquemaCola) (he : s.esquemas[k]? = some e) (hk : k < s.colas.length)
    (hq : e.politica = TipoPolitica.ROUND_ROBIN → 0 < e.quantum)
    (hr : 0 < p.tiempoRestante) :
    ∃ s4, ejecutarConScheduler S s p k = some s4 ∧
      s4.esquemas = s.esquemas ∧ s4.colaLlegadas = s.colaLlegadas ∧
      s4.colas.length = s.colas.length ∧ s.tiempoGlobal < s4.tiempoGlobal ∧
      ((s4.colas = s.colas ∧
          ∃ x, s4.procesosFinalizados = s.procesosFinalizados ++ [x] ∧
            x.tiempoRestante = 0 ∧ x.tiempoFinalizacion = s4.tiempoGlobal) ∨
        (s4.procesosFinalizados = s.procesosFinalizados ∧
          ∃ x, 0 < x.tiempoRestante ∧ x.tiempoRestante < p.tiempoRestante ∧
            s4.colas.flatten.Perm (x :: s.colas.flatten))) := by
  cases hpol : e.politica with
  | ROUND_ROBIN =>
    have hq0 := hq hpol
    have hk0 : 0 < min e.quantum p.tiempoRestante := lt_min hq0 hr
    have hj : min ((k : Int) + 1) ((s.colas.length : Int) - 1) =
        ((min (k + 1) (s.colas.length - 1) : Nat) : Int) := by omega
    have hjlt : min (k + 1) (s.colas.length - 1) < s.colas.length := by omega
    have hexec := rr_forma S s p k e he hpol _ rfl hk0.le _ hj
    by_cases hc : p.tiempoRestante - min e.quantum p.tiempoRestante ≤ 0
    · have hc2 : ({ marcado p s.tiempoGlobal with
          tiempoRestante := p.tiempoRestante - min e.quantum p.tiempoRestante } :
            Proceso).estaCompleto = true := by
        simp only [Proceso.estaCompleto, decide_eq_true_eq]; exact hc
      rw [if_pos hc2] at hexec
      refine ⟨_, hexec, rfl, rfl, rfl, ?_, Or.inl ⟨rfl, _, rfl, ?_, rfl⟩⟩
      · show s.tiempoGlobal < s.tiempoGlobal + _
        omega
      · show p.tiempoRestante - min e.quantum p.tiempoRestante = 0
        have := min_le_right e.quantum p.tiempoRestante
        omega
    · have hc2 : ({ marcado p s.tiempoGlobal with
          tiempoRestante := p.tiempoRestante - min e.quantum p.tiempoRestante } :
            Proceso).estaCompleto = false := by
        simp only [Proceso.estaCompleto, decide_eq_false_iff_not]; exact hc
      rw [hc2, empujar_nat _ _ _ hjlt] at hexec
      simp only [Bool.false_eq_true, if_false] at hexec
      refine ⟨_, hexec, rfl, rfl, List.length_set _ _ _, ?_, Or.inr ⟨rfl, ?_⟩⟩
      · show s.tiempoGlobal < s.tiempoGlobal + _
        omega
      · refine ⟨_, ?_, ?_, flatten_set_perm s.colas _ _ _ (List.getElem?_eq_getElem hjlt) _
          (List.perm_append_singleton _ _)⟩
        · show 0 < p.tiempoRestante - min e.quantum p.tiempoRestante
          omega
        · show p.tiempoRestante - min e.quantum p.tiempoRestante < p.tiempoRestante
          omega
  | SJF =>
    have hexec := sjf_forma S s p k e he hpol hr.le
    refine ⟨_, hexec, rfl, rfl, rfl, ?_, Or.inl ⟨rfl, _, rfl, rfl, rfl⟩⟩
    show s.tiempoGlobal < s.tiempoGlobal + _
    omega
  | STCF =>
    obtain ⟨b, hmb, h0, hle, hpos, _, _, _⟩ := stcf_unidades s p hr.le
    have hb0 := hpos hr
    have hexec := stcf_forma S s p k e he hpol b hmb h0
    by_cases hc : p.tiempoRestante - b ≤ 0
    · have hc2 : ({ marcado p s.tiempoGlobal with
          tiempoRestante := p.tiempoRestante - b } : Proceso).estaCompleto = true := by
        simp only [Proceso.estaCompleto, decide_eq_true_eq]; exact hc
      rw [if_pos hc2] at hexec
      refine ⟨_, hexec, rfl, rfl, rfl, ?_, Or.inl ⟨rfl, _, rfl, ?_, rfl⟩⟩
      · show s.tiempoGlobal < s.tiempoGlobal + _
        omega
      · show p.tiempoRestante - b = 0
        omega
    · have hc2 : ({ marcado p s.tiempoGlobal with
          tiempoRestante := p.tiempoRestante - b } : Proceso).estaCompleto = false := by
        simp only [Proceso.estaCompleto, decide_eq_false_iff_not]; exact hc
      rw [hc2, empujar_nat _ _ _ hk] at hexec
      simp only [Bool.false_eq_true, if_false] at hexec
      refine ⟨_, hexec, rfl, rfl, List.length_set _ _ _, ?_, Or.inr ⟨rfl, ?_⟩⟩
      · show s.tiempoGlobal < s.tiempoGlobal + _
        omega
      · refine ⟨_, ?_, ?_, flatten_set_perm s.colas _ _ _ (List.getElem?_eq_getElem hk) _
          (List.perm_append_singleton _ _)⟩
        · show 0 < p.tiempoRestante - b
          omega
        · show p.tiempoRestante - b < p.tiempoRestante
          omega

/-! ## The termination measure -/

theorem restanteTotal_nil : restanteTotal [] = 0 := rfl

theorem restanteTotal_cons (p : Proceso) (l : List Proceso) :
    restanteTotal (p :: l) = p.tiempoRestante.toNat + restanteTotal l := by
  simp [restanteTotal]

theorem restanteTotal_append (l1 l2 : List Proceso) :
    restanteTotal (l1 ++ l2) = restanteTotal l1 + restanteTotal l2 := by
  simp [restanteTotal]

theorem restanteTotal_perm {l1 l2 : List Proceso} (h : l1.Perm l2) :
    restanteTotal l1 = restanteTotal l2 :=
  (h.map _).sum_eq

theorem restanteTotal_admitidos (adm : List Proceso) :
    restanteTotal (adm.map (fun p => p.setCola (p.colaOriginal - 1))) = restanteTotal adm := by
  unfold restanteTotal
  rw [List.map_map]
  rfl

theorem medida_cotas (s : MLFQScheduler) :
    2 * restanteTotal s.vivos ≤ s.medida ∧ s.medida ≤ 2 * restanteTotal s.vivos + 1 := by
  unfold medida
  cases s.colaLlegadas with
  | nil => simp
  | cons a r =>
    simp only []
    split_ifs <;> omega

/-- The loop condition fails exactly when nothing is pending or queued. -/
theorem continua_false (s : MLFQScheduler) :
    s.continua = false ↔ s.colaLlegadas = [] ∧ ∀ c ∈ s.colas, c = [] := by
  simp [continua, hayProcesosPendientes]

/-- A turn of the main loop on a state of a valid run that satisfies the loop
condition: it is defined, keeps the run invariant, moves the clock forward and
lowers the measure; it is either an idle jump to the arrival time of the first
pending record, or a dispatch that lowers the total remaining time. -/
theorem iteracion_progresa (S : StdSort) (s : MLFQScheduler) (hI : s.EnCurso)
    (hc : s.continua = true) :
    ∃ s4, iteracion S s = some s4 ∧ s4.EnCurso ∧ s4.medida < s.medida ∧
      s.tiempoGlobal < s4.tiempoGlobal ∧
      ((∃ a r, s.colaLlegadas = a :: r ∧ (∀ c ∈ s.colas, c = []) ∧
          s4 = { s with tiempoGlobal := a.tiempoLlegada }) ∨
        restanteTotal s4.vivos < restanteTotal s.vivos) := by
  obtain ⟨hlen, hquant, hniv, hrest⟩ := hI
  -- admission
  obtain ⟨r1, hmb⟩ := moverBucle_existe s.tiempoGlobal s.colaLlegadas s.colas hniv
  have hm : moverProcesosLlegados s =
      some { s with colaLlegadas := r1.1, colas := r1.2 } := by
    simp only [moverProcesosLlegados, hmb]
  obtain ⟨hesq1, hfin1, ht1, adm, hadm, _, hhead, hlen1, hperm1, hnoadm⟩ :=
    mover_some s _ hm
  generalize ({ s with colaLlegadas := r1.1, colas := r1.2 } : MLFQScheduler) = s1 at *
  have hR1 : restanteTotal s1.vivos = restanteTotal s.vivos := by
    simp only [vivos, restanteTotal_append, hadm, restanteTotal_perm hperm1,
      restanteTotal_admitidos]
    omega
  have hsub1 : ∀ x ∈ s1.colaLlegadas, x ∈ s.colaLlegadas := by
    intro x hx; rw [hadm]; exact List.mem_append_right _ hx
  have hrest1 : ∀ x ∈ s1.vivos, 0 < x.tiempoRestante ∧ x.tiempoRestante ≤ INT_MAX := by
    intro x hx
    rcases List.mem_append.mp hx with h1 | h1
    · exact hrest x (List.mem_append_left _ (hsub1 x h1))
    · rcases List.mem_append.mp ((List.Perm.mem_iff hperm1).mp h1) with h2 | h2
      · exact hrest x (List.mem_append_right _ h2)
      · obtain ⟨y, hy, hyx⟩ := List.mem_map.mp h2
        rw [← hyx]
        exact hrest y (List.mem_append_left _ (by rw [hadm]; exact List.mem_append_left _ hy))
  have hniv1 : ∀ x ∈ s1.colaLlegadas,
      1 ≤ x.colaOriginal ∧ x.colaOriginal ≤ (s1.colas.length : Int) := by
    intro x hx; rw [hlen1]; exact hniv x (hsub1 x hx)
  -- selection
  obtain ⟨⟨⟨i, o⟩, s2⟩, hp⟩ := planificar_existe s1 (by rw [hlen1, hesq1]; exact hlen)
  rcases planificar_some s1 i o s2 hp with ⟨hvac, _, ho, hs2⟩ |
    ⟨k, e, cola, resto, hik, hcola, _, _, he, hs2, hperm2, hsome⟩
  · -- nothing queued: idle jump
    subst ho
    rw [hs2] at hp
    have hflat : s1.colas.flatten = [] := List.flatten_eq_nil_iff.mpr hvac
    have hadm0 : adm = [] := by
      rw [hflat] at hperm1
      have := List.Perm.nil_eq hperm1
      have h2 := List.append_eq_nil.mp this.symm
      exact List.map_eq_nil_iff.mp h2.2
    have hs1 : s1 = s := hnoadm hadm0
    subst hs1
    have hne : s1.colaLlegadas ≠ [] := by
      intro h0
      have := (continua_false s1).mpr ⟨h0, hvac⟩
      rw [hc] at this
      cases this
    obtain ⟨a, r, hl⟩ := List.exists_cons_of_ne_nil hne
    have hgt := hhead a r hl
    refine ⟨{ s1 with tiempoGlobal := a.tiempoLlegada }, ?_, ?_, ?_, hgt,
      Or.inl ⟨a, r, hl, hvac, rfl⟩⟩
    · simp only [iteracion, hm, hp, hl]
    · exact ⟨hlen, hquant, hniv, hrest⟩
    · simp only [medida, vivos, hl, hgt, if_true, gt_iff_lt, lt_self_iff_false, if_false]
      omega
  · -- a record is dispatched
    have hk : k < s1.colas.length := by
      by_contra hcon
      rw [List.getElem?_eq_none (by omega)] at hcola
      cases hcola
    have hcolamem : cola ∈ s1.colas := List.getElem?_mem hcola
    obtain ⟨p, hop⟩ := hsome (fun x hx =>
      (hrest1 x (List.mem_append_right _ (List.mem_flatten.mpr ⟨cola, hcolamem, hx⟩))).2)
    subst hop
    simp only [Option.toList, List.singleton_append] at hperm2
    have hpcola : p ∈ cola := (List.Perm.mem_iff hperm2).mp (List.mem_cons_self _ _)
    have hprest := hrest1 p (List.mem_append_right _
      (List.mem_flatten.mpr ⟨cola, hcolamem, hpcola⟩))
    have hquit := flatten_quitar_perm s1.colas k cola resto hcola [p] hperm2
    have heq : e ∈ s.esquemas := by rw [← hesq1]; exact List.getElem?_mem he
    subst hs2
    subst hik
    obtain ⟨s4, hej, hesq4, hll4, hlen4, ht4, hcaso⟩ :=
      despacho_valido S { s1 with colas := s1.colas.set k resto } p k e he
        (by simp only [List.length_set]; exact hk) (hquant e heq) hprest.1
    have hR2 : restanteTotal (s1.colas.set k resto).flatten + p.tiempoRestante.toNat =
        restanteTotal s1.colas.flatten := by
      rw [← restanteTotal_perm hquit, List.singleton_append, restanteTotal_cons]
      omega
    have hppos : 0 < p.tiempoRestante.toNat := by omega
    have hsub2 : ∀ x ∈ (s1.colas.set k resto).flatten, x ∈ s1.colas.flatten := by
      intro x hx
      exact (List.Perm.mem_iff hquit).mp (List.mem_append_right _ hx)
    have hR4 : restanteTotal s4.vivos < restanteTotal s.vivos ∧
        ∀ x ∈ s4.colas.flatten, 0 < x.tiempoRestante ∧ x.tiempoRestante ≤ INT_MAX := by
      rcases hcaso with ⟨hcol, _⟩ | ⟨_, x, hx0, hxlt, hperm4⟩
      · constructor
        · rw [← hR1]
          simp only [vivos, restanteTotal_append, hll4, hcol]
          omega
        · intro x hx
          rw [hcol] at hx
          exact hrest1 x (List.mem_append_right _ (hsub2 x hx))
      · constructor
        · rw [← hR1]
          simp only [vivos, restanteTotal_append, hll4, restanteTotal_perm hperm4,
            restanteTotal_cons]
          have : x.tiempoRestante.toNat < p.tiempoRestante.toNat := by omega
          omega
        · intro y hy
          rcases List.mem_cons.mp ((List.Perm.mem_iff hperm4).mp hy) with h1 | h1
          · rw [h1]; exact ⟨hx0, by omega⟩
          · exact hrest1 y (List.mem_append_right _ (hsub2 y h1))
    refine ⟨s4, ?_, ?_, ?_, ?_, Or.inr hR4.1⟩
    · simp only [iteracion, hm, hp]
      exact hej
    · refine ⟨?_, ?_, ?_, ?_⟩
      · rw [hlen4, hesq4]
        simp only [List.length_set]
        rw [hlen1, hesq1]; exact hlen
      · rw [hesq4]
        show ∀ e ∈ s1.esquemas, _
        rw [hesq1]; exact hquant
      · intro x hx
        rw [hll4] at hx
        rw [hlen4]
        simp only [List.length_set]
        exact hniv1 x hx
      · intro x hx
        rcases List.mem_append.mp hx with h1 | h1
        · rw [hll4] at h1
          exact hrest1 x (List.mem_append_left _ h1)
        · exact hR4.2 x h1
    · have h1 := (medida_cotas s4).2
      have h2 := (medida_cotas s).1
      omega
    · have : s1.tiempoGlobal < s4.tiempoGlobal := ht4
      rw [ht1] at this
      exact this

/-! ## Runs -/

/-- With fuel no less than the measure, the main loop of a valid run ends. -/
theorem simulacion_termina (S : StdSort) (n : Nat) (s : MLFQScheduler) (hI : s.EnCurso)
    (hn : s.medida ≤ n) : ∃ s2, ejecutarSimulacion S n s = some s2 := by
  induction n generalizing s with
  | zero =>
    by_cases hc : s.continua = true
    · obtain ⟨s4, _, _, hlt, _⟩ := iteracion_progresa S s hI hc
      omega
    · exact ⟨s, by simp only [ejecutarSimulacion, hc, Bool.false_eq_true, if_false]⟩
  | succ k ih =>
    by_cases hc : s.continua = true
    · obtain ⟨s4, hit, hI4, hlt, _⟩ := iteracion_progresa S s hI hc
      obtain ⟨s2, h2⟩ := ih s4 hI4 (by omega)
      exact ⟨s2, by simp only [ejecutarSimulacion, hc, if_true, hit]; exact h2⟩
    · exact ⟨s, by simp only [ejecutarSimulacion, hc, Bool.false_eq_true, if_false]⟩

/-- A property kept by every turn of the loop holds after any number of turns. -/
theorem iterar_invariante (S : StdSort) (P : MLFQScheduler → Prop)
    (hpaso : ∀ s s1, P s → s.continua = true → iteracion S s = some s1 → P s1)
    (k : Nat) (s s2 : MLFQScheduler) (hs : P s) (h : iterar S k s = some s2) : P s2 := by
  induction k generalizing s with
  | zero =>
    simp only [iterar, Option.some.injEq] at h
    subst h
    exact hs
  | succ k ih =>
    unfold iterar at h
    split_ifs at h with hc
    cases hi : iteracion S s with
    | none => rw [hi] at h; cases h
    | some s1 =>
      rw [hi] at h
      exact ih s1 (hpaso s s1 hs hc hi) h

theorem flatten_replicate_nil (n : Nat) :
    (List.replicate n ([] : List Proceso)).flatten = [] := by
  induction n with
  | zero => rfl
  | succ k ih => rw [List.replicate_succ, List.flatten_cons, ih]; rfl

/-- The engine as `main` leaves it before the run. -/
theorem cargar_forma (S : StdSort) (esq : List EsquemaCola) (ps : List Proceso) :
    (cargar S esq ps).esquemas = esq ∧
    (cargar S esq ps).colas = List.replicate esq.length [] ∧
    (cargar S esq ps).procesosFinalizados = [] ∧
    (cargar S esq ps).tiempoGlobal = 0 ∧
    (cargar S esq ps).colaLlegadas.Perm ps ∧
    (cargar S esq ps).todos.Perm ps := by
  obtain ⟨h1, h2, h3, h4⟩ := foldl_agregar_resto S (nuevo esq) ps
  have h5 : (cargar S esq ps).colaLlegadas.Perm ps := by
    have h := foldl_agregar_perm S (nuevo esq) ps
    simpa [cargar, nuevo] using h
  refine ⟨h1, h2, h3, h4, h5, ?_⟩
  unfold todos vivos
  have h2b : (cargar S esq ps).colas = List.replicate esq.length [] := h2
  have h3b : (cargar S esq ps).procesosFinalizados = [] := h3
  rw [h2b, h3b, flatten_replicate_nil, List.append_nil, List.append_nil]
  exact h5

/-- On a valid workload the engine is in a state of a valid run before the
run starts, with a measure bounded by the bursts. -/
theorem cargar_en_curso (S : StdSort) (esq : List EsquemaCola) (ps : List Proceso)
    (hv : Valido esq ps) :
    (cargar S esq ps).EnCurso ∧
    (cargar S esq ps).medida ≤ 2 * (ps.map (fun p => p.tiempoRafaga.toNat)).sum + 1 := by
  obtain ⟨_, hq, hp⟩ := hv
  obtain ⟨h1, h2, _, _, h5, _⟩ := cargar_forma S esq ps
  have hviv : (cargar S esq ps).vivos = (cargar S esq ps).colaLlegadas := by
    unfold vivos
    rw [h2, flatten_replicate_nil, List.append_nil]
  have hrest : ∀ p ∈ ps, p.tiempoRestante = p.tiempoRafaga := by
    intro p hpp
    have := (hp p hpp).1
    rw [this]
    rfl
  constructor
  · refine ⟨by rw [h1, h2, List.length_replicate], by rw [h1]; exact hq, ?_, ?_⟩
    · intro p hpp
      have := hp p ((List.Perm.mem_iff h5).mp hpp)
      rw [h2, List.length_replicate]
      exact ⟨this.2.2.2.2.1, this.2.2.2.2.2⟩
    · intro p hpp
      rw [hviv] at hpp
      have hmem := (List.Perm.mem_iff h5).mp hpp
      have := hp p hmem
      rw [hrest p hmem]
      exact ⟨this.2.1, this.2.2.1⟩
  · refine (medida_cotas _).2.trans ?_
    rw [hviv, restanteTotal_perm h5]
    have : restanteTotal ps = (ps.map (fun p => p.tiempoRafaga.toNat)).sum := by
      unfold restanteTotal
      congr 1
      apply List.map_congr_left
      intro p hpp
      rw [hrest p hpp]
    rw [this]

/-- Every finished record carries its finish time and metrics: what each
turn of the loop appends to the finished vector has them computed. -/
theorem iteracion_metricas (S : StdSort) (s s4 : MLFQScheduler)
    (h : iteracion S s = some s4)
    (hs : ∀ p ∈ s.procesosFinalizados,
      p.tiempoRetorno = p.tiempoFinalizacion - p.tiempoLlegada ∧
      p.tiempoRespuesta = p.tiempoInicio - p.tiempoLlegada ∧
      p.tiempoEspera = p.tiempoRetorno - p.tiempoRafaga) :
    ∀ p ∈ s4.procesosFinalizados,
      p.tiempoRetorno = p.tiempoFinalizacion - p.tiempoLlegada ∧
      p.tiempoRespuesta = p.tiempoInicio - p.tiempoLlegada ∧
      p.tiempoEspera = p.tiempoRetorno - p.tiempoRafaga := by
  obtain ⟨s1, i, o, s2, hm, hp, hcasos⟩ := iteracion_casos S s s4 h
  obtain ⟨_, hfin1, _⟩ := mover_some s s1 hm
  have hfin2 : s2.procesosFinalizados = s.procesosFinalizados := by
    rcases planificar_some s1 i o s2 hp with ⟨_, _, _, hs2⟩ |
      ⟨k, e, cola, resto, _, _, _, _, _, hs2, _, _⟩
    · rw [hs2, hfin1]
    · rw [hs2]; exact hfin1
  rcases hcasos with ⟨_, _, hs4⟩ | ⟨_, a, r, _, hs4⟩ | ⟨p, _, hej⟩
  · rw [hs4]; show ∀ p ∈ s2.procesosFinalizados, _; rw [hfin2]; exact hs
  · rw [hs4]; show ∀ p ∈ s2.procesosFinalizados, _; rw [hfin2]; exact hs
  · obtain ⟨_, _, x, _, hcaso⟩ := ejecutar_some S s2 p i s4 hej
    rcases hcaso with ⟨_, hf⟩ | ⟨hf, _⟩
    · intro y hy
      rw [hf, hfin2] at hy
      rcases List.mem_append.mp hy with h1 | h1
      · exact hs y h1
      · rw [List.mem_singleton.mp h1]
        exact ⟨rfl, rfl, rfl⟩
    · rw [hf, hfin2]; exact hs

/-! ## Claims on whole runs -/

/-- The queues after `colas[n].push(p)`, queue by queue. -/
theorem empujar_getElem (colas : List (List Proceso)) (n : Int) (p : Proceso)
    (c1 : List (List Proceso)) (h : empujar colas n p = some c1) :
    0 ≤ n ∧ n.toNat < colas.length ∧
    ∀ (j : Nat) (q : List Proceso), colas[j]? = some q →
      c1[j]? = some (if j = n.toNat then q ++ [p] else q) := by
  unfold empujar at h
  cases hq : subindice colas n with
  | none => rw [hq] at h; cases h
  | some q0 =>
    rw [hq] at h
    simp only [Option.some.injEq] at h
    subst h
    unfold subindice at hq
    split_ifs at hq with h0
    have hlt : n.toNat < colas.length := by
      by_contra hcon
      rw [List.getElem?_eq_none (by omega)] at hq
      cases hq
    refine ⟨h0, hlt, ?_⟩
    intro j q hj
    by_cases hjn : j = n.toNat
    · subst hjn
      rw [hq] at hj
      rw [if_pos rfl, List.getElem?_set_self hlt, Option.some.inj hj]
    · rw [if_neg hjn, List.getElem?_set_ne (Ne.symm hjn)]
      exact hj

/-- The admission loop, queue by queue: queue `j` receives at its tail, in the
order of the admission vector, the admitted records of initial level `j + 1`. -/
theorem moverBucle_colas (t : Int) (ll : List Proceso) (colas : List (List Proceso))
    (l2 : List Proceso) (c2 : List (List Proceso))
    (h : moverBucle t ll colas = some (l2, c2)) :
    ∃ adm, ll = adm ++ l2 ∧ (∀ p ∈ adm, p.tiempoLlegada ≤ t) ∧
      (∀ a r, l2 = a :: r → a.tiempoLlegada > t) ∧
      ∀ (j : Nat) (q : List Proceso), colas[j]? = some q →
        c2[j]? = some (q ++
          (adm.filter (fun p => decide (p.colaOriginal - 1 = (j : Int)))).map admitido) := by
  induction ll generalizing colas with
  | nil =>
    simp only [moverBucle, Option.some.injEq, Prod.mk.injEq] at h
    obtain ⟨h1, h2⟩ := h
    subst h1; subst h2
    exact ⟨[], rfl, fun p hp => (by cases hp), fun a r hh => (by cases hh),
      fun j q hj => by simpa using hj⟩
  | cons p resto ih =>
    by_cases hp : p.tiempoLlegada ≤ t
    · simp only [moverBucle, hp, if_true] at h
      cases he : empujar colas (p.colaOriginal - 1) (p.setCola (p.colaOriginal - 1)) with
      | none => rw [he] at h; cases h
      | some c1 =>
        rw [he] at h
        obtain ⟨h0, hlt, hget⟩ := empujar_getElem _ _ _ _ he
        obtain ⟨adm, h1, h2, h3, h4⟩ := ih c1 h
        refine ⟨p :: adm, by rw [h1]; rfl, ?_, h3, ?_⟩
        · intro x hx
          rcases List.mem_cons.mp hx with hx1 | hx1
          · rw [hx1]; exact hp
          · exact h2 x hx1
        · intro j q hj
          rw [h4 j _ (hget j q hj)]
          by_cases hjn : j = (p.colaOriginal - 1).toNat
          · have hpj : p.colaOriginal - 1 = (j : Int) := by omega
            rw [if_pos hjn, List.filter_cons, hpj]
            simp [admitido, hpj]
          · have hpj : ¬ p.colaOriginal - 1 = (j : Int) := by omega
            rw [if_neg hjn, List.filter_cons]
            simp [hpj]
    · simp only [moverBucle, hp, if_false, Option.some.injEq, Prod.mk.injEq] at h
      obtain ⟨h1, h2⟩ := h
      subst h1; subst h2
      refine ⟨[], rfl, fun p hp => (by cases hp), ?_, fun j q hj => by simpa using hj⟩
      intro a r hh
      cases hh
      omega

/-- In a vector sorted by arrival time, a prefix of arrived records followed by
a suffix whose first record has not arrived splits the vector by arrival. -/
theorem prefijo_llegados (t : Int) (adm l2 : List Proceso)
    (hs : (adm ++ l2).Pairwise (fun a b => a.tiempoLlegada ≤ b.tiempoLlegada))
    (hadm : ∀ p ∈ adm, p.tiempoLlegada ≤ t)
    (hhead : ∀ a r, l2 = a :: r → a.tiempoLlegada > t) :
    (adm ++ l2).filter (fun p => decide (p.tiempoLlegada > t)) = l2 ∧
    (adm ++ l2).filter (fun p => decide (p.tiempoLlegada ≤ t)) = adm := by
  have hl2 : ∀ x ∈ l2, x.tiempoLlegada > t := by
    intro x hx
    cases l2 with
    | nil => cases hx
    | cons a r =>
      have ha := hhead a r rfl
      rcases List.mem_cons.mp hx with h1 | h1
      · rw [h1]; exact ha
      · have hp := (List.pairwise_append.mp hs).2.1
        have := (List.pairwise_cons.mp hp).1 x h1
        omega
  constructor
  · rw [List.filter_append]
    have h1 : adm.filter (fun p => decide (p.tiempoLlegada > t)) = [] := by
      apply List.filter_eq_nil_iff.mpr
      intro x hx
      have := hadm x hx
      simp only [decide_eq_true_eq]
      omega
    have h2 : l2.filter (fun p => decide (p.tiempoLlegada > t)) = l2 := by
      apply List.filter_eq_self.mpr
      intro x hx
      simpa using hl2 x hx
    rw [h1, h2, List.nil_append]
  · rw [List.filter_append]
    have h1 : adm.filter (fun p => decide (p.tiempoLlegada ≤ t)) = adm := by
      apply List.filter_eq_self.mpr
      intro x hx
      simpa using hadm x hx
    have h2 : l2.filter (fun p => decide (p.tiempoLlegada ≤ t)) = [] := by
      apply List.filter_eq_nil_iff.mpr
      intro x hx
      have := hl2 x hx
      simp only [decide_eq_true_eq]
      omega
    rw [h1, h2, List.append_nil]

/-- C11. In an engine state whose admission vector is sorted by arrival time
and holds records with initial levels in `1..N`, `moverProcesosLlegados` at
clock `t` is defined and leaves in the admission vector exactly the records
with arrival time `> t`, in their order; queue `j` receives at its tail, in
admission-vector order, the records with arrival time `≤ t` and initial level
`j + 1`, each with its current level set to `colaOriginal - 1 = j`; nothing
else changes, and the state is unchanged if no record has arrival time `≤ t`. -/
theorem C11_admision (s : MLFQScheduler)
    (hs : s.colaLlegadas.Pairwise (fun a b => a.tiempoLlegada ≤ b.tiempoLlegada))
    (hniv : ∀ p ∈ s.colaLlegadas,
      1 ≤ p.colaOriginal ∧ p.colaOriginal ≤ (s.colas.length : Int)) :
    ∃ s1, moverProcesosLlegados s = some s1 ∧
      s1.colaLlegadas =
        s.colaLlegadas.filter (fun p => decide (p.tiempoLlegada > s.tiempoGlobal)) ∧
      s1.colas.length = s.colas.length ∧
      (∀ (j : Nat) (q : List Proceso), s.colas[j]? = some q →
        s1.colas[j]? = some (q ++
          ((s.colaLlegadas.filter (fun p => decide (p.tiempoLlegada ≤ s.tiempoGlobal))).filter
            (fun p => decide (p.colaOriginal - 1 = (j : Int)))).map
              (fun p => p.setCola (p.colaOriginal - 1)))) ∧
      s1.esquemas = s.esquemas ∧ s1.procesosFinalizados = s.procesosFinalizados ∧
      s1.tiempoGlobal = s.tiempoGlobal ∧
      ((∀ p ∈ s.colaLlegadas, ¬ p.tiempoLlegada ≤ s.tiempoGlobal) → s1 = s) := by
  obtain ⟨r1, hmb⟩ := moverBucle_existe s.tiempoGlobal s.colaLlegadas s.colas hniv
  obtain ⟨l2, c2⟩ := r1
  have hm : moverProcesosLlegados s = some { s with colaLlegadas := l2, colas := c2 } := by
    simp only [moverProcesosLlegados, hmb]
  obtain ⟨adm, hadm, hle, hhead, hcolas⟩ := moverBucle_colas _ _ _ _ _ hmb
  obtain ⟨_, _, _, adm2, hadm2, _, _, hlen, _, hno⟩ := mover_some s _ hm
  have hadmeq : adm2 = adm := by
    have h1 : adm2 ++ l2 = adm ++ l2 := by rw [← hadm]; exact hadm2.symm
    exact List.append_cancel_right h1
  rw [hadm] at hs
  obtain ⟨hf1, hf2⟩ := prefijo_llegados s.tiempoGlobal adm l2 hs hle hhead
  refine ⟨_, hm, ?_, hlen, ?_, rfl, rfl, rfl, ?_⟩
  · show l2 = _
    rw [hadm, hf1]
  · intro j q hj
    rw [hadm, hf2]
    exact hcolas j q hj
  · intro hnone
    apply hno
    rw [hadmeq]
    cases adm with
    | nil => rfl
    | cons a r =>
      exact absurd (hle a (List.mem_cons_self _ _))
        (hnone a (by rw [hadm]; exact List.mem_append_left _ (List.mem_cons_self _ _)))

/-- C11 on the engine loaded with `A`, `B`, `C`, `E` at clock 0: `A` and `B`
go to queue 0, `E` to queue 1, `C` (arrival 2) stays. -/
theorem C11_admision_witness :
    ∃ s1, moverProcesosLlegados
        (cargar insercion esquemasEjemplo [ejemploA, ejemploB, ejemploC, ejemploE]) = some s1 ∧
      s1.colaLlegadas = [ejemploC] ∧
      s1.colas[0]? = some [ejemploA.setCola 0, ejemploB.setCola 0] ∧
      s1.colas[1]? = some [ejemploE.setCola 1] := by
  obtain ⟨s1, hm, h1, _, h3, _⟩ := C11_admision
    (cargar insercion esquemasEjemplo [ejemploA, ejemploB, ejemploC, ejemploE])
    (by decide) (by decide)
  exact ⟨s1, hm, by rw [h1]; decide, by rw [h3 0 [] (by decide)]; decide,
    by rw [h3 1 [] (by decide)]; decide⟩

/-- Selection touches the level queues only, and keeps their number. -/
theorem planificar_resto (s : MLFQScheduler) (i : Int) (o : Option Proceso)
    (s2 : MLFQScheduler) (h : planificar s = some ((i, o), s2)) :
    s2.esquemas = s.esquemas ∧ s2.colaLlegadas = s.colaLlegadas ∧
    s2.procesosFinalizados = s.procesosFinalizados ∧ s2.tiempoGlobal = s.tiempoGlobal ∧
    s2.colas.length = s.colas.length := by
  rcases planificar_some s i o s2 h with ⟨_, _, _, hs2⟩ |
    ⟨k, e, cola, resto, _, _, _, _, _, hs2, _, _⟩
  · rw [hs2]; exact ⟨rfl, rfl, rfl, rfl, rfl⟩
  · rw [hs2]; exact ⟨rfl, rfl, rfl, rfl, List.length_set _ _ _⟩

/-- C12. When, in a turn of the main loop, admission has run, selection
returns no record and the admission vector is not empty, the turn sets the
clock to the arrival time of the first pending record, which is later than the
old clock and (the vector being sorted) the smallest pending arrival time;
the admission of the next turn then takes at least that record out of the
admission vector. -/
theorem C12_salto_inactivo (S : StdSort) (s s1 s2 : MLFQScheduler) (i : Int)
    (a : Proceso) (r : List Proceso)
    (hs : s.colaLlegadas.Pairwise (fun a b => a.tiempoLlegada ≤ b.tiempoLlegada))
    (hniv : ∀ p ∈ s.colaLlegadas,
      1 ≤ p.colaOriginal ∧ p.colaOriginal ≤ (s.colas.length : Int))
    (hm : moverProcesosLlegados s = some s1)
    (hp : planificar s1 = some ((i, none), s2))
    (hl : s2.colaLlegadas = a :: r) :
    iteracion S s = some { s2 with tiempoGlobal := a.tiempoLlegada } ∧
    s.tiempoGlobal < a.tiempoLlegada ∧
    (∀ x ∈ s2.colaLlegadas, a.tiempoLlegada ≤ x.tiempoLlegada) ∧
    ∃ s5, moverProcesosLlegados { s2 with tiempoGlobal := a.tiempoLlegada } = some s5 ∧
      s5.colaLlegadas.length < s2.colaLlegadas.length ∧
      ∃ adm, s2.colaLlegadas = a :: adm ++ s5.colaLlegadas := by
  obtain ⟨_, _, _, adm1, hadm1, _, hhead1, hlen1, _, _⟩ := mover_some s s1 hm
  obtain ⟨_, hll2, _, ht2, hlen2⟩ := planificar_resto s1 i none s2 hp
  have hl1 : s1.colaLlegadas = a :: r := by rw [← hll2]; exact hl
  have hsub : ∀ x ∈ s2.colaLlegadas, x ∈ s.colaLlegadas := by
    intro x hx
    rw [hll2] at hx
    rw [hadm1]
    exact List.mem_append_right _ hx
  refine ⟨?_, hhead1 a r hl1, ?_, ?_⟩
  · simp only [iteracion, hm, hp, hl]
  · intro x hx
    rw [hl] at hx
    rcases List.mem_cons.mp hx with h1 | h1
    · rw [h1]
    · rw [hadm1, hl1] at hs
      exact (List.pairwise_cons.mp (List.pairwise_append.mp hs).2.1).1 x h1
  · obtain ⟨r5, hmb⟩ := moverBucle_existe a.tiempoLlegada s2.colaLlegadas s2.colas
      (fun x hx => by rw [hlen2, hlen1]; exact hniv x (hsub x hx))
    have hm5 : moverProcesosLlegados { s2 with tiempoGlobal := a.tiempoLlegada } =
        some { s2 with tiempoGlobal := a.tiempoLlegada, colaLlegadas := r5.1, colas := r5.2 } := by
      simp only [moverProcesosLlegados, hmb]
    refine ⟨_, hm5, ?_⟩
    obtain ⟨_, _, _, adm, hadm, _, hhead, _⟩ := mover_some _ _ hm5
    have hadm2 : s2.colaLlegadas = adm ++ r5.1 := hadm
    cases adm with
    | nil =>
      simp only [List.nil_append] at hadm2
      have := hhead a r (by rw [← hl]; exact hadm2.symm)
      exact absurd this (lt_irrefl _)
    | cons x adm =>
      have hx : x = a := by
        rw [hl] at hadm2
        simp only [List.cons_append, List.cons.injEq] at hadm2
        exact hadm2.1.symm
      subst hx
      refine ⟨?_, adm, hadm2⟩
      show r5.1.length < s2.colaLlegadas.length
      rw [hadm2]
      simp only [List.length_append, List.length_cons]
      omega

/-- C12 on the engine loaded with `C` alone (arrival 2) at clock 0: the turn
moves the clock to 2. -/
theorem C12_salto_inactivo_witness :
    iteracion insercion (cargar insercion esquemasEjemplo [ejemploC]) =
        some { cargar insercion esquemasEjemplo [ejemploC] with tiempoGlobal := 2 } ∧
    (0 : Int) < 2 :=
  have h := C12_salto_inactivo insercion (cargar insercion esquemasEjemplo [ejemploC])
    (cargar insercion esquemasEjemplo [ejemploC]) (cargar insercion esquemasEjemplo [ejemploC])
    (-1) ejemploC [] (by decide) (by decide) (by decide) (by decide) (by decide)
  ⟨h.1, h.2.1⟩

/-! ## The finished vector and the clock -/

/-- A turn of the main loop leaves the finished vector alone or appends one
record whose finish time is the new clock. -/
theorem iteracion_finalizados (S : StdSort) (s s4 : MLFQScheduler)
    (h : iteracion S s = some s4) :
    s4.procesosFinalizados = s.procesosFinalizados ∨
      ∃ x, s4.procesosFinalizados = s.procesosFinalizados ++ [x] ∧
        x.tiempoFinalizacion = s4.tiempoGlobal := by
  obtain ⟨s1, i, o, s2, hm, hp, hcasos⟩ := iteracion_casos S s s4 h
  obtain ⟨_, hfin1, _⟩ := mover_some s s1 hm
  obtain ⟨_, _, hfin2, _, _⟩ := planificar_resto s1 i o s2 hp
  rcases hcasos with ⟨_, _, hs4⟩ | ⟨_, a, r, _, hs4⟩ | ⟨p, _, hej⟩
  · left; rw [hs4]; show s2.procesosFinalizados = _; rw [hfin2, hfin1]
  · left; rw [hs4]; show s2.procesosFinalizados = _; rw [hfin2, hfin1]
  · obtain ⟨_, _, x, _, hcaso⟩ := ejecutar_some S s2 p i s4 hej
    rcases hcaso with ⟨_, hf⟩ | ⟨hf, _⟩
    · right
      exact ⟨_, by rw [hf, hfin2, hfin1], rfl⟩
    · left; rw [hf, hfin2, hfin1]

theorem mdatos_eq_zero {l : List Proceso} (h : mdatos l = 0) : l = [] := by
  unfold mdatos at h
  exact List.map_eq_nil_iff.mp ((Multiset.coe_eq_zero _).mp h)

theorem vivos_nil_continua (s : MLFQScheduler) (h : s.vivos = []) : s.continua = false := by
  unfold vivos at h
  obtain ⟨h1, h2⟩ := List.append_eq_nil.mp h
  exact (continua_false s).mpr ⟨h1, List.flatten_eq_nil_iff.mp h2⟩

theorem continua_vivos_nil (s : MLFQScheduler) (h : s.continua = false) : s.vivos = [] := by
  obtain ⟨h1, h2⟩ := (continua_false s).mp h
  unfold vivos
  rw [h1, List.flatten_eq_nil_iff.mpr h2]
  rfl

/-- The turn after which nothing is pending or queued has finished a record
at the new clock. -/
theorem iteracion_ultima (S : StdSort) (s s4 : MLFQScheduler)
    (h : iteracion S s = some s4) (hc : s.continua = true) (hv : s4.vivos = []) :
    ∃ x, s4.procesosFinalizados = s.procesosFinalizados ++ [x] ∧
      x.tiempoFinalizacion = s4.tiempoGlobal := by
  rcases iteracion_finalizados S s s4 h with hf | hx
  · exfalso
    have hcons := iteracion_conserva S s s4 h
    simp only [todos, hv, hf, List.nil_append, mdatos_append] at hcons
    have h0 : mdatos s.vivos = 0 := by
      have : mdatos s.vivos + mdatos s.procesosFinalizados =
          0 + mdatos s.procesosFinalizados := by rw [zero_add]; exact hcons.symm
      exact add_right_cancel this
    have := vivos_nil_continua s (mdatos_eq_zero h0)
    rw [hc] at this
    cases this
  · exact hx

/-- The state after `j + d` turns is the state `d` turns after the state
after `j` turns. -/
theorem iterar_suma (S : StdSort) (j d : Nat) (s s2 : MLFQScheduler)
    (h : iterar S (j + d) s = some s2) :
    ∃ sj, iterar S j s = some sj ∧ iterar S d sj = some s2 := by
  induction j generalizing s with
  | zero => exact ⟨s, rfl, by simpa using h⟩
  | succ j ih =>
    have hjd : j + 1 + d = (j + d) + 1 := by omega
    rw [hjd] at h
    simp only [iterar] at h
    split_ifs at h with hc
    cases hi : iteracion S s with
    | none => rw [hi] at h; cases h
    | some s1 =>
      rw [hi] at h
      obtain ⟨sj, h1, h2⟩ := ih s1 h
      exact ⟨sj, by simp only [iterar, hc, if_true, hi]; exact h1, h2⟩

/-- On states of a valid run the clock never goes back, whatever the number
of turns. -/
theorem iterar_reloj (S : StdSort) (d : Nat) (s s2 : MLFQScheduler) (hI : s.EnCurso)
    (h : iterar S d s = some s2) : s.tiempoGlobal ≤ s2.tiempoGlobal ∧ s2.EnCurso := by
  induction d generalizing s with
  | zero =>
    simp only [iterar, Option.some.injEq] at h
    subst h
    exact ⟨le_refl _, hI⟩
  | succ d ih =>
    unfold iterar at h
    split_ifs at h with hc
    obtain ⟨s4, hit, hI4, _, hlt, _⟩ := iteracion_progresa S s hI hc
    rw [hit] at h
    obtain ⟨h1, h2⟩ := ih s4 hI4 h
    exact ⟨by omega, h2⟩

/-- Invariant of a valid run on the finished vector: finish times do not
decrease along it and none exceeds the clock. -/
theorem iteracion_orden_final (S : StdSort) (s s4 : MLFQScheduler) (hI : s.EnCurso)
    (hc : s.continua = true) (h : iteracion S s = some s4)
    (hord : s.procesosFinalizados.Pairwise
      (fun a b => a.tiempoFinalizacion ≤ b.tiempoFinalizacion))
    (hcota : ∀ p ∈ s.procesosFinalizados, p.tiempoFinalizacion ≤ s.tiempoGlobal) :
    s4.EnCurso ∧ s.tiempoGlobal < s4.tiempoGlobal ∧
    s4.procesosFinalizados.Pairwise
      (fun a b => a.tiempoFinalizacion ≤ b.tiempoFinalizacion) ∧
    ∀ p ∈ s4.procesosFinalizados, p.tiempoFinalizacion ≤ s4.tiempoGlobal := by
  obtain ⟨s5, hit, hI4, _, hlt, _⟩ := iteracion_progresa S s hI hc
  rw [h] at hit
  obtain rfl := Option.some.inj hit
  refine ⟨hI4, hlt, ?_, ?_⟩
  · rcases iteracion_finalizados S s s4 h with hf | ⟨x, hf, hx⟩
    · rw [hf]; exact hord
    · rw [hf, List.pairwise_append]
      refine ⟨hord, List.pairwise_singleton _ _, ?_⟩
      intro a ha b hb
      rw [List.mem_singleton.mp hb, hx]
      have := hcota a ha
      omega
  · rcases iteracion_finalizados S s s4 h with hf | ⟨x, hf, hx⟩
    · intro p hp
      rw [hf] at hp
      have := hcota p hp
      omega
    · intro p hp
      rw [hf] at hp
      rcases List.mem_append.mp hp with h1 | h1
      · have := hcota p h1
        omega
      · rw [List.mem_singleton.mp h1, hx]

/-- What a valid run keeps from turn to turn about the finished vector: the
run invariant, the conservation of the records, finish times in order and
bounded by the clock, and, once nothing is pending or queued, a last finished
record whose finish time is the clock (or nothing finished at all). -/
theorem simulacion_orden_final (S : StdSort) (esq : List EsquemaCola) (ps : List Proceso)
    (hv : Valido esq ps) (n : Nat) (s2 : MLFQScheduler)
    (h : ejecutarSimulacion S n (cargar S esq ps) = some s2) :
    s2.procesosFinalizados.Pairwise
      (fun a b => a.tiempoFinalizacion ≤ b.tiempoFinalizacion) ∧
    (∀ p ∈ s2.procesosFinalizados, p.tiempoFinalizacion ≤ s2.tiempoGlobal) ∧
    mdatos s2.procesosFinalizados = mdatos ps ∧
    (s2.procesosFinalizados = [] ∨
      ∃ u, s2.procesosFinalizados.getLast? = some u ∧
        u.tiempoFinalizacion = s2.tiempoGlobal) := by
  obtain ⟨hI, _⟩ := cargar_en_curso S esq ps hv
  obtain ⟨_, _, hfin0, _, _, htodos0⟩ := cargar_forma S esq ps
  have hinv := simulacion_invariante S
    (fun s => s.EnCurso ∧
      s.procesosFinalizados.Pairwise
        (fun a b => a.tiempoFinalizacion ≤ b.tiempoFinalizacion) ∧
      (∀ p ∈ s.procesosFinalizados, p.tiempoFinalizacion ≤ s.tiempoGlobal) ∧
      mdatos s.todos = mdatos ps ∧
      (s.vivos = [] → s.procesosFinalizados = [] ∨
        ∃ u, s.procesosFinalizados.getLast? = some u ∧
          u.tiempoFinalizacion = s.tiempoGlobal))
    (fun s s4 hs hc hit => by
      obtain ⟨hIs, hord, hcota, hcons, _⟩ := hs
      obtain ⟨hI4, _, hord4, hcota4⟩ := iteracion_orden_final S s s4 hIs hc hit hord hcota
      refine ⟨hI4, hord4, hcota4, (iteracion_conserva S s s4 hit).trans hcons, ?_⟩
      intro hviv
      obtain ⟨x, hf, hx⟩ := iteracion_ultima S s s4 hit hc hviv
      exact Or.inr ⟨x, (by rw [hf, List.getLast?_append, List.getLast?_singleton]; rfl), hx⟩)
    n (cargar S esq ps) s2
    ⟨hI, (by rw [hfin0]; exact List.Pairwise.nil), (by rw [hfin0]; intro p hp; cases hp),
      mdatos_perm htodos0, fun _ => Or.inl hfin0⟩ h
  obtain ⟨⟨_, hord, hcota, hcons, hult⟩, hfin⟩ := hinv
  have hviv := continua_vivos_nil s2 hfin
  refine ⟨hord, hcota, ?_, hult hviv⟩
  rw [← hcons]
  unfold todos
  rw [hviv, List.nil_append]

/-! ## Averages -/

/-- A fresh engine does not satisfy the loop condition. -/
theorem nuevo_no_continua (esq : List EsquemaCola) : (nuevo esq).continua = false := by
  rw [continua_false]
  refine ⟨rfl, ?_⟩
  intro c hc
  exact List.eq_of_mem_replicate hc

/-- C14. With zero added records `ejecutarSimulacion` returns at once, for
every level configuration and every bound on the turns: the engine is the
fresh one, clock 0 and empty finished vector, and `calcularPromedios` then
writes `0.0` to the four averages. -/
theorem C14_carga_vacia (S : StdSort) (F : Doble) (esq : List EsquemaCola) (n : Nat) :
    ∃ s2, ejecutarSimulacion S n (cargar S esq []) = some s2 ∧
      s2.tiempoGlobal = 0 ∧ s2.tiempoGlobal = (cargar S esq []).tiempoGlobal ∧
      s2.procesosFinalizados = [] ∧
      calcularPromedios F s2 = (F.cero, F.cero, F.cero, F.cero) ∧
      calcularPromedios exacto s2 = ((0 : ℚ), (0 : ℚ), (0 : ℚ), (0 : ℚ)) := by
  refine ⟨nuevo esq, ?_, rfl, rfl, rfl, rfl, rfl⟩
  show ejecutarSimulacion S n (nuevo esq) = some (nuevo esq)
  cases n with
  | zero => simp only [ejecutarSimulacion, nuevo_no_continua, Bool.false_eq_true, if_false]
  | succ k => simp only [ejecutarSimulacion, nuevo_no_continua, Bool.false_eq_true, if_false]

/-! ## The record through a dispatch -/

/-- One unit of execution: the remaining time does not grow and does not go
below zero, the current level is kept, the record is started, and a started
record keeps its start time. -/
theorem ejecutar_unidad (p : Proceso) (t : Int) :
    (p.ejecutar t).tiempoRestante ≤ p.tiempoRestante ∧
    (0 ≤ p.tiempoRestante → 0 ≤ (p.ejecutar t).tiempoRestante) ∧
    (p.ejecutar t).cola = p.cola ∧ (p.ejecutar t).haIniciado = true ∧
    (p.haIniciado = true → (p.ejecutar t).tiempoInicio = p.tiempoInicio) := by
  cases hi : p.haIniciado <;> by_cases hr : p.tiempoRestante > 0 <;>
    simp [Proceso.ejecutar, hi, hr] <;> omega

/-- The execution loop on a started record, for any number of turns. -/
theorem bucle_registro (p : Proceso) (t : Int) (n : Nat) (hi : p.haIniciado = true) :
    (bucleEjecutar p t n).tiempoRestante ≤ p.tiempoRestante ∧
    (0 ≤ p.tiempoRestante → 0 ≤ (bucleEjecutar p t n).tiempoRestante) ∧
    (bucleEjecutar p t n).cola = p.cola ∧ (bucleEjecutar p t n).haIniciado = true ∧
    (bucleEjecutar p t n).tiempoInicio = p.tiempoInicio := by
  induction n with
  | zero => exact ⟨le_refl _, fun h => h, rfl, hi, rfl⟩
  | succ k ih =>
    obtain ⟨h1, h2, h3, h4, h5⟩ := ih
    obtain ⟨e1, e2, e3, e4, e5⟩ := ejecutar_unidad (bucleEjecutar p t k) (t + (k : Int))
    simp only [bucleEjecutar]
    exact ⟨le_trans e1 h1, fun h => e2 (h2 h), e3.trans h3, e4, (e5 h4).trans h5⟩

theorem marcado_inicio (p : Proceso) (t : Int) :
    (marcado p t).tiempoInicio = (if p.haIniciado then p.tiempoInicio else t) := by
  unfold marcado
  split_ifs <;> rfl

/-- The record as a dispatch at clock `t` leaves it after the first-dispatch
marking and `n` units of execution. -/
theorem bucle_despacho (p : Proceso) (t : Int) (n : Nat) :
    (bucleEjecutar (marcado p t) t n).datos = p.datos ∧
    (bucleEjecutar (marcado p t) t n).tiempoRestante ≤ p.tiempoRestante ∧
    (0 ≤ p.tiempoRestante → 0 ≤ (bucleEjecutar (marcado p t) t n).tiempoRestante) ∧
    (bucleEjecutar (marcado p t) t n).haIniciado = true ∧
    (bucleEjecutar (marcado p t) t n).tiempoInicio =
      (if p.haIniciado then p.tiempoInicio else t) ∧
    (bucleEjecutar (marcado p t) t n).cola = p.cola := by
  obtain ⟨h1, h2, h3, h4, h5⟩ := bucle_registro (marcado p t) t n (marcado_iniciado p t)
  rw [marcado_restante] at h1 h2
  exact ⟨by rw [bucle_datos, marcado_datos], h1, h2, h4, h5.trans (marcado_inicio p t),
    h3.trans (marcado_cola p t)⟩

/-- Dispatch when it is defined, record by record: the dispatched record `p`
becomes a record `x` that is either appended to the finished vector, with no
remaining time left and the clock as finish time, or pushed to a level queue:
the queue `min (i + 1) (N - 1)` with its current level set to that index
(Round Robin), or the queue `i` with its current level untouched (STCF). -/
theorem ejecutar_registro (S : StdSort) (s : MLFQScheduler) (p : Proceso) (i : Int)
    (s3 : MLFQScheduler) (h : ejecutarConScheduler S s p i = some s3) :
    s3.esquemas = s.esquemas ∧ s3.colaLlegadas = s.colaLlegadas ∧
    ∃ x, x.datos = p.datos ∧ x.tiempoRestante ≤ p.tiempoRestante ∧
      (0 ≤ p.tiempoRestante → 0 ≤ x.tiempoRestante) ∧ x.haIniciado = true ∧
      x.tiempoInicio = (if p.haIniciado then p.tiempoInicio else s.tiempoGlobal) ∧
      ((s3.colas = s.colas ∧ s3.procesosFinalizados = s.procesosFinalizados ++ [x] ∧
          x.tiempoRestante ≤ 0 ∧ x.tiempoFinalizacion = s3.tiempoGlobal ∧ x.cola = p.cola) ∨
        (s3.procesosFinalizados = s.procesosFinalizados ∧
          ∃ c, empujar s.colas c x = some s3.colas ∧
            ((x.cola = c ∧ c = min (i + 1) ((s.colas.length : Int) - 1)) ∨
              (x.cola = p.cola ∧ c = i)))) := by
  unfold ejecutarConScheduler at h
  cases he : subindice s.esquemas i with
  | none => rw [he] at h; cases h
  | some e =>
    rw [he] at h
    cases hpol : e.politica with
    | ROUND_ROBIN =>
      simp only [hpol, RoundRobinScheduler.nuevo, RoundRobinScheduler.agregarProceso,
        RoundRobinScheduler.obtenerSiguienteProceso, RoundRobinScheduler.ejecutarProceso,
        List.nil_append] at h
      split_ifs at h with hc
      · simp only [Option.some.injEq] at h
        subst h
        obtain ⟨d1, d2, d3, d4, d5, d6⟩ := bucle_despacho p s.tiempoGlobal
          (min e.quantum (marcado p s.tiempoGlobal).tiempoRestante).toNat
        refine ⟨rfl, rfl, _, ?_, ?_, ?_, ?_, ?_, Or.inl ⟨rfl, rfl, ?_, rfl, ?_⟩⟩
        · exact d1
        · exact d2
        · exact d3
        · exact d4
        · exact d5
        · simpa [Proceso.estaCompleto] using hc
        · exact d6
      · split at h
        · cases h
        · rename_i colas1 hemp
          simp only [Option.some.injEq] at h
          subst h
          obtain ⟨d1, d2, d3, d4, d5, d6⟩ := bucle_despacho p s.tiempoGlobal
            (min e.quantum (marcado p s.tiempoGlobal).tiempoRestante).toNat
          refine ⟨rfl, rfl, _, ?_, ?_, ?_, ?_, ?_,
            Or.inr ⟨rfl, _, hemp, Or.inl ⟨rfl, rfl⟩⟩⟩
          · exact d1
          · exact d2
          · exact d3
          · exact d4
          · exact d5
    | SJF =>
      simp only [hpol, SJFScheduler.nuevo, SJFScheduler.agregarProceso,
        SJFScheduler.obtenerSiguienteProceso, SJFScheduler.ejecutarProceso,
        List.nil_append, ordenar_singular, Option.some.injEq] at h
      subst h
      obtain ⟨d1, d2, d3, d4, d5, d6⟩ := bucle_despacho p s.tiempoGlobal
        (marcado p s.tiempoGlobal).tiempoRestante.toNat
      refine ⟨rfl, rfl, _, ?_, ?_, ?_, ?_, ?_, Or.inl ⟨rfl, rfl, ?_, rfl, ?_⟩⟩
      · exact d1
      · exact d2
      · exact d3
      · exact d4
      · exact d5
      · by_cases h0 : 0 ≤ (marcado p s.tiempoGlobal).tiempoRestante
        · rw [bucleEjecutar_entero _ _ _ (marcado_iniciado p s.tiempoGlobal) h0 (le_refl _)]
          show (marcado p s.tiempoGlobal).tiempoRestante -
            (marcado p s.tiempoGlobal).tiempoRestante ≤ 0
          omega
        · have hz : (marcado p s.tiempoGlobal).tiempoRestante.toNat = 0 := by omega
          rw [hz]
          show (marcado p s.tiempoGlobal).tiempoRestante ≤ 0
          omega
      · exact d6
    | STCF =>
      simp only [hpol, STCFScheduler.nuevo, STCFScheduler.agregarProceso,
        STCFScheduler.obtenerSiguienteProceso, STCFScheduler.ejecutarProceso,
        List.nil_append, ordenar_singular] at h
      split_ifs at h with hc
      · simp only [Option.some.injEq] at h
        subst h
        obtain ⟨d1, d2, d3, d4, d5, d6⟩ := bucle_despacho p s.tiempoGlobal
          (min (tiempoMaximoSTCF s (marcado p s.tiempoGlobal))
            (marcado p s.tiempoGlobal).tiempoRestante).toNat
        refine ⟨rfl, rfl, _, ?_, ?_, ?_, ?_, ?_, Or.inl ⟨rfl, rfl, ?_, rfl, ?_⟩⟩
        · exact d1
        · exact d2
        · exact d3
        · exact d4
        · exact d5
        · simpa [Proceso.estaCompleto] using hc
        · exact d6
      · split at h
        · cases h
        · rename_i colas1 hemp
          simp only [Option.some.injEq] at h
          subst h
          obtain ⟨d1, d2, d3, d4, d5, d6⟩ := bucle_despacho p s.tiempoGlobal
            (min (tiempoMaximoSTCF s (marcado p s.tiempoGlobal))
              (marcado p s.tiempoGlobal).tiempoRestante).toNat
          exact ⟨rfl, rfl, _, d1, d2, d3, d4, d5, Or.inr ⟨rfl, _, hemp, Or.inr ⟨d6, rfl⟩⟩⟩

/-! ## The records through a turn of the main loop -/

/-- Pushing a record whose current level is the index of the queue keeps every
queued record at the level of its queue. -/
theorem coherente_empujar (colas : List (List Proceso)) (n : Int) (x : Proceso)
    (c1 : List (List Proceso)) (h : empujar colas n x = some c1) (hx : x.cola = n)
    (hco : ∀ (j : Nat) (q : List Proceso), colas[j]? = some q → ∀ p ∈ q, p.cola = (j : Int)) :
    ∀ (j : Nat) (q : List Proceso), c1[j]? = some q → ∀ p ∈ q, p.cola = (j : Int) := by
  obtain ⟨h0, _, hget⟩ := empujar_getElem colas n x c1 h
  have hlen := (empujar_some colas n x c1 h).1
  intro j q hj p hp
  have hjlt : j < colas.length := by
    rw [← hlen]
    by_contra hcon
    rw [List.getElem?_eq_none (by omega)] at hj
    cases hj
  have h2 := hget j colas[j] (List.getElem?_eq_getElem hjlt)
  rw [hj] at h2
  have hq := Option.some.inj h2
  rw [hq] at hp
  by_cases hjn : j = n.toNat
  · rw [if_pos hjn] at hp
    rcases List.mem_append.mp hp with hp1 | hp1
    · exact hco j colas[j] (List.getElem?_eq_getElem hjlt) p hp1
    · rw [List.mem_singleton.mp hp1, hx]
      omega
  · rw [if_neg hjn] at hp
    exact hco j colas[j] (List.getElem?_eq_getElem hjlt) p hp

/-- Admission keeps every queued record at the level of its queue. -/
theorem coherente_mover (s s1 : MLFQScheduler) (h : moverProcesosLlegados s = some s1)
    (hco : s.Coherente) : s1.Coherente := by
  unfold moverProcesosLlegados at h
  cases hm : moverBucle s.tiempoGlobal s.colaLlegadas s.colas with
  | none => rw [hm] at h; cases h
  | some r =>
    obtain ⟨l2, c2⟩ := r
    rw [hm] at h
    simp only [Option.some.injEq] at h
    subst h
    obtain ⟨adm, _, _, _, hget⟩ := moverBucle_colas _ _ _ _ _ hm
    obtain ⟨_, _, _, _, hlen, _, _⟩ := moverBucle_some _ _ _ _ _ hm
    intro j q hj p hp
    have hj2 : c2[j]? = some q := hj
    have hjlt : j < s.colas.length := by
      rw [← hlen]
      by_contra hcon
      rw [List.getElem?_eq_none (by omega)] at hj2
      cases hj2
    have h2 := hget j s.colas[j] (List.getElem?_eq_getElem hjlt)
    rw [hj2] at h2
    rw [Option.some.inj h2] at hp
    rcases List.mem_append.mp hp with hp1 | hp1
    · exact hco j s.colas[j] (List.getElem?_eq_getElem hjlt) p hp1
    · obtain ⟨a, ha, hap⟩ := List.mem_map.mp hp1
      have hf := (List.mem_filter.mp ha).2
      simp only [decide_eq_true_eq] at hf
      rw [← hap]
      exact hf

/-- Replacing a queue by part of its records keeps every queued record at the
level of its queue. -/
theorem coherente_set (colas : List (List Proceso)) (k : Nat) (cola resto : List Proceso)
    (hk : colas[k]? = some cola) (hsub : ∀ p ∈ resto, p ∈ cola)
    (hco : ∀ (j : Nat) (q : List Proceso), colas[j]? = some q → ∀ p ∈ q, p.cola = (j : Int)) :
    ∀ (j : Nat) (q : List Proceso), (colas.set k resto)[j]? = some q →
      ∀ p ∈ q, p.cola = (j : Int) := by
  intro j q hj p hp
  by_cases hjk : j = k
  · subst hjk
    have hlt : j < colas.length := by
      by_contra hcon
      rw [List.getElem?_eq_none (by omega)] at hk
      cases hk
    rw [List.getElem?_set_self hlt] at hj
    rw [← Option.some.inj hj] at hp
    exact hco j cola hk p (hsub p hp)
  · rw [List.getElem?_set_ne (Ne.symm hjk)] at hj
    exact hco j q hj p hp

/-- A relation that holds more often is still the one of `CambiaUno`. -/
theorem cambiaUno_mono (R R2 : Proceso → Proceso → Prop) (antes despues : List Proceso)
    (hR : ∀ p x, R p x → R2 p x) (h : CambiaUno R antes despues) :
    CambiaUno R2 antes despues := by
  rcases h with h | ⟨p, x, resto, h1, h2, h3⟩
  · exact Or.inl h
  · exact Or.inr ⟨p, x, resto, h1, h2, hR p x h3⟩

/-- A turn of the main loop, record by record.  The admission vector loses a
prefix `adm`, the finished vector gains a suffix `extra` of records with no
remaining time left, and the records queued or newly finished after the turn
are the records queued before it and the admitted ones, except that the
dispatched record, if any, has been replaced by what the dispatch makes of it.
Every queued record stays at the level of its queue. -/
theorem iteracion_registros (S : StdSort) (s s4 : MLFQScheduler)
    (h : iteracion S s = some s4) (hco : s.Coherente) :
    s4.Coherente ∧ s4.esquemas = s.esquemas ∧ s4.colas.length = s.colas.length ∧
    ∃ adm extra, s.colaLlegadas = adm ++ s4.colaLlegadas ∧
      s4.procesosFinalizados = s.procesosFinalizados ++ extra ∧
      (∀ x ∈ extra, x.tiempoRestante ≤ 0) ∧
      CambiaUno (Despacho s.tiempoGlobal) (s.colas.flatten ++ adm.map admitido)
        (s4.colas.flatten ++ extra) := by
  obtain ⟨s1, i, o, s2, hm, hp, hcasos⟩ := iteracion_casos S s s4 h
  have hco1 := coherente_mover s s1 hm hco
  obtain ⟨hesq1, hfin1, hreloj1, adm, hadm, _, _, hlen1, hperm1, _⟩ := mover_some s s1 hm
  have hperm1b : s1.colas.flatten.Perm (s.colas.flatten ++ adm.map admitido) := hperm1
  -- selection
  have hsel : s2.Coherente ∧ s2.esquemas = s1.esquemas ∧ s2.colas.length = s1.colas.length ∧
      s2.colaLlegadas = s1.colaLlegadas ∧ s2.procesosFinalizados = s1.procesosFinalizados ∧
      s2.tiempoGlobal = s1.tiempoGlobal ∧
      (o.toList ++ s2.colas.flatten).Perm s1.colas.flatten ∧
      (∀ p, o = some p → p.cola = i ∧ i < (s1.colas.length : Int)) := by
    rcases planificar_some s1 i o s2 hp with ⟨_, _, ho, hs2⟩ |
      ⟨k, e, cola, resto, hi, hcola, _, _, _, hs2, hperm2, _⟩
    · subst ho; subst hs2
      exact ⟨hco1, rfl, rfl, rfl, rfl, rfl, List.Perm.refl _, fun p hh => by cases hh⟩
    · have hklt : k < s1.colas.length := by
        by_contra hcon
        rw [List.getElem?_eq_none (by omega)] at hcola
        cases hcola
      subst hs2
      refine ⟨?_, rfl, List.length_set _ _ _, rfl, rfl, rfl,
        flatten_quitar_perm s1.colas k cola resto hcola o.toList hperm2, ?_⟩
      · exact coherente_set s1.colas k cola resto hcola
          (fun p hp => hperm2.subset (List.mem_append_right _ hp)) hco1
      · intro p hop
        have hpc : p ∈ cola := hperm2.subset (by rw [hop]; simp)
        rw [hi]
        exact ⟨hco1 k cola hcola p hpc, by omega⟩
  obtain ⟨hco2, hesq2, hlen2, hll2, hfin2, hreloj2, hperm2, hdesp⟩ := hsel
  rcases hcasos with ⟨ho, _, hs4⟩ | ⟨ho, a, r, _, hs4⟩ | ⟨p, ho, hej⟩
  · subst ho; subst hs4
    refine ⟨hco2, hesq2.trans hesq1, hlen2.trans hlen1, adm, [], ?_, ?_, ?_, Or.inl ?_⟩
    · rw [hadm]; exact congrArg _ hll2.symm
    · show s2.procesosFinalizados = _
      rw [hfin2, hfin1, List.append_nil]
    · intro x hx; cases hx
    · rw [List.append_nil]
      exact (hperm2.symm.trans (by simp)).symm.trans hperm1b
  · subst ho; subst hs4
    refine ⟨hco2, hesq2.trans hesq1, hlen2.trans hlen1, adm, [], ?_, ?_, ?_, Or.inl ?_⟩
    · rw [hadm]; exact congrArg _ hll2.symm
    · show s2.procesosFinalizados = _
      rw [hfin2, hfin1, List.append_nil]
    · intro x hx; cases hx
    · rw [List.append_nil]
      exact (hperm2.symm.trans (by simp)).symm.trans hperm1b
  · subst ho
    obtain ⟨hpi, hilt⟩ := hdesp p rfl
    obtain ⟨hesq4, hll4, x, d1, d2, d3, d4, d5, hcaso⟩ := ejecutar_registro S s2 p i s4 hej
    have hantes : (s.colas.flatten ++ adm.map admitido).Perm (p :: s2.colas.flatten) :=
      hperm1b.symm.trans hperm2.symm
    have hreloj : s2.tiempoGlobal = s.tiempoGlobal := hreloj2.trans hreloj1
    rw [hreloj] at d5
    rcases hcaso with ⟨hc, hf, hr0, _, hxc⟩ | ⟨hf, c, hemp, hc⟩
    · refine ⟨?_, hesq4.trans (hesq2.trans hesq1), by rw [hc, hlen2, hlen1], adm, [x],
        ?_, ?_, ?_, Or.inr ⟨p, x, s2.colas.flatten, hantes, ?_, ?_⟩⟩
      · intro j q hj
        rw [hc] at hj
        exact hco2 j q hj
      · rw [hadm, hll4, hll2]
      · rw [hf, hfin2, hfin1]
      · intro y hy
        rw [List.mem_singleton.mp hy]
        exact hr0
      · rw [hc]
        exact List.perm_append_singleton x _
      · exact ⟨d1, d2, d3, d4, d5, le_of_eq hxc.symm⟩
    · obtain ⟨hlen4, hperm4⟩ := empujar_some _ _ _ _ hemp
      have hxcola : x.cola = c ∧ p.cola ≤ x.cola := by
        rcases hc with ⟨hx1, hx2⟩ | ⟨hx1, hx2⟩
        · refine ⟨hx1, ?_⟩
          rw [hx1, hx2, hpi, hlen2]
          omega
        · exact ⟨by rw [hx1, hx2, hpi], le_of_eq hx1.symm⟩
      refine ⟨?_, hesq4.trans (hesq2.trans hesq1), by rw [hlen4, hlen2, hlen1], adm, [],
        ?_, ?_, ?_, Or.inr ⟨p, x, s2.colas.flatten, hantes, ?_, ?_⟩⟩
      · exact coherente_empujar s2.colas c x s4.colas hemp hxcola.1 hco2
      · rw [hadm, hll4, hll2]
      · rw [hf, hfin2, hfin1, List.append_nil]
      · intro y hy; cases hy
      · rw [List.append_nil]
        exact hperm4
      · exact ⟨d1, d2, d3, d4, d5, hxcola.2⟩

/-- Before the run every queue is empty, so every queued record is at the
level of its queue. -/
theorem cargar_coherente (S : StdSort) (esq : List EsquemaCola) (ps : List Proceso) :
    (cargar S esq ps).Coherente := by
  intro j q hj p hp
  rw [(cargar_forma S esq ps).2.1] at hj
  have hq : q = [] := List.eq_of_mem_replicate (List.getElem?_mem hj)
  rw [hq] at hp
  cases hp

/-- Every state of a run keeps the queued records at the level of their
queue. -/
theorem iterar_coherente (S : StdSort) (esq : List EsquemaCola) (ps : List Proceso)
    (k : Nat) (s : MLFQScheduler) (hk : iterar S k (cargar S esq ps) = some s) :
    s.Coherente :=
  iterar_invariante S (fun s => s.Coherente)
    (fun s s1 hs _ hi => (iteracion_registros S s s1 hi hs).1) k _ s
    (cargar_coherente S esq ps) hk

/-- A property of records that admission and dispatch keep is kept by a turn
of the main loop for every record the engine holds. -/
theorem iteracion_todos (S : StdSort) (s s4 : MLFQScheduler)
    (h : iteracion S s = some s4) (hco : s.Coherente) (Q : Proceso → Prop)
    (hadm : ∀ p, Q p → Q (admitido p))
    (hd : ∀ p x, Despacho s.tiempoGlobal p x → Q p → Q x)
    (hQ : ∀ p ∈ s.todos, Q p) : ∀ p ∈ s4.todos, Q p := by
  obtain ⟨_, _, _, adm, extra, hll, hfin, _, hcambio⟩ := iteracion_registros S s s4 h hco
  have hQll : ∀ p ∈ s.colaLlegadas, Q p := fun p hp =>
    hQ p (List.mem_append_left _ (List.mem_append_left _ hp))
  have hQcolas : ∀ p ∈ s.colas.flatten, Q p := fun p hp =>
    hQ p (List.mem_append_left _ (List.mem_append_right _ hp))
  have hQfin : ∀ p ∈ s.procesosFinalizados, Q p := fun p hp =>
    hQ p (List.mem_append_right _ hp)
  have hantes : ∀ y ∈ s.colas.flatten ++ adm.map admitido, Q y := by
    intro y hy
    rcases List.mem_append.mp hy with hy1 | hy1
    · exact hQcolas y hy1
    · obtain ⟨a, ha, hay⟩ := List.mem_map.mp hy1
      rw [← hay]
      exact hadm a (hQll a (by rw [hll]; exact List.mem_append_left _ ha))
  have hdespues : ∀ y ∈ s4.colas.flatten ++ extra, Q y := by
    intro y hy
    rcases hcambio with hperm | ⟨p, x, resto, h1, h2, h3⟩
    · exact hantes y (hperm.subset hy)
    · rcases List.mem_cons.mp (h2.subset hy) with hyx | hyr
      · rw [hyx]
        exact hd p x h3 (hantes p (h1.symm.subset (List.mem_cons_self _ _)))
      · exact hantes y (h1.symm.subset (List.mem_cons_of_mem _ hyr))
  intro p hp
  rcases List.mem_append.mp hp with hv | hf
  · rcases List.mem_append.mp hv with hl | hc
    · exact hQll p (by rw [hll]; exact List.mem_append_right _ hl)
    · exact hdespues p (List.mem_append_left _ hc)
  · rw [hfin] at hf
    rcases List.mem_append.mp hf with hf1 | hf1
    · exact hQfin p hf1
    · exact hdespues p (List.mem_append_right _ hf1)

/-- C16 as stated fails at admission: the constructor gives the record `E` of
initial level 2 the current level 2, and `moverProcesosLlegados` queues it
with the current level 1. -/
theorem C16_contraejemplo :
    ejemploE.cola = 2 ∧
    (cargar insercion esquemasEjemplo [ejemploE]).colaLlegadas.map (fun x => x.cola) = [2] ∧
    (moverProcesosLlegados (cargar insercion esquemasEjemplo [ejemploE])).map
        (fun s => (s.colaLlegadas.length, s.colas.map (fun c => c.map (fun x => x.cola)))) =
      some (0, [[], [1], []]) := by
  decide

/-- C16 (amended). The constructor sets the current level to the 1-indexed
initial level `q`, registration keeps the records, and admission sets the
current level to `q - 1`.  From admission on the current level never
decreases: across a turn of the main loop of a run, selection and dispatch
included, the pending records and the finished records stay as they are, and
the queued and newly finished records are the queued and newly admitted ones,
except that the dispatched record is replaced by a record with the same
constructor fields whose current level is not lower. -/
theorem C16_nivel_no_decrece (S : StdSort) (esq : List EsquemaCola) (ps : List Proceso)
    (k : Nat) (s s4 : MLFQScheduler)
    (hk : iterar S k (cargar S esq ps) = some s) (h : iteracion S s = some s4) :
    (∀ e b a q pr, (Proceso.nuevo e b a q pr).cola = q ∧
      (admitido (Proceso.nuevo e b a q pr)).cola = q - 1) ∧
    (cargar S esq ps).colaLlegadas.Perm ps ∧
    ∃ adm extra, s.colaLlegadas = adm ++ s4.colaLlegadas ∧
      s4.procesosFinalizados = s.procesosFinalizados ++ extra ∧
      CambiaUno (fun p x => x.datos = p.datos ∧ p.cola ≤ x.cola)
        (s.colas.flatten ++ adm.map admitido) (s4.colas.flatten ++ extra) := by
  refine ⟨fun e b a q pr => ⟨rfl, rfl⟩, (cargar_forma S esq ps).2.2.2.2.1, ?_⟩
  obtain ⟨_, _, _, adm, extra, hll, hfin, _, hcambio⟩ :=
    iteracion_registros S s s4 h (iterar_coherente S esq ps k s hk)
  exact ⟨adm, extra, hll, hfin,
    cambiaUno_mono _ _ _ _ (fun p x hd => ⟨hd.1, hd.2.2.2.2.2⟩) hcambio⟩

/-- C16 (amended) on the second turn of the run of `A`, `B`, `C` over the
sample configuration, a Round Robin dispatch that demotes `B` from level 0 to
level 1. -/
theorem C16_nivel_no_decrece_witness :
    ∃ s s4, iterar insercion 1
        (cargar insercion esquemasEjemplo [ejemploA, ejemploB, ejemploC]) = some s ∧
      iteracion insercion s = some s4 ∧
      s.colas.map (fun c => c.map (fun x => (x.tiempoRafaga, x.cola))) =
        [[(3, 0)], [(5, 1)], []] ∧
      s4.colas.map (fun c => c.map (fun x => (x.tiempoRafaga, x.cola))) =
        [[], [(5, 1), (4, 1), (3, 1)], []] ∧
      ∃ adm extra, s.colaLlegadas = adm ++ s4.colaLlegadas ∧
        s4.procesosFinalizados = s.procesosFinalizados ++ extra ∧
        CambiaUno (fun p x => x.datos = p.datos ∧ p.cola ≤ x.cola)
          (s.colas.flatten ++ adm.map admitido) (s4.colas.flatten ++ extra) := by
  have h1 : (iterar insercion 1
      (cargar insercion esquemasEjemplo [ejemploA, ejemploB, ejemploC])).map
        (fun s => (s.colas.map (fun c => c.map (fun x => (x.tiempoRafaga, x.cola))),
          (iteracion insercion s).map
            (fun s4 => s4.colas.map (fun c => c.map (fun x => (x.tiempoRafaga, x.cola)))))) =
      some ([[(3, 0)], [(5, 1)], []], some [[], [(5, 1), (4, 1), (3, 1)], []]) := by
    decide
  obtain ⟨s, hs, hpar⟩ := Option.map_eq_some'.mp h1
  simp only [Prod.mk.injEq] at hpar
  obtain ⟨s4, hs4, hc4⟩ := Option.map_eq_some'.mp hpar.2
  exact ⟨s, s4, hs, hs4, hpar.1, hc4,
    (C16_nivel_no_decrece insercion esquemasEjemplo [ejemploA, ejemploB, ejemploC]
      1 s s4 hs hs4).2.2⟩

/-- A turn of the main loop keeps the remaining time of every record between
0 and the burst, and at 0 in the finished vector. -/
theorem iteracion_restante (S : StdSort) (s s4 : MLFQScheduler)
    (h : iteracion S s = some s4)
    (hP : s.Coherente ∧
      (∀ p ∈ s.todos, 0 ≤ p.tiempoRestante ∧ p.tiempoRestante ≤ p.tiempoRafaga) ∧
      (∀ p ∈ s.procesosFinalizados, p.tiempoRestante = 0)) :
    s4.Coherente ∧
    (∀ p ∈ s4.todos, 0 ≤ p.tiempoRestante ∧ p.tiempoRestante ≤ p.tiempoRafaga) ∧
    (∀ p ∈ s4.procesosFinalizados, p.tiempoRestante = 0) := by
  obtain ⟨hco, hcotas, hcero⟩ := hP
  obtain ⟨hco4, _, _, adm, extra, _, hfin, hextra, _⟩ := iteracion_registros S s s4 h hco
  have hcotas4 := iteracion_todos S s s4 h hco
    (fun p => 0 ≤ p.tiempoRestante ∧ p.tiempoRestante ≤ p.tiempoRafaga)
    (fun p hp => hp)
    (fun p x hd hp => by
      obtain ⟨d1, d2, d3, _⟩ := hd
      have hraf : x.tiempoRafaga = p.tiempoRafaga := congrArg (fun d => d.2.1) d1
      exact ⟨d3 hp.1, by rw [hraf]; exact le_trans d2 hp.2⟩)
    hcotas
  refine ⟨hco4, hcotas4, ?_⟩
  intro p hp
  have h0 := (hcotas4 p (List.mem_append_right _ hp)).1
  rw [hfin] at hp
  rcases List.mem_append.mp hp with hp1 | hp1
  · exact hcero p hp1
  · have := hextra p hp1
    omega

/-- C17. For a workload of records as built by the constructor with a burst
`≥ 0`: the remaining time starts equal to the burst; a unit of execution never
raises it; in every state of a run it lies between 0 and the burst for every
record and is 0 for every finished record; a turn of the main loop carries
the records over unchanged except for the dispatched one, whose remaining
time does not grow; and when `ejecutarSimulacion` returns, every finished
record has remaining time 0. -/
theorem C17_tiempo_restante (S : StdSort) (esq : List EsquemaCola) (ps : List Proceso)
    (hps : ∀ p ∈ ps,
      p = Proceso.nuevo p.etiqueta p.tiempoRafaga p.tiempoLlegada p.colaOriginal p.prioridad ∧
      0 ≤ p.tiempoRafaga) :
    (∀ p ∈ ps, p.tiempoRestante = p.tiempoRafaga) ∧
    (∀ (p : Proceso) (t : Int), (p.ejecutar t).tiempoRestante ≤ p.tiempoRestante ∧
      (0 ≤ p.tiempoRestante → 0 ≤ (p.ejecutar t).tiempoRestante)) ∧
    (∀ k s, iterar S k (cargar S esq ps) = some s →
      (∀ p ∈ s.todos, 0 ≤ p.tiempoRestante ∧ p.tiempoRestante ≤ p.tiempoRafaga) ∧
      (∀ p ∈ s.procesosFinalizados, p.tiempoRestante = 0) ∧
      ∀ s4, iteracion S s = some s4 →
        ∃ adm extra, s.colaLlegadas = adm ++ s4.colaLlegadas ∧
          s4.procesosFinalizados = s.procesosFinalizados ++ extra ∧
          CambiaUno (fun p x => x.datos = p.datos ∧ x.tiempoRestante ≤ p.tiempoRestante)
            (s.colas.flatten ++ adm.map admitido) (s4.colas.flatten ++ extra)) ∧
    (∀ n s2, ejecutarSimulacion S n (cargar S esq ps) = some s2 →
      ∀ p ∈ s2.procesosFinalizados, p.tiempoRestante = 0) := by
  have hini : ∀ p ∈ ps, p.tiempoRestante = p.tiempoRafaga := by
    intro p hp
    have h := congrArg Proceso.tiempoRestante (hps p hp).1
    exact h
  have h0 : (cargar S esq ps).Coherente ∧
      (∀ p ∈ (cargar S esq ps).todos,
        0 ≤ p.tiempoRestante ∧ p.tiempoRestante ≤ p.tiempoRafaga) ∧
      (∀ p ∈ (cargar S esq ps).procesosFinalizados, p.tiempoRestante = 0) := by
    obtain ⟨_, _, hfin0, _, _, htodos0⟩ := cargar_forma S esq ps
    refine ⟨cargar_coherente S esq ps, ?_, ?_⟩
    · intro p hp
      have hpp := htodos0.subset hp
      rw [hini p hpp]
      exact ⟨(hps p hpp).2, le_refl _⟩
    · intro p hp
      rw [hfin0] at hp
      cases hp
  refine ⟨hini, fun p t => ⟨(ejecutar_unidad p t).1, (ejecutar_unidad p t).2.1⟩, ?_, ?_⟩
  · intro k s hk
    obtain ⟨hco, hcotas, hcero⟩ := iterar_invariante S
      (fun s => s.Coherente ∧
        (∀ p ∈ s.todos, 0 ≤ p.tiempoRestante ∧ p.tiempoRestante ≤ p.tiempoRafaga) ∧
        (∀ p ∈ s.procesosFinalizados, p.tiempoRestante = 0))
      (fun s s1 hs _ hi => iteracion_restante S s s1 hi hs) k _ s h0 hk
    refine ⟨hcotas, hcero, ?_⟩
    intro s4 h4
    obtain ⟨_, _, _, adm, extra, hll, hfin, _, hcambio⟩ := iteracion_registros S s s4 h4 hco
    exact ⟨adm, extra, hll, hfin,
      cambiaUno_mono _ _ _ _ (fun p x hd => ⟨hd.1, hd.2.1⟩) hcambio⟩
  · intro n s2 hrun
    exact (simulacion_invariante S
      (fun s => s.Coherente ∧
        (∀ p ∈ s.todos, 0 ≤ p.tiempoRestante ∧ p.tiempoRestante ≤ p.tiempoRafaga) ∧
        (∀ p ∈ s.procesosFinalizados, p.tiempoRestante = 0))
      (fun s s1 hs _ hi => iteracion_restante S s s1 hi hs) n _ s2 h0 hrun).1.2.2

/-- C17 on the run of `A`, `B`, `C` over the sample configuration: the three
records finish with remaining time 0; after two turns the remaining times of
the queued records are 1, 3 and 4. -/
theorem C17_tiempo_restante_witness :
    (∃ s2, ejecutarSimulacion insercion 25
        (cargar insercion esquemasEjemplo [ejemploA, ejemploB, ejemploC]) = some s2 ∧
      s2.procesosFinalizados.length = 3 ∧
      ∀ p ∈ s2.procesosFinalizados, p.tiempoRestante = 0) ∧
    ∃ s, iterar insercion 2
        (cargar insercion esquemasEjemplo [ejemploA, ejemploB, ejemploC]) = some s ∧
      s.colas.map (fun c => c.map (fun x => (x.tiempoRafaga, x.tiempoRestante))) =
        [[], [(5, 3), (4, 4), (3, 1)], []] ∧
      ∀ p ∈ s.todos, 0 ≤ p.tiempoRestante ∧ p.tiempoRestante ≤ p.tiempoRafaga := by
  have hC := C17_tiempo_restante insercion esquemasEjemplo [ejemploA, ejemploB, ejemploC]
    (by decide)
  have hrun : ((ejecutarSimulacion insercion 25
      (cargar insercion esquemasEjemplo [ejemploA, ejemploB, ejemploC])).map
        (fun s => s.procesosFinalizados.length)) = some 3 := by decide
  have hit : (iterar insercion 2
      (cargar insercion esquemasEjemplo [ejemploA, ejemploB, ejemploC])).map
        (fun s => s.colas.map (fun c => c.map (fun x => (x.tiempoRafaga, x.tiempoRestante)))) =
      some [[], [(5, 3), (4, 4), (3, 1)], []] := by decide
  obtain ⟨s2, h2, hlen⟩ := Option.map_eq_some'.mp hrun
  obtain ⟨s, hs, hcolas⟩ := Option.map_eq_some'.mp hit
  exact ⟨⟨s2, h2, hlen, hC.2.2.2 25 s2 h2⟩, s, hs, hcolas, (hC.2.2.1 2 s hs).1⟩

/-- C18. A dispatch `ejecutarConScheduler`, whatever the policy of the level,
leaves the dispatched record `p` as a record `x`, appended to the finished
vector or pushed to a level queue, that is started and whose start time is
the clock at the dispatch if `p` had never started, and the start time of `p`
otherwise.  A record comes out of the constructor not started, and a unit of
execution, or any number of them, leaves the start time of a started record as
it is. -/
theorem C18_tiempo_inicio (S : StdSort) (s : MLFQScheduler) (p : Proceso) (i : Int)
    (s3 : MLFQScheduler) (h : ejecutarConScheduler S s p i = some s3) :
    (∃ x, (s3.procesosFinalizados = s.procesosFinalizados ++ [x] ∨
          (s3.procesosFinalizados = s.procesosFinalizados ∧
            ∃ c, empujar s.colas c x = some s3.colas)) ∧
        x.datos = p.datos ∧ x.haIniciado = true ∧
        (p.haIniciado = false → x.tiempoInicio = s.tiempoGlobal) ∧
        (p.haIniciado = true → x.tiempoInicio = p.tiempoInicio)) ∧
    (∀ e b a q pr, (Proceso.nuevo e b a q pr).haIniciado = false) ∧
    (∀ (q : Proceso) (t : Int), q.haIniciado = true →
      (q.ejecutar t).haIniciado = true ∧ (q.ejecutar t).tiempoInicio = q.tiempoInicio) ∧
    (∀ (q : Proceso) (t : Int) (n : Nat), q.haIniciado = true →
      (bucleEjecutar q t n).haIniciado = true ∧
      (bucleEjecutar q t n).tiempoInicio = q.tiempoInicio) := by
  obtain ⟨_, _, x, d1, _, _, d4, d5, hcaso⟩ := ejecutar_registro S s p i s3 h
  refine ⟨⟨x, ?_, d1, d4, ?_, ?_⟩, fun e b a q pr => rfl, ?_, ?_⟩
  · rcases hcaso with ⟨_, hf, _⟩ | ⟨hf, c, hemp, _⟩
    · exact Or.inl hf
    · exact Or.inr ⟨hf, c, hemp⟩
  · intro hp
    rw [d5, hp]
    rfl
  · intro hp
    rw [d5, hp]
    rfl
  · intro q t hq
    exact ⟨(ejecutar_unidad q t).2.2.2.1, (ejecutar_unidad q t).2.2.2.2 hq⟩
  · intro q t n hq
    exact ⟨(bucle_registro q t n hq).2.2.2.1, (bucle_registro q t n hq).2.2.2.2⟩

/-- C18 on the sample state at clock 3: selection takes the record `A`, never
started, out of level 0, and its Round Robin dispatch requeues it started,
with start time 3. -/
theorem C18_tiempo_inicio_witness :
    planificar estadoEjemplo =
      some ((0, some ejemploA), { estadoEjemplo with colas := [[ejemploB], [ejemploC], []] }) ∧
    ∃ s3, ejecutarConScheduler insercion
        { estadoEjemplo with colas := [[ejemploB], [ejemploC], []] } ejemploA 0 = some s3 ∧
      s3.colas.map (fun c => c.map (fun y => (y.tiempoRafaga, y.tiempoInicio))) =
        [[(3, -1)], [(4, -1), (5, 3)], []] ∧
      ∃ x, ((s3.procesosFinalizados = estadoEjemplo.procesosFinalizados ++ [x] ∨
            (s3.procesosFinalizados = estadoEjemplo.procesosFinalizados ∧
              ∃ c, empujar [[ejemploB], [ejemploC], []] c x = some s3.colas)) ∧
        x.datos = ejemploA.datos ∧ x.haIniciado = true ∧ x.tiempoInicio = 3) := by
  have hd : (ejecutarConScheduler insercion
      { estadoEjemplo with colas := [[ejemploB], [ejemploC], []] } ejemploA 0).map
        (fun s => s.colas.map (fun c => c.map (fun y => (y.tiempoRafaga, y.tiempoInicio)))) =
      some [[(3, -1)], [(4, -1), (5, 3)], []] := by decide
  obtain ⟨s3, hs3, hcolas⟩ := Option.map_eq_some'.mp hd
  obtain ⟨⟨x, hx, hdatos, hini, hprimera, _⟩, _⟩ := C18_tiempo_inicio insercion
    { estadoEjemplo with colas := [[ejemploB], [ejemploC], []] } ejemploA 0 s3 hs3
  exact ⟨by decide, s3, hs3, hcolas, x, hx, hdatos, hini, hprimera rfl⟩

/-! ## Runs that do not depend on the sort -/

/-- Sorting one record by arrival time leaves it alone, whatever the sort. -/
theorem ordenar_llegada_singular (S : StdSort) (p : Proceso) :
    S.ordenar menorLlegada [p] = [p] :=
  List.perm_singleton.mp (S.permuta menorLlegada [p] menorLlegada_orden)

/-- A dispatch sorts a vector of one record only: its outcome is the same for
every sort. -/
theorem ejecutar_sin_sort (S : StdSort) (s : MLFQScheduler) (p : Proceso) (i : Int) :
    ejecutarConScheduler S s p i = ejecutarConScheduler insercion s p i := by
  unfold ejecutarConScheduler
  cases subindice s.esquemas i with
  | none => rfl
  | some e =>
    cases hpol : e.politica with
    | ROUND_ROBIN => simp only [hpol]
    | SJF =>
      simp only [hpol, SJFScheduler.nuevo, SJFScheduler.agregarProceso, List.nil_append,
        ordenar_singular]
    | STCF =>
      simp only [hpol, STCFScheduler.nuevo, STCFScheduler.agregarProceso, List.nil_append,
        ordenar_singular]

theorem iteracion_sin_sort (S : StdSort) (s : MLFQScheduler) :
    iteracion S s = iteracion insercion s := by
  cases hm : moverProcesosLlegados s with
  | none => simp only [iteracion, hm]
  | some s1 =>
    cases hp : planificar s1 with
    | none => simp only [iteracion, hm, hp]
    | some r =>
      obtain ⟨⟨i, o⟩, s2⟩ := r
      cases o with
      | none => simp only [iteracion, hm, hp]
      | some p =>
        simp only [iteracion, hm, hp]
        exact ejecutar_sin_sort S s2 p i

theorem iterar_sin_sort (S : StdSort) (k : Nat) (s : MLFQScheduler) :
    iterar S k s = iterar insercion k s := by
  induction k generalizing s with
  | zero => rfl
  | succ k ih =>
    simp only [iterar, iteracion_sin_sort S s]
    split_ifs
    · cases iteracion insercion s with
      | none => rfl
      | some s1 => exact ih s1
    · rfl

theorem simulacion_sin_sort (S : StdSort) (n : Nat) (s : MLFQScheduler) :
    ejecutarSimulacion S n s = ejecutarSimulacion insercion n s := by
  induction n generalizing s with
  | zero => rfl
  | succ k ih =>
    simp only [ejecutarSimulacion, iteracion_sin_sort S s]
    split_ifs
    · cases iteracion insercion s with
      | none => rfl
      | some s1 => exact ih s1
    · rfl

/-- Registration of a single record does not depend on the sort. -/
theorem cargar_uno (S : StdSort) (esq : List EsquemaCola) (p : Proceso) :
    cargar S esq [p] = cargar insercion esq [p] := by
  simp only [cargar, List.foldl_cons, List.foldl_nil, agregarProceso, nuevo, List.nil_append,
    ordenar_llegada_singular]

/-- A state reached after `k` turns in which the loop condition fails is what
`ejecutarSimulacion` returns with any bound of at least `k` turns. -/
theorem simulacion_de_iterar (S : StdSort) (k d : Nat) (s s2 : MLFQScheduler)
    (h : iterar S k s = some s2) (hfin : s2.continua = false) :
    ejecutarSimulacion S (k + d) s = some s2 := by
  induction k generalizing s with
  | zero =>
    simp only [iterar, Option.some.injEq] at h
    subst h
    cases d with
    | zero => simp only [ejecutarSimulacion, hfin, Bool.false_eq_true, if_false]
    | succ d => simp only [Nat.zero_add, ejecutarSimulacion, hfin, Bool.false_eq_true, if_false]
  | succ k ih =>
    simp only [iterar] at h
    split_ifs at h with hc
    cases hi : iteracion S s with
    | none => rw [hi] at h; cases h
    | some s1 =>
      rw [hi] at h
      have hkd : k + 1 + d = (k + d) + 1 := by omega
      rw [hkd]
      simp only [ejecutarSimulacion, hc, if_true, hi]
      exact ih s1 h

/-- C24. With the single level `[RoundRobin(quantum=3)]` and one record of
burst 6, arrival 0, level 1 and priority 5, whatever the sort: the first turn
dispatches the record at clock 0 for 3 units and requeues it at level 0 with
remaining time 3 and start time 0; the second turn finishes it at clock 6; the
run returns there for every bound of at least 2 turns, with start 0, finish 6,
waiting 0, response 0, turnaround 6 and final level 0. -/
theorem C24_escenario_un_nivel (S : StdSort) (d : Nat) :
    (cargar S esquemasRR3 [procesoUnico]).tiempoGlobal = 0 ∧
    (iterar S 1 (cargar S esquemasRR3 [procesoUnico])).map
        (fun s => (s.tiempoGlobal, s.procesosFinalizados.length,
          s.colas.map (fun c => c.map
            (fun p => [p.tiempoRestante, p.cola, p.tiempoInicio])))) =
      some (3, 0, [[[3, 0, 0]]]) ∧
    ∃ s2, ejecutarSimulacion S (2 + d) (cargar S esquemasRR3 [procesoUnico]) = some s2 ∧
      iterar S 2 (cargar S esquemasRR3 [procesoUnico]) = some s2 ∧
      s2.tiempoGlobal = 6 ∧ s2.colas = [[]] ∧ s2.colaLlegadas = [] ∧
      s2.procesosFinalizados.map (fun p => [p.tiempoInicio, p.tiempoFinalizacion,
        p.tiempoEspera, p.tiempoRespuesta, p.tiempoRetorno, p.cola, p.tiempoRestante]) =
        [[0, 6, 0, 0, 6, 0, 0]] := by
  rw [cargar_uno S, iterar_sin_sort S, iterar_sin_sort S]
  refine ⟨by decide, by decide, ?_⟩
  have h2 : (iterar insercion 2 (cargar insercion esquemasRR3 [procesoUnico])).map
      (fun s => (s.tiempoGlobal, s.continua,
        s.procesosFinalizados.map (fun p => [p.tiempoInicio, p.tiempoFinalizacion,
          p.tiempoEspera, p.tiempoRespuesta, p.tiempoRetorno, p.cola, p.tiempoRestante]))) =
      some (6, false, [[0, 6, 0, 0, 6, 0, 0]]) := by decide
  have h3 : (iterar insercion 2 (cargar insercion esquemasRR3 [procesoUnico])).map
      (fun s => (s.colas, s.colaLlegadas)) = some ([[]], []) := by decide
  obtain ⟨s2, hs2, hpar⟩ := Option.map_eq_some'.mp h2
  rw [hs2] at h3
  simp only [Prod.mk.injEq] at hpar
  simp only [Option.map_some', Option.some.injEq, Prod.mk.injEq] at h3
  obtain ⟨hreloj, hcont, hfin⟩ := hpar
  obtain ⟨hcolas, hll⟩ := h3
  refine ⟨s2, ?_, hs2, hreloj, hcolas, hll, hfin⟩
  rw [simulacion_sin_sort S]
  exact simulacion_de_iterar insercion 2 d _ s2 hs2 hcont

/-- C26. With the single level `[RoundRobin(quantum=4)]` and one record of
burst 4, arrival 5 and level 1, whatever the sort: the first turn moves the
clock from 0 straight to 5 and changes nothing else; the second turn runs the
record from clock 5 to its end at clock 9; the run returns there for every
bound of at least 2 turns, with start 5, finish 9, waiting 0, response 0,
turnaround 4 and clock 9. -/
theorem C26_escenario_salto (S : StdSort) (d : Nat) :
    (cargar S esquemasRR4 [procesoTardio]).tiempoGlobal = 0 ∧
    iterar S 1 (cargar S esquemasRR4 [procesoTardio]) =
      some { cargar S esquemasRR4 [procesoTardio] with tiempoGlobal := 5 } ∧
    ∃ s2, ejecutarSimulacion S (2 + d) (cargar S esquemasRR4 [procesoTardio]) = some s2 ∧
      iterar S 2 (cargar S esquemasRR4 [procesoTardio]) = some s2 ∧
      s2.tiempoGlobal = 9 ∧ s2.colas = [[]] ∧ s2.colaLlegadas = [] ∧
      s2.procesosFinalizados.map (fun p => [p.tiempoInicio, p.tiempoFinalizacion,
        p.tiempoEspera, p.tiempoRespuesta, p.tiempoRetorno, p.tiempoRestante]) =
        [[5, 9, 0, 0, 4, 0]] := by
  rw [cargar_uno S, iterar_sin_sort S, iterar_sin_sort S]
  refine ⟨by decide, by decide, ?_⟩
  have h2 : (iterar insercion 2 (cargar insercion esquemasRR4 [procesoTardio])).map
      (fun s => (s.tiempoGlobal, s.continua,
        s.procesosFinalizados.map (fun p => [p.tiempoInicio, p.tiempoFinalizacion,
          p.tiempoEspera, p.tiempoRespuesta, p.tiempoRetorno, p.tiempoRestante]))) =
      some (9, false, [[5, 9, 0, 0, 4, 0]]) := by decide
  have h3 : (iterar insercion 2 (cargar insercion esquemasRR4 [procesoTardio])).map
      (fun s => (s.colas, s.colaLlegadas)) = some ([[]], []) := by decide
  obtain ⟨s2, hs2, hpar⟩ := Option.map_eq_some'.mp h2
  rw [hs2] at h3
  simp only [Prod.mk.injEq] at hpar
  simp only [Option.map_some', Option.some.injEq, Prod.mk.injEq] at h3
  obtain ⟨hreloj, hcont, hfin⟩ := hpar
  obtain ⟨hcolas, hll⟩ := h3
  refine ⟨s2, ?_, hs2, hreloj, hcolas, hll, hfin⟩
  rw [simulacion_sin_sort S]
  exact simulacion_de_iterar insercion 2 d _ s2 hs2 hcont

/-- C25 as stated fails: on the two-level configuration, with `A` registered
before `B` and kept before it by the sort, the run ends at clock 8 with `A`
finished at clock 7 and `B` at clock 8, not at 9 and 10. -/
theorem C25_contraejemplo :
    (cargar insercion esquemasDosNiveles [ejemploA, ejemploB]).colaLlegadas.map
        (fun p => (p.etiqueta, p.tiempoRafaga, p.tiempoLlegada)) = [("A", 5, 0), ("B", 3, 0)] ∧
    (ejecutarSimulacion insercion 4
        (cargar insercion esquemasDosNiveles [ejemploA, ejemploB])).map
        (fun s => (s.tiempoGlobal,
          s.procesosFinalizados.map (fun p => (p.etiqueta, p.tiempoFinalizacion)))) =
      some (8, [("A", 7), ("B", 8)]) ∧
    (ejecutarSimulacion insercion 4
        (cargar insercion esquemasDosNiveles [ejemploA, ejemploB])).map
        (fun s => s.procesosFinalizados.map (fun p => (p.etiqueta, p.tiempoFinalizacion))) ≠
      some [("A", 9), ("B", 10)] := by
  decide

/-- C25 (amended). With the two levels `[RoundRobin(quantum=2),
RoundRobin(quantum=100)]` and the records `A` (burst 5) and `B` (burst 3), both
of arrival 0 and level 1, registered in that order, under a sort that leaves
the two in their input order: the four turns of the run dispatch `A` (clock 2,
`A` demoted with 3 left), `B` (clock 4, `B` demoted behind `A` with 1 left),
`A` (finished at clock 7) and `B` (finished at clock 8), and the run returns
there for every bound of at least 4 turns. -/
theorem C25_escenario_dos_niveles (S : StdSort) (d : Nat)
    (hS : S.ordenar menorLlegada [ejemploA, ejemploB] = [ejemploA, ejemploB]) :
    (iterar S 1 (cargar S esquemasDosNiveles [ejemploA, ejemploB])).map
        (fun s => (s.tiempoGlobal,
          s.colas.map (fun c => c.map (fun p => (p.etiqueta, p.tiempoRestante))),
          s.procesosFinalizados.map (fun p => p.etiqueta))) =
      some (2, [[("B", 3)], [("A", 3)]], []) ∧
    (iterar S 2 (cargar S esquemasDosNiveles [ejemploA, ejemploB])).map
        (fun s => (s.tiempoGlobal,
          s.colas.map (fun c => c.map (fun p => (p.etiqueta, p.tiempoRestante))),
          s.procesosFinalizados.map (fun p => p.etiqueta))) =
      some (4, [[], [("A", 3), ("B", 1)]], []) ∧
    (iterar S 3 (cargar S esquemasDosNiveles [ejemploA, ejemploB])).map
        (fun s => (s.tiempoGlobal,
          s.colas.map (fun c => c.map (fun p => (p.etiqueta, p.tiempoRestante))),
          s.procesosFinalizados.map (fun p => p.etiqueta))) =
      some (7, [[], [("B", 1)]], ["A"]) ∧
    (iterar S 4 (cargar S esquemasDosNiveles [ejemploA, ejemploB])).map
        (fun s => (s.tiempoGlobal,
          s.colas.map (fun c => c.map (fun p => (p.etiqueta, p.tiempoRestante))),
          s.procesosFinalizados.map (fun p => p.etiqueta))) =
      some (8, [[], []], ["A", "B"]) ∧
    ∃ s2, ejecutarSimulacion S (4 + d)
        (cargar S esquemasDosNiveles [ejemploA, ejemploB]) = some s2 ∧
      s2.tiempoGlobal = 8 ∧
      s2.procesosFinalizados.map (fun p => (p.etiqueta, p.tiempoFinalizacion)) =
        [("A", 7), ("B", 8)] := by
  have hc : cargar S esquemasDosNiveles [ejemploA, ejemploB] =
      cargar insercion esquemasDosNiveles [ejemploA, ejemploB] := by
    have h1 : cargar S esquemasDosNiveles [ejemploA, ejemploB] =
        { nuevo esquemasDosNiveles with colaLlegadas := [ejemploA, ejemploB] } := by
      simp only [cargar, List.foldl_cons, List.foldl_nil, agregarProceso, nuevo,
        List.nil_append, ordenar_llegada_singular, List.singleton_append, hS]
    rw [h1]
    decide
  rw [hc]
  simp only [iterar_sin_sort S]
  refine ⟨by decide, by decide, by decide, by decide, ?_⟩
  · have h4 : (iterar insercion 4
        (cargar insercion esquemasDosNiveles [ejemploA, ejemploB])).map
        (fun s => (s.tiempoGlobal, s.continua,
          s.procesosFinalizados.map (fun p => (p.etiqueta, p.tiempoFinalizacion)))) =
        some (8, false, [("A", 7), ("B", 8)]) := by decide
    obtain ⟨s2, hs2, hpar⟩ := Option.map_eq_some'.mp h4
    simp only [Prod.mk.injEq] at hpar
    obtain ⟨hreloj, hcont, hfin⟩ := hpar
    refine ⟨s2, ?_, hreloj, hfin⟩
    rw [simulacion_sin_sort S]
    exact simulacion_de_iterar insercion 4 d _ s2 hs2 hcont

/-- C25 (amended) under the insertion sort, with a bound of 4 turns. -/
theorem C25_escenario_dos_niveles_witness :
    ∃ s2, ejecutarSimulacion insercion 4
        (cargar insercion esquemasDosNiveles [ejemploA, ejemploB]) = some s2 ∧
      s2.tiempoGlobal = 8 ∧
      s2.procesosFinalizados.map (fun p => (p.etiqueta, p.tiempoFinalizacion)) =
        [("A", 7), ("B", 8)] :=
  (C25_escenario_dos_niveles insercion 0 (by decide)).2.2.2.2

/-- Replacing the queue that follows `pre`. -/
theorem set_tras_prefijo (pre : List (List Proceso)) (c c2 : List Proceso)
    (post : List (List Proceso)) :
    (pre ++ c :: post).set pre.length c2 = pre ++ c2 :: post := by
  induction pre with
  | nil => rfl
  | cons a pre ih =>
    simp only [List.cons_append, List.length_cons, List.set_cons_succ, ih]

/-- C22. When the first non-empty level has policy Round Robin, `planificar`
returns the index of that level with the record at the front of its queue,
and the engine afterwards differs only in that queue, which holds the records
that followed the front one, in the same order; every other queue is as it
was. -/
theorem C22_round_robin_fifo (s : MLFQScheduler) (pre : List (List Proceso))
    (p : Proceso) (cola : List Proceso) (post : List (List Proceso)) (e : EsquemaCola)
    (hL : s.colas = pre ++ (p :: cola) :: post) (hpre : ∀ c ∈ pre, c = [])
    (he : s.esquemas[pre.length]? = some e)
    (hrr : e.politica = TipoPolitica.ROUND_ROBIN) :
    planificar s =
      some (((pre.length : Int), some p), { s with colas := pre ++ cola :: post }) := by
  rw [planificar_primera s pre p cola post hL hpre e he, if_pos hrr, hL, set_tras_prefijo]

/-- C22 on the sample state: `A` leaves the front of level 0, `B` stays. -/
theorem C22_round_robin_fifo_witness :
    planificar estadoEjemplo =
      some ((0, some ejemploA),
        { estadoEjemplo with colas := [[ejemploB], [ejemploC], []] }) :=
  C22_round_robin_fifo estadoEjemplo [] ejemploA [ejemploB] [[ejemploC], []]
    ⟨TipoPolitica.ROUND_ROBIN, 2⟩ rfl (fun c hc => by cases hc) rfl rfl

/-! ## Execution as a state transition -/

/-- The execution loop on a record that has not started, for at least one
unit within the remaining time: the first unit marks the start at the time
passed to the loop. -/
theorem bucleEjecutar_no_iniciado (p : Proceso) (t : Int) (n : Nat)
    (hi : p.haIniciado = false) (hn : ((n + 1 : Nat) : Int) ≤ p.tiempoRestante) :
    bucleEjecutar p t (n + 1) =
      { p with tiempoRestante := p.tiempoRestante - ((n + 1 : Nat) : Int),
               tiempoInicio := t, haIniciado := true } := by
  induction n with
  | zero =>
    have hpos : p.tiempoRestante > 0 := by push_cast at hn; omega
    simp [bucleEjecutar, Proceso.ejecutar, hi, hpos]
  | succ k ih =>
    have hk : ((k + 1 : Nat) : Int) ≤ p.tiempoRestante := by push_cast at hn ⊢; omega
    have hpos : p.tiempoRestante - ((k + 1 : Nat) : Int) > 0 := by push_cast at hn ⊢; omega
    rw [bucleEjecutar, ih hk]
    simp only [Proceso.ejecutar, if_true, hpos]
    congr 1
    push_cast
    omega

/-- C29. For `0 ≤ k ≤ remaining`, `k` successive calls of `Proceso::ejecutar`
on a record that has started are the spec's transition `remaining −= k`: every
other field, start time included, is as before.  On a record that has not
started the calls are that transition after the start marking at the time of
the first call, for `k ≥ 1`, and change nothing for `k = 0`; so label, burst,
arrival, levels, priority, finish time and metrics are never touched.  The
three policy executors run this loop and return `k`: `min(quantum, remaining)`
for Round Robin, `remaining` for SJF, `min(tiempoMaximo, remaining)` for
STCF. -/
theorem C29_ejecucion_es_transicion (p : Proceso) (t k : Int)
    (h0 : 0 ≤ k) (hk : k ≤ p.tiempoRestante) :
    (p.haIniciado = true → bucleEjecutar p t k.toNat = transicionSpec p k) ∧
    (p.haIniciado = false → 0 < k →
      bucleEjecutar p t k.toNat = transicionSpec (p.setTiempoInicio t) k) ∧
    (k = 0 → bucleEjecutar p t k.toNat = p) ∧
    bucleEjecutar p t k.toNat =
      { transicionSpec p k with
          tiempoInicio := (bucleEjecutar p t k.toNat).tiempoInicio,
          haIniciado := (bucleEjecutar p t k.toNat).haIniciado } ∧
    (p.haIniciado = true →
      (∀ r : RoundRobinScheduler, min r.quantum p.tiempoRestante = k →
        r.ejecutarProceso p t = (transicionSpec p k, k)) ∧
      (p.tiempoRestante = k → SJFScheduler.ejecutarProceso p t = (transicionSpec p k, k)) ∧
      (∀ tiempoMaximo : Int, min tiempoMaximo p.tiempoRestante = k →
        STCFScheduler.ejecutarProceso p t tiempoMaximo = (transicionSpec p k, k))) := by
  have hini : p.haIniciado = true → bucleEjecutar p t k.toNat = transicionSpec p k :=
    fun hi => bucleEjecutar_entero p t k hi h0 hk
  have hno : p.haIniciado = false → 0 < k →
      bucleEjecutar p t k.toNat = transicionSpec (p.setTiempoInicio t) k := by
    intro hi hpos
    obtain ⟨n, hn⟩ : ∃ n : Nat, k.toNat = n + 1 := ⟨k.toNat - 1, by omega⟩
    have hkn : ((n + 1 : Nat) : Int) = k := by omega
    rw [hn, bucleEjecutar_no_iniciado p t n hi (by rw [hkn]; exact hk), hkn]
    rfl
  have hcero : k = 0 → bucleEjecutar p t k.toNat = p := by
    intro hk0
    rw [hk0]
    rfl
  refine ⟨hini, hno, hcero, ?_, ?_⟩
  · cases hi : p.haIniciado with
    | true => rw [hini hi]
    | false =>
      by_cases hpos : 0 < k
      · rw [hno hi hpos]
        rfl
      · have hk0 : k = 0 := by omega
        rw [hcero hk0, hk0]
        simp [transicionSpec]
  · intro hi
    refine ⟨?_, ?_, ?_⟩
    · intro r hr
      simp only [RoundRobinScheduler.ejecutarProceso, hr, hini hi]
    · intro hr
      simp only [SJFScheduler.ejecutarProceso, hr, hini hi]
    · intro m hr
      simp only [STCFScheduler.ejecutarProceso, hr, hini hi]

/-- C29 on the record `A` (burst 5) started at clock 3: two units leave it with
remaining time 3 and nothing else changed. -/
theorem C29_ejecucion_es_transicion_witness :
    bucleEjecutar (marcado ejemploA 3) 3 2 =
      { marcado ejemploA 3 with tiempoRestante := 3 } ∧
    (RoundRobinScheduler.nuevo 2).ejecutarProceso (marcado ejemploA 3) 3 =
      (transicionSpec (marcado ejemploA 3) 2, 2) :=
  have h := C29_ejecucion_es_transicion (marcado ejemploA 3) 3 2 (by decide) (by decide)
  ⟨h.1 rfl, (h.2.2.2.2 rfl).1 (RoundRobinScheduler.nuevo 2) (by decide)⟩

/-! ## The SJF/STCF scan in detail -/

/-- The test of the scan against a held candidate is `gana`. -/
theorem esMejor_gana (x m : Proceso) : esMejor x (some m) m.tiempoRestante = gana x m := by
  simp only [esMejor, gana, Bool.decide_or, Bool.decide_and]

/-- The scan with a candidate in hand returns the first record, from the
candidate on, that no record wins over: every record scanned before it loses
to it, none scanned after it wins over it. -/
theorem buscarMejor_primero (resto : List Proceso) (m : Proceso) (temp : List Proceso) :
    ∃ m2 temp2, buscarMejor resto (some m) m.tiempoRestante temp = (some m2, temp2) ∧
      ((m2 = m ∧ ∀ x ∈ resto, gana x m = false) ∨
        ∃ pre post, resto = pre ++ m2 :: post ∧ gana m2 m = true ∧
          (∀ x ∈ pre, gana m2 x = true) ∧ ∀ x ∈ post, gana x m2 = false) := by
  induction resto generalizing m temp with
  | nil => exact ⟨m, temp, rfl, Or.inl ⟨rfl, fun x hx => by cases hx⟩⟩
  | cons p resto ih =>
    by_cases hb : gana p m = true
    · obtain ⟨m2, temp2, h1, h2⟩ := ih p (temp ++ [m])
      refine ⟨m2, temp2, ?_, Or.inr ?_⟩
      · simp only [buscarMejor, esMejor_gana, hb, if_true]
        exact h1
      · rcases h2 with ⟨hm, hresto⟩ | ⟨pre, post, hsplit, hg, hpre, hpost⟩
        · subst hm
          exact ⟨[], resto, rfl, hb, (fun x hx => by cases hx), hresto⟩
        · refine ⟨p :: pre, post, (by rw [hsplit]; rfl), ?_, ?_, hpost⟩
          · simp only [gana, decide_eq_true_eq] at hb hg ⊢
            omega
          · intro x hx
            rcases List.mem_cons.mp hx with hx1 | hx1
            · rw [hx1]; exact hg
            · exact hpre x hx1
    · have hb2 : gana p m = false := by simpa using hb
      obtain ⟨m2, temp2, h1, h2⟩ := ih m (temp ++ [p])
      refine ⟨m2, temp2, ?_, ?_⟩
      · simp only [buscarMejor, esMejor_gana, hb2, Bool.false_eq_true, if_false]
        exact h1
      · rcases h2 with ⟨hm, hresto⟩ | ⟨pre, post, hsplit, hg, hpre, hpost⟩
        · left
          refine ⟨hm, ?_⟩
          intro x hx
          rcases List.mem_cons.mp hx with hx1 | hx1
          · rw [hx1]; exact hb2
          · exact hresto x hx1
        · right
          refine ⟨p :: pre, post, (by rw [hsplit]; rfl), hg, ?_, hpost⟩
          intro x hx
          rcases List.mem_cons.mp hx with hx1 | hx1
          · rw [hx1]
            simp only [gana, decide_eq_true_eq, decide_eq_false_iff_not] at hb2 hg ⊢
            omega
          · exact hpre x hx1

/-- The queue the scan rebuilds, without the holding vector. -/
theorem buscarMejor_reinsertar (resto : List Proceso) (m : Proceso) (temp : List Proceso) :
    (buscarMejor resto (some m) m.tiempoRestante temp).2 = temp ++ reinsertar m resto := by
  induction resto generalizing m temp with
  | nil => simp [buscarMejor, reinsertar]
  | cons p resto ih =>
    by_cases hb : gana p m = true
    · simp only [buscarMejor, esMejor_gana, hb, if_true, reinsertar]
      rw [ih p (temp ++ [m])]
      simp
    · have hb2 : gana p m = false := by simpa using hb
      simp only [buscarMejor, esMejor_gana, hb2, Bool.false_eq_true, if_false, reinsertar]
      rw [ih m (temp ++ [p])]
      simp

/-- The scan of a whole queue starts by taking its first record as candidate,
provided the remaining time of that record fits an `int`. -/
theorem buscarMejor_arranque (p : Proceso) (cola : List Proceso)
    (hp : p.tiempoRestante ≤ INT_MAX) :
    buscarMejor (p :: cola) none INT_MAX [] =
      buscarMejor cola (some p) p.tiempoRestante [] := by
  have hb : esMejor p none INT_MAX = true := by
    simp only [esMejor, Bool.or_eq_true, Bool.and_eq_true, decide_eq_true_eq, and_true]
    omega
  simp only [buscarMejor, hb, if_true]

/-- A queue is rebuilt as it was when no record wins over the candidate. -/
theorem reinsertar_sin_cambio (m : Proceso) (cola : List Proceso)
    (h : ∀ x ∈ cola, gana x m = false) : reinsertar m cola = cola := by
  induction cola with
  | nil => rfl
  | cons x cola ih =>
    simp only [reinsertar, h x (List.mem_cons_self _ _), Bool.false_eq_true, if_false]
    rw [ih (fun y hy => h y (List.mem_cons_of_mem _ hy))]

/-- Selection on an SJF/STCF level in closed form, for a queue whose first
record has a remaining time that fits an `int`. -/
theorem planificar_escaneo (s : MLFQScheduler) (i : Nat) (p : Proceso) (cola : List Proceso)
    (e : EsquemaCola) (hcola : s.colas[i]? = some (p :: cola))
    (hprev : ∀ j, j < i → s.colas[j]? = some [])
    (he : s.esquemas[i]? = some e)
    (hpol : e.politica = TipoPolitica.SJF ∨ e.politica = TipoPolitica.STCF)
    (hint : p.tiempoRestante ≤ INT_MAX) :
    planificar s =
      some (((i : Int), (buscarMejor cola (some p) p.tiempoRestante []).1),
        { s with colas := s.colas.set i (reinsertar p cola) }) := by
  obtain ⟨hL, hlen, hpre⟩ := descomponer_en s.colas i (p :: cola) hcola hprev
  have hnrr : ¬ e.politica = TipoPolitica.ROUND_ROBIN := by
    rcases hpol with h | h <;> rw [h] <;> decide
  have hplan := planificar_primera s _ p cola _ hL hpre e (by rw [hlen]; exact he)
  rw [if_neg hnrr, buscarMejor_arranque p cola hint, buscarMejor_reinsertar, hlen,
    List.nil_append] at hplan
  exact hplan

/-- C27 (amended). When the first non-empty level `i` has policy SJF or STCF
(remaining times within `int`), the record `planificar` returns splits the
queue in the records before it, each of which has more remaining time, or the
same and a later arrival, and the records after it, none of which has less
remaining time, or the same and an earlier arrival.  So among the records tied
on the minimum remaining time and on the arrival time, the one returned is the
one closest to the front: no record tied with it on both stands before it.
Nothing is said of the order in which the tied records were inserted. -/
theorem C27_empate_el_primero (s : MLFQScheduler) (i : Nat) (cola : List Proceso)
    (e : EsquemaCola) (hcola : s.colas[i]? = some cola) (hne : cola ≠ [])
    (hprev : ∀ j, j < i → s.colas[j]? = some [])
    (he : s.esquemas[i]? = some e)
    (hpol : e.politica = TipoPolitica.SJF ∨ e.politica = TipoPolitica.STCF)
    (hint : ∀ x ∈ cola, x.tiempoRestante ≤ INT_MAX) :
    ∃ r resto pre post,
      planificar s = some (((i : Int), some r), { s with colas := s.colas.set i resto }) ∧
      cola = pre ++ r :: post ∧
      (∀ x ∈ pre, r.tiempoRestante < x.tiempoRestante ∨
        (r.tiempoRestante = x.tiempoRestante ∧ r.tiempoLlegada < x.tiempoLlegada)) ∧
      (∀ x ∈ post, r.tiempoRestante < x.tiempoRestante ∨
        (r.tiempoRestante = x.tiempoRestante ∧ r.tiempoLlegada ≤ x.tiempoLlegada)) ∧
      (∀ x ∈ pre, ¬ (x.tiempoRestante = r.tiempoRestante ∧
        x.tiempoLlegada = r.tiempoLlegada)) := by
  cases cola with
  | nil => exact absurd rfl hne
  | cons p cola =>
    have hplan := planificar_escaneo s i p cola e hcola hprev he hpol
      (hint p (List.mem_cons_self _ _))
    obtain ⟨m2, temp2, hb, hcasos⟩ := buscarMejor_primero cola p []
    rw [hb] at hplan
    have hpost : ∀ (m : Proceso) (l : List Proceso), (∀ x ∈ l, gana x m = false) →
        ∀ x ∈ l, m.tiempoRestante < x.tiempoRestante ∨
          (m.tiempoRestante = x.tiempoRestante ∧ m.tiempoLlegada ≤ x.tiempoLlegada) := by
      intro m l hl x hx
      have := hl x hx
      simp only [gana, decide_eq_false_iff_not] at this
      omega
    rcases hcasos with ⟨hm, hresto⟩ | ⟨pre, post, hsplit, hg, hpre, hpost2⟩
    · subst hm
      exact ⟨m2, _, [], cola, hplan, rfl, (fun x hx => by cases hx),
        hpost m2 cola hresto, (fun x hx => by cases hx)⟩
    · have hantes : ∀ x ∈ p :: pre, m2.tiempoRestante < x.tiempoRestante ∨
          (m2.tiempoRestante = x.tiempoRestante ∧ m2.tiempoLlegada < x.tiempoLlegada) := by
        intro x hx
        have hgx : gana m2 x = true := by
          rcases List.mem_cons.mp hx with hx1 | hx1
          · rw [hx1]; exact hg
          · exact hpre x hx1
        simpa only [gana, decide_eq_true_eq] using hgx
      refine ⟨m2, _, p :: pre, post, hplan, (by rw [hsplit]; rfl), hantes,
        hpost m2 post hpost2, ?_⟩
      intro x hx
      have := hantes x hx
      omega

/-- C27 (amended) on a sample state whose SJF level holds `X` (remaining 5), then `Y`
and `Z` tied on remaining time 3 and arrival 0: `Y`, the tied record closer to
the front, is returned. -/
theorem C27_empate_el_primero_witness :
    ∃ r resto pre post,
      planificar estadoEmpate =
        some ((((1 : Nat) : Int), some r),
          { estadoEmpate with colas := estadoEmpate.colas.set 1 resto }) ∧
      [(Proceso.nuevo "X" 5 1 2 0).setCola 1, (Proceso.nuevo "Y" 3 0 2 0).setCola 1,
        (Proceso.nuevo "Z" 3 0 2 0).setCola 1] = pre ++ r :: post ∧
      r.etiqueta = "Y" := by
  obtain ⟨r, resto, pre, post, hplan, hsplit, _⟩ := C27_empate_el_primero estadoEmpate 1
    [(Proceso.nuevo "X" 5 1 2 0).setCola 1, (Proceso.nuevo "Y" 3 0 2 0).setCola 1,
      (Proceso.nuevo "Z" 3 0 2 0).setCola 1] ⟨TipoPolitica.SJF, -1⟩ rfl (by decide)
    (by decide) rfl (Or.inl rfl) (by decide)
  refine ⟨r, resto, pre, post, hplan, hsplit, ?_⟩
  have hval : (planificar estadoEmpate).map (fun x => x.1.2.map (fun y => y.etiqueta)) =
      some (some "Y") := by decide
  rw [hplan] at hval
  simpa using hval

/-- C23 as stated fails: on a single SJF level, after the first turn of the
run of `W`, `A`, `X`, `B` the queue holds `A`, `X`, `B` in that order;
selection removes `B` and leaves `X` before `A`. -/
theorem C23_contraejemplo :
    ((iterar insercion 1 (cargar insercion esquemasSJF cargaSJF)).bind
      (fun s => (moverProcesosLlegados s).bind (fun s1 => (planificar s1).map (fun r =>
        (s1.colas.map (fun c => c.map (fun p => p.etiqueta)),
          r.1.2.map (fun p => p.etiqueta),
          r.2.colas.map (fun c => c.map (fun p => p.etiqueta))))))) =
      some ([["A", "X", "B"]], some "B", [["X", "A"]]) := by
  decide

/-- C23 (amended). When the first non-empty level `i` has policy SJF or STCF
(remaining time of the front record within `int`), the queue `planificar`
leaves at level `i` holds the records it did not choose, arranged as the scan
puts them down: a record that does not win over the candidate held when it is
scanned keeps its place, and a candidate that loses to a scanned record is put
down at the place of that record, behind the records scanned since it became
the candidate.  The rest of the engine is as before, and the records left are
in their previous order whenever no record wins over the front record, which
is then the one chosen. -/
theorem C23_orden_tras_seleccion (s : MLFQScheduler) (i : Nat) (p : Proceso)
    (cola : List Proceso) (e : EsquemaCola) (hcola : s.colas[i]? = some (p :: cola))
    (hprev : ∀ j, j < i → s.colas[j]? = some [])
    (he : s.esquemas[i]? = some e)
    (hpol : e.politica = TipoPolitica.SJF ∨ e.politica = TipoPolitica.STCF)
    (hint : p.tiempoRestante ≤ INT_MAX) :
    ∃ r, planificar s =
        some (((i : Int), some r), { s with colas := s.colas.set i (reinsertar p cola) }) ∧
      (r :: reinsertar p cola).Perm (p :: cola) ∧
      ((∀ x ∈ cola, gana x p = false) → r = p ∧ reinsertar p cola = cola) := by
  have hplan := planificar_escaneo s i p cola e hcola hprev he hpol hint
  obtain ⟨m2, temp2, hb, hcasos⟩ := buscarMejor_primero cola p []
  have hperm := buscarMejor_perm cola (some p) p.tiempoRestante []
  have hr := buscarMejor_reinsertar cola p []
  rw [hb] at hplan hperm hr
  simp only [List.nil_append] at hr
  refine ⟨m2, hplan, ?_, ?_⟩
  · rw [← hr]
    simpa using hperm
  · intro hno
    refine ⟨?_, reinsertar_sin_cambio p cola hno⟩
    rcases hcasos with ⟨hm, _⟩ | ⟨pre, post, hsplit, hg, _, _⟩
    · exact hm
    · have := hno m2 (by rw [hsplit]; simp)
      rw [hg] at this
      cases this

/-- C23 (amended) on a sample state whose SJF queue holds `X` (remaining 5),
`Y` and `Z` (remaining 3): `Y` is chosen and `X`, displaced when `Y` is
scanned, is put down before `Z`. -/
theorem C23_orden_tras_seleccion_witness :
    ∃ r, planificar estadoEmpate =
        some ((((1 : Nat) : Int), some r),
          { estadoEmpate with
              colas := [[], [(Proceso.nuevo "X" 5 1 2 0).setCola 1,
                (Proceso.nuevo "Z" 3 0 2 0).setCola 1], []] }) := by
  obtain ⟨r, hplan, _⟩ := C23_orden_tras_seleccion estadoEmpate 1
    ((Proceso.nuevo "X" 5 1 2 0).setCola 1)
    [(Proceso.nuevo "Y" 3 0 2 0).setCola 1, (Proceso.nuevo "Z" 3 0 2 0).setCola 1]
    ⟨TipoPolitica.SJF, -1⟩ rfl (by decide) rfl (Or.inl rfl) (by decide)
  exact ⟨r, hplan⟩

/-! ## The admission vector during a run -/

/-- A turn of the main loop takes a prefix off the admission vector. -/
theorem iteracion_llegadas (S : StdSort) (s s4 : MLFQScheduler)
    (h : iteracion S s = some s4) : ∃ adm, s.colaLlegadas = adm ++ s4.colaLlegadas := by
  obtain ⟨s1, i, o, s2, hm, hp, hcasos⟩ := iteracion_casos S s s4 h
  obtain ⟨_, _, _, adm, hadm, _⟩ := mover_some s s1 hm
  obtain ⟨_, hll2, _⟩ := planificar_resto s1 i o s2 hp
  refine ⟨adm, ?_⟩
  rcases hcasos with ⟨_, _, hs4⟩ | ⟨_, a, r, _, hs4⟩ | ⟨p, _, hej⟩
  · rw [hs4, hadm]; exact congrArg _ hll2.symm
  · rw [hs4, hadm]; exact congrArg _ hll2.symm
  · rw [(ejecutar_some S s2 p i s4 hej).2.1, hll2, hadm]

/-- In every state of a run the admission vector is sorted by arrival time. -/
theorem iterar_llegadas_ordenadas (S : StdSort) (esq : List EsquemaCola) (ps : List Proceso)
    (k : Nat) (s : MLFQScheduler) (hk : iterar S k (cargar S esq ps) = some s) :
    s.colaLlegadas.Pairwise (fun a b => a.tiempoLlegada ≤ b.tiempoLlegada) :=
  iterar_invariante S
    (fun s => s.colaLlegadas.Pairwise (fun a b => a.tiempoLlegada ≤ b.tiempoLlegada))
    (fun s s1 hs _ hi => by
      obtain ⟨adm, hadm⟩ := iteracion_llegadas S s s1 hi
      have hs2 : (adm ++ s1.colaLlegadas).Pairwise
          (fun a b => a.tiempoLlegada ≤ b.tiempoLlegada) := by
        rw [← hadm]; exact hs
      exact (List.pairwise_append.mp hs2).2.1)
    k _ s (foldl_agregar_ordenada S (nuevo esq) ps List.Pairwise.nil) hk

/-- What a run on a workload with initial levels in `1..N` and remaining times
within `int` keeps: as many queues as level descriptors, pending records with
a level in range, queued records at the level of their queue, remaining times
within `int`. -/
theorem iterar_en_rango (S : StdSort) (esq : List EsquemaCola) (ps : List Proceso)
    (hniv : ∀ p ∈ ps, 1 ≤ p.colaOriginal ∧ p.colaOriginal ≤ (esq.length : Int))
    (hint : ∀ p ∈ ps, p.tiempoRestante ≤ INT_MAX)
    (k : Nat) (s : MLFQScheduler) (hk : iterar S k (cargar S esq ps) = some s) :
    s.Coherente ∧ s.colas.length = s.esquemas.length ∧
    (∀ p ∈ s.colaLlegadas, 1 ≤ p.colaOriginal ∧ p.colaOriginal ≤ (s.colas.length : Int)) ∧
    (∀ p ∈ s.todos, p.tiempoRestante ≤ INT_MAX) := by
  obtain ⟨hesq0, hcolas0, _, _, hll0, htodos0⟩ := cargar_forma S esq ps
  have hlen0 : (cargar S esq ps).colas.length = esq.length := by
    rw [hcolas0, List.length_replicate]
  refine iterar_invariante S
    (fun s => s.Coherente ∧ s.colas.length = s.esquemas.length ∧
      (∀ p ∈ s.colaLlegadas, 1 ≤ p.colaOriginal ∧ p.colaOriginal ≤ (s.colas.length : Int)) ∧
      (∀ p ∈ s.todos, p.tiempoRestante ≤ INT_MAX))
    ?_ k _ s ⟨cargar_coherente S esq ps, by rw [hlen0, hesq0], ?_, ?_⟩ hk
  · intro s s4 hs _ hi
    obtain ⟨hco, hlen, hniv2, hint2⟩ := hs
    obtain ⟨hco4, hesq4, hlen4, adm, extra, hll, _⟩ := iteracion_registros S s s4 hi hco
    refine ⟨hco4, by rw [hlen4, hesq4, hlen], ?_, ?_⟩
    · intro p hp
      rw [hlen4]
      exact hniv2 p (by rw [hll]; exact List.mem_append_right _ hp)
    · exact iteracion_todos S s s4 hi hco (fun p => p.tiempoRestante ≤ INT_MAX)
        (fun p hp => hp) (fun p x hd hp => le_trans hd.2.1 hp) hint2
  · intro p hp
    rw [hlen0]
    exact hniv p (hll0.subset hp)
  · intro p hp
    exact hint p (htodos0.subset hp)

/-- C28. On a workload whose records have initial levels in `1..N` (and
remaining times within `int`), in every state of a run that meets the loop
condition: admission is defined, and after it the admission vector or some
level queue is non-empty; selection is defined, and when it returns no record
the admission vector is non-empty.  So the turn never takes the branch that
advances the clock by one unit. -/
theorem C28_avance_defensivo (S : StdSort) (esq : List EsquemaCola) (ps : List Proceso)
    (hniv : ∀ p ∈ ps, 1 ≤ p.colaOriginal ∧ p.colaOriginal ≤ (esq.length : Int))
    (hint : ∀ p ∈ ps, p.tiempoRestante ≤ INT_MAX)
    (k : Nat) (s : MLFQScheduler) (hk : iterar S k (cargar S esq ps) = some s)
    (hc : s.continua = true) :
    ∃ s1, moverProcesosLlegados s = some s1 ∧
      (s1.colaLlegadas ≠ [] ∨ ∃ c ∈ s1.colas, c ≠ []) ∧
      ∃ i o s2, planificar s1 = some ((i, o), s2) ∧
        (o = none → s2.colaLlegadas ≠ []) ∧
        (o = none → ∃ a r, s2.colaLlegadas = a :: r ∧
          iteracion S s = some { s2 with tiempoGlobal := a.tiempoLlegada }) := by
  obtain ⟨hco, hlen, hniv2, hint2⟩ := iterar_en_rango S esq ps hniv hint k s hk
  obtain ⟨r1, hmb⟩ := moverBucle_existe s.tiempoGlobal s.colaLlegadas s.colas hniv2
  obtain ⟨l2, c2⟩ := r1
  have hm : moverProcesosLlegados s = some { s with colaLlegadas := l2, colas := c2 } := by
    simp only [moverProcesosLlegados, hmb]
  obtain ⟨hesq1, _, _, adm, hadm, _, _, hlen1, hperm1, _⟩ := mover_some s _ hm
  have hvivos : l2 ≠ [] ∨ ∃ c ∈ c2, c ≠ [] := by
    by_contra hcon
    simp only [not_or, not_exists, not_and, not_not, ne_eq] at hcon
    obtain ⟨hl2, hc2⟩ := hcon
    have hflat : c2.flatten = [] := List.flatten_eq_nil_iff.mpr hc2
    have hperm2 : c2.flatten.Perm
        (s.colas.flatten ++ adm.map (fun p => p.setCola (p.colaOriginal - 1))) := hperm1
    rw [hflat] at hperm2
    have hnil := List.nil_perm.mp hperm2
    obtain ⟨hf, hadmnil⟩ := List.append_eq_nil.mp hnil
    have hadm0 : adm = [] := List.map_eq_nil_iff.mp hadmnil
    have hll : s.colaLlegadas = [] := by
      rw [hadm, hadm0]
      exact hl2
    have : s.continua = false :=
      (continua_false s).mpr ⟨hll, List.flatten_eq_nil_iff.mp hf⟩
    rw [this] at hc
    cases hc
  obtain ⟨r, hplan⟩ := planificar_existe { s with colaLlegadas := l2, colas := c2 }
    (by rw [hlen1, hlen])
  obtain ⟨⟨i, o⟩, s2⟩ := r
  have hnone : o = none → s2.colaLlegadas ≠ [] := by
    intro ho
    rcases planificar_some _ i o s2 hplan with ⟨hvac, _, _, hs2⟩ |
      ⟨j, e, cola, resto, _, hcola, _, _, _, _, _, hex⟩
    · rw [hs2]
      rcases hvivos with h | ⟨c, hc1, hc2⟩
      · exact h
      · exact absurd (hvac c hc1) hc2
    · exfalso
      obtain ⟨p, hp⟩ := hex (by
        intro x hx
        have hx2 : x ∈ c2.flatten :=
          List.mem_flatten.mpr ⟨cola, List.getElem?_mem hcola, hx⟩
        rcases List.mem_append.mp (hperm1.subset hx2) with h1 | h1
        · exact hint2 x (List.mem_append_left _ (List.mem_append_right _ h1))
        · obtain ⟨a, ha, hax⟩ := List.mem_map.mp h1
          rw [← hax]
          exact hint2 a (List.mem_append_left _ (List.mem_append_left _
            (by rw [hadm]; exact List.mem_append_left _ ha))))
      rw [ho] at hp
      cases hp
  refine ⟨_, hm, hvivos, i, o, s2, hplan, hnone, ?_⟩
  intro ho
  obtain ⟨a, r, hl⟩ := List.exists_cons_of_ne_nil (hnone ho)
  subst ho
  exact ⟨a, r, hl, by simp only [iteracion, hm, hplan, hl]⟩

/-- C28 on the first turn of the run of `C` alone (arrival 2) over the sample
configuration: nothing is queued after admission, the admission vector is not
empty, and the turn jumps to clock 2. -/
theorem C28_avance_defensivo_witness :
    ∃ s1, moverProcesosLlegados (cargar insercion esquemasEjemplo [ejemploC]) = some s1 ∧
      (s1.colaLlegadas ≠ [] ∨ ∃ c ∈ s1.colas, c ≠ []) ∧
      (iteracion insercion (cargar insercion esquemasEjemplo [ejemploC])).map
        (fun s4 => s4.tiempoGlobal) = some 2 := by
  obtain ⟨s1, hm, hv, _⟩ := C28_avance_defensivo insercion esquemasEjemplo [ejemploC]
    (by decide) (by decide) 0 (cargar insercion esquemasEjemplo [ejemploC]) rfl (by decide)
  exact ⟨s1, hm, hv, by decide⟩

/-! ## Priority values and the run -/

theorem sinPrioridad_ejecutar (p : Proceso) (t : Int) :
    (sinPrioridad p).ejecutar t = sinPrioridad (p.ejecutar t) := by
  cases h : p.haIniciado <;> by_cases hr : p.tiempoRestante > 0 <;>
    simp [Proceso.ejecutar, sinPrioridad, h, hr]

theorem sinPrioridad_bucle (p : Proceso) (t : Int) (n : Nat) :
    bucleEjecutar (sinPrioridad p) t n = sinPrioridad (bucleEjecutar p t n) := by
  induction n with
  | zero => rfl
  | succ k ih => rw [bucleEjecutar, ih, sinPrioridad_ejecutar, bucleEjecutar]

theorem sinPrioridad_marcado (p : Proceso) (t : Int) :
    marcado (sinPrioridad p) t = sinPrioridad (marcado p t) := by
  cases h : p.haIniciado <;> simp [marcado, sinPrioridad, h, Proceso.setTiempoInicio]

theorem sinPrioridad_esMejor (p : Proceso) (o : Option Proceso) (m : Int) :
    esMejor (sinPrioridad p) (o.map sinPrioridad) m = esMejor p o m := by
  cases o <;> rfl

/-- The SJF/STCF scan does not look at the priority values. -/
theorem sinPrioridad_buscarMejor (l : List Proceso) (o : Option Proceso) (m : Int)
    (temp : List Proceso) :
    buscarMejor (l.map sinPrioridad) (o.map sinPrioridad) m (temp.map sinPrioridad) =
      ((buscarMejor l o m temp).1.map sinPrioridad,
        (buscarMejor l o m temp).2.map sinPrioridad) := by
  induction l generalizing o m temp with
  | nil => rfl
  | cons p l ih =>
    by_cases hb : esMejor p o m = true
    · simp only [List.map_cons, buscarMejor, sinPrioridad_esMejor, hb, if_true]
      cases o with
      | none => exact ih (some p) p.tiempoRestante temp
      | some x =>
        have := ih (some p) p.tiempoRestante (temp ++ [x])
        simpa using this
    · simp only [List.map_cons, buscarMejor, sinPrioridad_esMejor, hb, Bool.false_eq_true,
        if_false]
      have := ih o m (temp ++ [p])
      simpa using this

theorem sinPrioridad_subindice (colas : List (List Proceso)) (n : Int) :
    subindice (colas.map (fun c => c.map sinPrioridad)) n =
      (subindice colas n).map (fun c => c.map sinPrioridad) := by
  unfold subindice
  split_ifs
  · rw [List.getElem?_map]
  · rfl

theorem sinPrioridad_empujar (colas : List (List Proceso)) (n : Int) (p : Proceso) :
    empujar (colas.map (fun c => c.map sinPrioridad)) n (sinPrioridad p) =
      (empujar colas n p).map (fun cs => cs.map (fun c => c.map sinPrioridad)) := by
  unfold empujar
  rw [sinPrioridad_subindice]
  cases subindice colas n with
  | none => rfl
  | some q => simp [List.map_set]

/-- The admission loop does not look at the priority values. -/
theorem sinPrioridad_moverBucle (t : Int) (ll : List Proceso) (colas : List (List Proceso)) :
    moverBucle t (ll.map sinPrioridad) (colas.map (fun c => c.map sinPrioridad)) =
      (moverBucle t ll colas).map
        (fun r => (r.1.map sinPrioridad, r.2.map (fun c => c.map sinPrioridad))) := by
  induction ll generalizing colas with
  | nil => rfl
  | cons p resto ih =>
    by_cases hp : p.tiempoLlegada ≤ t
    · have hp2 : (sinPrioridad p).tiempoLlegada ≤ t := hp
      have he := sinPrioridad_empujar colas (p.colaOriginal - 1)
        (p.setCola (p.colaOriginal - 1))
      simp only [List.map_cons, moverBucle, hp, hp2, if_true]
      cases hemp : empujar colas (p.colaOriginal - 1) (p.setCola (p.colaOriginal - 1)) with
      | none =>
        rw [hemp] at he
        have he2 : empujar (colas.map (fun c => c.map sinPrioridad))
            ((sinPrioridad p).colaOriginal - 1)
            ((sinPrioridad p).setCola ((sinPrioridad p).colaOriginal - 1)) = none := he
        rw [he2]
        rfl
      | some c1 =>
        rw [hemp] at he
        have he2 : empujar (colas.map (fun c => c.map sinPrioridad))
            ((sinPrioridad p).colaOriginal - 1)
            ((sinPrioridad p).setCola ((sinPrioridad p).colaOriginal - 1)) =
            some (c1.map (fun c => c.map sinPrioridad)) := he
        rw [he2]
        exact ih c1
    · have hp2 : ¬ (sinPrioridad p).tiempoLlegada ≤ t := hp
      simp only [List.map_cons, moverBucle, hp, hp2, if_false, Option.map_some']

/-- Admission does not look at the priority values. -/
theorem sinPrioridad_mover (s : MLFQScheduler) :
    moverProcesosLlegados s.sinPrioridades =
      (moverProcesosLlegados s).map MLFQScheduler.sinPrioridades := by
  have h := sinPrioridad_moverBucle s.tiempoGlobal s.colaLlegadas s.colas
  unfold moverProcesosLlegados
  show (match moverBucle s.tiempoGlobal (s.colaLlegadas.map sinPrioridad)
      (s.colas.map (fun c => c.map sinPrioridad)) with
    | none => none
    | some (llegadas, colas) =>
      some { s.sinPrioridades with colaLlegadas := llegadas, colas := colas }) = _
  rw [h]
  cases moverBucle s.tiempoGlobal s.colaLlegadas s.colas with
  | none => rfl
  | some r => rfl

/-- The scan of the levels does not look at the priority values. -/
theorem sinPrioridad_planificarDesde (s : MLFQScheduler) (i : Nat) (L : List (List Proceso)) :
    planificarDesde s.sinPrioridades i (L.map (fun c => c.map sinPrioridad)) =
      (planificarDesde s i L).map
        (fun r => ((r.1.1, r.1.2.map sinPrioridad), r.2.sinPrioridades)) := by
  induction L generalizing i with
  | nil => rfl
  | cons c L ih =>
    cases c with
    | nil => exact ih (i + 1)
    | cons p cola =>
      have hesq : s.sinPrioridades.esquemas[i]? = s.esquemas[i]? := rfl
      simp only [List.map_cons, planificarDesde, hesq]
      cases s.esquemas[i]? with
      | none => rfl
      | some e =>
        by_cases hrr : e.politica = TipoPolitica.ROUND_ROBIN
        · simp only [hrr, if_true, Option.map_some', Option.some.injEq, Prod.mk.injEq,
            true_and]
          simp only [MLFQScheduler.sinPrioridades, List.map_set]
        · have hb := sinPrioridad_buscarMejor (p :: cola) none INT_MAX []
          simp only [List.map_cons, Option.map_none', List.map_nil] at hb
          simp only [hrr, if_false, Option.map_some', hb]
          simp only [MLFQScheduler.sinPrioridades, List.map_set]

/-- Selection does not look at the priority values. -/
theorem sinPrioridad_planificar (s : MLFQScheduler) :
    planificar s.sinPrioridades =
      (planificar s).map (fun r => ((r.1.1, r.1.2.map sinPrioridad), r.2.sinPrioridades)) :=
  sinPrioridad_planificarDesde s 0 s.colas

theorem sinPrioridad_finalizar (s : MLFQScheduler) (p : Proceso) :
    finalizar s.sinPrioridades (sinPrioridad p) = (finalizar s p).sinPrioridades := by
  simp [finalizar, MLFQScheduler.sinPrioridades, sinPrioridad, Proceso.setTiempoFinalizacion,
    Proceso.calcularMetricas]

theorem sinPrioridad_tiempoMaximo (s : MLFQScheduler) (p : Proceso) :
    tiempoMaximoSTCF s.sinPrioridades (sinPrioridad p) = tiempoMaximoSTCF s p := by
  unfold tiempoMaximoSTCF
  show (match s.colaLlegadas.map sinPrioridad with
    | [] => p.tiempoRestante
    | primero :: _ =>
      if primero.tiempoLlegada > s.tiempoGlobal then
        min p.tiempoRestante (primero.tiempoLlegada - s.tiempoGlobal)
      else 1) = _
  cases s.colaLlegadas with
  | nil => rfl
  | cons a r => rfl

theorem sinPrioridad_restante (p : Proceso) :
    (sinPrioridad p).tiempoRestante = p.tiempoRestante := rfl

theorem sinPrioridad_completo (p : Proceso) :
    (sinPrioridad p).estaCompleto = p.estaCompleto := rfl

/-- A dispatch does not look at the priority values. -/
theorem sinPrioridad_despacho (S : StdSort) (s : MLFQScheduler) (p : Proceso) (i : Int) :
    ejecutarConScheduler S s.sinPrioridades (sinPrioridad p) i =
      (ejecutarConScheduler S s p i).map MLFQScheduler.sinPrioridades := by
  have hesq : subindice s.sinPrioridades.esquemas i = subindice s.esquemas i := rfl
  have hreloj : s.sinPrioridades.tiempoGlobal = s.tiempoGlobal := rfl
  have hlen : s.sinPrioridades.colas.length = s.colas.length := by
    simp [MLFQScheduler.sinPrioridades]
  unfold ejecutarConScheduler
  rw [hesq]
  cases subindice s.esquemas i with
  | none => rfl
  | some e =>
    cases hpol : e.politica with
    | ROUND_ROBIN =>
      simp only [hpol, RoundRobinScheduler.nuevo, RoundRobinScheduler.agregarProceso,
        RoundRobinScheduler.obtenerSiguienteProceso, RoundRobinScheduler.ejecutarProceso,
        List.nil_append, hreloj, hlen, sinPrioridad_marcado, sinPrioridad_bucle,
        sinPrioridad_restante, sinPrioridad_completo]
      split_ifs with hc
      · exact congrArg some (sinPrioridad_finalizar
          { s with tiempoGlobal :=
              s.tiempoGlobal + min e.quantum (marcado p s.tiempoGlobal).tiempoRestante } _)
      · have h2 := sinPrioridad_empujar s.colas
          (min (i + 1) ((s.colas.length : Int) - 1))
          ((bucleEjecutar (marcado p s.tiempoGlobal) s.tiempoGlobal
            (min e.quantum (marcado p s.tiempoGlobal).tiempoRestante).toNat).setCola
              (min (i + 1) ((s.colas.length : Int) - 1)))
        have h3 : empujar s.sinPrioridades.colas (min (i + 1) ((s.colas.length : Int) - 1))
            ((sinPrioridad (bucleEjecutar (marcado p s.tiempoGlobal) s.tiempoGlobal
              (min e.quantum (marcado p s.tiempoGlobal).tiempoRestante).toNat)).setCola
                (min (i + 1) ((s.colas.length : Int) - 1))) = _ := h2
        rw [h3]
        cases empujar s.colas (min (i + 1) ((s.colas.length : Int) - 1))
          ((bucleEjecutar (marcado p s.tiempoGlobal) s.tiempoGlobal
            (min e.quantum (marcado p s.tiempoGlobal).tiempoRestante).toNat).setCola
              (min (i + 1) ((s.colas.length : Int) - 1))) with
        | none => rfl
        | some c1 => rfl
    | SJF =>
      simp only [hpol, SJFScheduler.nuevo, SJFScheduler.agregarProceso,
        SJFScheduler.obtenerSiguienteProceso, SJFScheduler.ejecutarProceso,
        List.nil_append, ordenar_singular, hreloj, sinPrioridad_marcado, sinPrioridad_bucle,
        sinPrioridad_restante]
      exact congrArg some (sinPrioridad_finalizar
        { s with tiempoGlobal := s.tiempoGlobal + (marcado p s.tiempoGlobal).tiempoRestante } _)
    | STCF =>
      simp only [hpol, STCFScheduler.nuevo, STCFScheduler.agregarProceso,
        STCFScheduler.obtenerSiguienteProceso, STCFScheduler.ejecutarProceso,
        List.nil_append, ordenar_singular, hreloj, sinPrioridad_marcado,
        sinPrioridad_tiempoMaximo, sinPrioridad_bucle, sinPrioridad_restante,
        sinPrioridad_completo]
      split_ifs with hc
      · exact congrArg some (sinPrioridad_finalizar
          { s with tiempoGlobal := (s.tiempoGlobal +
              min (tiempoMaximoSTCF s (marcado p s.tiempoGlobal))
                (marcado p s.tiempoGlobal).tiempoRestante) } _)
      · have h2 := sinPrioridad_empujar s.colas i
          (bucleEjecutar (marcado p s.tiempoGlobal) s.tiempoGlobal
            (min (tiempoMaximoSTCF s (marcado p s.tiempoGlobal))
              (marcado p s.tiempoGlobal).tiempoRestante).toNat)
        have h3 : empujar s.sinPrioridades.colas i
            (sinPrioridad (bucleEjecutar (marcado p s.tiempoGlobal) s.tiempoGlobal
              (min (tiempoMaximoSTCF s (marcado p s.tiempoGlobal))
                (marcado p s.tiempoGlobal).tiempoRestante).toNat)) = _ := h2
        rw [h3]
        cases empujar s.colas i
          (bucleEjecutar (marcado p s.tiempoGlobal) s.tiempoGlobal
            (min (tiempoMaximoSTCF s (marcado p s.tiempoGlobal))
              (marcado p s.tiempoGlobal).tiempoRestante).toNat) with
        | none => rfl
        | some c1 => rfl

theorem sinPrioridad_vacia (l : List Proceso) :
    (l.map sinPrioridad).isEmpty = l.isEmpty := by
  cases l <;> rfl

theorem sinPrioridad_continua (s : MLFQScheduler) :
    s.sinPrioridades.continua = s.continua := by
  simp [continua, hayProcesosPendientes, MLFQScheduler.sinPrioridades, List.any_map,
    Function.comp_def, sinPrioridad_vacia]

/-- A turn of the main loop does not look at the priority values. -/
theorem sinPrioridad_iteracion (S : StdSort) (s : MLFQScheduler) :
    iteracion S s.sinPrioridades = (iteracion S s).map MLFQScheduler.sinPrioridades := by
  cases hm : moverProcesosLlegados s with
  | none => simp only [iteracion, sinPrioridad_mover, hm, Option.map_none']
  | some s1 =>
    cases hp : planificar s1 with
    | none =>
      simp only [iteracion, sinPrioridad_mover, hm, Option.map_some', sinPrioridad_planificar,
        hp, Option.map_none']
    | some r =>
      obtain ⟨⟨i, o⟩, s2⟩ := r
      cases o with
      | none =>
        cases hl : s2.colaLlegadas with
        | nil =>
          have hl2 : s2.sinPrioridades.colaLlegadas = [] := by
            simp [MLFQScheduler.sinPrioridades, hl]
          simp only [iteracion, sinPrioridad_mover, hm, Option.map_some',
            sinPrioridad_planificar, hp, Option.map_none', hl, hl2]
          rfl
        | cons a r =>
          have hl2 : s2.sinPrioridades.colaLlegadas = sinPrioridad a :: r.map sinPrioridad := by
            simp [MLFQScheduler.sinPrioridades, hl]
          simp only [iteracion, sinPrioridad_mover, hm, Option.map_some',
            sinPrioridad_planificar, hp, Option.map_none', hl, hl2]
          rfl
      | some p =>
        simp only [iteracion, sinPrioridad_mover, hm, Option.map_some',
          sinPrioridad_planificar, hp]
        exact sinPrioridad_despacho S s2 p i

/-- The main loop does not look at the priority values. -/
theorem sinPrioridad_simulacion (S : StdSort) (n : Nat) (s : MLFQScheduler) :
    ejecutarSimulacion S n s.sinPrioridades =
      (ejecutarSimulacion S n s).map MLFQScheduler.sinPrioridades := by
  induction n generalizing s with
  | zero =>
    simp only [ejecutarSimulacion, sinPrioridad_continua]
    split_ifs <;> rfl
  | succ k ih =>
    simp only [ejecutarSimulacion, sinPrioridad_continua, sinPrioridad_iteracion]
    split_ifs
    · cases iteracion S s with
      | none => rfl
      | some s1 => exact ih s1
    · rfl

/-- Registration under a sort that reaches the records through the comparator
only: engines that differ in priority values alone stay so. -/
theorem sinPrioridad_cargar (S : StdSort) (hS : AjenoAPrioridad S) (ps qs : List Proceso)
    (h : ps.map sinPrioridad = qs.map sinPrioridad) (s s2 : MLFQScheduler)
    (hs : s.sinPrioridades = s2.sinPrioridades) :
    (ps.foldl (agregarProceso S) s).sinPrioridades =
      (qs.foldl (agregarProceso S) s2).sinPrioridades := by
  induction ps generalizing qs s s2 with
  | nil =>
    cases qs with
    | nil => exact hs
    | cons q qs => cases h
  | cons p ps ih =>
    cases qs with
    | nil => cases h
    | cons q qs =>
      simp only [List.map_cons, List.cons.injEq] at h
      simp only [List.foldl_cons]
      apply ih qs h.2
      have hll : s.colaLlegadas.map sinPrioridad = s2.colaLlegadas.map sinPrioridad :=
        congrArg MLFQScheduler.colaLlegadas hs
      have hsort := hS (s.colaLlegadas ++ [p]) (s2.colaLlegadas ++ [q])
        (by simp only [List.map_append, List.map_cons, List.map_nil, hll, h.1])
      have h1 := congrArg MLFQScheduler.esquemas hs
      have h2 := congrArg MLFQScheduler.colas hs
      have h3 := congrArg MLFQScheduler.procesosFinalizados hs
      have h4 := congrArg MLFQScheduler.tiempoGlobal hs
      simp only [MLFQScheduler.sinPrioridades] at h1 h2 h3 h4
      simp only [MLFQScheduler.sinPrioridades, agregarProceso, hsort, h1, h2, h3, h4]

/-- Insertion sort reaches the records through the comparator only. -/
theorem insercion_ajeno : AjenoAPrioridad insercion := by
  intro l l2 h
  have hmap : ∀ l : List Proceso,
      (List.insertionSort (fun a b => menorLlegada b a = false) l).map sinPrioridad =
        List.insertionSort (fun a b => menorLlegada b a = false) (l.map sinPrioridad) :=
    fun l => List.map_insertionSort (fun a b => menorLlegada b a = false)
      (fun a b => menorLlegada b a = false) sinPrioridad l (fun a _ b _ => Iff.rfl)
  show (List.insertionSort _ l).map sinPrioridad = (List.insertionSort _ l2).map sinPrioridad
  rw [hmap l, hmap l2, h]

/-- C21. Under a sort that reaches the records through its comparator only,
two workloads that differ in the priority values of their records alone, run
under the same level configuration with the same bound on the turns, end
alike: either none of the two runs returns, or both return engines that differ
in priority values alone.  In particular the clocks are equal and the finished
vectors list the same labels in the same order with equal start time, finish
time, final level, waiting, response and turnaround time. -/
theorem C21_prioridad_sin_efecto (S : StdSort) (hS : AjenoAPrioridad S)
    (esq : List EsquemaCola) (ps qs : List Proceso)
    (h : ps.map sinPrioridad = qs.map sinPrioridad) (n : Nat) :
    (ejecutarSimulacion S n (cargar S esq ps)).map MLFQScheduler.sinPrioridades =
      (ejecutarSimulacion S n (cargar S esq qs)).map MLFQScheduler.sinPrioridades ∧
    ∀ s2, ejecutarSimulacion S n (cargar S esq ps) = some s2 →
      ∃ s3, ejecutarSimulacion S n (cargar S esq qs) = some s3 ∧
        s3.tiempoGlobal = s2.tiempoGlobal ∧
        s3.procesosFinalizados.map (fun p => (p.etiqueta, [p.tiempoInicio,
            p.tiempoFinalizacion, p.cola, p.tiempoEspera, p.tiempoRespuesta,
            p.tiempoRetorno])) =
          s2.procesosFinalizados.map (fun p => (p.etiqueta, [p.tiempoInicio,
            p.tiempoFinalizacion, p.cola, p.tiempoEspera, p.tiempoRespuesta,
            p.tiempoRetorno])) := by
  have hcarga : (cargar S esq ps).sinPrioridades = (cargar S esq qs).sinPrioridades :=
    sinPrioridad_cargar S hS ps qs h (nuevo esq) (nuevo esq) rfl
  have hrun : (ejecutarSimulacion S n (cargar S esq ps)).map MLFQScheduler.sinPrioridades =
      (ejecutarSimulacion S n (cargar S esq qs)).map MLFQScheduler.sinPrioridades := by
    rw [← sinPrioridad_simulacion, ← sinPrioridad_simulacion, hcarga]
  refine ⟨hrun, ?_⟩
  intro s2 h2
  rw [h2, Option.map_some'] at hrun
  obtain ⟨s3, h3, heq⟩ := Option.map_eq_some'.mp hrun.symm
  have hreloj : s3.sinPrioridades.tiempoGlobal = s2.sinPrioridades.tiempoGlobal :=
    congrArg MLFQScheduler.tiempoGlobal heq
  refine ⟨s3, h3, hreloj, ?_⟩
  have hfin0 : s3.sinPrioridades.procesosFinalizados =
      s2.sinPrioridades.procesosFinalizados :=
    congrArg MLFQScheduler.procesosFinalizados heq
  have hfin : s3.procesosFinalizados.map sinPrioridad =
      s2.procesosFinalizados.map sinPrioridad := hfin0
  have hcomp := congrArg (List.map (fun p : Proceso => (p.etiqueta, [p.tiempoInicio,
    p.tiempoFinalizacion, p.cola, p.tiempoEspera, p.tiempoRespuesta,
    p.tiempoRetorno]))) hfin
  simpa only [List.map_map, Function.comp_def, sinPrioridad] using hcomp

/-- C21 on the workload `A`, `B`, `C` over the sample configuration, with the
priorities 1, 1, 7 replaced by 9, 8, 0: both runs return, at clock 12, with
`B`, `A`, `C` finished at 5, 8, 12. -/
theorem C21_prioridad_sin_efecto_witness :
    ∃ s2 s3, ejecutarSimulacion insercion 25
        (cargar insercion esquemasEjemplo [ejemploA, ejemploB, ejemploC]) = some s2 ∧
      ejecutarSimulacion insercion 25 (cargar insercion esquemasEjemplo
        [Proceso.nuevo "A" 5 0 1 9, Proceso.nuevo "B" 3 0 1 8, Proceso.nuevo "C" 4 2 2 0]) =
        some s3 ∧
      s3.tiempoGlobal = s2.tiempoGlobal ∧
      s3.procesosFinalizados.map (fun p => (p.etiqueta, [p.tiempoInicio,
          p.tiempoFinalizacion, p.cola, p.tiempoEspera, p.tiempoRespuesta,
          p.tiempoRetorno])) =
        s2.procesosFinalizados.map (fun p => (p.etiqueta, [p.tiempoInicio,
          p.tiempoFinalizacion, p.cola, p.tiempoEspera, p.tiempoRespuesta,
          p.tiempoRetorno])) ∧
      s2.procesosFinalizados.map (fun p => (p.prioridad, p.tiempoFinalizacion)) =
        [(1, 5), (1, 8), (7, 12)] ∧
      s3.procesosFinalizados.map (fun p => (p.prioridad, p.tiempoFinalizacion)) =
        [(8, 5), (9, 8), (0, 12)] := by
  have h2 : (ejecutarSimulacion insercion 25
      (cargar insercion esquemasEjemplo [ejemploA, ejemploB, ejemploC])).map
        (fun s => s.procesosFinalizados.map (fun p => (p.prioridad, p.tiempoFinalizacion))) =
      some [(1, 5), (1, 8), (7, 12)] := by decide
  have h3 : (ejecutarSimulacion insercion 25 (cargar insercion esquemasEjemplo
      [Proceso.nuevo "A" 5 0 1 9, Proceso.nuevo "B" 3 0 1 8, Proceso.nuevo "C" 4 2 2 0])).map
        (fun s => s.procesosFinalizados.map (fun p => (p.prioridad, p.tiempoFinalizacion))) =
      some [(8, 5), (9, 8), (0, 12)] := by decide
  obtain ⟨s2, hs2, hf2⟩ := Option.map_eq_some'.mp h2
  obtain ⟨s3, hs3, hreloj, hfin⟩ := (C21_prioridad_sin_efecto insercion insercion_ajeno
    esquemasEjemplo [ejemploA, ejemploB, ejemploC]
    [Proceso.nuevo "A" 5 0 1 9, Proceso.nuevo "B" 3 0 1 8, Proceso.nuevo "C" 4 2 2 0]
    (by decide) 25).2 s2 hs2
  rw [hs3] at h3
  exact ⟨s2, s3, hs2, hs3, hreloj, hfin, hf2, Option.some.inj h3⟩

/-! ## The units of a dispatch -/

/-- Dispatch of a record with positive remaining time from a level in range
(positive quantum if Round Robin), with the units counted: the dispatch runs
`b ≥ 1` units, the clock advances by `b`, and the record comes out started,
with `b` units less to run; it is finished, with its finish time and metrics
set, when nothing is left, and requeued otherwise. -/
theorem despacho_exacto (S : StdSort) (s : MLFQScheduler) (p : Proceso) (k : Nat)
    (e : EsquemaCola) (he : s.esquemas[k]? = some e) (hk : k < s.colas.length)
    (hq : e.politica = TipoPolitica.ROUND_ROBIN → 0 < e.quantum)
    (hr : 0 < p.tiempoRestante) :
    ∃ (s4 : MLFQScheduler) (b : Int) (x : Proceso), ejecutarConScheduler S s p k = some s4 ∧
      0 < b ∧ b ≤ p.tiempoRestante ∧ s4.tiempoGlobal = s.tiempoGlobal + b ∧
      x.tiempoRestante = p.tiempoRestante - b ∧ x.datos = p.datos ∧
      x.haIniciado = true ∧
      x.tiempoInicio = (if p.haIniciado then p.tiempoInicio else s.tiempoGlobal) ∧
      s4.colaLlegadas = s.colaLlegadas ∧
      ((x.tiempoRestante = 0 ∧ s4.colas = s.colas ∧
          s4.procesosFinalizados = s.procesosFinalizados ++
            [(x.setTiempoFinalizacion s4.tiempoGlobal).calcularMetricas]) ∨
        (0 < x.tiempoRestante ∧ s4.procesosFinalizados = s.procesosFinalizados ∧
          ∃ c, s4.colas.flatten.Perm (x.setCola c :: s.colas.flatten))) := by
  have hdatos : ∀ b : Int, ({ marcado p s.tiempoGlobal with
      tiempoRestante := p.tiempoRestante - b } : Proceso).datos = p.datos :=
    fun b => marcado_datos p s.tiempoGlobal
  have hini : ∀ b : Int, ({ marcado p s.tiempoGlobal with
      tiempoRestante := p.tiempoRestante - b } : Proceso).haIniciado = true :=
    fun b => marcado_iniciado p s.tiempoGlobal
  have hinicio : ∀ b : Int, ({ marcado p s.tiempoGlobal with
      tiempoRestante := p.tiempoRestante - b } : Proceso).tiempoInicio =
        (if p.haIniciado then p.tiempoInicio else s.tiempoGlobal) :=
    fun b => marcado_inicio p s.tiempoGlobal
  cases hpol : e.politica with
  | ROUND_ROBIN =>
    have hq0 := hq hpol
    have hk0 : 0 < min e.quantum p.tiempoRestante := lt_min hq0 hr
    have hj : min ((k : Int) + 1) ((s.colas.length : Int) - 1) =
        ((min (k + 1) (s.colas.length - 1) : Nat) : Int) := by omega
    have hjlt : min (k + 1) (s.colas.length - 1) < s.colas.length := by omega
    have hexec := rr_forma S s p k e he hpol _ rfl hk0.le _ hj
    by_cases hc : p.tiempoRestante - min e.quantum p.tiempoRestante ≤ 0
    · have hc2 : ({ marcado p s.tiempoGlobal with
          tiempoRestante := p.tiempoRestante - min e.quantum p.tiempoRestante } :
            Proceso).estaCompleto = true := by
        simp only [Proceso.estaCompleto, decide_eq_true_eq]; exact hc
      rw [if_pos hc2] at hexec
      refine ⟨_, min e.quantum p.tiempoRestante, ({ marcado p s.tiempoGlobal with
        tiempoRestante := p.tiempoRestante - min e.quantum p.tiempoRestante } : Proceso),
        hexec, hk0, min_le_right _ _, rfl, rfl,
        hdatos _, hini _, hinicio _, rfl, Or.inl ⟨?_, rfl, rfl⟩⟩
      show p.tiempoRestante - min e.quantum p.tiempoRestante = 0
      have := min_le_right e.quantum p.tiempoRestante
      omega
    · have hc2 : ({ marcado p s.tiempoGlobal with
          tiempoRestante := p.tiempoRestante - min e.quantum p.tiempoRestante } :
            Proceso).estaCompleto = false := by
        simp only [Proceso.estaCompleto, decide_eq_false_iff_not]; exact hc
      rw [hc2, empujar_nat _ _ _ hjlt] at hexec
      simp only [Bool.false_eq_true, if_false] at hexec
      refine ⟨_, min e.quantum p.tiempoRestante, ({ marcado p s.tiempoGlobal with
        tiempoRestante := p.tiempoRestante - min e.quantum p.tiempoRestante } : Proceso),
        hexec, hk0, min_le_right _ _, rfl, rfl,
        hdatos _, hini _, hinicio _, rfl,
        Or.inr ⟨?_, rfl, ((min (k + 1) (s.colas.length - 1) : Nat) : Int), ?_⟩⟩
      · show 0 < p.tiempoRestante - min e.quantum p.tiempoRestante
        omega
      · exact flatten_set_perm s.colas _ _ _ (List.getElem?_eq_getElem hjlt) _
          (List.perm_append_singleton _ _)
  | SJF =>
    have hexec := sjf_forma S s p k e he hpol hr.le
    refine ⟨_, p.tiempoRestante,
      ({ marcado p s.tiempoGlobal with tiempoRestante := 0 } : Proceso), hexec, hr, le_refl _,
      rfl, ?_, marcado_datos p s.tiempoGlobal, marcado_iniciado p s.tiempoGlobal,
      marcado_inicio p s.tiempoGlobal, rfl, Or.inl ⟨rfl, rfl, rfl⟩⟩
    show (0 : Int) = p.tiempoRestante - p.tiempoRestante
    omega
  | STCF =>
    obtain ⟨b, hmb, h0, hle, hpos, _, _, _⟩ := stcf_unidades s p hr.le
    have hb0 := hpos hr
    have hexec := stcf_forma S s p k e he hpol b hmb h0
    by_cases hc : p.tiempoRestante - b ≤ 0
    · have hc2 : ({ marcado p s.tiempoGlobal with
          tiempoRestante := p.tiempoRestante - b } : Proceso).estaCompleto = true := by
        simp only [Proceso.estaCompleto, decide_eq_true_eq]; exact hc
      rw [if_pos hc2] at hexec
      refine ⟨_, b, ({ marcado p s.tiempoGlobal with
        tiempoRestante := p.tiempoRestante - b } : Proceso),
        hexec, hb0, hle, rfl, rfl, hdatos _, hini _, hinicio _, rfl,
        Or.inl ⟨?_, rfl, rfl⟩⟩
      show p.tiempoRestante - b = 0
      omega
    · have hc2 : ({ marcado p s.tiempoGlobal with
          tiempoRestante := p.tiempoRestante - b } : Proceso).estaCompleto = false := by
        simp only [Proceso.estaCompleto, decide_eq_false_iff_not]; exact hc
      rw [hc2, empujar_nat _ _ _ hk] at hexec
      simp only [Bool.false_eq_true, if_false] at hexec
      refine ⟨_, b, ({ marcado p s.tiempoGlobal with
        tiempoRestante := p.tiempoRestante - b } : Proceso),
        hexec, hb0, hle, rfl, rfl, hdatos _, hini _, hinicio _, rfl,
        Or.inr ⟨?_, rfl, (marcado p s.tiempoGlobal).cola, ?_⟩⟩
      · show 0 < p.tiempoRestante - b
        omega
      · exact flatten_set_perm s.colas _ _ _ (List.getElem?_eq_getElem hk) _
          (List.perm_append_singleton _ _)

/-- A turn of the main loop on a state of a valid run that meets the loop
condition, with the units counted.  It is either an idle jump, with nothing
queued, to the arrival time of the first pending record, later than the clock;
or the admission of a prefix `adm` of arrived records and the dispatch of one
record `p` among the queued and admitted ones, for `b ≥ 1` units: the clock
advances by `b`, and `p` comes out as `x`, started, with `b` units less to
run, finished if nothing is left and requeued otherwise. -/
theorem iteracion_exacta (S : StdSort) (s : MLFQScheduler) (hI : s.EnCurso)
    (hc : s.continua = true) :
    ∃ s4, iteracion S s = some s4 ∧
      ((∃ a r, s.colaLlegadas = a :: r ∧ (∀ c ∈ s.colas, c = []) ∧
          s.tiempoGlobal < a.tiempoLlegada ∧
          s4 = { s with tiempoGlobal := a.tiempoLlegada }) ∨
        ∃ (adm : List Proceso) (p x : Proceso) (b : Int) (resto : List Proceso),
          s.colaLlegadas = adm ++ s4.colaLlegadas ∧
          (∀ a ∈ adm, a.tiempoLlegada ≤ s.tiempoGlobal) ∧
          (s.colas.flatten ++ adm.map admitido).Perm (p :: resto) ∧
          0 < b ∧ b ≤ p.tiempoRestante ∧ s4.tiempoGlobal = s.tiempoGlobal + b ∧
          x.tiempoRestante = p.tiempoRestante - b ∧ x.datos = p.datos ∧
          x.haIniciado = true ∧
          x.tiempoInicio = (if p.haIniciado then p.tiempoInicio else s.tiempoGlobal) ∧
          ((x.tiempoRestante = 0 ∧ s4.colas.flatten.Perm resto ∧
              s4.procesosFinalizados = s.procesosFinalizados ++
                [(x.setTiempoFinalizacion s4.tiempoGlobal).calcularMetricas]) ∨
            (0 < x.tiempoRestante ∧ s4.procesosFinalizados = s.procesosFinalizados ∧
              ∃ c, s4.colas.flatten.Perm (x.setCola c :: resto)))) := by
  obtain ⟨hlen, hquant, hniv, hrest⟩ := hI
  -- admission
  obtain ⟨r1, hmb⟩ := moverBucle_existe s.tiempoGlobal s.colaLlegadas s.colas hniv
  have hm : moverProcesosLlegados s =
      some { s with colaLlegadas := r1.1, colas := r1.2 } := by
    simp only [moverProcesosLlegados, hmb]
  obtain ⟨hesq1, hfin1, ht1, adm, hadm, hllegados, hhead, hlen1, hperm1, hnoadm⟩ :=
    mover_some s _ hm
  generalize ({ s with colaLlegadas := r1.1, colas := r1.2 } : MLFQScheduler) = s1 at *
  have hperm1b : s1.colas.flatten.Perm (s.colas.flatten ++ adm.map admitido) := hperm1
  have hrest1 : ∀ x ∈ s1.colas.flatten, 0 < x.tiempoRestante ∧ x.tiempoRestante ≤ INT_MAX := by
    intro x hx
    rcases List.mem_append.mp (hperm1.subset hx) with h2 | h2
    · exact hrest x (List.mem_append_right _ h2)
    · obtain ⟨y, hy, hyx⟩ := List.mem_map.mp h2
      rw [← hyx]
      exact hrest y (List.mem_append_left _ (by rw [hadm]; exact List.mem_append_left _ hy))
  -- selection
  obtain ⟨⟨⟨i, o⟩, s2⟩, hp⟩ := planificar_existe s1 (by rw [hlen1, hesq1]; exact hlen)
  rcases planificar_some s1 i o s2 hp with ⟨hvac, _, ho, hs2⟩ |
    ⟨k, e, cola, resto, hik, hcola, _, _, he, hs2, hperm2, hsome⟩
  · -- nothing queued: idle jump
    subst ho
    rw [hs2] at hp
    have hflat : s1.colas.flatten = [] := List.flatten_eq_nil_iff.mpr hvac
    have hadm0 : adm = [] := by
      rw [hflat] at hperm1
      have := List.Perm.nil_eq hperm1
      have h2 := List.append_eq_nil.mp this.symm
      exact List.map_eq_nil_iff.mp h2.2
    have hs1 : s1 = s := hnoadm hadm0
    subst hs1
    have hne : s1.colaLlegadas ≠ [] := by
      intro h0
      have := (continua_false s1).mpr ⟨h0, hvac⟩
      rw [hc] at this
      cases this
    obtain ⟨a, r, hl⟩ := List.exists_cons_of_ne_nil hne
    have hgt := hhead a r hl
    refine ⟨{ s1 with tiempoGlobal := a.tiempoLlegada }, ?_, Or.inl ⟨a, r, hl, hvac, hgt, rfl⟩⟩
    simp only [iteracion, hm, hp, hl]
  · -- a record is dispatched
    have hk : k < s1.colas.length := by
      by_contra hcon
      rw [List.getElem?_eq_none (by omega)] at hcola
      cases hcola
    have hcolamem : cola ∈ s1.colas := List.getElem?_mem hcola
    obtain ⟨p, hop⟩ := hsome (fun x hx =>
      (hrest1 x (List.mem_flatten.mpr ⟨cola, hcolamem, hx⟩)).2)
    subst hop
    simp only [Option.toList, List.singleton_append] at hperm2
    have hpcola : p ∈ cola := (List.Perm.mem_iff hperm2).mp (List.mem_cons_self _ _)
    have hprest := hrest1 p (List.mem_flatten.mpr ⟨cola, hcolamem, hpcola⟩)
    have hquit := flatten_quitar_perm s1.colas k cola resto hcola [p] hperm2
    have heq : e ∈ s.esquemas := by rw [← hesq1]; exact List.getElem?_mem he
    subst hs2
    subst hik
    obtain ⟨s4, b, x, hej, hb0, hble, hreloj, hxr, hxd, hxi, hxin, hll4, hcaso⟩ :=
      despacho_exacto S { s1 with colas := s1.colas.set k resto } p k e he
        (by simp only [List.length_set]; exact hk) (hquant e heq) hprest.1
    have hreloj2 : s4.tiempoGlobal = s.tiempoGlobal + b := by
      rw [hreloj]
      show s1.tiempoGlobal + b = _
      rw [ht1]
    have hxin2 : x.tiempoInicio = (if p.haIniciado then p.tiempoInicio else s.tiempoGlobal) := by
      rw [hxin]
      show (if p.haIniciado then p.tiempoInicio else s1.tiempoGlobal) = _
      rw [ht1]
    have hantes : (s.colas.flatten ++ adm.map admitido).Perm
        (p :: (s1.colas.set k resto).flatten) :=
      hperm1b.symm.trans (by simpa using hquit.symm)
    refine ⟨s4, ?_, Or.inr ⟨adm, p, x, b, (s1.colas.set k resto).flatten, ?_, hllegados,
      hantes, hb0, hble, hreloj2, hxr, hxd, hxi, hxin2, ?_⟩⟩
    · simp only [iteracion, hm, hp]
      exact hej
    · rw [hll4]
      exact hadm
    · rcases hcaso with ⟨hx0, hcol, hf⟩ | ⟨hxpos, hf, c, hperm4⟩
      · refine Or.inl ⟨hx0, by rw [hcol], ?_⟩
        rw [hf]
        show s1.procesosFinalizados ++ _ = _
        rw [hfin1]
      · refine Or.inr ⟨hxpos, ?_, c, hperm4⟩
        rw [hf]
        exact hfin1

/-! ## Conservation of the records, turn by turn -/

/-- Turns of the main loop only append to the finished vector. -/
theorem iterar_prefijo (S : StdSort) (d : Nat) (s s2 : MLFQScheduler)
    (h : iterar S d s = some s2) : s.procesosFinalizados <+: s2.procesosFinalizados := by
  induction d generalizing s with
  | zero =>
    simp only [iterar, Option.some.injEq] at h
    subst h
    exact List.prefix_refl _
  | succ d ih =>
    simp only [iterar] at h
    split_ifs at h with hc
    cases hi : iteracion S s with
    | none => rw [hi] at h; cases h
    | some s1 =>
      rw [hi] at h
      have h1 : s.procesosFinalizados <+: s1.procesosFinalizados := by
        rcases iteracion_finalizados S s s1 hi with hf | ⟨x, hf, _⟩
        · rw [hf]
        · rw [hf]; exact List.prefix_append _ _
      exact h1.trans (ih s1 h)

/-- C31. On a valid workload, after any number of turns of the main loop the
records held in the admission vector, the level queues and the finished
vector, taken together, are the records registered, each as many times as it
was registered (so no record is in two containers or twice in one when the
registered records are distinct); the finished vector of an earlier state is
a prefix of the finished vector of every later one, record for record; and
while the loop condition holds the next turn is defined and keeps all this. -/
theorem C31_conservacion (S : StdSort) (esq : List EsquemaCola) (ps : List Proceso)
    (hv : Valido esq ps) (k : Nat) (s : MLFQScheduler)
    (hk : iterar S k (cargar S esq ps) = some s) :
    ((s.colaLlegadas ++ s.colas.flatten ++ s.procesosFinalizados).map Proceso.datos).Perm
      (ps.map Proceso.datos) ∧
    ((ps.map Proceso.datos).Nodup →
      ((s.colaLlegadas ++ s.colas.flatten ++ s.procesosFinalizados).map Proceso.datos).Nodup) ∧
    (∀ j sj, j ≤ k → iterar S j (cargar S esq ps) = some sj →
      sj.procesosFinalizados <+: s.procesosFinalizados) ∧
    (s.continua = true →
      ∃ s4, iteracion S s = some s4 ∧
        ((s4.colaLlegadas ++ s4.colas.flatten ++ s4.procesosFinalizados).map
          Proceso.datos).Perm
          ((s.colaLlegadas ++ s.colas.flatten ++ s.procesosFinalizados).map Proceso.datos) ∧
        s.procesosFinalizados <+: s4.procesosFinalizados) := by
  obtain ⟨hI0, _⟩ := cargar_en_curso S esq ps hv
  have hcons : mdatos s.todos = mdatos ps :=
    iterar_invariante S (fun s => mdatos s.todos = mdatos ps)
      (fun s s1 hs _ hi => (iteracion_conserva S s s1 hi).trans hs) k _ s
      (mdatos_perm (cargar_forma S esq ps).2.2.2.2.2) hk
  have hperm : ((s.colaLlegadas ++ s.colas.flatten ++ s.procesosFinalizados).map
      Proceso.datos).Perm (ps.map Proceso.datos) := perm_of_mdatos hcons
  refine ⟨hperm, fun hnd => hperm.nodup_iff.mpr hnd, ?_, ?_⟩
  · intro j sj hjk hj
    obtain ⟨d, rfl⟩ := Nat.exists_eq_add_of_le hjk
    obtain ⟨sj2, hj2, hd⟩ := iterar_suma S j d _ s hk
    rw [hj] at hj2
    obtain rfl := Option.some.inj hj2
    exact iterar_prefijo S d sj s hd
  · intro hc
    obtain ⟨_, hIs⟩ := iterar_reloj S k _ s hI0 hk
    obtain ⟨s4, hit, _⟩ := iteracion_progresa S s hIs hc
    refine ⟨s4, hit, perm_of_mdatos (iteracion_conserva S s s4 hit), ?_⟩
    rcases iteracion_finalizados S s s4 hit with hf | ⟨x, hf, _⟩
    · rw [hf]
    · rw [hf]; exact List.prefix_append _ _

/-- C31 on the run of `A`, `B`, `C` over the sample configuration, after 3
turns: `B` is finished, `C` and `A` are queued at level 1, nothing is
pending, and the constructor fields held are those of `A`, `B`, `C`, once
each. -/
theorem C31_conservacion_witness :
    ∃ s, iterar insercion 3
        (cargar insercion esquemasEjemplo [ejemploA, ejemploB, ejemploC]) = some s ∧
      s.colaLlegadas.map (fun p => p.etiqueta) = [] ∧
      s.colas.map (fun c => c.map (fun p => p.etiqueta)) = [[], ["C", "A"], []] ∧
      s.procesosFinalizados.map (fun p => p.etiqueta) = ["B"] ∧
      ((s.colaLlegadas ++ s.colas.flatten ++ s.procesosFinalizados).map Proceso.datos).Perm
        ([ejemploA, ejemploB, ejemploC].map Proceso.datos) ∧
      ((s.colaLlegadas ++ s.colas.flatten ++ s.procesosFinalizados).map
        Proceso.datos).Nodup := by
  have h3 : (iterar insercion 3
      (cargar insercion esquemasEjemplo [ejemploA, ejemploB, ejemploC])).map
        (fun s => (s.colaLlegadas.map (fun p => p.etiqueta),
          s.colas.map (fun c => c.map (fun p => p.etiqueta)),
          s.procesosFinalizados.map (fun p => p.etiqueta))) =
      some ([], [[], ["C", "A"], []], ["B"]) := by decide
  obtain ⟨s, hs, hpar⟩ := Option.map_eq_some'.mp h3
  simp only [Prod.mk.injEq] at hpar
  have hC := C31_conservacion insercion esquemasEjemplo [ejemploA, ejemploB, ejemploC]
    (by unfold Valido; decide) 3 s hs
  exact ⟨s, hs, hpar.1, hpar.2.1, hpar.2.2, hC.1, hC.2.1 (by decide)⟩

/-! ## Start, finish and the metrics -/

/-- A turn of the main loop of a valid run keeps the timing invariant. -/
theorem iteracion_en_hora (S : StdSort) (s s4 : MLFQScheduler) (hI : s.EnCurso)
    (hc : s.continua = true) (hH : s.EnHora) (h : iteracion S s = some s4) : s4.EnHora := by
  obtain ⟨s5, hit, hcasos⟩ := iteracion_exacta S s hI hc
  rw [h] at hit
  obtain rfl := Option.some.inj hit
  obtain ⟨hll, hq, hf⟩ := hH
  rcases hcasos with ⟨a, r, hl, hvac, hgt, hs4⟩ |
    ⟨adm, p, x, b, resto, hadm, hlleg, hantes, hb0, hble, hreloj, hxr, hxd, hxi, hxin, hcaso⟩
  · rw [hs4]
    refine ⟨hll, ?_, hf⟩
    intro y hy
    have hflat : s.colas.flatten = [] := List.flatten_eq_nil_iff.mpr hvac
    have hy2 : y ∈ s.colas.flatten := hy
    rw [hflat] at hy2
    cases hy2
  · have hraf : x.tiempoRafaga = p.tiempoRafaga := congrArg (fun d => d.2.1) hxd
    have hlle : x.tiempoLlegada = p.tiempoLlegada := congrArg (fun d => d.2.2.1) hxd
    have hQantes : ∀ y ∈ s.colas.flatten ++ adm.map admitido,
        y.tiempoLlegada ≤ s.tiempoGlobal ∧
        (y.haIniciado = false → y.tiempoRestante = y.tiempoRafaga) ∧
        (y.haIniciado = true → y.tiempoLlegada ≤ y.tiempoInicio ∧
          y.tiempoInicio + (y.tiempoRafaga - y.tiempoRestante) ≤ s.tiempoGlobal) := by
      intro y hy
      rcases List.mem_append.mp hy with h1 | h1
      · exact hq y h1
      · obtain ⟨a, ha, hay⟩ := List.mem_map.mp h1
        have hamem : a ∈ s.colaLlegadas := by rw [hadm]; exact List.mem_append_left _ ha
        obtain ⟨hai, har⟩ := hll a hamem
        rw [← hay]
        refine ⟨hlleg a ha, fun _ => har, fun hini => ?_⟩
        have hini2 : a.haIniciado = true := hini
        rw [hai] at hini2
        cases hini2
    have hresto : ∀ y ∈ resto,
        y.tiempoLlegada ≤ s4.tiempoGlobal ∧
        (y.haIniciado = false → y.tiempoRestante = y.tiempoRafaga) ∧
        (y.haIniciado = true → y.tiempoLlegada ≤ y.tiempoInicio ∧
          y.tiempoInicio + (y.tiempoRafaga - y.tiempoRestante) ≤ s4.tiempoGlobal) := by
      intro y hy
      obtain ⟨h1, h2, h3⟩ := hQantes y (hantes.symm.subset (List.mem_cons_of_mem _ hy))
      refine ⟨by omega, h2, fun hini => ?_⟩
      obtain ⟨h4, h5⟩ := h3 hini
      exact ⟨h4, by omega⟩
    obtain ⟨hp1, hp2, hp3⟩ := hQantes p (hantes.symm.subset (List.mem_cons_self _ _))
    have hx : x.tiempoLlegada ≤ x.tiempoInicio ∧
        x.tiempoInicio + (x.tiempoRafaga - x.tiempoRestante) ≤ s4.tiempoGlobal := by
      cases hpi : p.haIniciado with
      | false =>
        have hr := hp2 hpi
        rw [hpi] at hxin
        simp only [Bool.false_eq_true, if_false] at hxin
        constructor <;> omega
      | true =>
        obtain ⟨h4, h5⟩ := hp3 hpi
        rw [hpi] at hxin
        simp only [if_true] at hxin
        constructor <;> omega
    have hll5 : ∀ y ∈ s4.colaLlegadas,
        y.haIniciado = false ∧ y.tiempoRestante = y.tiempoRafaga :=
      fun y hy => hll y (by rw [hadm]; exact List.mem_append_right _ hy)
    rcases hcaso with ⟨hx0, hcol, hfin⟩ | ⟨hxpos, hfin, c, hcol⟩
    · refine ⟨hll5, fun y hy => hresto y (hcol.subset hy), ?_⟩
      intro y hy
      rw [hfin] at hy
      rcases List.mem_append.mp hy with h1 | h1
      · exact hf y h1
      · rw [List.mem_singleton.mp h1]
        refine ⟨hx.1, ?_, rfl, rfl⟩
        show x.tiempoInicio + x.tiempoRafaga ≤ s4.tiempoGlobal
        have := hx.2
        omega
    · refine ⟨hll5, ?_, by rw [hfin]; exact hf⟩
      intro y hy
      rcases List.mem_cons.mp (hcol.subset hy) with h1 | h1
      · rw [h1]
        refine ⟨?_, fun hno => ?_, fun _ => hx⟩
        · show x.tiempoLlegada ≤ s4.tiempoGlobal
          omega
        · have hno2 : x.haIniciado = false := hno
          rw [hxi] at hno2
          cases hno2
      · exact hresto y h1

/-- The engine before the run meets the timing invariant. -/
theorem cargar_en_hora (S : StdSort) (esq : List EsquemaCola) (ps : List Proceso)
    (hv : Valido esq ps) : (cargar S esq ps).EnHora := by
  obtain ⟨_, hcolas, hfin, _, hll, _⟩ := cargar_forma S esq ps
  refine ⟨?_, ?_, ?_⟩
  · intro p hp
    have hpc := (hv.2.2 p (hll.subset hp)).1
    constructor
    · rw [hpc]; rfl
    · rw [hpc]; rfl
  · intro p hp
    rw [hcolas, flatten_replicate_nil] at hp
    cases hp
  · intro p hp
    rw [hfin] at hp
    cases hp

/-! ## Work conservation -/

/-- The total remaining time of records as the constructor leaves them, with
positive bursts, is the sum of the bursts. -/
theorem restanteTotal_rafagas (l : List Proceso)
    (h : ∀ p ∈ l, p.tiempoRestante = p.tiempoRafaga ∧ 0 < p.tiempoRafaga) :
    ((restanteTotal l : Nat) : Int) = (l.map (fun p => p.tiempoRafaga)).sum := by
  induction l with
  | nil => rfl
  | cons p l ih =>
    have hp := h p (List.mem_cons_self _ _)
    have hl := ih (fun q hq => h q (List.mem_cons_of_mem _ hq))
    rw [restanteTotal_cons, List.map_cons, List.sum_cons, ← hl]
    push_cast
    omega

/-- A dispatch turn of a valid run moves the clock by exactly the units taken
off the total remaining time; the other turns are idle jumps. -/
theorem iteracion_trabajo (S : StdSort) (s s4 : MLFQScheduler) (hI : s.EnCurso)
    (hc : s.continua = true) (h : iteracion S s = some s4) :
    (∃ a r, s.colaLlegadas = a :: r ∧ s.tiempoGlobal < a.tiempoLlegada) ∨
      s4.tiempoGlobal + ((restanteTotal s4.vivos : Nat) : Int) =
        s.tiempoGlobal + ((restanteTotal s.vivos : Nat) : Int) := by
  obtain ⟨s5, hit, hcasos⟩ := iteracion_exacta S s hI hc
  rw [h] at hit
  obtain rfl := Option.some.inj hit
  rcases hcasos with ⟨a, r, hl, _, hgt, _⟩ |
    ⟨adm, p, x, b, resto, hadm, _, hantes, hb0, hble, hreloj, hxr, _, _, _, hcaso⟩
  · exact Or.inl ⟨a, r, hl, hgt⟩
  · right
    have hR : restanteTotal s.vivos =
        restanteTotal s4.colaLlegadas + (p.tiempoRestante.toNat + restanteTotal resto) := by
      have h1 := restanteTotal_perm hantes
      have h2 : restanteTotal (adm.map admitido) = restanteTotal adm :=
        restanteTotal_admitidos adm
      rw [restanteTotal_append, h2, restanteTotal_cons] at h1
      simp only [vivos, hadm, restanteTotal_append]
      omega
    rcases hcaso with ⟨hx0, hcol, _⟩ | ⟨hxpos, _, c, hcol⟩
    · have hR4 : restanteTotal s4.vivos = restanteTotal s4.colaLlegadas + restanteTotal resto := by
        simp only [vivos, restanteTotal_append, restanteTotal_perm hcol]
      rw [hR, hR4, hreloj]
      push_cast
      omega
    · have hR4 : restanteTotal s4.vivos =
          restanteTotal s4.colaLlegadas + (x.tiempoRestante.toNat + restanteTotal resto) := by
        simp only [vivos, restanteTotal_append, restanteTotal_perm hcol, restanteTotal_cons]
        rfl
      rw [hR, hR4, hreloj]
      push_cast
      omega

/-! ## Runs within the range of `int` -/

/-- An exact result within the range of `int` is the value the `int` holds. -/
theorem int32_en_rango (n : Int) (h0 : -2147483648 ≤ n) (h1 : n ≤ INT_MAX) : int32 n = n := by
  unfold INT_MAX at h1
  unfold int32
  omega

/-- The remaining time of a record is part of the total of its list. -/
theorem restante_le_total (l : List Proceso) (p : Proceso) (hp : p ∈ l) :
    p.tiempoRestante.toNat ≤ restanteTotal l := by
  induction l with
  | nil => cases hp
  | cons q l ih =>
    rw [restanteTotal_cons]
    rcases List.mem_cons.mp hp with h | h
    · rw [h]; omega
    · have := ih h
      omega

/-- Lists with the same constructor fields, record for record up to order:
each record of one has a record of the other with the same fields. -/
theorem mdatos_miembro {l1 l2 : List Proceso} (h : mdatos l1 = mdatos l2) (p : Proceso)
    (hp : p ∈ l1) : ∃ q ∈ l2, q.datos = p.datos := by
  have hperm := perm_of_mdatos h
  have hmem : p.datos ∈ l1.map Proceso.datos := List.mem_map.mpr ⟨p, hp, rfl⟩
  obtain ⟨q, hq, hqp⟩ := List.mem_map.mp (hperm.subset hmem)
  exact ⟨q, hq, hqp⟩

/-- A turn of a valid run, with the clock and the work still to do: it is
an idle jump to the arrival time of the first pending record, later than the
clock, with nothing else changed; or a dispatch, which moves the clock forward
by exactly the units it takes off the total remaining time, takes a prefix off
the admission vector, and appends to the finished vector at most one record,
whose finish time is the new clock. -/
theorem iteracion_balance (S : StdSort) (s s4 : MLFQScheduler) (hI : s.EnCurso)
    (hc : s.continua = true) (h : iteracion S s = some s4) :
    (∃ a r, s.colaLlegadas = a :: r ∧ s.tiempoGlobal < a.tiempoLlegada ∧
        s4 = { s with tiempoGlobal := a.tiempoLlegada }) ∨
      (s.tiempoGlobal < s4.tiempoGlobal ∧
        s4.tiempoGlobal + ((restanteTotal s4.vivos : Nat) : Int) =
          s.tiempoGlobal + ((restanteTotal s.vivos : Nat) : Int) ∧
        (∃ adm, s.colaLlegadas = adm ++ s4.colaLlegadas) ∧
        (s4.procesosFinalizados = s.procesosFinalizados ∨
          ∃ x, s4.procesosFinalizados = s.procesosFinalizados ++ [x] ∧
            x.tiempoFinalizacion = s4.tiempoGlobal)) := by
  obtain ⟨s5, hit, hcasos⟩ := iteracion_exacta S s hI hc
  rw [h] at hit
  obtain rfl := Option.some.inj hit
  rcases hcasos with ⟨a, r, hl, _, hgt, hs4⟩ |
    ⟨adm, p, x, b, resto, hadm, _, hantes, hb0, hble, hreloj, hxr, _, _, _, hcaso⟩
  · exact Or.inl ⟨a, r, hl, hgt, hs4⟩
  · right
    have hR : restanteTotal s.vivos =
        restanteTotal s4.colaLlegadas + (p.tiempoRestante.toNat + restanteTotal resto) := by
      have h1 := restanteTotal_perm hantes
      have h2 : restanteTotal (adm.map admitido) = restanteTotal adm :=
        restanteTotal_admitidos adm
      rw [restanteTotal_append, h2, restanteTotal_cons] at h1
      simp only [vivos, hadm, restanteTotal_append]
      omega
    refine ⟨by omega, ?_, ⟨adm, hadm⟩, iteracion_finalizados S s s4 h⟩
    rcases hcaso with ⟨hx0, hcol, _⟩ | ⟨hxpos, _, c, hcol⟩
    · have hR4 : restanteTotal s4.vivos = restanteTotal s4.colaLlegadas + restanteTotal resto := by
        simp only [vivos, restanteTotal_append, restanteTotal_perm hcol]
      rw [hR, hR4, hreloj]
      push_cast
      omega
    · have hR4 : restanteTotal s4.vivos =
          restanteTotal s4.colaLlegadas + (x.tiempoRestante.toNat + restanteTotal resto) := by
        simp only [vivos, restanteTotal_append, restanteTotal_perm hcol, restanteTotal_cons]
        rfl
      rw [hR, hR4, hreloj]
      push_cast
      omega

/-- A turn of a valid run keeps the range invariant. -/
theorem iteracion_acotado (S : StdSort) (s s4 : MLFQScheduler) (hI : s.EnCurso)
    (hc : s.continua = true) (hA : s.Acotado) (h : iteracion S s = some s4) : s4.Acotado := by
  obtain ⟨h0, hclk, hpend, hdat, hfin⟩ := hA
  have hdat4 : ∀ p ∈ s4.todos, 0 ≤ p.tiempoLlegada ∧ 0 < p.tiempoRafaga := by
    intro p hp
    obtain ⟨q, hq, hqp⟩ := mdatos_miembro (iteracion_conserva S s s4 h) p hp
    have h1 : q.tiempoRafaga = p.tiempoRafaga := congrArg (fun d => d.2.1) hqp
    have h2 : q.tiempoLlegada = p.tiempoLlegada := congrArg (fun d => d.2.2.1) hqp
    have := hdat q hq
    rw [h1, h2] at this
    exact this
  rcases iteracion_balance S s s4 hI hc h with ⟨a, r, hl, hgt, hs4⟩ |
    ⟨hlt, hbal, ⟨adm, hadm⟩, hf⟩
  · have ha : a ∈ s.colaLlegadas := by rw [hl]; exact List.mem_cons_self _ _
    have hviv : s4.vivos = s.vivos := by rw [hs4]; rfl
    have hll : s4.colaLlegadas = s.colaLlegadas := by rw [hs4]
    have hff : s4.procesosFinalizados = s.procesosFinalizados := by rw [hs4]
    have ht : s4.tiempoGlobal = a.tiempoLlegada := by rw [hs4]
    refine ⟨by omega, ?_, ?_, hdat4, ?_⟩
    · rw [ht, hviv]; exact hpend a ha
    · rw [hll, hviv]; exact hpend
    · intro p hp
      rw [hff] at hp
      have := hfin p hp
      omega
  · refine ⟨by omega, by omega, ?_, hdat4, ?_⟩
    · intro a ha
      have := hpend a (by rw [hadm]; exact List.mem_append_right _ ha)
      omega
    · rcases hf with hf | ⟨x, hf, hx⟩
      · intro p hp
        rw [hf] at hp
        have := hfin p hp
        omega
      · intro p hp
        rw [hf] at hp
        rcases List.mem_append.mp hp with h1 | h1
        · have := hfin p h1
          omega
        · rw [List.mem_singleton.mp h1, hx]

/-- The engine before the run of a valid workload within `int` meets the range
invariant. -/
theorem cargar_acotado (S : StdSort) (esq : List EsquemaCola) (ps : List Proceso)
    (hv : Valido esq ps) (hr : SinDesborde ps) : (cargar S esq ps).Acotado := by
  obtain ⟨_, hcolas, hfin, hreloj0, hll, htodos⟩ := cargar_forma S esq ps
  have hviv : (cargar S esq ps).vivos = (cargar S esq ps).colaLlegadas := by
    unfold vivos
    rw [hcolas, flatten_replicate_nil, List.append_nil]
  have hsum : ((restanteTotal (cargar S esq ps).vivos : Nat) : Int) =
      (ps.map (fun p => p.tiempoRafaga)).sum := by
    rw [hviv, restanteTotal_perm hll]
    apply restanteTotal_rafagas
    intro p hp
    obtain ⟨hpc, hpos, _⟩ := hv.2.2 p hp
    refine ⟨?_, hpos⟩
    rw [hpc]
    rfl
  refine ⟨by rw [hreloj0], ?_, ?_, ?_, ?_⟩
  · rw [hreloj0, hsum, zero_add]
    cases ps with
    | nil => simp [INT_MAX]
    | cons q l =>
      have h1 := hr q (List.mem_cons_self _ _)
      have h2 := (hv.2.2 q (List.mem_cons_self _ _)).2.2.2.1
      omega
  · intro a ha
    rw [hsum]
    exact hr a (hll.subset ha)
  · intro p hp
    have := hv.2.2 p (htodos.subset hp)
    exact ⟨this.2.2.2.1, this.2.1⟩
  · intro p hp
    rw [hfin] at hp
    cases hp

/-- Every state of the run of a valid workload within `int` meets the run
invariant, the timing invariant and the range invariant. -/
theorem iterar_acotado (S : StdSort) (esq : List EsquemaCola) (ps : List Proceso)
    (hv : Valido esq ps) (hr : SinDesborde ps) (k : Nat) (s : MLFQScheduler)
    (hk : iterar S k (cargar S esq ps) = some s) : s.EnCurso ∧ s.EnHora ∧ s.Acotado :=
  iterar_invariante S (fun s => s.EnCurso ∧ s.EnHora ∧ s.Acotado)
    (fun s s1 hs hc hi => by
      obtain ⟨s4, hit, hI4, _⟩ := iteracion_progresa S s hs.1 hc
      rw [hi] at hit
      obtain rfl := Option.some.inj hit
      exact ⟨hI4, iteracion_en_hora S s s1 hs.1 hc hs.2.1 hi,
        iteracion_acotado S s s1 hs.1 hc hs.2.2 hi⟩)
    k _ s ⟨(cargar_en_curso S esq ps hv).1, cargar_en_hora S esq ps hv,
      cargar_acotado S esq ps hv hr⟩ hk

/-- The state `ejecutarSimulacion` returns on a valid workload within `int`
meets the three invariants, and its loop condition fails. -/
theorem simulacion_acotado (S : StdSort) (esq : List EsquemaCola) (ps : List Proceso)
    (hv : Valido esq ps) (hr : SinDesborde ps) (n : Nat) (s2 : MLFQScheduler)
    (h : ejecutarSimulacion S n (cargar S esq ps) = some s2) :
    (s2.EnCurso ∧ s2.EnHora ∧ s2.Acotado) ∧ s2.continua = false :=
  simulacion_invariante S (fun s => s.EnCurso ∧ s.EnHora ∧ s.Acotado)
    (fun s s1 hs hc hi => by
      obtain ⟨s4, hit, hI4, _⟩ := iteracion_progresa S s hs.1 hc
      rw [hi] at hit
      obtain rfl := Option.some.inj hit
      exact ⟨hI4, iteracion_en_hora S s s1 hs.1 hc hs.2.1 hi,
        iteracion_acotado S s s1 hs.1 hc hs.2.2 hi⟩)
    n _ s2 ⟨(cargar_en_curso S esq ps hv).1, cargar_en_hora S esq ps hv,
      cargar_acotado S esq ps hv hr⟩ h

/-! ## What a run within the range of `int` leaves -/

/-- What the run of a valid workload within `int` leaves in the finished
vector: finish times in non-decreasing order, each in `0..INT_MAX` and none
later than the clock; the records registered, each once; and a last record
whose finish time is the clock (or nothing finished at all). -/
theorem simulacion_final_acotado (S : StdSort) (esq : List EsquemaCola) (ps : List Proceso)
    (hv : Valido esq ps) (hr : SinDesborde ps) (n : Nat) (s2 : MLFQScheduler)
    (h : ejecutarSimulacion S n (cargar S esq ps) = some s2) :
    s2.procesosFinalizados.Pairwise
      (fun a b => a.tiempoFinalizacion ≤ b.tiempoFinalizacion) ∧
    (∀ p ∈ s2.procesosFinalizados, 0 ≤ p.tiempoFinalizacion ∧
      p.tiempoFinalizacion ≤ s2.tiempoGlobal) ∧
    0 ≤ s2.tiempoGlobal ∧ s2.tiempoGlobal ≤ INT_MAX ∧
    mdatos s2.procesosFinalizados = mdatos ps ∧
    (s2.procesosFinalizados = [] ∨
      ∃ u, s2.procesosFinalizados.getLast? = some u ∧
        u.tiempoFinalizacion = s2.tiempoGlobal) := by
  obtain ⟨hord, hcota, hcons, hult⟩ := simulacion_orden_final S esq ps hv n s2 h
  obtain ⟨⟨_, hH, h0, hclk, _, hdat, _⟩, _⟩ := simulacion_acotado S esq ps hv hr n s2 h
  refine ⟨hord, ?_, h0, by omega, hcons, hult⟩
  intro p hp
  refine ⟨?_, hcota p hp⟩
  obtain ⟨h1, h2, _⟩ := hH.2.2 p hp
  obtain ⟨h3, h4⟩ := hdat p (List.mem_append_right _ hp)
  omega

/-- Work conservation in exact arithmetic: on a valid workload in which every
record has arrival time 0 the run ends, and whenever `ejecutarSimulacion`
returns the clock is the sum of the bursts of the registered records. -/
theorem simulacion_trabajo (S : StdSort) (esq : List EsquemaCola) (ps : List Proceso)
    (hv : Valido esq ps) (h0 : ∀ p ∈ ps, p.tiempoLlegada = 0) :
    (∃ n s2, ejecutarSimulacion S n (cargar S esq ps) = some s2) ∧
    ∀ n s2, ejecutarSimulacion S n (cargar S esq ps) = some s2 →
      s2.tiempoGlobal = (ps.map (fun p => p.tiempoRafaga)).sum := by
  obtain ⟨hI, _⟩ := cargar_en_curso S esq ps hv
  obtain ⟨_, hcolas, hfin, hreloj0, hll, _⟩ := cargar_forma S esq ps
  refine ⟨⟨_, simulacion_termina S _ _ hI (le_refl _)⟩, ?_⟩
  intro n s2 hrun
  have hini : (cargar S esq ps).tiempoGlobal +
      ((restanteTotal (cargar S esq ps).vivos : Nat) : Int) =
      (ps.map (fun p => p.tiempoRafaga)).sum := by
    have hviv : (cargar S esq ps).vivos = (cargar S esq ps).colaLlegadas := by
      unfold vivos
      rw [hcolas, flatten_replicate_nil, List.append_nil]
    rw [hreloj0, hviv, restanteTotal_perm hll, zero_add]
    apply restanteTotal_rafagas
    intro p hp
    obtain ⟨hpc, hpos, _⟩ := hv.2.2 p hp
    refine ⟨?_, hpos⟩
    rw [hpc]
    rfl
  have hinv := simulacion_invariante S
    (fun s => s.EnCurso ∧ 0 ≤ s.tiempoGlobal ∧
      (∀ p ∈ s.colaLlegadas, p.tiempoLlegada = 0) ∧
      s.tiempoGlobal + ((restanteTotal s.vivos : Nat) : Int) =
        (ps.map (fun p => p.tiempoRafaga)).sum)
    (fun s s1 hs hc hi => by
      obtain ⟨hIs, hpos, hcero, hsum⟩ := hs
      obtain ⟨s4, hit, hI4, _, hlt, _⟩ := iteracion_progresa S s hIs hc
      rw [hi] at hit
      obtain rfl := Option.some.inj hit
      obtain ⟨adm, hadm⟩ := iteracion_llegadas S s s1 hi
      refine ⟨hI4, by omega, ?_, ?_⟩
      · intro p hp
        exact hcero p (by rw [hadm]; exact List.mem_append_right _ hp)
      · rcases iteracion_trabajo S s s1 hIs hc hi with ⟨a, r, hl, hgt⟩ | hw
        · have := hcero a (by rw [hl]; exact List.mem_cons_self _ _)
          omega
        · rw [hw]
          exact hsum)
    n _ s2
    ⟨hI, by rw [hreloj0], fun p hp => h0 p (hll.subset hp), hini⟩ hrun
  obtain ⟨⟨_, _, _, hsum⟩, hfinal⟩ := hinv
  rw [continua_vivos_nil s2 hfinal] at hsum
  simpa [restanteTotal] using hsum

/-! ## The dispatches of a run within the range of `int` -/

/-- A dispatch in a state `s` that meets the run invariant, the timing
invariant and the range invariant, with a sorted admission vector: the state
`s2` handed to `ejecutarConScheduler` after admission and selection, and the
selected record `p`.  The level is in range (with a positive quantum if Round
Robin); `p` has a positive remaining time, which added to the clock does not
exceed `INT_MAX`; every pending record arrives later than the clock and within
`int`; and `p` has arrived, has its whole burst left if it has not started,
and otherwise started after it arrived and has run no more units than the
time elapsed since. -/
theorem turno_despacho_inv (S : StdSort) (s s1 s2 : MLFQScheduler) (i : Int) (p : Proceso)
    (hI : s.EnCurso) (hH : s.EnHora) (hA : s.Acotado)
    (hord : s.colaLlegadas.Pairwise (fun a b => a.tiempoLlegada ≤ b.tiempoLlegada))
    (hm : moverProcesosLlegados s = some s1)
    (hp : planificar s1 = some ((i, some p), s2)) :
    iteracion S s = ejecutarConScheduler S s2 p i ∧
    (∃ (j : Nat) (e : EsquemaCola), i = (j : Int) ∧ s2.esquemas[j]? = some e ∧
      j < s2.colas.length ∧ (e.politica = TipoPolitica.ROUND_ROBIN → 0 < e.quantum)) ∧
    0 < p.tiempoRestante ∧ 0 ≤ s2.tiempoGlobal ∧
    s2.tiempoGlobal + p.tiempoRestante ≤ INT_MAX ∧
    (∀ a ∈ s2.colaLlegadas, s2.tiempoGlobal < a.tiempoLlegada ∧ a.tiempoLlegada ≤ INT_MAX) ∧
    0 ≤ p.tiempoLlegada ∧ p.tiempoLlegada ≤ s2.tiempoGlobal ∧ 0 < p.tiempoRafaga ∧
    (p.haIniciado = false → p.tiempoRestante = p.tiempoRafaga) ∧
    (p.haIniciado = true → p.tiempoLlegada ≤ p.tiempoInicio ∧
      p.tiempoInicio + (p.tiempoRafaga - p.tiempoRestante) ≤ s2.tiempoGlobal) := by
  obtain ⟨h0, hclk, hpend, hdat, _⟩ := hA
  obtain ⟨hlen, hquant, _, hrest⟩ := hI
  obtain ⟨hHll, hHq, _⟩ := hH
  obtain ⟨hesq1, _, hreloj1, adm, hadm, hlleg, hcabeza, hlen1, hperm1, _⟩ := mover_some s s1 hm
  obtain ⟨hesq2, hll2, _, hreloj2, hlen2⟩ := planificar_resto s1 i (some p) s2 hp
  have ht : s2.tiempoGlobal = s.tiempoGlobal := by rw [hreloj2, hreloj1]
  have hperm1b : s1.colas.flatten.Perm (s.colas.flatten ++ adm.map admitido) := hperm1
  -- the selected record was queued or has just been admitted
  rcases planificar_some s1 i (some p) s2 hp with ⟨_, _, ho, _⟩ |
    ⟨j, e, cola, resto, hij, hcola, _, _, he, hs2, hperm2, _⟩
  · cases ho
  have hj : j < s1.colas.length := by
    by_contra hcon
    rw [List.getElem?_eq_none (by omega)] at hcola
    cases hcola
  have hpcola : p ∈ cola := by
    simp only [Option.toList, List.singleton_append] at hperm2
    exact (List.Perm.mem_iff hperm2).mp (List.mem_cons_self _ _)
  have hp1 : p ∈ s1.colas.flatten :=
    List.mem_flatten.mpr ⟨cola, List.getElem?_mem hcola, hpcola⟩
  have hfacts : 0 < p.tiempoRestante ∧ (p.tiempoRestante.toNat ≤ restanteTotal s.vivos) ∧
      0 ≤ p.tiempoLlegada ∧ p.tiempoLlegada ≤ s.tiempoGlobal ∧ 0 < p.tiempoRafaga ∧
      (p.haIniciado = false → p.tiempoRestante = p.tiempoRafaga) ∧
      (p.haIniciado = true → p.tiempoLlegada ≤ p.tiempoInicio ∧
        p.tiempoInicio + (p.tiempoRafaga - p.tiempoRestante) ≤ s.tiempoGlobal) := by
    rcases List.mem_append.mp (hperm1b.subset hp1) with hq | hq
    · have hviv : p ∈ s.vivos := List.mem_append_right _ hq
      obtain ⟨h1, h2, h3⟩ := hHq p hq
      obtain ⟨h4, h5⟩ := hdat p (List.mem_append_left _ hviv)
      exact ⟨(hrest p hviv).1, restante_le_total _ p hviv, h4, h1, h5, h2, h3⟩
    · obtain ⟨a, ha, hap⟩ := List.mem_map.mp hq
      have hamem : a ∈ s.colaLlegadas := by rw [hadm]; exact List.mem_append_left _ ha
      have hviv : a ∈ s.vivos := List.mem_append_left _ hamem
      obtain ⟨hai, har⟩ := hHll a hamem
      obtain ⟨h4, h5⟩ := hdat a (List.mem_append_left _ hviv)
      have h6 := restante_le_total _ a hviv
      have h7 := (hrest a hviv).1
      have h8 := hlleg a ha
      rw [← hap]
      refine ⟨h7, h6, h4, h8, h5, fun _ => har, fun hini => ?_⟩
      have hini2 : a.haIniciado = true := hini
      rw [hai] at hini2
      cases hini2
  obtain ⟨f1, f2, f3, f4, f5, f6, f7⟩ := hfacts
  have hord1 : s1.colaLlegadas.Pairwise (fun a b => a.tiempoLlegada ≤ b.tiempoLlegada) := by
    rw [hadm] at hord
    exact (List.pairwise_append.mp hord).2.1
  refine ⟨by simp only [iteracion, hm, hp], ⟨j, e, hij, ?_, ?_, ?_⟩, f1, by omega, ?_, ?_,
    f3, by omega, f5, f6, ?_⟩
  · rw [hesq2]; exact he
  · rw [hlen2]; exact hj
  · intro hpol
    exact hquant e (by rw [← hesq1]; exact List.getElem?_mem he) hpol
  · rw [ht]
    have : (p.tiempoRestante.toNat : Int) = p.tiempoRestante := Int.toNat_of_nonneg f1.le
    omega
  · intro a ha
    rw [hll2] at ha
    have hamem : a ∈ s.colaLlegadas := by rw [hadm]; exact List.mem_append_right _ ha
    have hb1 := hpend a hamem
    refine ⟨?_, by omega⟩
    rw [ht]
    cases hl : s1.colaLlegadas with
    | nil => rw [hl] at ha; cases ha
    | cons b r =>
      have hb := hcabeza b r hl
      rw [hl] at ha hord1
      rcases List.mem_cons.mp ha with ha1 | ha1
      · rw [ha1]; exact hb
      · have := (List.pairwise_cons.mp hord1).1 a ha1
        omega
  · intro hini
    obtain ⟨g1, g2⟩ := f7 hini
    exact ⟨g1, by omega⟩

/-- A dispatch of the run of a valid workload within `int`: the facts of
`turno_despacho_inv` at the state after `k` turns. -/
theorem turno_despacho (S : StdSort) (esq : List EsquemaCola) (ps : List Proceso)
    (hv : Valido esq ps) (hr : SinDesborde ps) (k : Nat) (s s1 s2 : MLFQScheduler)
    (i : Int) (p : Proceso)
    (hk : iterar S k (cargar S esq ps) = some s)
    (hm : moverProcesosLlegados s = some s1)
    (hp : planificar s1 = some ((i, some p), s2)) :
    iteracion S s = ejecutarConScheduler S s2 p i ∧
    (∃ (j : Nat) (e : EsquemaCola), i = (j : Int) ∧ s2.esquemas[j]? = some e ∧
      j < s2.colas.length ∧ (e.politica = TipoPolitica.ROUND_ROBIN → 0 < e.quantum)) ∧
    0 < p.tiempoRestante ∧ 0 ≤ s2.tiempoGlobal ∧
    s2.tiempoGlobal + p.tiempoRestante ≤ INT_MAX ∧
    (∀ a ∈ s2.colaLlegadas, s2.tiempoGlobal < a.tiempoLlegada ∧ a.tiempoLlegada ≤ INT_MAX) ∧
    0 ≤ p.tiempoLlegada ∧ p.tiempoLlegada ≤ s2.tiempoGlobal ∧ 0 < p.tiempoRafaga ∧
    (p.haIniciado = false → p.tiempoRestante = p.tiempoRafaga) ∧
    (p.haIniciado = true → p.tiempoLlegada ≤ p.tiempoInicio ∧
      p.tiempoInicio + (p.tiempoRafaga - p.tiempoRestante) ≤ s2.tiempoGlobal) := by
  obtain ⟨hI, hH, hA⟩ := iterar_acotado S esq ps hv hr k s hk
  exact turno_despacho_inv S s s1 s2 i p hI hH hA
    (iterar_llegadas_ordenadas S esq ps k s hk) hm hp

/-- The metrics `calcularMetricas` computes for a record that finishes at
clock `t + u ≤ INT_MAX`, dispatched at clock `t` with `u` units left, lie in
`0..INT_MAX`: 0 ≤ response ≤ waiting ≤ turnaround ≤ `INT_MAX`. -/
theorem metricas_en_rango (p : Proceso) (t u r0 : Int) (hu : u = p.tiempoRestante)
    (hmax : t + u ≤ INT_MAX) (h0 : 0 ≤ p.tiempoLlegada) (h1 : p.tiempoLlegada ≤ t)
    (h2 : 0 < p.tiempoRafaga)
    (h3 : p.haIniciado = false → p.tiempoRestante = p.tiempoRafaga)
    (h4 : p.haIniciado = true → p.tiempoLlegada ≤ p.tiempoInicio ∧
      p.tiempoInicio + (p.tiempoRafaga - p.tiempoRestante) ≤ t) :
    0 ≤ ((({ marcado p t with tiempoRestante := r0 } : Proceso).setTiempoFinalizacion
        (t + u)).calcularMetricas).tiempoRespuesta ∧
    ((({ marcado p t with tiempoRestante := r0 } : Proceso).setTiempoFinalizacion
        (t + u)).calcularMetricas).tiempoRespuesta ≤
      ((({ marcado p t with tiempoRestante := r0 } : Proceso).setTiempoFinalizacion
        (t + u)).calcularMetricas).tiempoEspera ∧
    ((({ marcado p t with tiempoRestante := r0 } : Proceso).setTiempoFinalizacion
        (t + u)).calcularMetricas).tiempoEspera ≤
      ((({ marcado p t with tiempoRestante := r0 } : Proceso).setTiempoFinalizacion
        (t + u)).calcularMetricas).tiempoRetorno ∧
    ((({ marcado p t with tiempoRestante := r0 } : Proceso).setTiempoFinalizacion
        (t + u)).calcularMetricas).tiempoRetorno ≤ INT_MAX := by
  have hll : (marcado p t).tiempoLlegada = p.tiempoLlegada :=
    congrArg (fun d => d.2.2.1) (marcado_datos p t)
  have hrf : (marcado p t).tiempoRafaga = p.tiempoRafaga :=
    congrArg (fun d => d.2.1) (marcado_datos p t)
  have hin := marcado_inicio p t
  show 0 ≤ (marcado p t).tiempoInicio - (marcado p t).tiempoLlegada ∧
    (marcado p t).tiempoInicio - (marcado p t).tiempoLlegada ≤
      (t + u) - (marcado p t).tiempoLlegada - (marcado p t).tiempoRafaga ∧
    (t + u) - (marcado p t).tiempoLlegada - (marcado p t).tiempoRafaga ≤
      (t + u) - (marcado p t).tiempoLlegada ∧
    (t + u) - (marcado p t).tiempoLlegada ≤ INT_MAX
  rw [hll, hrf, hin]
  cases hi : p.haIniciado with
  | false =>
    have := h3 hi
    simp only [Bool.false_eq_true, if_false]
    refine ⟨by omega, by omega, by omega, by omega⟩
  | true =>
    obtain ⟨g1, g2⟩ := h4 hi
    simp only [if_true]
    refine ⟨by omega, by omega, by omega, by omega⟩

/-! ## The 32-bit engine on a run within the range of `int` -/

/-- What a 32-bit `int` holds lies between `-2^31` and `INT_MAX`. -/
theorem int32_cotas (n : Int) : -2147483648 ≤ int32 n ∧ int32 n ≤ INT_MAX := by
  unfold int32 INT_MAX
  omega

/-- The loop on a started record does not read the clock: on 32-bit `int` it
is the loop of the exact embedding. -/
theorem bucleEjecutar32_iniciado (p : Proceso) (t : Int) (n : Nat)
    (hi : p.haIniciado = true) :
    bucleEjecutar32 p t n = bucleEjecutar p t n ∧ (bucleEjecutar p t n).haIniciado = true := by
  induction n with
  | zero => exact ⟨rfl, hi⟩
  | succ k ih =>
    obtain ⟨h1, h2⟩ := ih
    simp only [bucleEjecutar32, bucleEjecutar, h1]
    refine ⟨?_, ?_⟩
    · simp only [Proceso.ejecutar, h2, if_true]
    · simp only [Proceso.ejecutar, h2, if_true]
      split_ifs <;> first | rfl | exact h2

/-- The 32-bit loop on the record as dispatched: `b` units off the remaining
time. -/
theorem bucle32_marcado (p : Proceso) (t b : Int) (h0 : 0 ≤ b) (hb : b ≤ p.tiempoRestante) :
    bucleEjecutar32 (marcado p t) t b.toNat =
      { marcado p t with tiempoRestante := p.tiempoRestante - b } := by
  rw [(bucleEjecutar32_iniciado (marcado p t) t b.toNat (marcado_iniciado p t)).1]
  exact bucle_marcado p t b h0 hb

/-- The metrics on 32-bit `int` are the exact ones when the three differences
are within `int`. -/
theorem calcularMetricas32_exacto (p : Proceso)
    (h1 : 0 ≤ p.tiempoFinalizacion - p.tiempoLlegada)
    (h2 : p.tiempoFinalizacion - p.tiempoLlegada ≤ INT_MAX)
    (h3 : 0 ≤ p.tiempoInicio - p.tiempoLlegada)
    (h4 : p.tiempoInicio - p.tiempoLlegada ≤ INT_MAX)
    (h5 : 0 ≤ p.tiempoFinalizacion - p.tiempoLlegada - p.tiempoRafaga)
    (h6 : p.tiempoFinalizacion - p.tiempoLlegada - p.tiempoRafaga ≤ INT_MAX) :
    p.calcularMetricas32 = p.calcularMetricas := by
  have e1 := int32_en_rango _ (by omega) h2
  have e2 := int32_en_rango _ (by omega) h4
  have e3 := int32_en_rango _ (by omega) h6
  show ({ p with
      tiempoRetorno := int32 (p.tiempoFinalizacion - p.tiempoLlegada)
      tiempoRespuesta := int32 (p.tiempoInicio - p.tiempoLlegada)
      tiempoEspera := int32 (int32 (p.tiempoFinalizacion - p.tiempoLlegada) - p.tiempoRafaga) } :
        Proceso) = _
  rw [e1, e2, e3]
  rfl

/-- The Round Robin case of the 32-bit dispatch once the number of units `k`
is known. -/
theorem rr_forma32 (S : StdSort) (s : MLFQScheduler) (p : Proceso) (i : Nat)
    (e : EsquemaCola) (he : s.esquemas[i]? = some e)
    (hrr : e.politica = TipoPolitica.ROUND_ROBIN) (k : Int)
    (hk : min e.quantum p.tiempoRestante = k) (h0 : 0 ≤ k) (j : Nat)
    (hj : min ((i : Int) + 1) ((s.colas.length : Int) - 1) = (j : Int)) :
    ejecutarConScheduler32 S s p i =
      (if ({ marcado p s.tiempoGlobal with
              tiempoRestante := p.tiempoRestante - k } : Proceso).estaCompleto then
        some (finalizar32 { s with tiempoGlobal := int32 (s.tiempoGlobal + k) }
          { marcado p s.tiempoGlobal with tiempoRestante := p.tiempoRestante - k })
       else match empujar s.colas j
            (({ marcado p s.tiempoGlobal with
                tiempoRestante := p.tiempoRestante - k } : Proceso).setCola j) with
         | none => none
         | some colas1 =>
           some { s with tiempoGlobal := int32 (s.tiempoGlobal + k), colas := colas1 }) := by
  have hle : k ≤ p.tiempoRestante := by rw [← hk]; exact min_le_right _ _
  have hb := bucle32_marcado p s.tiempoGlobal k h0 hle
  simp only [ejecutarConScheduler32, subindice_nat, he, hrr, RoundRobinScheduler.nuevo,
    RoundRobinScheduler.agregarProceso, RoundRobinScheduler.obtenerSiguienteProceso,
    RoundRobinScheduler.ejecutarProceso32, List.nil_append, marcado_restante, hk, hb, hj]

/-- The SJF case of the 32-bit dispatch for a record with remaining time
`r ≥ 0`. -/
theorem sjf_forma32 (S : StdSort) (s : MLFQScheduler) (p : Proceso) (i : Nat)
    (e : EsquemaCola) (he : s.esquemas[i]? = some e)
    (hsjf : e.politica = TipoPolitica.SJF) (h0 : 0 ≤ p.tiempoRestante) :
    ejecutarConScheduler32 S s p i =
      some (finalizar32 { s with tiempoGlobal := int32 (s.tiempoGlobal + p.tiempoRestante) }
        { marcado p s.tiempoGlobal with tiempoRestante := 0 }) := by
  have hb := bucle32_marcado p s.tiempoGlobal p.tiempoRestante h0 (le_refl _)
  rw [sub_self] at hb
  simp only [ejecutarConScheduler32, subindice_nat, he, hsjf, SJFScheduler.nuevo,
    SJFScheduler.agregarProceso, SJFScheduler.obtenerSiguienteProceso,
    SJFScheduler.ejecutarProceso32, List.nil_append, ordenar_singular, marcado_restante, hb]

/-- The STCF case of the 32-bit dispatch once the number of units `b` is
known. -/
theorem stcf_forma32 (S : StdSort) (s : MLFQScheduler) (p : Proceso) (i : Nat)
    (e : EsquemaCola) (he : s.esquemas[i]? = some e)
    (hstcf : e.politica = TipoPolitica.STCF) (b : Int)
    (hmb : min (tiempoMaximoSTCF32 s (marcado p s.tiempoGlobal)) p.tiempoRestante = b)
    (h0 : 0 ≤ b) :
    ejecutarConScheduler32 S s p i =
      (if ({ marcado p s.tiempoGlobal with
              tiempoRestante := p.tiempoRestante - b } : Proceso).estaCompleto then
        some (finalizar32 { s with tiempoGlobal := int32 (s.tiempoGlobal + b) }
          { marcado p s.tiempoGlobal with tiempoRestante := p.tiempoRestante - b })
       else match empujar s.colas i
            { marcado p s.tiempoGlobal with tiempoRestante := p.tiempoRestante - b } with
         | none => none
         | some colas1 =>
           some { s with tiempoGlobal := int32 (s.tiempoGlobal + b), colas := colas1 }) := by
  have hle : b ≤ p.tiempoRestante := by rw [← hmb]; exact min_le_right _ _
  have hb := bucle32_marcado p s.tiempoGlobal b h0 hle
  simp only [ejecutarConScheduler32, subindice_nat, he, hstcf, STCFScheduler.nuevo,
    STCFScheduler.agregarProceso, STCFScheduler.obtenerSiguienteProceso,
    STCFScheduler.ejecutarProceso32, List.nil_append, ordenar_singular, marcado_restante,
    hmb, hb]

/-- The STCF bound on 32-bit `int` is the exact one when the pending records
arrive later than a non-negative clock and within `int`. -/
theorem tiempoMaximoSTCF32_exacto (s : MLFQScheduler) (p : Proceso) (ht : 0 ≤ s.tiempoGlobal)
    (hpend : ∀ a ∈ s.colaLlegadas, s.tiempoGlobal < a.tiempoLlegada ∧
      a.tiempoLlegada ≤ INT_MAX) :
    tiempoMaximoSTCF32 s p = tiempoMaximoSTCF s p := by
  unfold tiempoMaximoSTCF32 tiempoMaximoSTCF
  cases hl : s.colaLlegadas with
  | nil => rfl
  | cons a r =>
    obtain ⟨h1, h2⟩ := hpend a (by rw [hl]; exact List.mem_cons_self _ _)
    simp only []
    rw [int32_en_rango (a.tiempoLlegada - s.tiempoGlobal) (by omega) (by omega)]

/-- The finish transition on 32-bit `int` is the exact one for a record that
finishes at clock `t + u ≤ INT_MAX`, dispatched at clock `t` with `u` units
left. -/
theorem finalizar32_exacto (s : MLFQScheduler) (p : Proceso) (t u r0 : Int)
    (hs : s.tiempoGlobal = t + u) (hu : u = p.tiempoRestante)
    (hmax : t + u ≤ INT_MAX) (h0 : 0 ≤ p.tiempoLlegada) (h1 : p.tiempoLlegada ≤ t)
    (h2 : 0 < p.tiempoRafaga)
    (h3 : p.haIniciado = false → p.tiempoRestante = p.tiempoRafaga)
    (h4 : p.haIniciado = true → p.tiempoLlegada ≤ p.tiempoInicio ∧
      p.tiempoInicio + (p.tiempoRafaga - p.tiempoRestante) ≤ t) :
    finalizar32 s { marcado p t with tiempoRestante := r0 } =
      finalizar s { marcado p t with tiempoRestante := r0 } := by
  obtain ⟨m1, m2, m3, m4⟩ := metricas_en_rango p t u r0 hu hmax h0 h1 h2 h3 h4
  unfold finalizar32 finalizar
  rw [hs]
  rw [calcularMetricas32_exacto _ (by exact le_trans (le_trans m1 m2) m3) m4 m1
    (by exact le_trans (le_trans m2 m3) m4) (by exact le_trans m1 m2) (by exact le_trans m3 m4)]

/-- A dispatch whose record has a positive remaining time that, added to the
non-negative clock, stays within `int`, with the pending records arriving
later than the clock and within `int`: the 32-bit dispatch is the exact
one. -/
theorem despacho32_exacto (S : StdSort) (s2 : MLFQScheduler) (p : Proceso) (i : Nat)
    (e : EsquemaCola) (he : s2.esquemas[i]? = some e) (hi : i < s2.colas.length)
    (hq : e.politica = TipoPolitica.ROUND_ROBIN → 0 < e.quantum)
    (hr0 : 0 < p.tiempoRestante) (ht0 : 0 ≤ s2.tiempoGlobal)
    (hmax : s2.tiempoGlobal + p.tiempoRestante ≤ INT_MAX)
    (hpend : ∀ a ∈ s2.colaLlegadas, s2.tiempoGlobal < a.tiempoLlegada ∧
      a.tiempoLlegada ≤ INT_MAX)
    (f3 : 0 ≤ p.tiempoLlegada) (f4 : p.tiempoLlegada ≤ s2.tiempoGlobal)
    (f5 : 0 < p.tiempoRafaga)
    (f6 : p.haIniciado = false → p.tiempoRestante = p.tiempoRafaga)
    (f7 : p.haIniciado = true → p.tiempoLlegada ≤ p.tiempoInicio ∧
      p.tiempoInicio + (p.tiempoRafaga - p.tiempoRestante) ≤ s2.tiempoGlobal) :
    ejecutarConScheduler32 S s2 p i = ejecutarConScheduler S s2 p i := by
  cases hpol : e.politica with
  | ROUND_ROBIN =>
    have hq0 := hq hpol
    have hu0 : 0 < min e.quantum p.tiempoRestante := lt_min hq0 hr0
    have hule : min e.quantum p.tiempoRestante ≤ p.tiempoRestante := min_le_right _ _
    have hj : (min ((i : Int) + 1) ((s2.colas.length : Int) - 1)) =
        ((min (i + 1) (s2.colas.length - 1) : Nat) : Int) := by omega
    rw [rr_forma32 S s2 p i e he hpol _ rfl hu0.le _ hj,
      rr_forma S s2 p i e he hpol _ rfl hu0.le _ hj,
      int32_en_rango _ (by omega) (by omega)]
    by_cases hc : ({ marcado p s2.tiempoGlobal with
        tiempoRestante := p.tiempoRestante - min e.quantum p.tiempoRestante } :
          Proceso).estaCompleto = true
    · rw [if_pos hc, if_pos hc]
      have hfin : min e.quantum p.tiempoRestante = p.tiempoRestante := by
        have : p.tiempoRestante - min e.quantum p.tiempoRestante ≤ 0 := by
          simpa [Proceso.estaCompleto] using hc
        omega
      rw [finalizar32_exacto _ p s2.tiempoGlobal (min e.quantum p.tiempoRestante) _ rfl hfin
        (by omega) f3 f4 f5 f6 f7]
    · rw [if_neg hc, if_neg hc]
  | SJF =>
    rw [sjf_forma32 S s2 p i e he hpol hr0.le, sjf_forma S s2 p i e he hpol hr0.le,
      int32_en_rango _ (by omega) hmax,
      finalizar32_exacto _ p s2.tiempoGlobal p.tiempoRestante 0 rfl rfl hmax f3 f4 f5 f6 f7]
  | STCF =>
    obtain ⟨b, hmb, h0, hle, hpos, _⟩ := stcf_unidades s2 p hr0.le
    have hmb32 : min (tiempoMaximoSTCF32 s2 (marcado p s2.tiempoGlobal)) p.tiempoRestante = b := by
      rw [tiempoMaximoSTCF32_exacto s2 _ ht0 hpend]
      exact hmb
    rw [stcf_forma32 S s2 p i e he hpol b hmb32 h0, stcf_forma S s2 p i e he hpol b hmb h0,
      int32_en_rango _ (by omega) (by omega)]
    by_cases hc : ({ marcado p s2.tiempoGlobal with
        tiempoRestante := p.tiempoRestante - b } : Proceso).estaCompleto = true
    · rw [if_pos hc, if_pos hc]
      have hfin : b = p.tiempoRestante := by
        have : p.tiempoRestante - b ≤ 0 := by
          simpa [Proceso.estaCompleto] using hc
        omega
      rw [finalizar32_exacto _ p s2.tiempoGlobal b _ rfl hfin (by omega) f3 f4 f5 f6 f7]
    · rw [if_neg hc, if_neg hc]

/-- The invariants of a run within `int`: run invariant, timing invariant,
range invariant, and an admission vector sorted by arrival time. -/
theorem iteracion_dentro (S : StdSort) (s s1 : MLFQScheduler) (hI : s.EnCurso)
    (hH : s.EnHora) (hA : s.Acotado)
    (hord : s.colaLlegadas.Pairwise (fun a b => a.tiempoLlegada ≤ b.tiempoLlegada))
    (hc : s.continua = true) (hi : iteracion S s = some s1) :
    s1.EnCurso ∧ s1.EnHora ∧ s1.Acotado ∧
      s1.colaLlegadas.Pairwise (fun a b => a.tiempoLlegada ≤ b.tiempoLlegada) := by
  obtain ⟨s4, hit, hI4, _⟩ := iteracion_progresa S s hI hc
  rw [hi] at hit
  obtain rfl := Option.some.inj hit
  refine ⟨hI4, iteracion_en_hora S s s1 hI hc hH hi, iteracion_acotado S s s1 hI hc hA hi, ?_⟩
  obtain ⟨adm, hadm⟩ := iteracion_llegadas S s s1 hi
  rw [hadm] at hord
  exact (List.pairwise_append.mp hord).2.1

/-- A turn in a state that meets the invariants of a run within `int`: the
32-bit turn is the exact turn. -/
theorem iteracion32_exacta (S : StdSort) (s : MLFQScheduler) (hI : s.EnCurso)
    (hH : s.EnHora) (hA : s.Acotado)
    (hord : s.colaLlegadas.Pairwise (fun a b => a.tiempoLlegada ≤ b.tiempoLlegada))
    (hc : s.continua = true) : iteracion32 S s = iteracion S s := by
  cases hm : moverProcesosLlegados s with
  | none => simp only [iteracion32, iteracion, hm]
  | some s1 =>
    cases hp : planificar s1 with
    | none => simp only [iteracion32, iteracion, hm, hp]
    | some r =>
      obtain ⟨⟨i, o⟩, s2⟩ := r
      cases o with
      | none =>
        cases hl : s2.colaLlegadas with
        | nil =>
          have hit : iteracion S s = some { s2 with tiempoGlobal := s2.tiempoGlobal + 1 } := by
            simp only [iteracion, hm, hp, hl]
          obtain ⟨h0, hclk, _⟩ := iteracion_acotado S s _ hI hc hA hit
          have h0b : 0 ≤ s2.tiempoGlobal + 1 := h0
          have hclkb : s2.tiempoGlobal + 1 +
              ((restanteTotal ({ s2 with tiempoGlobal := s2.tiempoGlobal + 1 } :
                MLFQScheduler).vivos : Nat) : Int) ≤ INT_MAX := hclk
          simp only [iteracion32, iteracion, hm, hp, hl]
          rw [int32_en_rango _ (by omega) (by omega)]
        | cons a r => simp only [iteracion32, iteracion, hm, hp, hl]
      | some p =>
        obtain ⟨_, ⟨j, e, hij, he, hj, hq⟩, hr0, ht0, hmax, hpend, f3, f4, f5, f6, f7⟩ :=
          turno_despacho_inv S s s1 s2 i p hI hH hA hord hm hp
        subst hij
        simp only [iteracion32, iteracion, hm, hp]
        exact despacho32_exacto S s2 p j e he hj hq hr0 ht0 hmax hpend f3 f4 f5 f6 f7

/-- From a state that meets the invariants of a run within `int`, the 32-bit
engine and the exact engine are in the same state after any number of
turns. -/
theorem iterar32_desde (S : StdSort) (k : Nat) (s : MLFQScheduler) (hI : s.EnCurso)
    (hH : s.EnHora) (hA : s.Acotado)
    (hord : s.colaLlegadas.Pairwise (fun a b => a.tiempoLlegada ≤ b.tiempoLlegada)) :
    iterar32 S k s = iterar S k s := by
  induction k generalizing s with
  | zero => rfl
  | succ k ih =>
    by_cases hc : s.continua = true
    · simp only [iterar32, iterar, hc, if_true, iteracion32_exacta S s hI hH hA hord hc]
      cases hi : iteracion S s with
      | none => rfl
      | some s1 =>
        obtain ⟨a, b, c, d⟩ := iteracion_dentro S s s1 hI hH hA hord hc hi
        exact ih s1 a b c d
    · simp only [iterar32, iterar, hc, Bool.false_eq_true, if_false]

/-- From a state that meets the invariants of a run within `int`, the 32-bit
main loop returns what the exact main loop returns. -/
theorem simulacion32_desde (S : StdSort) (n : Nat) (s : MLFQScheduler) (hI : s.EnCurso)
    (hH : s.EnHora) (hA : s.Acotado)
    (hord : s.colaLlegadas.Pairwise (fun a b => a.tiempoLlegada ≤ b.tiempoLlegada)) :
    ejecutarSimulacion32 S n s = ejecutarSimulacion S n s := by
  induction n generalizing s with
  | zero => rfl
  | succ k ih =>
    by_cases hc : s.continua = true
    · simp only [ejecutarSimulacion32, ejecutarSimulacion, hc, if_true,
        iteracion32_exacta S s hI hH hA hord hc]
      cases hi : iteracion S s with
      | none => rfl
      | some s1 =>
        obtain ⟨a, b, c, d⟩ := iteracion_dentro S s s1 hI hH hA hord hc hi
        exact ih s1 a b c d
    · simp only [ejecutarSimulacion32, ejecutarSimulacion, hc, Bool.false_eq_true, if_false]

/-- On a valid workload within `int` the 32-bit engine and the exact engine
are in the same state after any number of turns. -/
theorem iterar32_exacto (S : StdSort) (esq : List EsquemaCola) (ps : List Proceso)
    (hv : Valido esq ps) (hr : SinDesborde ps) (k : Nat) :
    iterar32 S k (cargar S esq ps) = iterar S k (cargar S esq ps) :=
  iterar32_desde S k _ (cargar_en_curso S esq ps hv).1 (cargar_en_hora S esq ps hv)
    (cargar_acotado S esq ps hv hr)
    (foldl_agregar_ordenada S (nuevo esq) ps List.Pairwise.nil)

/-- On a valid workload within `int` the 32-bit main loop returns what the
exact main loop returns. -/
theorem simulacion32_exacta (S : StdSort) (esq : List EsquemaCola) (ps : List Proceso)
    (hv : Valido esq ps) (hr : SinDesborde ps) (n : Nat) :
    ejecutarSimulacion32 S n (cargar S esq ps) = ejecutarSimulacion S n (cargar S esq ps) :=
  simulacion32_desde S n _ (cargar_en_curso S esq ps hv).1 (cargar_en_hora S esq ps hv)
    (cargar_acotado S esq ps hv hr)
    (foldl_agregar_ordenada S (nuevo esq) ps List.Pairwise.nil)

/-- In a state of the run of a valid workload within `int`, while the loop
condition holds, the 32-bit turn is the exact turn. -/
theorem turno32_exacto (S : StdSort) (esq : List EsquemaCola) (ps : List Proceso)
    (hv : Valido esq ps) (hr : SinDesborde ps) (k : Nat) (s : MLFQScheduler)
    (hk : iterar S k (cargar S esq ps) = some s) (hc : s.continua = true) :
    iteracion32 S s = iteracion S s := by
  obtain ⟨hI, hH, hA⟩ := iterar_acotado S esq ps hv hr k s hk
  exact iteracion32_exacta S s hI hH hA (iterar_llegadas_ordenadas S esq ps k s hk) hc

/-- On a valid workload within `int` the 32-bit main loop returns. -/
theorem simulacion32_termina (S : StdSort) (esq : List EsquemaCola) (ps : List Proceso)
    (hv : Valido esq ps) (hr : SinDesborde ps) :
    ∃ n s2, ejecutarSimulacion32 S n (cargar S esq ps) = some s2 := by
  obtain ⟨s2, h⟩ := simulacion_termina S _ _ (cargar_en_curso S esq ps hv).1 (le_refl _)
  exact ⟨_, s2, (simulacion32_exacta S esq ps hv hr _).trans h⟩

/-- The metrics on 32-bit `int` of a record that finishes at clock
`t + u ≤ INT_MAX`, dispatched at clock `t` with `u` units left, are the exact
ones. -/
theorem metricas32_exactas (p : Proceso) (t u r0 : Int) (hu : u = p.tiempoRestante)
    (hmax : t + u ≤ INT_MAX) (h0 : 0 ≤ p.tiempoLlegada) (h1 : p.tiempoLlegada ≤ t)
    (h2 : 0 < p.tiempoRafaga)
    (h3 : p.haIniciado = false → p.tiempoRestante = p.tiempoRafaga)
    (h4 : p.haIniciado = true → p.tiempoLlegada ≤ p.tiempoInicio ∧
      p.tiempoInicio + (p.tiempoRafaga - p.tiempoRestante) ≤ t) :
    (({ marcado p t with tiempoRestante := r0 } : Proceso).setTiempoFinalizacion
        (t + u)).calcularMetricas32 =
      (({ marcado p t with tiempoRestante := r0 } : Proceso).setTiempoFinalizacion
        (t + u)).calcularMetricas := by
  obtain ⟨m1, m2, m3, m4⟩ := metricas_en_rango p t u r0 hu hmax h0 h1 h2 h3 h4
  exact calcularMetricas32_exacto _ (le_trans (le_trans m1 m2) m3) m4 m1
    (le_trans (le_trans m2 m3) m4) (le_trans m1 m2) (le_trans m3 m4)

/-- The 32-bit dispatch, when it is defined, leaves the finished vector as it
was or appends one record to it, on which `calcularMetricas` has just run. -/
theorem ejecutar32_finalizados (S : StdSort) (s : MLFQScheduler) (p : Proceso) (i : Int)
    (s3 : MLFQScheduler) (h : ejecutarConScheduler32 S s p i = some s3) :
    s3.procesosFinalizados = s.procesosFinalizados ∨
      ∃ x : Proceso, s3.procesosFinalizados = s.procesosFinalizados ++ [x.calcularMetricas32] := by
  unfold ejecutarConScheduler32 at h
  cases he : subindice s.esquemas i with
  | none => rw [he] at h; cases h
  | some e =>
    rw [he] at h
    cases hpol : e.politica with
    | ROUND_ROBIN =>
      simp only [hpol, RoundRobinScheduler.nuevo, RoundRobinScheduler.agregarProceso,
        RoundRobinScheduler.obtenerSiguienteProceso, RoundRobinScheduler.ejecutarProceso32,
        List.nil_append] at h
      split_ifs at h with hc
      · simp only [Option.some.injEq] at h
        subst h
        exact Or.inr ⟨_, rfl⟩
      · split at h
        · cases h
        · simp only [Option.some.injEq] at h
          subst h
          exact Or.inl rfl
    | SJF =>
      simp only [hpol, SJFScheduler.nuevo, SJFScheduler.agregarProceso,
        SJFScheduler.obtenerSiguienteProceso, SJFScheduler.ejecutarProceso32,
        List.nil_append, ordenar_singular, Option.some.injEq] at h
      subst h
      exact Or.inr ⟨_, rfl⟩
    | STCF =>
      simp only [hpol, STCFScheduler.nuevo, STCFScheduler.agregarProceso,
        STCFScheduler.obtenerSiguienteProceso, STCFScheduler.ejecutarProceso32,
        List.nil_append, ordenar_singular] at h
      split_ifs at h with hc
      · simp only [Option.some.injEq] at h
        subst h
        exact Or.inr ⟨_, rfl⟩
      · split at h
        · cases h
        · simp only [Option.some.injEq] at h
          subst h
          exact Or.inl rfl

/-- A 32-bit turn, when it is defined, leaves the finished vector as it was or
appends one record to it, on which `calcularMetricas` has just run. -/
theorem iteracion32_finalizados (S : StdSort) (s s4 : MLFQScheduler)
    (h : iteracion32 S s = some s4) :
    s4.procesosFinalizados = s.procesosFinalizados ∨
      ∃ x : Proceso, s4.procesosFinalizados = s.procesosFinalizados ++ [x.calcularMetricas32] := by
  cases hm : moverProcesosLlegados s with
  | none => simp only [iteracion32, hm] at h; cases h
  | some s1 =>
    cases hp : planificar s1 with
    | none => simp only [iteracion32, hm, hp] at h; cases h
    | some r =>
      obtain ⟨⟨i, o⟩, s2⟩ := r
      obtain ⟨_, hfin1, _⟩ := mover_some s s1 hm
      have hfin2 : s2.procesosFinalizados = s.procesosFinalizados := by
        rcases planificar_some s1 i o s2 hp with ⟨_, _, _, hs2⟩ |
          ⟨k, e, cola, resto, _, _, _, _, _, hs2, _, _⟩
        · rw [hs2, hfin1]
        · rw [hs2]; exact hfin1
      cases o with
      | some p =>
        simp only [iteracion32, hm, hp] at h
        rw [← hfin2]
        exact ejecutar32_finalizados S s2 p i s4 h
      | none =>
        cases hl : s2.colaLlegadas with
        | nil =>
          simp only [iteracion32, hm, hp, hl, Option.some.injEq] at h
          subst h
          exact Or.inl hfin2
        | cons a r =>
          simp only [iteracion32, hm, hp, hl, Option.some.injEq] at h
          subst h
          exact Or.inl hfin2

/-- A property of the finished records that `calcularMetricas` establishes, on
32-bit `int`, holds of every finished record when the 32-bit main loop
returns. -/
theorem simulacion32_finalizados (S : StdSort) (P : Proceso → Prop)
    (hP : ∀ x : Proceso, P x.calcularMetricas32)
    (n : Nat) (s s2 : MLFQScheduler) (hs : ∀ p ∈ s.procesosFinalizados, P p)
    (h : ejecutarSimulacion32 S n s = some s2) : ∀ p ∈ s2.procesosFinalizados, P p := by
  have paso : ∀ s s1, (∀ p ∈ s.procesosFinalizados, P p) → iteracion32 S s = some s1 →
      ∀ p ∈ s1.procesosFinalizados, P p := by
    intro s s1 hs hi p hp
    rcases iteracion32_finalizados S s s1 hi with hf | ⟨x, hf⟩
    · rw [hf] at hp; exact hs p hp
    · rw [hf] at hp
      rcases List.mem_append.mp hp with h1 | h1
      · exact hs p h1
      · rw [List.mem_singleton.mp h1]; exact hP x
  induction n generalizing s with
  | zero =>
    unfold ejecutarSimulacion32 at h
    split_ifs at h with hc
    simp only [Option.some.injEq] at h
    subst h
    exact hs
  | succ k ih =>
    unfold ejecutarSimulacion32 at h
    split_ifs at h with hc
    · cases hi : iteracion32 S s with
      | none => rw [hi] at h; cases h
      | some s1 =>
        rw [hi] at h
        exact ih s1 (paso s s1 hs hi) h
    · simp only [Option.some.injEq] at h
      subst h
      exact hs

/-- What `calcularMetricas` leaves on 32-bit `int`: each metric is the wrapped
difference, and waiting + burst, wrapped, is the turnaround. -/
theorem calcularMetricas32_relaciones (x : Proceso) :
    x.calcularMetricas32.tiempoRetorno =
      int32 (x.calcularMetricas32.tiempoFinalizacion - x.calcularMetricas32.tiempoLlegada) ∧
    x.calcularMetricas32.tiempoRespuesta =
      int32 (x.calcularMetricas32.tiempoInicio - x.calcularMetricas32.tiempoLlegada) ∧
    x.calcularMetricas32.tiempoEspera =
      int32 (x.calcularMetricas32.tiempoRetorno - x.calcularMetricas32.tiempoRafaga) ∧
    int32 (x.calcularMetricas32.tiempoEspera + x.calcularMetricas32.tiempoRafaga) =
      x.calcularMetricas32.tiempoRetorno := by
  refine ⟨rfl, rfl, rfl, ?_⟩
  show int32 (int32 (int32 (x.tiempoFinalizacion - x.tiempoLlegada) - x.tiempoRafaga) +
    x.tiempoRafaga) = int32 (x.tiempoFinalizacion - x.tiempoLlegada)
  unfold int32
  omega

/-! ## Claims on the clock and the finished vector -/

/-- C19 as stated fails.  The record `L` (burst 1, arrival time `INT_MAX`,
level 1) is a valid workload for one Round Robin level.  The first turn of its
run is an idle jump to clock `INT_MAX`; the second turn dispatches `L` for one
unit, `tiempoGlobal += tiempoEjecutado` overflows, and the clock it leaves,
`-2147483648`, is earlier than the clock before the turn. -/
theorem C19_contraejemplo :
    Valido esquemasRR4 [procesoLimite] ∧
    (iterar32 insercion 1 (cargar insercion esquemasRR4 [procesoLimite])).map
        (fun s => s.tiempoGlobal) = some INT_MAX ∧
    (iterar32 insercion 2 (cargar insercion esquemasRR4 [procesoLimite])).map
        (fun s => s.tiempoGlobal) = some (-2147483648) ∧
    ¬ (INT_MAX ≤ (-2147483648 : Int)) := by
  refine ⟨by unfold Valido; decide, by decide, by decide, by decide⟩

/-- C19 (amended). On a valid workload within `int` (the arrival time of every
record plus the sum of all the bursts is at most `INT_MAX`) the clock starts
at 0 and lies in `0..INT_MAX` in every state of the run; every turn of the main
loop, dispatch or idle jump, moves it strictly forward and leaves it at most
`INT_MAX`; hence the clock after `j` turns is not later than the clock after
`k ≥ j` turns. -/
theorem C19_reloj_no_decrece (S : StdSort) (esq : List EsquemaCola) (ps : List Proceso)
    (hv : Valido esq ps) (hr : SinDesborde ps) :
    (cargar S esq ps).tiempoGlobal = 0 ∧
    (∀ k s, iterar32 S k (cargar S esq ps) = some s →
      0 ≤ s.tiempoGlobal ∧ s.tiempoGlobal ≤ INT_MAX) ∧
    (∀ k s s4, iterar32 S k (cargar S esq ps) = some s → s.continua = true →
      iteracion32 S s = some s4 →
        s.tiempoGlobal < s4.tiempoGlobal ∧ s4.tiempoGlobal ≤ INT_MAX) ∧
    ∀ j k sj sk, j ≤ k → iterar32 S j (cargar S esq ps) = some sj →
      iterar32 S k (cargar S esq ps) = some sk → sj.tiempoGlobal ≤ sk.tiempoGlobal := by
  obtain ⟨hI, _⟩ := cargar_en_curso S esq ps hv
  refine ⟨(cargar_forma S esq ps).2.2.2.1, ?_, ?_, ?_⟩
  · intro k s hk
    rw [iterar32_exacto S esq ps hv hr] at hk
    obtain ⟨_, _, h0, hclk, _⟩ := iterar_acotado S esq ps hv hr k s hk
    exact ⟨h0, by omega⟩
  · intro k s s4 hk hc hit
    rw [iterar32_exacto S esq ps hv hr] at hk
    rw [turno32_exacto S esq ps hv hr k s hk hc] at hit
    obtain ⟨hIs, _, hA⟩ := iterar_acotado S esq ps hv hr k s hk
    obtain ⟨_, hclk4, _⟩ := iteracion_acotado S s s4 hIs hc hA hit
    obtain ⟨s5, hit5, _, _, hlt, _⟩ := iteracion_progresa S s hIs hc
    rw [hit] at hit5
    rw [Option.some.inj hit5]
    rw [Option.some.inj hit5] at hclk4
    exact ⟨hlt, by omega⟩
  · intro j k sj sk hjk hj hk
    rw [iterar32_exacto S esq ps hv hr] at hj hk
    obtain ⟨d, rfl⟩ := Nat.exists_eq_add_of_le hjk
    obtain ⟨sj2, hj2, hd⟩ := iterar_suma S j d _ sk hk
    rw [hj] at hj2
    obtain rfl := Option.some.inj hj2
    obtain ⟨_, hIj⟩ := iterar_reloj S j _ sj hI hj
    exact (iterar_reloj S d sj sk hIj hd).1

/-- C19 (amended) on the workload `A`, `B`, `C` over the sample configuration:
the clock after 2 turns is not later than the clock after 5 turns, and both
lie in `0..INT_MAX`. -/
theorem C19_reloj_no_decrece_witness :
    ∃ s2 s5, iterar32 insercion 2
        (cargar insercion esquemasEjemplo [ejemploA, ejemploB, ejemploC]) = some s2 ∧
      iterar32 insercion 5
        (cargar insercion esquemasEjemplo [ejemploA, ejemploB, ejemploC]) = some s5 ∧
      0 ≤ s2.tiempoGlobal ∧ s2.tiempoGlobal ≤ s5.tiempoGlobal ∧ s5.tiempoGlobal ≤ INT_MAX := by
  have h2 : (iterar32 insercion 2
      (cargar insercion esquemasEjemplo [ejemploA, ejemploB, ejemploC])).isSome = true := by
    decide
  have h5 : (iterar32 insercion 5
      (cargar insercion esquemasEjemplo [ejemploA, ejemploB, ejemploC])).isSome = true := by
    decide
  obtain ⟨s2, hs2⟩ := Option.isSome_iff_exists.mp h2
  obtain ⟨s5, hs5⟩ := Option.isSome_iff_exists.mp h5
  have hC := C19_reloj_no_decrece insercion esquemasEjemplo
    [ejemploA, ejemploB, ejemploC] (by unfold Valido; decide) (by unfold SinDesborde; decide)
  exact ⟨s2, s5, hs2, hs5, (hC.2.1 2 s2 hs2).1, hC.2.2.2 2 5 s2 s5 (by decide) hs2 hs5,
    (hC.2.1 5 s5 hs5).2⟩

/-- C20 as stated fails.  On the valid workload `L`, `M` (burst 1, arrival
time `INT_MAX - 1`) over one Round Robin level, `L` finishes at `INT_MAX` and
`M` is then dispatched for one unit: the clock overflows, and the finish time
recorded for `M`, `-2147483648`, is earlier than that of `L` before it in the
finished vector. -/
theorem C20_contraejemplo :
    Valido esquemasRR4 cargaLimite ∧
    (ejecutarSimulacion32 insercion 5 (cargar insercion esquemasRR4 cargaLimite)).map
        (fun s => s.procesosFinalizados.map (fun p => (p.etiqueta, p.tiempoFinalizacion))) =
      some [("L", INT_MAX), ("M", -2147483648)] ∧
    ¬ (INT_MAX ≤ (-2147483648 : Int)) := by
  refine ⟨by unfold Valido; decide, by decide, by decide⟩

/-- C20 (amended). On a valid workload within `int` the run ends, and whenever
`ejecutarSimulacion` returns the finish times of the records of the finished
vector lie in `0..INT_MAX` and do not decrease along the vector. -/
theorem C20_orden_de_finalizacion (S : StdSort) (esq : List EsquemaCola)
    (ps : List Proceso) (hv : Valido esq ps) (hr : SinDesborde ps) :
    (∃ n s2, ejecutarSimulacion32 S n (cargar S esq ps) = some s2) ∧
    ∀ n s2, ejecutarSimulacion32 S n (cargar S esq ps) = some s2 →
      s2.procesosFinalizados.Pairwise
        (fun a b => a.tiempoFinalizacion ≤ b.tiempoFinalizacion) ∧
      ∀ p ∈ s2.procesosFinalizados,
        0 ≤ p.tiempoFinalizacion ∧ p.tiempoFinalizacion ≤ INT_MAX := by
  obtain ⟨hI, _⟩ := cargar_en_curso S esq ps hv
  refine ⟨simulacion32_termina S esq ps hv hr, ?_⟩
  intro n s2 h
  rw [simulacion32_exacta S esq ps hv hr] at h
  obtain ⟨hord, hcota, _, hmax, _⟩ := simulacion_final_acotado S esq ps hv hr n s2 h
  refine ⟨hord, fun p hp => ?_⟩
  have := hcota p hp
  exact ⟨this.1, by omega⟩

/-- C20 (amended) on the workload `A`, `B`, `C` over the sample configuration:
the finish times along the finished vector are 5, 8, 12. -/
theorem C20_orden_de_finalizacion_witness :
    ∃ s2, ejecutarSimulacion32 insercion 25
        (cargar insercion esquemasEjemplo [ejemploA, ejemploB, ejemploC]) = some s2 ∧
      s2.procesosFinalizados.map (fun p => p.tiempoFinalizacion) = [5, 8, 12] ∧
      s2.procesosFinalizados.Pairwise
        (fun a b => a.tiempoFinalizacion ≤ b.tiempoFinalizacion) := by
  have hsome : ((ejecutarSimulacion32 insercion 25
      (cargar insercion esquemasEjemplo [ejemploA, ejemploB, ejemploC])).map
        (fun s => s.procesosFinalizados.map (fun p => p.tiempoFinalizacion))) =
      some [5, 8, 12] := by decide
  obtain ⟨s2, h, ht⟩ := Option.map_eq_some'.mp hsome
  exact ⟨s2, h, ht, ((C20_orden_de_finalizacion insercion esquemasEjemplo
    [ejemploA, ejemploB, ejemploC] (by unfold Valido; decide)
    (by unfold SinDesborde; decide)).2 25 s2 h).1⟩

/-! ## Claims on the metrics and on work conservation -/

/-- C32 as stated fails.  On the valid workload of the single record `L`
(burst 1, arrival time `INT_MAX`) over one Round Robin level, `L` starts at
clock `INT_MAX` and runs its one unit: the clock overflows, and the finish time
recorded, `-2147483648`, is below start + burst, and below the start time. -/
theorem C32_contraejemplo :
    Valido esquemasRR4 [procesoLimite] ∧
    (ejecutarSimulacion32 insercion 5 (cargar insercion esquemasRR4 [procesoLimite])).map
        (fun s => s.procesosFinalizados.map
          (fun p => [p.tiempoLlegada, p.tiempoInicio, p.tiempoRafaga, p.tiempoFinalizacion])) =
      some [[INT_MAX, INT_MAX, 1, -2147483648]] ∧
    ¬ (INT_MAX + 1 ≤ (-2147483648 : Int)) := by
  refine ⟨by unfold Valido; decide, by decide, by decide⟩

/-- C32 (amended). On a valid workload within `int` the run ends, and whenever
`ejecutarSimulacion` returns every record of the finished vector has
0 ≤ arrival ≤ start, start + burst ≤ finish ≤ `INT_MAX`, and so
0 ≤ response ≤ waiting ≤ `INT_MAX`. -/
theorem C32_metricas_ordenadas (S : StdSort) (esq : List EsquemaCola) (ps : List Proceso)
    (hv : Valido esq ps) (hr : SinDesborde ps) :
    (∃ n s2, ejecutarSimulacion32 S n (cargar S esq ps) = some s2) ∧
    ∀ n s2, ejecutarSimulacion32 S n (cargar S esq ps) = some s2 →
      ∀ p ∈ s2.procesosFinalizados,
        0 ≤ p.tiempoLlegada ∧ p.tiempoLlegada ≤ p.tiempoInicio ∧
        p.tiempoInicio + p.tiempoRafaga ≤ p.tiempoFinalizacion ∧
        p.tiempoFinalizacion ≤ INT_MAX ∧
        0 ≤ p.tiempoRespuesta ∧ p.tiempoRespuesta ≤ p.tiempoEspera ∧
        p.tiempoEspera ≤ INT_MAX := by
  obtain ⟨hI, _⟩ := cargar_en_curso S esq ps hv
  refine ⟨simulacion32_termina S esq ps hv hr, ?_⟩
  intro n s2 hrun p hp
  rw [simulacion32_exacta S esq ps hv hr] at hrun
  obtain ⟨⟨_, hH, h0, hclk, _, hdat, hfin⟩, _⟩ := simulacion_acotado S esq ps hv hr n s2 hrun
  obtain ⟨h1, h2, h3, h4⟩ := hH.2.2 p hp
  obtain ⟨h5, h6⟩ := hdat p (List.mem_append_right _ hp)
  have h7 := hfin p hp
  refine ⟨h5, h1, h2, by omega, ?_, ?_, ?_⟩
  · rw [h3]; omega
  · rw [h3, h4]; omega
  · rw [h4]; omega

/-- C32 (amended) on the run of `A`, `B`, `C` over the sample configuration:
`B`, `A`, `C` finish with start, finish, response and waiting times 2, 5, 2, 2
and 0, 8, 0, 3 and 8, 12, 6, 6. -/
theorem C32_metricas_ordenadas_witness :
    ∃ s2, ejecutarSimulacion32 insercion 25
        (cargar insercion esquemasEjemplo [ejemploA, ejemploB, ejemploC]) = some s2 ∧
      s2.procesosFinalizados.map (fun p => [p.tiempoInicio, p.tiempoFinalizacion,
        p.tiempoRespuesta, p.tiempoEspera]) = [[2, 5, 2, 2], [0, 8, 0, 3], [8, 12, 6, 6]] ∧
      ∀ p ∈ s2.procesosFinalizados,
        0 ≤ p.tiempoLlegada ∧ p.tiempoLlegada ≤ p.tiempoInicio ∧
        p.tiempoInicio + p.tiempoRafaga ≤ p.tiempoFinalizacion ∧
        p.tiempoFinalizacion ≤ INT_MAX ∧
        0 ≤ p.tiempoRespuesta ∧ p.tiempoRespuesta ≤ p.tiempoEspera ∧
        p.tiempoEspera ≤ INT_MAX := by
  have hrun : (ejecutarSimulacion32 insercion 25
      (cargar insercion esquemasEjemplo [ejemploA, ejemploB, ejemploC])).map
        (fun s => s.procesosFinalizados.map (fun p => [p.tiempoInicio, p.tiempoFinalizacion,
          p.tiempoRespuesta, p.tiempoEspera])) =
      some [[2, 5, 2, 2], [0, 8, 0, 3], [8, 12, 6, 6]] := by decide
  obtain ⟨s2, hs2, hval⟩ := Option.map_eq_some'.mp hrun
  exact ⟨s2, hs2, hval, (C32_metricas_ordenadas insercion esquemasEjemplo
    [ejemploA, ejemploB, ejemploC] (by unfold Valido; decide)
    (by unfold SinDesborde; decide)).2 25 s2 hs2⟩

/-- C1 as stated fails.  On the valid workload of the single record `L`
(burst 1, arrival time `INT_MAX`) over one Round Robin level, `L` is
dispatched at clock `INT_MAX` for one unit: the clock overflows and the finish
time recorded is `-2147483648`.  The subtraction finish − arrival of
`calcularMetricas` then overflows as well and leaves the turnaround 1, which
is not the difference of the finish time and the arrival time recorded. -/
theorem C1_contraejemplo :
    Valido esquemasRR4 [procesoLimite] ∧
    (ejecutarSimulacion32 insercion 5 (cargar insercion esquemasRR4 [procesoLimite])).map
        (fun s => s.procesosFinalizados.map
          (fun p => [p.tiempoRetorno, p.tiempoFinalizacion, p.tiempoLlegada])) =
      some [[1, -2147483648, INT_MAX]] ∧
    (1 : Int) ≠ -2147483648 - INT_MAX := by
  refine ⟨by unfold Valido; decide, by decide, by decide⟩

/-- C1 (amended). For every workload and level configuration, whenever
`ejecutarSimulacion` returns, every record of the finished vector satisfies
the three relations in the 32-bit arithmetic of `int`: turnaround is
finish − arrival wrapped, response is start − arrival wrapped, waiting is
turnaround − burst wrapped, and waiting + burst, wrapped, is the turnaround.
On a valid workload within `int` none of these operations overflows: the
relations hold exactly, waiting + burst = turnaround, and the finish time and
the three metrics lie in `0..INT_MAX`. -/
theorem C1_metricas_finalizados (S : StdSort) (esq : List EsquemaCola) (ps : List Proceso)
    (n : Nat) (s2 : MLFQScheduler)
    (h : ejecutarSimulacion32 S n (cargar S esq ps) = some s2) :
    ∀ p ∈ s2.procesosFinalizados,
      (p.tiempoRetorno = int32 (p.tiempoFinalizacion - p.tiempoLlegada) ∧
        p.tiempoRespuesta = int32 (p.tiempoInicio - p.tiempoLlegada) ∧
        p.tiempoEspera = int32 (p.tiempoRetorno - p.tiempoRafaga) ∧
        int32 (p.tiempoEspera + p.tiempoRafaga) = p.tiempoRetorno) ∧
      (Valido esq ps → SinDesborde ps →
        p.tiempoRetorno = p.tiempoFinalizacion - p.tiempoLlegada ∧
        p.tiempoRespuesta = p.tiempoInicio - p.tiempoLlegada ∧
        p.tiempoEspera = p.tiempoRetorno - p.tiempoRafaga ∧
        p.tiempoEspera + p.tiempoRafaga = p.tiempoRetorno ∧
        0 ≤ p.tiempoFinalizacion ∧ p.tiempoFinalizacion ≤ INT_MAX ∧
        0 ≤ p.tiempoRespuesta ∧ p.tiempoRespuesta ≤ INT_MAX ∧
        0 ≤ p.tiempoEspera ∧ p.tiempoEspera ≤ INT_MAX ∧
        0 ≤ p.tiempoRetorno ∧ p.tiempoRetorno ≤ INT_MAX) := by
  intro p hp
  refine ⟨simulacion32_finalizados S
    (fun p => p.tiempoRetorno = int32 (p.tiempoFinalizacion - p.tiempoLlegada) ∧
      p.tiempoRespuesta = int32 (p.tiempoInicio - p.tiempoLlegada) ∧
      p.tiempoEspera = int32 (p.tiempoRetorno - p.tiempoRafaga) ∧
      int32 (p.tiempoEspera + p.tiempoRafaga) = p.tiempoRetorno)
    calcularMetricas32_relaciones n (cargar S esq ps) s2
    (by
      intro q hq
      rw [(cargar_forma S esq ps).2.2.1] at hq
      cases hq) h p hp, ?_⟩
  intro hv hr
  rw [simulacion32_exacta S esq ps hv hr] at h
  have hinv := (simulacion_invariante S
    (fun s => ∀ p ∈ s.procesosFinalizados,
      p.tiempoRetorno = p.tiempoFinalizacion - p.tiempoLlegada ∧
      p.tiempoRespuesta = p.tiempoInicio - p.tiempoLlegada ∧
      p.tiempoEspera = p.tiempoRetorno - p.tiempoRafaga)
    (fun s s1 hs _ hit => iteracion_metricas S s s1 hit hs) n (cargar S esq ps) s2
    (by
      intro p hp
      rw [(cargar_forma S esq ps).2.2.1] at hp
      cases hp) h).1
  obtain ⟨⟨_, hH, h0, hclk, _, hdat, hfin⟩, _⟩ := simulacion_acotado S esq ps hv hr n s2 h
  obtain ⟨h1, h2, h3⟩ := hinv p hp
  obtain ⟨h4, h5, _, _⟩ := hH.2.2 p hp
  obtain ⟨h6, h7⟩ := hdat p (List.mem_append_right _ hp)
  have h8 := hfin p hp
  refine ⟨h1, h2, h3, by omega, by omega, by omega, by omega, by omega, by omega, by omega,
    by omega, by omega⟩

/-- C1 (amended) on a run of three records over the sample configuration. -/
theorem C1_metricas_finalizados_witness :
    ∃ s2, ejecutarSimulacion32 insercion 30
        (cargar insercion esquemasEjemplo [ejemploA, ejemploB, ejemploC]) = some s2 ∧
      s2.procesosFinalizados.map (fun p => [p.tiempoFinalizacion, p.tiempoRetorno,
        p.tiempoRespuesta, p.tiempoEspera]) = [[5, 5, 2, 2], [8, 8, 0, 3], [12, 10, 6, 6]] ∧
      ∀ p ∈ s2.procesosFinalizados,
        p.tiempoRetorno = p.tiempoFinalizacion - p.tiempoLlegada ∧
        p.tiempoRespuesta = p.tiempoInicio - p.tiempoLlegada ∧
        p.tiempoEspera = p.tiempoRetorno - p.tiempoRafaga ∧
        p.tiempoEspera + p.tiempoRafaga = p.tiempoRetorno := by
  have hsome : ((ejecutarSimulacion32 insercion 30
      (cargar insercion esquemasEjemplo [ejemploA, ejemploB, ejemploC])).map
        (fun s => s.procesosFinalizados.map (fun p => [p.tiempoFinalizacion, p.tiempoRetorno,
          p.tiempoRespuesta, p.tiempoEspera]))) =
      some [[5, 5, 2, 2], [8, 8, 0, 3], [12, 10, 6, 6]] := by decide
  obtain ⟨s2, h, hval⟩ := Option.map_eq_some'.mp hsome
  have hC := fun p hp => (C1_metricas_finalizados insercion esquemasEjemplo
    [ejemploA, ejemploB, ejemploC] 30 s2 h p hp).2 (by unfold Valido; decide)
    (by unfold SinDesborde; decide)
  exact ⟨s2, h, hval, fun p hp => ⟨(hC p hp).1, (hC p hp).2.1, (hC p hp).2.2.1,
    (hC p hp).2.2.2.1⟩⟩

/-- C33 as stated fails.  `G` (burst `INT_MAX`) and `U` (burst 1), both of
arrival time 0 and level 1, are a valid workload for one SJF level, and their
bursts add up to `2147483648`.  The first turn runs `U` to completion and
leaves the clock at 1; the second runs `G` for its `INT_MAX` units:
`tiempoGlobal += tiempoEjecutado` overflows, and the run ends with the clock at
`-2147483648`, which is not the sum of the bursts. -/
theorem C33_contraejemplo :
    Valido esquemasSJF cargaLarga ∧ (∀ p ∈ cargaLarga, p.tiempoLlegada = 0) ∧
    (cargaLarga.map (fun p => p.tiempoRafaga)).sum = 2147483648 ∧
    ∃ s2, ejecutarSimulacion32 insercion 2 (cargar insercion esquemasSJF cargaLarga) = some s2 ∧
      s2.tiempoGlobal = -2147483648 := by
  refine ⟨by unfold Valido; decide, by decide, by decide, ?_⟩
  have hc0 : (cargar insercion esquemasSJF cargaLarga).continua = true := by decide
  have hcA : (iteracion32 insercion (cargar insercion esquemasSJF cargaLarga)).map
      (fun s => s.continua) = some true := by decide
  have hsel : (((iteracion32 insercion (cargar insercion esquemasSJF cargaLarga)).bind
      moverProcesosLlegados).bind planificar).map
      (fun r => (r.1.1, r.1.2.map (fun p => p.tiempoRestante))) =
      some (0, some 2147483647) := by decide
  have hest : (((iteracion32 insercion (cargar insercion esquemasSJF cargaLarga)).bind
      moverProcesosLlegados).bind planificar).map
      (fun r => (r.2.tiempoGlobal, r.2.esquemas, r.2.colas, r.2.colaLlegadas)) =
      some (1, esquemasSJF, [[]], []) := by decide
  obtain ⟨r, hr, hpar⟩ := Option.map_eq_some'.mp hsel
  rw [hr] at hest
  obtain ⟨s1, hs1, hplan⟩ := Option.bind_eq_some.mp hr
  obtain ⟨sA, hitA, hm⟩ := Option.bind_eq_some.mp hs1
  rw [hitA] at hcA
  have hcA2 : sA.continua = true := by simpa using hcA
  obtain ⟨⟨i, o⟩, s2⟩ := r
  simp only [Prod.mk.injEq] at hpar
  obtain ⟨hi, ho⟩ := hpar
  obtain ⟨p, hop, hrest⟩ := Option.map_eq_some'.mp ho
  have hi2 : i = 0 := hi
  have hop2 : o = some p := hop
  subst hi2
  subst hop2
  simp only [Option.map_some', Option.some.injEq, Prod.mk.injEq] at hest
  obtain ⟨ht, hesq, hcolas, hll⟩ := hest
  have ht2 : s2.tiempoGlobal = 1 := ht
  have hesq2 : s2.esquemas = esquemasSJF := hesq
  have hcolas2 : s2.colas = [[]] := hcolas
  have hll2 : s2.colaLlegadas = [] := hll
  have hitB : iteracion32 insercion sA =
      some (finalizar32 { s2 with tiempoGlobal := int32 (s2.tiempoGlobal + p.tiempoRestante) }
        { marcado p s2.tiempoGlobal with tiempoRestante := 0 }) := by
    have h1 : iteracion32 insercion sA = ejecutarConScheduler32 insercion s2 p (0 : Nat) := by
      simp only [iteracion32, hm, hplan]
      rfl
    rw [h1]
    exact sjf_forma32 insercion s2 p 0 ⟨TipoPolitica.SJF, -1⟩ (by rw [hesq2]; rfl) rfl
      (by rw [hrest]; decide)
  have hcB : (finalizar32 { s2 with tiempoGlobal := int32 (s2.tiempoGlobal + p.tiempoRestante) }
      { marcado p s2.tiempoGlobal with tiempoRestante := 0 }).continua = false := by
    simp [continua, hayProcesosPendientes, finalizar32, hcolas2, hll2]
  refine ⟨finalizar32 { s2 with tiempoGlobal := int32 (s2.tiempoGlobal + p.tiempoRestante) }
    { marcado p s2.tiempoGlobal with tiempoRestante := 0 }, ?_, ?_⟩
  · simp only [ejecutarSimulacion32, hc0, if_true, hitA, hcA2, hitB, hcB, Bool.false_eq_true,
      if_false]
  · show int32 (s2.tiempoGlobal + p.tiempoRestante) = -2147483648
    rw [ht2, hrest]
    decide

/-- C33 (amended). On a valid workload in which every record has arrival time
0 and the bursts add up to at most `INT_MAX`, for every level configuration,
the run ends, and whenever `ejecutarSimulacion` returns the clock is the sum of
the bursts of the registered records; the clock never leaves `0..INT_MAX` on
the way. -/
theorem C33_conserva_trabajo (S : StdSort) (esq : List EsquemaCola) (ps : List Proceso)
    (hv : Valido esq ps) (h0 : ∀ p ∈ ps, p.tiempoLlegada = 0)
    (hsum : (ps.map (fun p => p.tiempoRafaga)).sum ≤ INT_MAX) :
    (∃ n s2, ejecutarSimulacion32 S n (cargar S esq ps) = some s2) ∧
    (∀ n s2, ejecutarSimulacion32 S n (cargar S esq ps) = some s2 →
      s2.tiempoGlobal = (ps.map (fun p => p.tiempoRafaga)).sum ∧
      0 ≤ s2.tiempoGlobal ∧ s2.tiempoGlobal ≤ INT_MAX) ∧
    ∀ k s, iterar32 S k (cargar S esq ps) = some s →
      0 ≤ s.tiempoGlobal ∧ s.tiempoGlobal ≤ (ps.map (fun p => p.tiempoRafaga)).sum := by
  have hr : SinDesborde ps := by
    intro p hp
    rw [h0 p hp, zero_add]
    exact hsum
  obtain ⟨_, hval⟩ := simulacion_trabajo S esq ps hv h0
  refine ⟨simulacion32_termina S esq ps hv hr, ?_, ?_⟩
  · intro n s2 hrun
    rw [simulacion32_exacta S esq ps hv hr] at hrun
    have h1 := hval n s2 hrun
    obtain ⟨⟨_, _, h2, _⟩, _⟩ := simulacion_acotado S esq ps hv hr n s2 hrun
    exact ⟨h1, h2, by omega⟩
  · intro k s hk
    rw [iterar32_exacto S esq ps hv hr] at hk
    obtain ⟨hI, _⟩ := cargar_en_curso S esq ps hv
    obtain ⟨_, hcolas, _, hreloj0, hll, _⟩ := cargar_forma S esq ps
    have hini : (cargar S esq ps).tiempoGlobal +
        ((restanteTotal (cargar S esq ps).vivos : Nat) : Int) =
        (ps.map (fun p => p.tiempoRafaga)).sum := by
      have hviv : (cargar S esq ps).vivos = (cargar S esq ps).colaLlegadas := by
        unfold vivos
        rw [hcolas, flatten_replicate_nil, List.append_nil]
      rw [hreloj0, hviv, restanteTotal_perm hll, zero_add]
      apply restanteTotal_rafagas
      intro p hp
      obtain ⟨hpc, hpos, _⟩ := hv.2.2 p hp
      refine ⟨?_, hpos⟩
      rw [hpc]
      rfl
    have hinv := iterar_invariante S
      (fun s => s.EnCurso ∧ 0 ≤ s.tiempoGlobal ∧
        (∀ p ∈ s.colaLlegadas, p.tiempoLlegada = 0) ∧
        s.tiempoGlobal + ((restanteTotal s.vivos : Nat) : Int) =
          (ps.map (fun p => p.tiempoRafaga)).sum)
      (fun s s1 hs hc hi => by
        obtain ⟨hIs, hpos, hcero, hsum⟩ := hs
        obtain ⟨s4, hit, hI4, _, hlt, _⟩ := iteracion_progresa S s hIs hc
        rw [hi] at hit
        obtain rfl := Option.some.inj hit
        obtain ⟨adm, hadm⟩ := iteracion_llegadas S s s1 hi
        refine ⟨hI4, by omega, ?_, ?_⟩
        · intro p hp
          exact hcero p (by rw [hadm]; exact List.mem_append_right _ hp)
        · rcases iteracion_trabajo S s s1 hIs hc hi with ⟨a, r, hl, hgt⟩ | hw
          · have := hcero a (by rw [hl]; exact List.mem_cons_self _ _)
            omega
          · rw [hw]
            exact hsum)
      k _ s ⟨hI, by rw [hreloj0], fun p hp => h0 p (hll.subset hp), hini⟩ hk
    obtain ⟨_, h1, _, h2⟩ := hinv
    exact ⟨h1, by omega⟩

/-- C33 (amended) on the workload `A` (burst 5), `B` (burst 3), `E` (burst 4),
all of arrival 0, over the sample configuration: the run ends at clock 12. -/
theorem C33_conserva_trabajo_witness :
    ∃ s2, ejecutarSimulacion32 insercion 25
        (cargar insercion esquemasEjemplo [ejemploA, ejemploB, ejemploE]) = some s2 ∧
      s2.tiempoGlobal = 12 := by
  have hrun : (ejecutarSimulacion32 insercion 25
      (cargar insercion esquemasEjemplo [ejemploA, ejemploB, ejemploE])).isSome = true := by
    decide
  obtain ⟨s2, hs2⟩ := Option.isSome_iff_exists.mp hrun
  refine ⟨s2, hs2, ?_⟩
  rw [((C33_conserva_trabajo insercion esquemasEjemplo [ejemploA, ejemploB, ejemploE]
    (by unfold Valido; decide) (by decide) (by decide)).2.1 25 s2 hs2).1]
  decide

/-- The metrics, computed on 32-bit `int`, of a record that finishes at clock
`t + u ≤ INT_MAX`, dispatched at clock `t` with `u` units left: they are the
exact differences, and 0 ≤ response ≤ waiting ≤ turnaround ≤ `INT_MAX`. -/
theorem metricas32_en_rango (p : Proceso) (t u r0 : Int) (hu : u = p.tiempoRestante)
    (hmax : t + u ≤ INT_MAX) (h0 : 0 ≤ p.tiempoLlegada) (h1 : p.tiempoLlegada ≤ t)
    (h2 : 0 < p.tiempoRafaga)
    (h3 : p.haIniciado = false → p.tiempoRestante = p.tiempoRafaga)
    (h4 : p.haIniciado = true → p.tiempoLlegada ≤ p.tiempoInicio ∧
      p.tiempoInicio + (p.tiempoRafaga - p.tiempoRestante) ≤ t) :
    let m := (({ marcado p t with tiempoRestante := r0 } : Proceso).setTiempoFinalizacion
      (t + u)).calcularMetricas32
    m.tiempoFinalizacion = t + u ∧
    m.tiempoRetorno = m.tiempoFinalizacion - m.tiempoLlegada ∧
    m.tiempoRespuesta = m.tiempoInicio - m.tiempoLlegada ∧
    m.tiempoEspera = m.tiempoRetorno - m.tiempoRafaga ∧
    0 ≤ m.tiempoRespuesta ∧ m.tiempoRespuesta ≤ m.tiempoEspera ∧
    m.tiempoEspera ≤ m.tiempoRetorno ∧ m.tiempoRetorno ≤ INT_MAX := by
  intro m
  have hm : m = (({ marcado p t with tiempoRestante := r0 } : Proceso).setTiempoFinalizacion
      (t + u)).calcularMetricas := metricas32_exactas p t u r0 hu hmax h0 h1 h2 h3 h4
  obtain ⟨m1, m2, m3, m4⟩ := metricas_en_rango p t u r0 hu hmax h0 h1 h2 h3 h4
  rw [hm]
  exact ⟨rfl, rfl, rfl, rfl, m1, m2, m3, m4⟩

/-- The STCF bound on 32-bit `int` is the exact one when the subtraction
`proximaLlegada - tiempoGlobal` does not overflow. -/
theorem tiempoMaximoSTCF32_cabeza (s : MLFQScheduler) (p : Proceso)
    (h : ∀ a resto, s.colaLlegadas = a :: resto →
      a.tiempoLlegada - s.tiempoGlobal ≤ INT_MAX) :
    tiempoMaximoSTCF32 s p = tiempoMaximoSTCF s p := by
  unfold tiempoMaximoSTCF32 tiempoMaximoSTCF
  cases hl : s.colaLlegadas with
  | nil => rfl
  | cons a r =>
    have h1 := h a r hl
    simp only []
    split_ifs with hgt
    · rw [int32_en_rango (a.tiempoLlegada - s.tiempoGlobal) (by omega) h1]
    · rfl

/-! ## Claims on the dispatch -/

/-- C6 as stated fails.  In the run of the valid workload `L` (burst 1, arrival
time `INT_MAX`) over one Round Robin level of quantum 4, the first turn jumps
to clock `INT_MAX`; the second selects `L`, with remaining time 1, from level
0 and dispatches it for `min(4, 1) = 1` unit at clock `INT_MAX`:
`tiempoGlobal += 1` overflows, and the clock it leaves, `-2147483648`, is not
the old clock plus 1. -/
theorem C6_contraejemplo :
    Valido esquemasRR4 [procesoLimite] ∧
    (((iterar32 insercion 1 (cargar insercion esquemasRR4 [procesoLimite])).bind
        moverProcesosLlegados).bind planificar).map
      (fun r => (r.1.1, r.1.2.map (fun p => p.tiempoRestante), r.2.tiempoGlobal)) =
      some (0, some 1, INT_MAX) ∧
    (iterar32 insercion 2 (cargar insercion esquemasRR4 [procesoLimite])).map
        (fun s => s.tiempoGlobal) = some (-2147483648) ∧
    (-2147483648 : Int) ≠ INT_MAX + 1 := by
  refine ⟨by unfold Valido; decide, by decide, by decide, by decide⟩

/-- C6 (amended). Dispatching a record `p` with remaining time `r > 0` from
Round Robin level `i` with quantum `q > 0` at clock `t` runs `u = min q r > 0`
units: the remaining time becomes `r - u` and the clock becomes `t + u` wrapped
to 32 bits.  If `r - u = 0` the record, with finish time the new clock and its
metrics computed, is appended to the finished vector and the queues are
untouched; otherwise the record, with current level `j = min (i+1) (N-1)`, is
appended to the tail of queue `j` and the finished vector is untouched.

At a dispatch of the run of a valid workload within `int` (state `s2` after
the admission and selection of a turn) the quantum and the remaining time are
positive, `0 ≤ t` and `t + u ≤ INT_MAX`: the new clock is `t + u`, and the
metrics of a record that finishes there are the exact differences, with
0 ≤ response ≤ waiting ≤ turnaround ≤ `INT_MAX`. -/
theorem C6_dispatch_round_robin (S : StdSort) :
    (∀ (s2 : MLFQScheduler) (p : Proceso) (i : Nat) (e : EsquemaCola),
      s2.esquemas[i]? = some e → e.politica = TipoPolitica.ROUND_ROBIN →
      0 < e.quantum → 0 < p.tiempoRestante → i < s2.colas.length →
      let t := s2.tiempoGlobal
      let u := min e.quantum p.tiempoRestante
      let c := int32 (t + u)
      let j := min (i + 1) (s2.colas.length - 1)
      let p1 : Proceso := { marcado p t with tiempoRestante := p.tiempoRestante - u }
      0 < u ∧
      (p.tiempoRestante - u = 0 →
        ejecutarConScheduler32 S s2 p i =
          some { s2 with
            tiempoGlobal := c
            procesosFinalizados := s2.procesosFinalizados ++
              [(p1.setTiempoFinalizacion c).calcularMetricas32] }) ∧
      (p.tiempoRestante - u ≠ 0 →
        ∃ q, s2.colas[j]? = some q ∧
          ejecutarConScheduler32 S s2 p i =
            some { s2 with
              tiempoGlobal := c
              colas := s2.colas.set j (q ++ [p1.setCola (j : Int)]) })) ∧
    (∀ (esq : List EsquemaCola) (ps : List Proceso) (k : Nat) (s s1 s2 : MLFQScheduler)
      (i : Nat) (p : Proceso) (e : EsquemaCola),
      Valido esq ps → SinDesborde ps →
      iterar32 S k (cargar S esq ps) = some s →
      moverProcesosLlegados s = some s1 →
      planificar s1 = some (((i : Int), some p), s2) →
      s2.esquemas[i]? = some e → e.politica = TipoPolitica.ROUND_ROBIN →
      let t := s2.tiempoGlobal
      let u := min e.quantum p.tiempoRestante
      let p1 : Proceso := { marcado p t with tiempoRestante := p.tiempoRestante - u }
      iteracion32 S s = ejecutarConScheduler32 S s2 p i ∧
      0 < e.quantum ∧ 0 < p.tiempoRestante ∧ i < s2.colas.length ∧
      0 ≤ t ∧ t + u ≤ INT_MAX ∧ int32 (t + u) = t + u ∧
      (p.tiempoRestante - u = 0 →
        let m := (p1.setTiempoFinalizacion (t + u)).calcularMetricas32
        m.tiempoFinalizacion = t + u ∧
        m.tiempoRetorno = m.tiempoFinalizacion - m.tiempoLlegada ∧
        m.tiempoRespuesta = m.tiempoInicio - m.tiempoLlegada ∧
        m.tiempoEspera = m.tiempoRetorno - m.tiempoRafaga ∧
        0 ≤ m.tiempoRespuesta ∧ m.tiempoRespuesta ≤ m.tiempoEspera ∧
        m.tiempoEspera ≤ m.tiempoRetorno ∧ m.tiempoRetorno ≤ INT_MAX)) := by
  refine ⟨?_, ?_⟩
  · intro s2 p i e he hrr hq hr0 hi t u c j p1
    have hu0 : 0 < u := lt_min hq hr0
    have hj : (min ((i : Int) + 1) ((s2.colas.length : Int) - 1)) = (j : Int) := by
      show _ = ((min (i + 1) (s2.colas.length - 1) : Nat) : Int)
      omega
    have hjlt : j < s2.colas.length := by
      show min (i + 1) (s2.colas.length - 1) < _
      omega
    have hexec := rr_forma32 S s2 p i e he hrr u rfl hu0.le j hj
    refine ⟨hu0, ?_, ?_⟩
    · intro hfin
      have hc : p1.estaCompleto = true := by
        simp [Proceso.estaCompleto, p1, hfin]
      rw [hexec]
      exact if_pos hc
    · intro hnf
      have hc : p1.estaCompleto = false := by
        have : 0 < p.tiempoRestante - u := by
          have := min_le_right e.quantum p.tiempoRestante
          omega
        simp only [Proceso.estaCompleto, p1, decide_eq_false_iff_not, not_le]
        exact this
      refine ⟨s2.colas[j], List.getElem?_eq_getElem hjlt, ?_⟩
      rw [hexec]
      show (if p1.estaCompleto = true then _ else _) = _
      rw [hc]
      simp only [Bool.false_eq_true, if_false, empujar_nat _ _ _ hjlt]
  · intro esq ps k s s1 s2 i p e hv hr hk hm hp he hrr t u p1
    rw [iterar32_exacto S esq ps hv hr] at hk
    obtain ⟨_, ⟨j0, e0, hij, he0, hi, hq0⟩, hr0, ht0, hmax, _, f3, f4, f5, f6, f7⟩ :=
      turno_despacho S esq ps hv hr k s s1 s2 i p hk hm hp
    have hji : j0 = i := by omega
    subst hji
    rw [he] at he0
    obtain rfl := Option.some.inj he0
    have hq := hq0 hrr
    have hu0 : 0 < u := lt_min hq hr0
    have hule : u ≤ p.tiempoRestante := min_le_right _ _
    refine ⟨by simp only [iteracion32, hm, hp], hq, hr0, hi, ht0, by omega,
      int32_en_rango _ (by omega) (by omega), ?_⟩
    intro hfin
    exact metricas32_en_rango p t u (p.tiempoRestante - u) (by omega) (by omega) f3 f4 f5 f6 f7

/-- C6 (amended) on the first turn of the run of `A`, `B`, `C` over the sample
configuration: `A` (remaining 5) is selected from level 0, Round Robin with
quantum 2, at clock 0, runs 2 units and is requeued at level 1. -/
theorem C6_dispatch_round_robin_witness :
    ∃ s1 s2 p q, moverProcesosLlegados
        (cargar insercion esquemasEjemplo [ejemploA, ejemploB, ejemploC]) = some s1 ∧
      planificar s1 = some ((0, some p), s2) ∧
      p.etiqueta = "A" ∧ p.tiempoRestante = 5 ∧ s2.tiempoGlobal = 0 ∧
      s2.colas[1]? = some q ∧
      ejecutarConScheduler32 insercion s2 p 0 =
        some { s2 with
          tiempoGlobal := s2.tiempoGlobal + min 2 p.tiempoRestante
          colas := s2.colas.set 1 (q ++ [({ marcado p s2.tiempoGlobal with
            tiempoRestante := p.tiempoRestante - min 2 p.tiempoRestante } : Proceso).setCola
              1]) } := by
  have h1 : ((moverProcesosLlegados
      (cargar insercion esquemasEjemplo [ejemploA, ejemploB, ejemploC])).bind
      planificar).map (fun r => (r.1.1, r.1.2.map (fun p => (p.etiqueta, p.tiempoRestante)),
        (r.2.esquemas, r.2.tiempoGlobal, r.2.colas.length))) =
      some (0, some ("A", 5), (esquemasEjemplo, 0, 3)) := by decide
  obtain ⟨r, hr, hpar⟩ := Option.map_eq_some'.mp h1
  obtain ⟨s1, hs1, hplan⟩ := Option.bind_eq_some.mp hr
  obtain ⟨⟨i, o⟩, s2⟩ := r
  simp only [Prod.mk.injEq] at hpar
  obtain ⟨hi, ho, hesq, ht, hlen⟩ := hpar
  obtain ⟨p, hop, hpd⟩ := Option.map_eq_some'.mp ho
  simp only [Prod.mk.injEq] at hpd
  have hi2 : i = 0 := hi
  have hop2 : o = some p := hop
  have hesq2 : s2.esquemas = esquemasEjemplo := hesq
  have ht2 : s2.tiempoGlobal = 0 := ht
  have hlen2 : s2.colas.length = 3 := hlen
  subst hi2
  subst hop2
  have hC := C6_dispatch_round_robin insercion
  have he : s2.esquemas[0]? = some ⟨TipoPolitica.ROUND_ROBIN, 2⟩ := by rw [hesq2]; rfl
  obtain ⟨_, _, _, _, _, _, h32, _⟩ := hC.2 esquemasEjemplo [ejemploA, ejemploB, ejemploC] 0
    (cargar insercion esquemasEjemplo [ejemploA, ejemploB, ejemploC]) s1 s2 0 p
    ⟨TipoPolitica.ROUND_ROBIN, 2⟩ (by unfold Valido; decide) (by unfold SinDesborde; decide)
    rfl hs1 hplan he rfl
  obtain ⟨q, hq, hej⟩ := (hC.1 s2 p 0 ⟨TipoPolitica.ROUND_ROBIN, 2⟩ he rfl (by decide)
    (by rw [hpd.2]; decide) (by rw [hlen2]; decide)).2.2 (by
      show p.tiempoRestante - min 2 p.tiempoRestante ≠ 0
      rw [hpd.2]; decide)
  have hj : min (0 + 1) (s2.colas.length - 1) = 1 := by rw [hlen2]; rfl
  rw [hj] at hq hej
  have h32b : int32 (s2.tiempoGlobal + min 2 p.tiempoRestante) =
      s2.tiempoGlobal + min 2 p.tiempoRestante := h32
  rw [h32b] at hej
  exact ⟨s1, s2, p, q, hs1, hplan, hpd.1, hpd.2, ht2, hq, hej⟩

/-- C7 as stated fails.  In the run of the valid workload `L` (burst 1, arrival
time `INT_MAX`) over one SJF level, the first turn jumps to clock `INT_MAX`;
the second selects `L`, with remaining time 1, from level 0 and runs it to
completion at clock `INT_MAX`: `tiempoGlobal += 1` overflows, and the clock and
the finish time it leaves, `-2147483648`, are not the old clock plus 1. -/
theorem C7_contraejemplo :
    Valido esquemasSJF [procesoLimite] ∧
    (((iterar32 insercion 1 (cargar insercion esquemasSJF [procesoLimite])).bind
        moverProcesosLlegados).bind planificar).map
      (fun r => (r.1.1, r.1.2.map (fun p => p.tiempoRestante), r.2.tiempoGlobal)) =
      some (0, some 1, INT_MAX) ∧
    (iterar32 insercion 2 (cargar insercion esquemasSJF [procesoLimite])).map
        (fun s => (s.tiempoGlobal, s.procesosFinalizados.map (fun p => p.tiempoFinalizacion))) =
      some (-2147483648, [-2147483648]) ∧
    (-2147483648 : Int) ≠ INT_MAX + 1 := by
  refine ⟨by unfold Valido; decide, by decide, by decide, by decide⟩

/-- C7 (amended). Dispatching a record `p` with remaining time `r ≥ 0` from an
SJF level at clock `t`, whatever the admission vector holds, runs `r` units in
that single dispatch: the clock becomes `t + r` wrapped to 32 bits, and the
record, with remaining time 0, finish time the new clock and its metrics
computed, is appended to the finished vector; the level queues and the
admission vector are untouched.

At a dispatch of the run of a valid workload within `int` (state `s2` after
the admission and selection of a turn) the remaining time is positive,
`0 ≤ t` and `t + r ≤ INT_MAX`: the new clock is `t + r`, and the metrics of
the record are the exact differences, with
0 ≤ response ≤ waiting ≤ turnaround ≤ `INT_MAX`. -/
theorem C7_dispatch_sjf (S : StdSort) :
    (∀ (s2 : MLFQScheduler) (p : Proceso) (i : Nat) (e : EsquemaCola),
      s2.esquemas[i]? = some e → e.politica = TipoPolitica.SJF → 0 ≤ p.tiempoRestante →
      let t := s2.tiempoGlobal
      let c := int32 (t + p.tiempoRestante)
      let p1 : Proceso := { marcado p t with tiempoRestante := 0 }
      ejecutarConScheduler32 S s2 p i =
        some { s2 with
          tiempoGlobal := c
          procesosFinalizados := s2.procesosFinalizados ++
            [(p1.setTiempoFinalizacion c).calcularMetricas32] }) ∧
    (∀ (esq : List EsquemaCola) (ps : List Proceso) (k : Nat) (s s1 s2 : MLFQScheduler)
      (i : Nat) (p : Proceso) (e : EsquemaCola),
      Valido esq ps → SinDesborde ps →
      iterar32 S k (cargar S esq ps) = some s →
      moverProcesosLlegados s = some s1 →
      planificar s1 = some (((i : Int), some p), s2) →
      s2.esquemas[i]? = some e → e.politica = TipoPolitica.SJF →
      let t := s2.tiempoGlobal
      let r := p.tiempoRestante
      let p1 : Proceso := { marcado p t with tiempoRestante := 0 }
      iteracion32 S s = ejecutarConScheduler32 S s2 p i ∧
      0 < r ∧ 0 ≤ t ∧ t + r ≤ INT_MAX ∧ int32 (t + r) = t + r ∧
      (let m := (p1.setTiempoFinalizacion (t + r)).calcularMetricas32
       m.tiempoFinalizacion = t + r ∧
       m.tiempoRetorno = m.tiempoFinalizacion - m.tiempoLlegada ∧
       m.tiempoRespuesta = m.tiempoInicio - m.tiempoLlegada ∧
       m.tiempoEspera = m.tiempoRetorno - m.tiempoRafaga ∧
       0 ≤ m.tiempoRespuesta ∧ m.tiempoRespuesta ≤ m.tiempoEspera ∧
       m.tiempoEspera ≤ m.tiempoRetorno ∧ m.tiempoRetorno ≤ INT_MAX)) := by
  refine ⟨?_, ?_⟩
  · intro s2 p i e he hsjf hr0 t c p1
    rw [sjf_forma32 S s2 p i e he hsjf hr0]
    rfl
  · intro esq ps k s s1 s2 i p e hv hr hk hm hp he hsjf t r p1
    rw [iterar32_exacto S esq ps hv hr] at hk
    obtain ⟨_, _, hr0, ht0, hmax, _, f3, f4, f5, f6, f7⟩ :=
      turno_despacho S esq ps hv hr k s s1 s2 i p hk hm hp
    exact ⟨by simp only [iteracion32, hm, hp], hr0, ht0, hmax,
      int32_en_rango _ (by omega) hmax,
      metricas32_en_rango p t r 0 rfl hmax f3 f4 f5 f6 f7⟩

/-- C7 (amended) on the first turn of the run of `W`, `A`, `X`, `B` over one
SJF level: `W` (remaining 10) is selected at clock 0 and runs its 10 units in
one dispatch, although `A`, `X` and `B`, arriving at 1, 2 and 3, are
pending. -/
theorem C7_dispatch_sjf_witness :
    ∃ s1 s2 p, moverProcesosLlegados (cargar insercion esquemasSJF cargaSJF) = some s1 ∧
      planificar s1 = some ((0, some p), s2) ∧
      p.etiqueta = "W" ∧ p.tiempoRestante = 10 ∧ s2.tiempoGlobal = 0 ∧
      s2.colaLlegadas.map (fun a => a.tiempoLlegada) = [1, 2, 3] ∧
      ejecutarConScheduler32 insercion s2 p 0 =
        some { s2 with
          tiempoGlobal := s2.tiempoGlobal + p.tiempoRestante
          procesosFinalizados := s2.procesosFinalizados ++
            [((({ marcado p s2.tiempoGlobal with tiempoRestante := 0 } :
              Proceso).setTiempoFinalizacion
                (s2.tiempoGlobal + p.tiempoRestante)).calcularMetricas32)] } := by
  have h1 : ((moverProcesosLlegados (cargar insercion esquemasSJF cargaSJF)).bind
      planificar).map (fun r => (r.1.1, r.1.2.map (fun p => (p.etiqueta, p.tiempoRestante)),
        (r.2.esquemas, r.2.tiempoGlobal, r.2.colaLlegadas.map (fun a => a.tiempoLlegada)))) =
      some (0, some ("W", 10), (esquemasSJF, 0, [1, 2, 3])) := by decide
  obtain ⟨r, hr, hpar⟩ := Option.map_eq_some'.mp h1
  obtain ⟨s1, hs1, hplan⟩ := Option.bind_eq_some.mp hr
  obtain ⟨⟨i, o⟩, s2⟩ := r
  simp only [Prod.mk.injEq] at hpar
  obtain ⟨hi, ho, hesq, ht, hll⟩ := hpar
  obtain ⟨p, hop, hpd⟩ := Option.map_eq_some'.mp ho
  simp only [Prod.mk.injEq] at hpd
  have hi2 : i = 0 := hi
  have hop2 : o = some p := hop
  have hesq2 : s2.esquemas = esquemasSJF := hesq
  subst hi2
  subst hop2
  have hC := C7_dispatch_sjf insercion
  have he : s2.esquemas[0]? = some ⟨TipoPolitica.SJF, -1⟩ := by rw [hesq2]; rfl
  obtain ⟨_, _, _, _, h32, _⟩ := hC.2 esquemasSJF cargaSJF 0
    (cargar insercion esquemasSJF cargaSJF) s1 s2 0 p ⟨TipoPolitica.SJF, -1⟩
    (by unfold Valido; decide) (by unfold SinDesborde; decide) rfl hs1 hplan he rfl
  have hej : ejecutarConScheduler32 insercion s2 p 0 =
      some { s2 with
        tiempoGlobal := int32 (s2.tiempoGlobal + p.tiempoRestante)
        procesosFinalizados := s2.procesosFinalizados ++
          [((({ marcado p s2.tiempoGlobal with tiempoRestante := 0 } :
            Proceso).setTiempoFinalizacion
              (int32 (s2.tiempoGlobal + p.tiempoRestante))).calcularMetricas32)] } :=
    hC.1 s2 p 0 ⟨TipoPolitica.SJF, -1⟩ he rfl (by rw [hpd.2]; decide)
  have h32b : int32 (s2.tiempoGlobal + p.tiempoRestante) =
      s2.tiempoGlobal + p.tiempoRestante := h32
  rw [h32b] at hej
  exact ⟨s1, s2, p, hs1, hplan, hpd.1, hpd.2, ht, hll, hej⟩

/-- C8 as stated fails.  In the run of the valid workload `L` (burst 1, arrival
time `INT_MAX`) over one STCF level, the first turn jumps to clock `INT_MAX`;
the second selects `L`, with remaining time 1, from level 0 and, the admission
vector being empty, dispatches it for `b = 1` unit at clock `INT_MAX`:
`tiempoGlobal += 1` overflows, and the clock and the finish time it leaves,
`-2147483648`, are not the old clock plus 1. -/
theorem C8_contraejemplo :
    Valido esquemasSTCF [procesoLimite] ∧
    (((iterar32 insercion 1 (cargar insercion esquemasSTCF [procesoLimite])).bind
        moverProcesosLlegados).bind planificar).map
      (fun r => (r.1.1, r.1.2.map (fun p => p.tiempoRestante),
        (r.2.tiempoGlobal, r.2.colaLlegadas.length))) =
      some (0, some 1, (INT_MAX, 0)) ∧
    (iterar32 insercion 2 (cargar insercion esquemasSTCF [procesoLimite])).map
        (fun s => (s.tiempoGlobal, s.procesosFinalizados.map (fun p => p.tiempoFinalizacion))) =
      some (-2147483648, [-2147483648]) ∧
    (-2147483648 : Int) ≠ INT_MAX + 1 := by
  refine ⟨by unfold Valido; decide, by decide, by decide, by decide⟩

/-- C8 (amended). Dispatching a record `p` with remaining time `r > 0` from
STCF level `i` at clock `t`, when the first record of the admission vector, if
there is one, has an arrival time `a` later than the clock with
`a - t ≤ INT_MAX`, runs `b` units, where `b = r` when the admission vector is
empty and `b = min r (a - t)` otherwise; `0 < b ≤ r`, and the clock becomes
`t + b` wrapped to 32 bits.  If `r - b = 0` the record, with remaining time 0,
finish time the new clock and its metrics computed, is appended to the
finished vector; otherwise it is appended to the tail of the same queue `i`
with its current level unchanged.

At a dispatch of the run of a valid workload within `int` (state `s2` after
the admission and selection of a turn) the remaining time is positive,
`0 ≤ t`, every pending record has an arrival time `a` with `t < a ≤ INT_MAX`,
and `t + b ≤ INT_MAX`: the new clock is `t + b`, and the metrics of a record
that finishes there are the exact differences, with
0 ≤ response ≤ waiting ≤ turnaround ≤ `INT_MAX`. -/
theorem C8_dispatch_stcf (S : StdSort) :
    (∀ (s2 : MLFQScheduler) (p : Proceso) (i : Nat) (e : EsquemaCola),
      s2.esquemas[i]? = some e → e.politica = TipoPolitica.STCF →
      0 < p.tiempoRestante → i < s2.colas.length →
      (∀ a resto, s2.colaLlegadas = a :: resto →
        s2.tiempoGlobal < a.tiempoLlegada ∧ a.tiempoLlegada - s2.tiempoGlobal ≤ INT_MAX) →
      let t := s2.tiempoGlobal
      let r := p.tiempoRestante
      let p1 : Proceso := { marcado p t with tiempoRestante := 0 }
      ∃ b : Int,
        (s2.colaLlegadas = [] → b = r) ∧
        (∀ a resto, s2.colaLlegadas = a :: resto → b = min r (a.tiempoLlegada - t)) ∧
        0 < b ∧ b ≤ r ∧
        (r - b = 0 →
          ejecutarConScheduler32 S s2 p i =
            some { s2 with
              tiempoGlobal := int32 (t + b)
              procesosFinalizados := s2.procesosFinalizados ++
                [(p1.setTiempoFinalizacion (int32 (t + b))).calcularMetricas32] }) ∧
        (r - b ≠ 0 →
          ∃ q, s2.colas[i]? = some q ∧ (marcado p t).cola = p.cola ∧
            ejecutarConScheduler32 S s2 p i =
              some { s2 with
                tiempoGlobal := int32 (t + b)
                colas := s2.colas.set i
                  (q ++ [{ marcado p t with tiempoRestante := r - b }]) })) ∧
    (∀ (esq : List EsquemaCola) (ps : List Proceso) (k : Nat) (s s1 s2 : MLFQScheduler)
      (i : Nat) (p : Proceso) (e : EsquemaCola),
      Valido esq ps → SinDesborde ps →
      iterar32 S k (cargar S esq ps) = some s →
      moverProcesosLlegados s = some s1 →
      planificar s1 = some (((i : Int), some p), s2) →
      s2.esquemas[i]? = some e → e.politica = TipoPolitica.STCF →
      let t := s2.tiempoGlobal
      let r := p.tiempoRestante
      let p1 : Proceso := { marcado p t with tiempoRestante := 0 }
      iteracion32 S s = ejecutarConScheduler32 S s2 p i ∧
      0 < r ∧ i < s2.colas.length ∧ 0 ≤ t ∧ t + r ≤ INT_MAX ∧
      (∀ a ∈ s2.colaLlegadas, t < a.tiempoLlegada ∧ a.tiempoLlegada ≤ INT_MAX ∧
        a.tiempoLlegada - t ≤ INT_MAX) ∧
      (∀ b : Int, 0 < b → b ≤ r → int32 (t + b) = t + b) ∧
      (let m := (p1.setTiempoFinalizacion (t + r)).calcularMetricas32
       m.tiempoFinalizacion = t + r ∧
       m.tiempoRetorno = m.tiempoFinalizacion - m.tiempoLlegada ∧
       m.tiempoRespuesta = m.tiempoInicio - m.tiempoLlegada ∧
       m.tiempoEspera = m.tiempoRetorno - m.tiempoRafaga ∧
       0 ≤ m.tiempoRespuesta ∧ m.tiempoRespuesta ≤ m.tiempoEspera ∧
       m.tiempoEspera ≤ m.tiempoRetorno ∧ m.tiempoRetorno ≤ INT_MAX)) := by
  refine ⟨?_, ?_⟩
  · intro s2 p i e he hstcf hr0 hi hcab t r p1
    obtain ⟨b, hmb, h0, hle, hpos, hvac, hfut, _⟩ := stcf_unidades s2 p hr0.le
    have hmb32 : min (tiempoMaximoSTCF32 s2 (marcado p s2.tiempoGlobal)) p.tiempoRestante = b := by
      rw [tiempoMaximoSTCF32_cabeza s2 _ (fun a resto hl => (hcab a resto hl).2)]
      exact hmb
    have hexec := stcf_forma32 S s2 p i e he hstcf b hmb32 h0
    have hb0 := hpos hr0
    refine ⟨b, hvac, ?_, hb0, hle, ?_, ?_⟩
    · intro a resto hl
      exact hfut a resto hl (hcab a resto hl).1
    · intro hfin
      rw [hexec, hfin]
      rfl
    · intro hnf
      have hc : ({ marcado p t with tiempoRestante := r - b } : Proceso).estaCompleto = false := by
        have : 0 < r - b := by omega
        simp only [Proceso.estaCompleto, decide_eq_false_iff_not, not_le]
        exact this
      refine ⟨s2.colas[i], List.getElem?_eq_getElem hi, marcado_cola p t, ?_⟩
      rw [hexec]
      show (if ({ marcado p t with tiempoRestante := r - b } : Proceso).estaCompleto = true
        then _ else _) = _
      rw [hc]
      simp only [Bool.false_eq_true, if_false, empujar_nat _ _ _ hi]
  · intro esq ps k s s1 s2 i p e hv hr hk hm hp he hstcf t r p1
    rw [iterar32_exacto S esq ps hv hr] at hk
    obtain ⟨_, ⟨j0, e0, hij, _, hi, _⟩, hr0, ht0, hmax, hpend, f3, f4, f5, f6, f7⟩ :=
      turno_despacho S esq ps hv hr k s s1 s2 i p hk hm hp
    have hji : j0 = i := by omega
    subst hji
    refine ⟨by simp only [iteracion32, hm, hp], hr0, hi, ht0, hmax, ?_, ?_,
      metricas32_en_rango p t r 0 rfl hmax f3 f4 f5 f6 f7⟩
    · intro a ha
      obtain ⟨h1, h2⟩ := hpend a ha
      exact ⟨h1, h2, by omega⟩
    · intro b hb0 hble
      exact int32_en_rango _ (by omega) (by omega)

/-- C8 (amended) on the first turn of the run of `F`, `G` over the sample
configuration: `F` (remaining 5) is selected from the STCF level 2 at clock 0
while `G`, arriving at 3, is pending; the dispatch runs `min 5 (3 - 0) = 3`
units and `F` goes back to the tail of queue 2. -/
theorem C8_dispatch_stcf_witness :
    ∃ s1 s2 p b, moverProcesosLlegados (cargar insercion esquemasEjemplo cargaSTCF) = some s1 ∧
      planificar s1 = some ((2, some p), s2) ∧
      p.etiqueta = "F" ∧ p.tiempoRestante = 5 ∧ s2.tiempoGlobal = 0 ∧
      s2.colaLlegadas.map (fun a => a.tiempoLlegada) = [3] ∧
      b = 3 ∧
      ∃ q, s2.colas[2]? = some q ∧
        ejecutarConScheduler32 insercion s2 p 2 =
          some { s2 with
            tiempoGlobal := s2.tiempoGlobal + b
            colas := s2.colas.set 2 (q ++ [{ marcado p s2.tiempoGlobal with
              tiempoRestante := p.tiempoRestante - b }]) } := by
  have h1 : ((moverProcesosLlegados (cargar insercion esquemasEjemplo cargaSTCF)).bind
      planificar).map (fun r => (r.1.1, r.1.2.map (fun p => (p.etiqueta, p.tiempoRestante)),
        (r.2.esquemas, r.2.tiempoGlobal, r.2.colaLlegadas.map (fun a => a.tiempoLlegada)))) =
      some (2, some ("F", 5), (esquemasEjemplo, 0, [3])) := by decide
  obtain ⟨r, hr, hpar⟩ := Option.map_eq_some'.mp h1
  obtain ⟨s1, hs1, hplan⟩ := Option.bind_eq_some.mp hr
  obtain ⟨⟨i, o⟩, s2⟩ := r
  simp only [Prod.mk.injEq] at hpar
  obtain ⟨hi, ho, hesq, ht, hll⟩ := hpar
  obtain ⟨p, hop, hpd⟩ := Option.map_eq_some'.mp ho
  simp only [Prod.mk.injEq] at hpd
  have hi2 : i = 2 := hi
  have hop2 : o = some p := hop
  have hesq2 : s2.esquemas = esquemasEjemplo := hesq
  have ht2 : s2.tiempoGlobal = 0 := ht
  have hll2 : s2.colaLlegadas.map (fun a => a.tiempoLlegada) = [3] := hll
  subst hi2
  subst hop2
  have hC := C8_dispatch_stcf insercion
  have he : s2.esquemas[2]? = some ⟨TipoPolitica.STCF, -1⟩ := by rw [hesq2]; rfl
  obtain ⟨_, hr0, hi3, _, _, hpend, h32, _⟩ := hC.2 esquemasEjemplo cargaSTCF 0
    (cargar insercion esquemasEjemplo cargaSTCF) s1 s2 2 p ⟨TipoPolitica.STCF, -1⟩
    (by unfold Valido; decide) (by unfold SinDesborde; decide) rfl hs1 hplan he rfl
  obtain ⟨b, _, hfut, hb0, hble, _, hrq⟩ := hC.1 s2 p 2 ⟨TipoPolitica.STCF, -1⟩ he rfl hr0 hi3
    (fun a resto hl => by
      obtain ⟨h1, _, h3⟩ := hpend a (by rw [hl]; exact List.mem_cons_self _ _)
      exact ⟨h1, h3⟩)
  obtain ⟨a, resto, hl⟩ : ∃ a resto, s2.colaLlegadas = a :: resto := by
    cases hl : s2.colaLlegadas with
    | nil => rw [hl] at hll2; cases hll2
    | cons a resto => exact ⟨a, resto, rfl⟩
  have ha : a.tiempoLlegada = 3 := by
    rw [hl] at hll2
    simp only [List.map_cons, List.cons.injEq] at hll2
    exact hll2.1
  have hb : b = 3 := by
    have := hfut a resto hl
    rw [this, ha, ht2, hpd.2]
    decide
  obtain ⟨q, hq, _, hej⟩ := hrq (by rw [hb, hpd.2]; decide)
  rw [h32 b hb0 hble] at hej
  exact ⟨s1, s2, p, b, hs1, hplan, hpd.1, hpd.2, ht2, hll2, hb, q, hq, hej⟩

/-- C27 as stated fails: the tied record closest to the front need not be the
earliest inserted.  On a single SJF level, in the run of `W`, `Y`, `Z`, `B`
(`Y` registered before `Z`, both of burst 5 and arrival time 1), the second
turn, at clock 10, admits `Y`, `Z`, `B` to the queue in this order and selects
`B`; its scan leaves `Z` before `Y`.  The third turn finds `Z` and `Y` tied on
remaining time 5 and arrival time 1 and returns `Z`, the one closest to the
front, although `Y` was inserted into the queue before `Z`: `Z` finishes at
18, `Y` at 23. -/
theorem C27_contraejemplo :
    ((iterar insercion 1 (cargar insercion esquemasSJF cargaEmpate)).bind
        moverProcesosLlegados).map
      (fun s => s.colas.map (fun c => c.map (fun p => p.etiqueta))) =
      some [["Y", "Z", "B"]] ∧
    (iterar insercion 2 (cargar insercion esquemasSJF cargaEmpate)).map
      (fun s => s.colas.map (fun c => c.map
        (fun p => (p.etiqueta, p.tiempoRestante, p.tiempoLlegada)))) =
      some [[("Z", 5, 1), ("Y", 5, 1)]] ∧
    (((iterar insercion 2 (cargar insercion esquemasSJF cargaEmpate)).bind
        moverProcesosLlegados).bind planificar).map
      (fun r => r.1.2.map (fun p => p.etiqueta)) = some (some "Z") ∧
    (ejecutarSimulacion insercion 10 (cargar insercion esquemasSJF cargaEmpate)).map
      (fun s => s.procesosFinalizados.map (fun p => (p.etiqueta, p.tiempoFinalizacion))) =
      some [("W", 10), ("B", 13), ("Z", 18), ("Y", 23)] := by
  refine ⟨by decide, by decide, by decide, by decide⟩

/-! ## The sort of libstdc++ on short vectors -/

/-- Writing at the position right after a prefix. -/
theorem set_tras (K : List Proceso) (h z : Proceso) (M : List Proceso) :
    (K ++ h :: M).set K.length z = K ++ z :: M := by
  induction K with
  | nil => rfl
  | cons a K ih => simp only [List.cons_append, List.length_cons, List.set_cons_succ, ih]

/-- Reading at the position right after a prefix. -/
theorem get_tras (K : List Proceso) (h : Proceso) (M : List Proceso) :
    (K ++ h :: M)[K.length]? = some h := by
  rw [List.getElem?_append_right (le_refl _), Nat.sub_self, List.getElem?_cons_zero]

/-- What `__unguarded_linear_insert` does to a vector `K ++ h :: M` whose
position `K.length` is free: the elements at the end of `K` that are greater
than `val` move one place to the right and `val` lands before them. -/
theorem unguardedLinearInsert_forma (lt : Proceso → Proceso → Bool) (val : Proceso) (n : Nat) :
    ∀ (K : List Proceso) (h : Proceso) (M : List Proceso), K.length ≤ n →
      ∃ K1 K2, K = K1 ++ K2 ∧ (∀ y ∈ K2, lt val y = true) ∧
        (∀ z, K1.getLast? = some z → lt val z = false) ∧
        Libstdcxx.unguardedLinearInsert lt val n (K ++ h :: M) K.length =
          K1 ++ val :: (K2 ++ M) := by
  induction n with
  | zero =>
    intro K h M hK
    have hK0 : K = [] := List.eq_nil_of_length_eq_zero (by omega)
    subst hK0
    exact ⟨[], [], rfl, (fun y hy => by cases hy), (fun z hz => by cases hz), rfl⟩
  | succ n ih =>
    intro K h M hK
    rcases List.eq_nil_or_concat K with hK0 | ⟨K', y, hKy⟩
    · subst hK0
      exact ⟨[], [], rfl, (fun y hy => by cases hy), (fun z hz => by cases hz), rfl⟩
    · rw [List.concat_eq_append] at hKy
      subst hKy
      have hlen : (K' ++ [y]).length = K'.length + 1 := by simp
      have hrew : ∀ w, K' ++ [y] ++ w :: M = K' ++ y :: (w :: M) := by intro w; simp
      have hget : (K' ++ [y] ++ h :: M)[(K' ++ [y]).length - 1]? = some y := by
        rw [hlen, Nat.add_sub_cancel, hrew]
        exact get_tras K' y (h :: M)
      have hne : ¬ (K' ++ [y]).length = 0 := by rw [hlen]; omega
      rw [Libstdcxx.unguardedLinearInsert, if_neg hne, hget]
      by_cases hlt : lt val y = true
      · simp only [hlt, if_true]
        rw [set_tras]
        have hl2 : (K' ++ [y]).length - 1 = K'.length := by rw [hlen]; omega
        rw [hrew, hl2]
        obtain ⟨K1, K2, hsplit, hK2, hK1, hres⟩ := ih K' y (y :: M) (by rw [hlen] at hK; omega)
        refine ⟨K1, K2 ++ [y], by rw [hsplit, List.append_assoc], ?_, hK1, ?_⟩
        · intro w hw
          rcases List.mem_append.mp hw with h1 | h1
          · exact hK2 w h1
          · rw [List.mem_singleton.mp h1]; exact hlt
        · rw [hres]
          simp
      · simp only [hlt, Bool.false_eq_true, if_false]
        rw [set_tras]
        refine ⟨K' ++ [y], [], by simp, (fun w hw => by cases hw), ?_, by simp⟩
        intro z hz
        have hz2 : z = y := by simpa using hz.symm
        rw [hz2]
        simpa using hlt

/-- One turn of the loop of `__insertion_sort` with the arrival-time
comparator, on a vector whose first `A.length ≥ 1` records are in order: the
next record `x` joins them, the records at the end that arrive later than `x`
moving one place to the right (all of them, when `x` arrives before the first
record).  The prefix stays in order, and records of equal arrival time keep
their relative order. -/
theorem insertionPaso_forma (A : List Proceso) (x : Proceso) (B : List Proceso)
    (hA : A ≠ [])
    (hs : A.Pairwise (fun a b => a.tiempoLlegada ≤ b.tiempoLlegada)) :
    ∃ A2, Libstdcxx.insertionPaso menorLlegada (A ++ x :: B) 0 A.length = A2 ++ B ∧
      A2.length = A.length + 1 ∧
      A2.Pairwise (fun a b => a.tiempoLlegada ≤ b.tiempoLlegada) ∧
      ∀ t : Int, A2.filter (fun a => decide (a.tiempoLlegada = t)) =
        (A ++ [x]).filter (fun a => decide (a.tiempoLlegada = t)) := by
  obtain ⟨a0, A1, rfl⟩ := List.exists_cons_of_ne_nil hA
  have hcomp : Libstdcxx.comp menorLlegada (a0 :: A1 ++ x :: B) (a0 :: A1).length 0 =
      menorLlegada x a0 := by
    unfold Libstdcxx.comp
    rw [get_tras]
    have h0 : (a0 :: A1 ++ x :: B)[0]? = some a0 := by simp
    rw [h0]
  unfold Libstdcxx.insertionPaso
  rw [get_tras]
  simp only [hcomp]
  by_cases hlt : menorLlegada x a0 = true
  · rw [if_pos hlt]
    have hx : x.tiempoLlegada < a0.tiempoLlegada := by
      simpa [menorLlegada] using hlt
    have hall : ∀ a ∈ a0 :: A1, x.tiempoLlegada < a.tiempoLlegada := by
      intro a ha
      rcases List.mem_cons.mp ha with h1 | h1
      · rw [h1]; exact hx
      · have := (List.pairwise_cons.mp hs).1 a h1
        omega
    refine ⟨x :: a0 :: A1, ?_, rfl, List.pairwise_cons.mpr ⟨fun a ha => (hall a ha).le, hs⟩, ?_⟩
    · simp
    · intro t
      rw [List.filter_append, List.filter_cons]
      by_cases hxt : x.tiempoLlegada = t
      · have hvac : (a0 :: A1).filter (fun a => decide (a.tiempoLlegada = t)) = [] := by
          rw [List.filter_eq_nil_iff]
          intro a ha
          have := hall a ha
          simp only [decide_eq_true_eq]
          omega
        simp [hxt, hvac]
      · simp [hxt]
  · rw [if_neg hlt]
    obtain ⟨K1, K2, hsplit, hK2, hK1, hres⟩ :=
      unguardedLinearInsert_forma menorLlegada x (a0 :: A1 ++ x :: B).length (a0 :: A1) x B
        (by simp only [List.length_append]; omega)
    rw [hres]
    have hK2lt : ∀ y ∈ K2, x.tiempoLlegada < y.tiempoLlegada := by
      intro y hy
      simpa [menorLlegada] using hK2 y hy
    have hs2 := hs
    rw [hsplit] at hs2
    obtain ⟨hsK1, hsK2, hcruz⟩ := List.pairwise_append.mp hs2
    have hK1le : ∀ z ∈ K1, z.tiempoLlegada ≤ x.tiempoLlegada := by
      intro z hz
      have hne : K1 ≠ [] := List.ne_nil_of_mem hz
      obtain ⟨K0, w, hw⟩ : ∃ K0 w, K1 = K0 ++ [w] := by
        rcases List.eq_nil_or_concat K1 with h0 | ⟨K0, w, h1⟩
        · exact absurd h0 hne
        · exact ⟨K0, w, by rw [h1, List.concat_eq_append]⟩
      have hlast : K1.getLast? = some w := by rw [hw]; simp
      have hwx : w.tiempoLlegada ≤ x.tiempoLlegada := by
        have := hK1 w hlast
        simpa [menorLlegada] using this
      rw [hw] at hz hsK1
      rcases List.mem_append.mp hz with h1 | h1
      · have := (List.pairwise_append.mp hsK1).2.2 z h1 w (List.mem_singleton.mpr rfl)
        omega
      · rw [List.mem_singleton.mp h1]; exact hwx
    refine ⟨K1 ++ x :: K2, by simp, ?_, ?_, ?_⟩
    · rw [hsplit]
      simp only [List.length_append, List.length_cons]
      omega
    · rw [List.pairwise_append]
      refine ⟨hsK1, List.pairwise_cons.mpr ⟨fun y hy => (hK2lt y hy).le, hsK2⟩, ?_⟩
      intro z hz y hy
      rcases List.mem_cons.mp hy with h1 | h1
      · rw [h1]; exact hK1le z hz
      · exact hcruz z hz y h1
    · intro t
      rw [hsplit]
      simp only [List.filter_append, List.filter_cons, List.filter_nil]
      by_cases hxt : x.tiempoLlegada = t
      · have hvac : K2.filter (fun a => decide (a.tiempoLlegada = t)) = [] := by
          rw [List.filter_eq_nil_iff]
          intro a ha
          have := hK2lt a ha
          simp only [decide_eq_true_eq]
          omega
        simp [hxt, hvac]
      · simp [hxt]

/-- The loop of `__insertion_sort` with the arrival-time comparator keeps
records of equal arrival time in their relative order. -/
theorem insertionBucle_estable (B : List Proceso) :
    ∀ (A : List Proceso), A ≠ [] →
      A.Pairwise (fun a b => a.tiempoLlegada ≤ b.tiempoLlegada) →
      ∀ t : Int,
        (Libstdcxx.insertionBucle menorLlegada 0 B.length (A ++ B) A.length).filter
            (fun a => decide (a.tiempoLlegada = t)) =
          (A ++ B).filter (fun a => decide (a.tiempoLlegada = t)) := by
  induction B with
  | nil => intro A _ _ t; rfl
  | cons x B ih =>
    intro A hA hs t
    obtain ⟨A2, hpaso, hlen, hs2, hfil⟩ := insertionPaso_forma A x B hA hs
    have hA2 : A2 ≠ [] := by
      intro h0
      rw [h0] at hlen
      simp at hlen
    show (Libstdcxx.insertionBucle menorLlegada 0 B.length
      (Libstdcxx.insertionPaso menorLlegada (A ++ x :: B) 0 A.length) (A.length + 1)).filter _ = _
    rw [hpaso, ← hlen, ih A2 hA2 hs2 t, List.filter_append, hfil t]
    simp only [List.filter_append, List.append_assoc, List.filter_cons, List.filter_nil]
    by_cases hxt : x.tiempoLlegada = t <;> simp [hxt]

/-- On a vector of at most 16 records `std::sort` of libstdc++ with the
arrival-time comparator is an insertion sort: records of equal arrival time
stay in their input order. -/
theorem sort_corto (l : List Proceso) (hl : l.length ≤ 16) (t : Int) :
    (Libstdcxx.sort menorLlegada l).filter (fun a => decide (a.tiempoLlegada = t)) =
      l.filter (fun a => decide (a.tiempoLlegada = t)) := by
  cases l with
  | nil => rfl
  | cons a B =>
    have hne : ¬ (a :: B).length = 0 := by simp
    have hno : ¬ (a :: B).length - 0 > 16 := by omega
    have hloop : ∀ d, Libstdcxx.introsortLoop menorLlegada d (a :: B) 0 (a :: B).length =
        a :: B := by
      intro d
      cases d with
      | zero => rw [Libstdcxx.introsortLoop, if_neg hno]
      | succ d => rw [Libstdcxx.introsortLoop, if_neg hno]
    have h0 : ¬ 0 = (a :: B).length := by simp
    rw [Libstdcxx.sort, if_neg hne, hloop, Libstdcxx.finalInsertionSort, if_neg hno,
      Libstdcxx.insertionSort, if_neg h0]
    have hlen : (a :: B).length - (0 + 1) = B.length := by simp
    rw [hlen]
    exact insertionBucle_estable B [a] (by simp) (List.pairwise_singleton _ _) t

/-- The sort the program runs, on a vector of at most 16 records: records of
equal arrival time stay in their input order. -/
theorem gnu_estable (l : List Proceso) (t : Int) (hl : l.length ≤ 16) :
    (gnu.ordenar menorLlegada l).filter (fun a => decide (a.tiempoLlegada = t)) =
      l.filter (fun a => decide (a.tiempoLlegada = t)) := by
  show (if _ then Libstdcxx.sort menorLlegada l else ordenarInsercion menorLlegada l).filter _ = _
  split_ifs with hc
  · exact sort_corto l hl t
  · exact insercion_estable l t

/-- Registration with a sort that leaves records of equal arrival time in
their input order on vectors of at most `N` records: as long as no more than
`N` records are registered, the admission vector holds, for every arrival time
`t`, the records of arrival time `t` in the order they were registered. -/
theorem cargar_estable (S : StdSort) (N : Nat)
    (hest : ∀ (l : List Proceso) (t : Int), l.length ≤ N →
      (S.ordenar menorLlegada l).filter (fun a => decide (a.tiempoLlegada = t)) =
        l.filter (fun a => decide (a.tiempoLlegada = t)))
    (esq : List EsquemaCola) (ps : List Proceso) (hN : ps.length ≤ N) (t : Int) :
    (cargar S esq ps).colaLlegadas.filter (fun a => decide (a.tiempoLlegada = t)) =
      ps.filter (fun a => decide (a.tiempoLlegada = t)) := by
  have gen : ∀ (ps : List Proceso) (s : MLFQScheduler),
      s.colaLlegadas.length + ps.length ≤ N →
      (ps.foldl (agregarProceso S) s).colaLlegadas.filter
          (fun a => decide (a.tiempoLlegada = t)) =
        (s.colaLlegadas ++ ps).filter (fun a => decide (a.tiempoLlegada = t)) := by
    intro ps
    induction ps with
    | nil => intro s _; simp
    | cons p ps ih =>
      intro s hlen
      have hl1 : (agregarProceso S s p).colaLlegadas.length = s.colaLlegadas.length + 1 := by
        rw [(agregarProceso_perm S s p).length_eq]
        simp
      simp only [List.length_cons] at hlen
      simp only [List.foldl_cons]
      rw [ih (agregarProceso S s p) (by rw [hl1]; omega)]
      have hs : (agregarProceso S s p).colaLlegadas.filter
          (fun a => decide (a.tiempoLlegada = t)) =
          (s.colaLlegadas ++ [p]).filter (fun a => decide (a.tiempoLlegada = t)) :=
        hest (s.colaLlegadas ++ [p]) t (by simp only [List.length_append, List.length_singleton]; omega)
      rw [List.filter_append, hs, ← List.filter_append, List.append_assoc,
        List.singleton_append]
  have h := gen ps (nuevo esq) (by simpa [nuevo] using hN)
  simpa [cargar, nuevo] using h

set_option maxRecDepth 100000 in
/-- C10 as stated fails.  `agregarProceso` sorts the admission vector with
`std::sort`, which libstdc++ implements by insertion up to 16 elements and by
quicksort partitioning beyond.  Registering the 17 records `P00` to `P16`, all
of arrival time 0, leaves the first 16 in the order they were added; the sort
after the 17th is the first over more than 16 elements, and its partitioning
swaps records of equal arrival time: `P08` ends up first and `P16`, added
last, comes before `P00`, added first.  That last sort is the library
algorithm itself, `Libstdcxx.sort`, on the 17 records in the order added. -/
theorem C10_contraejemplo :
    (∀ p ∈ cargaDiecisiete, p.tiempoLlegada = 0) ∧
    ((cargar gnu esquemasEjemplo (cargaDiecisiete.take 16)).colaLlegadas.map
        (fun p => p.etiqueta)) =
      ["P00", "P01", "P02", "P03", "P04", "P05", "P06", "P07", "P08", "P09", "P10", "P11",
        "P12", "P13", "P14", "P15"] ∧
    ((cargar gnu esquemasEjemplo cargaDiecisiete).colaLlegadas.map (fun p => p.etiqueta)) =
      ["P08", "P16", "P15", "P14", "P13", "P12", "P11", "P10", "P09", "P00", "P07", "P06",
        "P05", "P04", "P03", "P02", "P01"] ∧
    gnu.ordenar menorLlegada cargaDiecisiete = Libstdcxx.sort menorLlegada cargaDiecisiete ∧
    (Libstdcxx.sort menorLlegada cargaDiecisiete).map (fun p => p.etiqueta) =
      ["P08", "P16", "P15", "P14", "P13", "P12", "P11", "P10", "P09", "P00", "P07", "P06",
        "P05", "P04", "P03", "P02", "P01"] := by
  refine ⟨by decide, by decide, by decide, by decide, by decide⟩

/-- C10 (amended). With the `std::sort` of libstdc++, as long as no more than
16 records are registered the admission vector holds, after any sequence of
registrations and for every arrival time `t`, the records of arrival time `t`
in the order they were registered; on a vector of at most 16 records the
library algorithm itself leaves the records of equal arrival time in their
input order. -/
theorem C10_estable_hasta_16 (esq : List EsquemaCola) (ps : List Proceso)
    (hN : ps.length ≤ 16) (t : Int) :
    (cargar gnu esq ps).colaLlegadas.filter (fun a => decide (a.tiempoLlegada = t)) =
      ps.filter (fun a => decide (a.tiempoLlegada = t)) ∧
    (Libstdcxx.sort menorLlegada ps).filter (fun a => decide (a.tiempoLlegada = t)) =
      ps.filter (fun a => decide (a.tiempoLlegada = t)) :=
  ⟨cargar_estable gnu 16 (fun l t hl => gnu_estable l t hl) esq ps hN t, sort_corto ps hN t⟩

/-- C10 (amended) on the workload `A`, `C`, `B`: the records of arrival time 0
are `A`, then `B`. -/
theorem C10_estable_hasta_16_witness :
    [ejemploA, ejemploC, ejemploB].length ≤ 16 ∧
    (cargar gnu esquemasEjemplo [ejemploA, ejemploC, ejemploB]).colaLlegadas.filter
        (fun a => decide (a.tiempoLlegada = 0)) = [ejemploA, ejemploB] :=
  ⟨by decide, (C10_estable_hasta_16 esquemasEjemplo [ejemploA, ejemploC, ejemploB]
    (by decide) 0).1⟩

end MLFQ
